import Mathlib

/-!
# Tip: a sequential model checker over And-Inverter Graphs

A shallow embedding of the unroller (`tip/unroll/Unroll.cc`), the two bounded model checkers
(`tip/bmc/BasicBmc.cc`, `tip/bmc/SimpBmc.cc`) and the semantic constraint extraction
(`tip/constraints/Extract.cc`), together with the properties proved about them.

The circuit library (`mcl`) and the SAT backend (`minisat`) are outside the sources; the
parts of them that the code calls are modelled from the specification and marked so.
-/

namespace Tip

/-! ## Signals, gates and arenas -/

/-- A signal is a gate identifier together with a one-bit inversion flag. -/
structure Sig where
  gate : Nat
  sign : Bool
deriving DecidableEq

/-- The identifier of the constant-true gate. -/
def gate_True : Nat := 0

/-- The constant true signal. -/
def sig_True : Sig := ⟨gate_True, false⟩

/-- The constant false signal. -/
def sig_False : Sig := ⟨gate_True, true⟩

/-- Builds a signal from a gate and a sign, as `mkSig(g, sign)`. -/
def mkSig (g : Nat) (sign : Bool) : Sig := ⟨g, sign⟩

/-- Inversion of a signal, written `~s` in the source. -/
def Sig.neg (s : Sig) : Sig := ⟨s.gate, !s.sign⟩

/-- Conditional inversion, written `s ^ b` in the source. -/
def Sig.xorSign (s : Sig) (b : Bool) : Sig := ⟨s.gate, xor s.sign b⟩

/-- The input number that marks an input without an external number. -/
def UINT32_MAX : Nat := 4294967295

/-- A node of an arena other than the constant: an input carrying its external number, or an
AND of two signals. -/
inductive GateDef where
  | inp (num : Nat)
  | and (x y : Sig)
deriving DecidableEq

/-- Modelled from the spec: the arena `Circ` of the circuit library, an AIG whose gates are kept
in topological order. Gate `0` is the constant; the other gates are numbered `1 .. lastGate` in
order of creation. The list holds the most recently created gate first, so that creating a gate
is a `cons` and gate `g` is the entry with `g - 1` entries behind it. -/
structure Circ where
  gates : List GateDef
deriving DecidableEq

/-- The empty arena, holding the constant only. -/
def Circ.empty : Circ := ⟨[]⟩

/-- The identifier of the last gate created. -/
def Circ.lastGate (c : Circ) : Nat := c.gates.length

/-- The definition of gate `g` in a gate list, if `g` is one of its gates. -/
def defAt : List GateDef → Nat → Option GateDef
  | [], _ => none
  | d :: ds, g => if g = ds.length + 1 then some d else defAt ds g

/-- The definition of gate `g` of an arena. -/
def Circ.gateDef (c : Circ) (g : Nat) : Option GateDef := defAt c.gates g

/-- The external number of an input, `UINT32_MAX` when `g` has none. -/
def Circ.number (c : Circ) (g : Nat) : Nat :=
  match c.gateDef g with
  | some (.inp n) => n
  | _ => UINT32_MAX

/-- Whether `g` is an input gate of the arena. -/
def Circ.isInp (c : Circ) (g : Nat) : Bool :=
  match c.gateDef g with
  | some (.inp _) => true
  | _ => false

/-- The input gates of a gate list in order of creation. -/
def inputsOf : List GateDef → List Nat
  | [] => []
  | .inp _ :: ds => inputsOf ds ++ [ds.length + 1]
  | .and _ _ :: ds => inputsOf ds

/-- The inputs of an arena, as iterated from `inpBegin()` to `inpEnd()`. -/
def Circ.inputs (c : Circ) : List Nat := inputsOf c.gates

/-- Allocates a fresh input carrying the external number `num`. -/
def Circ.mkInp (c : Circ) (num : Nat) : Circ × Sig :=
  (⟨.inp num :: c.gates⟩, ⟨c.gates.length + 1, false⟩)

/-- Looks for an existing AND node with the children `x` and `y`. -/
def findAnd : List GateDef → Sig → Sig → Option Nat
  | [], _, _ => none
  | d :: ds, x, y => if d = .and x y then some (ds.length + 1) else findAnd ds x y

/-- Allocates the AND of two signals; a structurally equal node is shared. -/
def Circ.mkAnd (c : Circ) (x y : Sig) : Circ × Sig :=
  match findAnd c.gates x y with
  | some g => (c, ⟨g, false⟩)
  | none => (⟨.and x y :: c.gates⟩, ⟨c.gates.length + 1, false⟩)

/-- The OR of two signals, built from `mkAnd` by De Morgan. -/
def Circ.mkOr (c : Circ) (x y : Sig) : Circ × Sig :=
  let r := c.mkAnd x.neg y.neg
  (r.1, r.2.neg)

/-- Whether every AND node of a gate list has its children among the earlier gates. -/
def gatesOk : List GateDef → Bool
  | [] => true
  | .inp _ :: ds => gatesOk ds
  | .and x y :: ds => decide (x.gate ≤ ds.length) && decide (y.gate ≤ ds.length) && gatesOk ds

/-- An arena is well formed when its gates are in topological order. -/
def Circ.ok (c : Circ) : Bool := gatesOk c.gates

/-- A signal belongs to an arena when its gate is the constant or one of the arena's gates. -/
def Circ.has (c : Circ) (s : Sig) : Bool := decide (s.gate ≤ c.gates.length)

/-! ## Evaluation -/

/-- The value of gate `g` in a list of gate values (most recent gate first); the constant
gate is true, a gate outside the list reads false. -/
def valAt : List Bool → Nat → Bool
  | [], g => decide (g = 0)
  | v :: vs, g => if g = vs.length + 1 then v else valAt vs g

/-- The value of a signal in a list of gate values. -/
def sigVal (vs : List Bool) (s : Sig) : Bool := xor (valAt vs s.gate) s.sign

/-- The values of all gates of a gate list under a valuation of its inputs (by gate). -/
def gateVals (inp : Nat → Bool) : List GateDef → List Bool
  | [] => []
  | .inp _ :: ds => inp (ds.length + 1) :: gateVals inp ds
  | .and x y :: ds => (sigVal (gateVals inp ds) x && sigVal (gateVals inp ds) y) :: gateVals inp ds

/-- The value of a signal of an arena under a valuation of the arena's inputs. -/
def Circ.eval (c : Circ) (inp : Nat → Bool) (s : Sig) : Bool := sigVal (gateVals inp c.gates) s

/-- The value of a possibly undefined signal; an undefined signal reads false. -/
def Circ.evalO (c : Circ) (inp : Nat → Bool) (o : Option Sig) : Bool :=
  match o with
  | some s => c.eval inp s
  | none => false

/-! ## Gate maps and `copyCirc` -/

/-- A gate map `GMap<T>`: a value per gate, `none` standing for the undefined value. -/
abbrev GMap (α : Type) := Nat → Option α

/-- The cleared map, undefined everywhere. -/
def GMap.clear {α : Type} : GMap α := fun _ => none

/-- Assignment `m[g] = v`. -/
def GMap.set {α : Type} (m : GMap α) (g : Nat) (v : α) : GMap α :=
  fun k => if k = g then some v else m k

/-- Assignment of a possibly undefined value, `m[g] = v`. -/
def GMap.setO {α : Type} (m : GMap α) (g : Nat) (v : Option α) : GMap α :=
  fun k => if k = g then v else m k

/-- Translation of a signal through a map: `m[gate(x)] ^ sign(x)`. -/
def mapSig (m : GMap Sig) (x : Sig) : Option Sig := (m x.gate).map (fun s => s.xorSign x.sign)

/-- Copies the gates of a gate list, oldest first, into `dst`. A gate that already has an
image in the map is left alone; an input becomes a fresh input of `dst` with the same number;
an AND is rebuilt with `mkAnd` from the images of its children. -/
def copyGates : List GateDef → Circ → GMap Sig → Circ × GMap Sig
  | [], dst, m => (dst, m)
  | d :: ds, dst, m =>
    let r := copyGates ds dst m
    match r.2 (ds.length + 1) with
    | some _ => r
    | none =>
      match d with
      | .inp num =>
        let q := r.1.mkInp num
        (q.1, r.2.set (ds.length + 1) q.2)
      | .and x y =>
        match mapSig r.2 x, mapSig r.2 y with
        | some a, some b =>
          let q := r.1.mkAnd a b
          (q.1, r.2.set (ds.length + 1) q.2)
        | _, _ => r

/-- Modelled from the spec: `copyCirc(src, dst, map, stop_gate)` of the circuit library. It maps
the constant to the constant and copies every gate up to and including `stop_gate`. -/
def copyCirc (src : Circ) (dst : Circ) (m : GMap Sig) (stop_gate : Nat) : Circ × GMap Sig :=
  copyGates (src.gates.drop (src.gates.length - stop_gate)) dst (m.set gate_True sig_True)

/-! ## The sequential circuit -/

/-- One entry of the flop table: the flop's gate in `main`, its initial signal in `init` and
its next-state signal in `main`. -/
structure Flop where
  gate : Nat
  init : Sig
  next : Sig
deriving DecidableEq

/-- Verification status of a property. -/
inductive PropStatus where
  | pstat_Proved
  | pstat_Falsified
  | pstat_Unknown
deriving DecidableEq

open PropStatus

/-- A ternary value `lbool`. -/
inductive lbool where
  | l_True
  | l_False
  | l_Undef
deriving DecidableEq

open lbool

/-- A trace identifier; `none` is `trace_Undef`. -/
abbrev Trace := Option Nat

/-- A safety property: its signal, status and counter-example. -/
structure PropData where
  sig : Sig
  stat : PropStatus
  cex : Trace
deriving DecidableEq

/-- A liveness property: its signals, status and counter-example. -/
structure LivePropData where
  sigs : List Sig
  stat : PropStatus
  cex : Trace
deriving DecidableEq

/-- A stored trace: its frames and loop index. -/
structure TraceData where
  frames : List (List lbool)
  loop : Nat
deriving DecidableEq

/-- Modelled from the spec: the constraint equivalence `Equivs` of the circuit library, kept as
the list of its classes; the first signal of a class is its representative. A class stands
for the equality of the values of its signals. -/
structure Equivs where
  classes : List (List Sig)
deriving DecidableEq

/-! ## Trace adaptors (`TipCirc.h`) -/

/-- The record `FlopInit` of `AigerInitTraceAdaptor`: the initial value of a flop (0, 1 or x)
and, for x, the number of the input that stands for it. -/
structure FlopInit where
  val : lbool
  x_id : Nat
deriving DecidableEq

/-- One step of the loop of `AigerInitTraceAdaptor::patch`: the value pushed for a flop, the
entry `prv_zero[x_id]` for an x-initialised flop and the recorded value otherwise. Reading
`prv_zero` outside its bounds has no defined result. -/
def patchEntry (prv_zero : List lbool) (fi : FlopInit) : Option lbool :=
  if fi.val = l_Undef then prv_zero[fi.x_id]? else some fi.val

/-- The vector `new_zero` that the loop of `AigerInitTraceAdaptor::patch` builds from
`flop_init` and the old frame 0. -/
def newZero (prv_zero : List lbool) : List FlopInit → Option (List lbool)
  | [] => some []
  | fi :: fis =>
    (patchEntry prv_zero fi).bind (fun v => (newZero prv_zero fis).map (fun vs => v :: vs))

/-- The method `AigerInitTraceAdaptor::patch`: frame 0 is replaced by `new_zero`, the other
frames are untouched. `frames[0]` of an empty list of frames has no defined result. -/
def AigerInitTraceAdaptor.patch (flop_init : List FlopInit) :
    List (List lbool) → Option (List (List lbool))
  | [] => none
  | prv_zero :: rest => (newZero prv_zero flop_init).map (fun new_zero => new_zero :: rest)

/-- The method `TraceAdaptor::adapt` on a chain of adaptors, head first: the patch of the head
is applied, then `adapt` of the rest of the chain, if there is one (`chain != NULL`). The
virtual method `patch` is the first argument; a patch without a defined result leaves `adapt`
without one. -/
def TraceAdaptor.adapt {P : Type} (patch : P → List (List lbool) → Option (List (List lbool))) :
    List P → List (List lbool) → Option (List (List lbool))
  | [], frames => some frames
  | p :: chain, frames => (patch p frames).bind (TraceAdaptor.adapt patch chain)

/-- The sequential circuit with its properties, constraints and traces. The tables `inps_init`
and `inps_main` are the input frames that `BasicBmc.cc` reads from the circuit: for each
input number the input gate of `init`, respectively of `main`, that carries it. The field
`tradaptor` is the chain of trace adaptors, head first, each given by the table `flop_init` of
an `AigerInitTraceAdaptor`; the empty chain is the pointer `NULL`. -/
structure TipCirc where
  main : Circ
  init : Circ
  flps : List Flop
  traces : List TraceData
  safe_props : List PropData
  live_props : List LivePropData
  fairs : List Sig
  cnstrs : Equivs
  inps_init : List (List (Option Nat))
  inps_main : List (List (Option Nat))
  tradaptor : List (List FlopInit) := []
deriving DecidableEq

/-- Whether `g` is the gate of some flop. -/
def TipCirc.isFlop (tip : TipCirc) (g : Nat) : Bool := tip.flps.any (fun f => decide (f.gate = g))

/-- The inputs of the sequential circuit, from `tip.inpBegin()` to `tip.inpEnd()`: the inputs
of `main` that are not flops. -/
def TipCirc.inputs (tip : TipCirc) : List Nat := tip.main.inputs.filter (fun g => !tip.isFlop g)

/-- An input frame: the gate recorded for each input number, `none` being `gate_Undef`. -/
abbrev IFrame := List (Option Nat)

/-- The vector operation `growTo(n, pad)`. -/
def growTo {α : Type} (l : List α) (n : Nat) (pad : α) : List α :=
  l ++ List.replicate (n - l.length) pad

/-- Records gate `g` at input number `num` of a frame, growing the frame as needed. -/
def IFrame.record (fr : IFrame) (num : Nat) (g : Nat) : IFrame :=
  (growTo fr (num + 1) none).set num (some g)

/-- Records the images of the numbered inputs `inps` of `c` in a frame: for each numbered
input the frame is grown to its number and the gate of the image is stored there, which is
`gate_Undef` when the input has no image in the map. An input without a number is skipped. -/
def recordInputs (c : Circ) (m : GMap Sig) : List Nat → IFrame → IFrame
  | [], fr => fr
  | g :: gs, fr =>
    if c.number g ≠ UINT32_MAX then
      match m g with
      | some s => recordInputs c m gs (fr.record (c.number g) s.gate)
      | none => recordInputs c m gs ((growTo fr (c.number g + 1) none).set (c.number g) none)
    else recordInputs c m gs fr

/-! ## The unroller of `Unroll.cc` -/

/-- The state of `UnrollCirc`: the unrolled arena, the input-frame log, the flop frontier and
the last gate of `main` captured at construction. -/
structure UnrollCirc where
  unroll_circ : Circ
  unroll_inps : List IFrame
  flop_front : List (Option Sig)
  last_gate : Nat

/-- Body of `UnrollCirc::initReset`. -/
def UnrollCirc.initReset (tip : TipCirc) (uc : Circ) (ui : List IFrame) : UnrollCirc :=
  let r := copyCirc tip.init uc GMap.clear tip.init.lastGate
  { unroll_circ := r.1
    unroll_inps := ui ++ [recordInputs tip.init r.2 tip.init.inputs []]
    flop_front := tip.flps.map (fun f => mapSig r.2 f.init)
    last_gate := tip.main.lastGate }

/-- Allocates one fresh unnumbered input per flop, as the loop of `initRandom` does. -/
def freshFront : Nat → Circ → Circ × List (Option Sig)
  | 0, uc => (uc, [])
  | n + 1, uc =>
    let q := uc.mkInp UINT32_MAX
    let r := freshFront n q.1
    (r.1, some q.2 :: r.2)

/-- Body of `UnrollCirc::initRandom`. -/
def UnrollCirc.initRandom (tip : TipCirc) (uc : Circ) (ui : List IFrame) : UnrollCirc :=
  let r := freshFront tip.flps.length uc
  { unroll_circ := r.1
    unroll_inps := ui ++ [[]]
    flop_front := r.2
    last_gate := tip.main.lastGate }

/-- The constructor of `UnrollCirc`. -/
def UnrollCirc.new (tip : TipCirc) (ui : List IFrame) (uc : Circ) (reset : Bool) : UnrollCirc :=
  if reset then UnrollCirc.initReset tip uc ui else UnrollCirc.initRandom tip uc ui

/-- Seeds the unroll map with the frontier: `unroll_map[tip.flps[i]] = flop_front[i]`. -/
def seedFront : List Flop → List (Option Sig) → GMap Sig → GMap Sig
  | f :: fs, s :: ss, m => seedFront fs ss (m.setO f.gate s)
  | _, _, m => m

/-- One step `UnrollCirc::operator()`; returns the new state and the unroll map. -/
def UnrollCirc.step (tip : TipCirc) (u : UnrollCirc) : UnrollCirc × GMap Sig :=
  let m0 := seedFront tip.flps u.flop_front GMap.clear
  let r := copyCirc tip.main u.unroll_circ m0 u.last_gate
  ({ unroll_circ := r.1
     unroll_inps := u.unroll_inps ++ [recordInputs tip.main r.2 tip.inputs []]
     flop_front := tip.flps.map (fun f => mapSig r.2 f.next)
     last_gate := u.last_gate }, r.2)

/-- The unroller after `k` steps. -/
def UnrollCirc.steps (tip : TipCirc) (u : UnrollCirc) : Nat → UnrollCirc
  | 0 => u
  | k + 1 => (UnrollCirc.step tip (UnrollCirc.steps tip u k)).1

/-! ## Reference semantics of the sequential circuit -/

/-- The value of gate `g` read from the flop state, when `g` is a flop. -/
def flopVal : List Flop → List Bool → Nat → Option Bool
  | [], _, _ => none
  | f :: fs, [], g => if f.gate = g then some false else flopVal fs [] g
  | f :: fs, b :: bs, g => if f.gate = g then some b else flopVal fs bs g

/-- The valuation of the inputs of `main` in one cycle: flops read the state, the other inputs
read the input valuation. -/
def TipCirc.mainVal (tip : TipCirc) (st : List Bool) (iv : Nat → Bool) : Nat → Bool :=
  fun g => match flopVal tip.flps st g with
    | some b => b
    | none => iv g

/-- The initial state under a valuation of the inputs of `init`. -/
def TipCirc.initState (tip : TipCirc) (iv0 : Nat → Bool) : List Bool :=
  tip.flps.map (fun f => tip.init.eval iv0 f.init)

/-- The next state from a state and a valuation of the inputs of `main`. -/
def TipCirc.nextState (tip : TipCirc) (st : List Bool) (iv : Nat → Bool) : List Bool :=
  tip.flps.map (fun f => tip.main.eval (tip.mainVal st iv) f.next)

/-- The state at the start of cycle `k`, simulating from the init circuit. -/
def TipCirc.stateAt (tip : TipCirc) (iv0 : Nat → Bool) (ivs : Nat → Nat → Bool) : Nat → List Bool
  | 0 => tip.initState iv0
  | k + 1 => tip.nextState (tip.stateAt iv0 ivs k) (ivs k)

/-- The value of a signal of `main` in cycle `k`. -/
def TipCirc.sigAt (tip : TipCirc) (iv0 : Nat → Bool) (ivs : Nat → Nat → Bool) (k : Nat)
    (s : Sig) : Bool :=
  tip.main.eval (tip.mainVal (tip.stateAt iv0 ivs k) (ivs k)) s

/-- The input valuation that an assignment of the unrolled arena gives to the inputs of `c`
through frame `t` of the input log: the input numbered `n` reads the assignment at the gate
recorded at index `n`; an input with no recorded gate reads false. -/
def frameVal (frames : List IFrame) (asg : Nat → Bool) (t : Nat) (c : Circ) : Nat → Bool :=
  fun g => match (frames.getD t []).getD (c.number g) none with
    | some ug => asg ug
    | none => false

/-! ## Predicates used in the proofs -/

/-- Arena `c'` extends arena `c`: it has the gates of `c` and possibly more recent ones. -/
def Ext (c c' : Circ) : Prop := ∃ l, c'.gates = l ++ c.gates

/-- A map from the gates of `src` into `dst` respects the structure of `src`: images lie in
`dst`, the constant is mapped to the constant, and the image of a mapped AND gate is, under
every valuation of `dst`, the conjunction of the images of its children, which are mapped. -/
def Local (src : List GateDef) (dst : Circ) (m : GMap Sig) : Prop :=
  ∀ g s, m g = some s →
    dst.has s = true ∧ (g = 0 → s = sig_True) ∧
    ∀ x y, defAt src g = some (.and x y) →
      ∃ a b, mapSig m x = some a ∧ mapSig m y = some b ∧
        ∀ asg, dst.eval asg s = (dst.eval asg a && dst.eval asg b)

/-- What copying the first `n` gates of `full` from the map `m` and arena `dst` achieves. -/
structure CopyRes (full : List GateDef) (n : Nat) (dst : Circ) (m : GMap Sig) (dst' : Circ)
    (m' : GMap Sig) : Prop where
  ext : Ext dst dst'
  ok : dst'.ok = true
  loc : Local full dst' m'
  keep : ∀ g s, m g = some s → m' g = some s
  above : ∀ g, n < g → m' g = m g
  dom : ∀ g, g ≤ n → m' g ≠ none
  fresh : ∀ g k, g ≤ n → m g = none → defAt full g = some (.inp k) →
    ∃ u, m' g = some ⟨u, false⟩ ∧ dst.gates.length < u ∧ defAt dst'.gates u = some (.inp k)
  compl : ∀ asg τ : Nat → Bool, ∃ asg' : Nat → Bool,
    (∀ u, u ≤ dst.gates.length → asg' u = asg u) ∧
    ∀ g k s, defAt full g = some (.inp k) → m g = none → m' g = some s →
      dst'.eval asg' s = τ g

/-! ## Well-formedness -/

/-- Well-formedness of the sequential circuit: both arenas are in topological order, every flop
is an input gate of `main` with its initial signal in `init` and its next-state signal in
`main`, no gate is the gate of two flops, and every property, fairness and constraint signal
lies in `main`. -/
def TipCirc.wf (tip : TipCirc) : Bool :=
  tip.main.ok && tip.init.ok &&
  tip.flps.all (fun f => tip.main.isInp f.gate && tip.init.has f.init && tip.main.has f.next) &&
  decide ((tip.flps.map (fun f => f.gate)).Nodup) &&
  tip.safe_props.all (fun p => tip.main.has p.sig) &&
  tip.live_props.all (fun p => p.sigs.all (fun s => tip.main.has s)) &&
  tip.fairs.all (fun s => tip.main.has s) &&
  tip.cnstrs.classes.all (fun cl => cl.all (fun s => tip.main.has s))

/-- Every input of `init` and every input of the sequential circuit carries an input number,
and no two inputs of one arena carry the same number. -/
def TipCirc.numbered (tip : TipCirc) : Bool :=
  tip.init.inputs.all (fun g => decide (tip.init.number g ≠ UINT32_MAX)) &&
  decide ((tip.init.inputs.map tip.init.number).Nodup) &&
  tip.inputs.all (fun g => decide (tip.main.number g ≠ UINT32_MAX)) &&
  decide ((tip.inputs.map tip.main.number).Nodup)

/-- The unroller state is consistent with the circuit: the unrolled arena is well formed, the
frontier has one defined signal of the unrolled arena per flop, and the captured last gate is
the last gate of `main`. -/
structure UnrollOk (tip : TipCirc) (u : UnrollCirc) : Prop where
  ok : u.unroll_circ.ok = true
  len : u.flop_front.length = tip.flps.length
  front : ∀ o ∈ u.flop_front, ∃ s, o = some s ∧ u.unroll_circ.has s = true
  last : u.last_gate = tip.main.lastGate

/-- The frontier of the unroller after `k` steps, started in reset mode, replays the circuit:
under every assignment of the unrolled arena the frontier values are the flop values at the
start of cycle `k` when the inputs read the assignment through the recorded input frames. -/
structure ReplayInv (tip : TipCirc) (u : UnrollCirc) (k : Nat) : Prop where
  uok : UnrollOk tip u
  nframes : u.unroll_inps.length = k + 1
  vals : ∀ asg, u.flop_front.map (u.unroll_circ.evalO asg) =
    tip.stateAt (frameVal u.unroll_inps asg 0 tip.init)
      (fun t => frameVal u.unroll_inps asg (t + 1) tip.main) k

/-! ## The claims about the unroller: definitions -/

/-- The unroller built in reset mode over an empty arena and an empty input log, after `k`
steps. -/
def unrollReset (tip : TipCirc) (k : Nat) : UnrollCirc :=
  UnrollCirc.steps tip (UnrollCirc.new tip [] Circ.empty true) k

/-- The flop values at the start of cycle `k` when the circuit is simulated from its init
circuit and its inputs read an assignment of the unrolled arena through the recorded input
frames: frame `0` for the inputs of `init`, frame `t + 1` for the inputs of cycle `t`. -/
def replayState (tip : TipCirc) (frames : List IFrame) (asg : Nat → Bool) (k : Nat) : List Bool :=
  tip.stateAt (frameVal frames asg 0 tip.init) (fun t => frameVal frames asg (t + 1) tip.main) k

/-- The circuit of the first end-to-end scenario: input `0` (gate 1), one flop (gate 2) with
initial value false and next value `flop xor input0`, and the safety property `not flop`. -/
def xorTip : TipCirc :=
  { main := ⟨[.and ⟨3, true⟩ ⟨4, true⟩, .and ⟨2, true⟩ ⟨1, false⟩, .and ⟨2, false⟩ ⟨1, true⟩,
      .inp UINT32_MAX, .inp 0]⟩
    init := Circ.empty
    flps := [⟨2, sig_False, ⟨5, true⟩⟩]
    traces := []
    safe_props := [⟨⟨2, true⟩, pstat_Unknown, none⟩]
    live_props := []
    fairs := []
    cnstrs := ⟨[]⟩
    inps_init := []
    inps_main := [[some 1]] }

/-- A circuit with an input that carries no number (gate 1) feeding the one flop (gate 2). -/
def freeTip : TipCirc :=
  { main := ⟨[.inp UINT32_MAX, .inp UINT32_MAX]⟩
    init := Circ.empty
    flps := [⟨2, sig_False, ⟨1, false⟩⟩]
    traces := []
    safe_props := []
    live_props := []
    fairs := []
    cnstrs := ⟨[]⟩
    inps_init := []
    inps_main := [] }

/-! ## The SAT backend and the clausifier -/

/-- Modelled from the spec: the SAT backend together with the Tseitin definitions that the
clausifier emits into it. The variables are the gates of a definitional arena: a free
variable is an input of the arena, and the variable that the clausifier allocates for an AND
gate is an AND node of the arena, which stands for the Tseitin clauses that define it. A
literal is a signal of the arena. The other clauses (`addClause`) are kept as a list. The
solver also records which variables are frozen and which have been eliminated. -/
structure Solver where
  arena : Circ
  clauses : List (List Sig)
  frozen : List Nat
  eliminated : List Nat
deriving DecidableEq

/-- A fresh solver. -/
def Solver.new : Solver := ⟨Circ.empty, [], [], []⟩

/-- Allocates a free variable. -/
def Solver.newVar (s : Solver) : Solver × Sig :=
  ({ s with arena := (s.arena.mkInp UINT32_MAX).1 }, (s.arena.mkInp UINT32_MAX).2)

/-- Allocates a variable defined as the AND of two literals (its Tseitin clauses). -/
def Solver.newAnd (s : Solver) (a b : Sig) : Solver × Sig :=
  ({ s with arena := ⟨.and a b :: s.arena.gates⟩ }, ⟨s.arena.gates.length + 1, false⟩)

/-- The operation `addClause`. -/
def Solver.addClause (s : Solver) (c : List Sig) : Solver := { s with clauses := c :: s.clauses }

/-- The operation `freezeVar`. -/
def Solver.freezeVar (s : Solver) (v : Nat) : Solver := { s with frozen := v :: s.frozen }

/-- The operation `thaw`, which unfreezes every frozen variable. -/
def Solver.thaw (s : Solver) : Solver := { s with frozen := [] }

/-- The operation `isEliminated`. -/
def Solver.isEliminated (s : Solver) (v : Nat) : Bool := s.eliminated.contains v

/-- The operation `eliminate`: it removes some variables, given by `choose`, that are
neither frozen nor already eliminated. -/
def Solver.eliminate (choose : Solver → List Nat) (s : Solver) : Solver :=
  { s with eliminated := s.eliminated ++
      (choose s).filter (fun v => !s.frozen.contains v && !s.eliminated.contains v) }

/-- Whether a valuation of the free variables satisfies every clause and every assumption. -/
def Solver.holds (s : Solver) (assumps : List Sig) (m : Nat → Bool) : Bool :=
  s.clauses.all (fun c => c.any (fun l => s.arena.eval m l)) &&
    assumps.all (fun l => s.arena.eval m l)

/-- The value of a literal in a model. -/
def Solver.modelValue (s : Solver) (m : Nat → Bool) (l : Sig) : lbool :=
  if s.arena.eval m l then l_True else l_False

/-- The type of `solve`: from the solver and the assumptions to a model, if there is one. -/
abbrev SolveFn := Solver → List Sig → Option (Nat → Bool)

/-- A correct SAT oracle: a model it returns satisfies the clauses and the assumptions, and it
returns none only when no valuation does. Its answer is not affected by elimination. -/
def SolverCorrect (solve : SolveFn) : Prop :=
  ∀ s assumps, (∀ m, solve s assumps = some m → s.holds assumps m = true) ∧
    (solve s assumps = none → ∀ m, s.holds assumps m = false)

/-- The valuation that reads the value of gate `g` at position `g - 1` of a list. -/
def asgOfList (bs : List Bool) : Nat → Bool := fun g => bs.getD (g - 1) false

/-- All lists of Booleans of a given length. -/
def allLists : Nat → List (List Bool)
  | 0 => [[]]
  | n + 1 => (allLists n).map (fun l => false :: l) ++ (allLists n).map (fun l => true :: l)

/-- A SAT oracle by exhaustive search over the valuations of the variables. -/
def bruteSolve : SolveFn := fun s assumps =>
  ((allLists s.arena.gates.length).find? (fun bs => s.holds assumps (asgOfList bs))).map
    asgOfList

/-- Clausifies the cone of gate `g` of `src`: a gate with a cached literal is left alone, the
constant is mapped to the constant, an input gets a free variable, and an AND gate gets a
variable defined from the literals of its children, which are clausified first. The first
argument bounds the depth of the recursion; `g + 1` is enough in a well-formed arena. -/
def clausifyGate (src : Circ) : Nat → Nat → Solver × GMap Sig → Solver × GMap Sig
  | 0, _, st => st
  | fuel + 1, g, st =>
    match st.2 g with
    | some _ => st
    | none =>
      if g = 0 then (st.1, st.2.set 0 sig_True)
      else
        match src.gateDef g with
        | none => st
        | some (.inp _) => (st.1.newVar.1, st.2.set g st.1.newVar.2)
        | some (.and x y) =>
          let st2 := clausifyGate src fuel y.gate (clausifyGate src fuel x.gate st)
          match mapSig st2.2 x, mapSig st2.2 y with
          | some a, some b => ((st2.1.newAnd a b).1, st2.2.set g (st2.1.newAnd a b).2)
          | _, _ => st2

/-- Modelled from the spec: `Clausifyer::clausify(sig)`, which emits the definitions of the
transitive fan-in of the signal and returns its literal. The clausifier is its map from
gates to cached literals. -/
def clausify (src : Circ) (st : Solver × GMap Sig) (x : Sig) : (Solver × GMap Sig) × Option Sig :=
  (clausifyGate src (x.gate + 1) x.gate st, mapSig (clausifyGate src (x.gate + 1) x.gate st).2 x)

/-- Modelled from the spec: `Clausifyer::lookup(sig)`, the cached literal or `lit_Undef`. -/
def lookup (cm : GMap Sig) (x : Sig) : Option Sig := mapSig cm x

/-- Modelled from the spec: `Clausifyer::clausifyAs(sig, lit)`. An input gate without a literal
is bound to the given literal; any other signal is clausified and the equivalence of its
literal with the given one is added as two clauses. -/
def clausifyAs (src : Circ) (st : Solver × GMap Sig) (x : Sig) (l : Sig) : Solver × GMap Sig :=
  match st.2 x.gate with
  | none =>
    if src.isInp x.gate then (st.1, st.2.set x.gate (l.xorSign x.sign))
    else
      match (clausify src st x).2 with
      | some a =>
        ((((clausify src st x).1.1.addClause [a.neg, l]).addClause [a, l.neg]),
          (clausify src st x).1.2)
      | none => (clausify src st x).1
  | some t =>
    (((st.1.addClause [(t.xorSign x.sign).neg, l]).addClause [t.xorSign x.sign, l.neg]), st.2)

/-- Modelled from the spec: `Clausifyer::modelValue(sig, scratch)`, the value of the signal's
cached literal in the model, `l_Undef` when the signal has no literal. -/
def clModelValue (s : Solver) (cm : GMap Sig) (m : Nat → Bool) (x : Sig) : lbool :=
  match mapSig cm x with
  | some l => s.modelValue m l
  | none => l_Undef

/-! ## Basic BMC (`BasicBmc.cc`) -/

/-- The state of the helper class `Unroller` of `BasicBmc.cc`. -/
structure Unroller where
  unroll_inps : List IFrame
  unroll_circ : Circ
  flop_front : List (Option Sig)

/-- The operation `map(m, frames)`: every recorded gate is replaced by the gate of its
image. -/
def mapFrames (m : GMap Sig) (fs : List IFrame) : List IFrame :=
  fs.map (fun fr => fr.map (fun og => og.bind (fun g => (m g).map (fun s => s.gate))))

/-- Body of `Unroller::initialize`. -/
def Unroller.initialize (tip : TipCirc) (uc : Circ) : Unroller :=
  let r := copyCirc tip.init uc GMap.clear tip.init.lastGate
  { unroll_circ := r.1
    unroll_inps := mapFrames r.2 tip.inps_init
    flop_front := tip.flps.map (fun f => mapSig r.2 f.init) }

/-- One step `Unroller::operator()`; returns the new state and the unroll map. -/
def Unroller.step (tip : TipCirc) (u : Unroller) : Unroller × GMap Sig :=
  let m0 := seedFront tip.flps u.flop_front GMap.clear
  let r := copyCirc tip.main u.unroll_circ m0 tip.main.lastGate
  ({ unroll_circ := r.1
     unroll_inps := u.unroll_inps ++ mapFrames r.2 tip.inps_main
     flop_front := tip.flps.map (fun f => mapSig r.2 f.next) }, r.2)

/-- The SAT tests of one cycle of `basicBmc`, over the safety properties in order (the loop
over `all_props` skips the properties that are not safety properties). A property whose status
is not Unknown is skipped; otherwise its unrolled signal is clausified and the solver is
called under the assumption that the literal is false: on SAT the property is set Falsified
with the trace `trace_Undef`, on UNSAT the counter of unresolved properties is incremented.
The state is the solver with the clausifier and the counter. -/
def basicProps (solve : SolveFn) (uc : Circ) (umap : GMap Sig) :
    List PropData → (Solver × GMap Sig) × Nat → List PropData × ((Solver × GMap Sig) × Nat)
  | [], st => ([], st)
  | d :: ds, st =>
    if d.stat ≠ pstat_Unknown then
      ((d :: (basicProps solve uc umap ds st).1), (basicProps solve uc umap ds st).2)
    else
      match mapSig umap d.sig with
      | none => ((d :: (basicProps solve uc umap ds st).1), (basicProps solve uc umap ds st).2)
      | some psig_unroll =>
        match (clausify uc st.1 psig_unroll).2 with
        | none =>
          ((d :: (basicProps solve uc umap ds ((clausify uc st.1 psig_unroll).1, st.2)).1),
            (basicProps solve uc umap ds ((clausify uc st.1 psig_unroll).1, st.2)).2)
        | some plit =>
          match solve (clausify uc st.1 psig_unroll).1.1 [plit.neg] with
          | some _ =>
            (({ d with stat := pstat_Falsified, cex := none } ::
                (basicProps solve uc umap ds ((clausify uc st.1 psig_unroll).1, st.2)).1),
              (basicProps solve uc umap ds ((clausify uc st.1 psig_unroll).1, st.2)).2)
          | none =>
            ((d :: (basicProps solve uc umap ds ((clausify uc st.1 psig_unroll).1, st.2 + 1)).1),
              (basicProps solve uc umap ds ((clausify uc st.1 psig_unroll).1, st.2 + 1)).2)

/-- The cycles `i, i + 1, ...` of `basicBmc`, at most `n` of them. -/
def basicLoop (solve : SolveFn) (begin_cycle : Nat) :
    Nat → Nat → TipCirc × Unroller × (Solver × GMap Sig) → TipCirc
  | 0, _, st => st.1
  | n + 1, i, st =>
    let r := Unroller.step st.1 st.2.1
    if i < begin_cycle then basicLoop solve begin_cycle n (i + 1) (st.1, r.1, st.2.2)
    else
      let q := basicProps solve r.1.unroll_circ r.2 st.1.safe_props (st.2.2, 0)
      if q.2.2 = 0 then { st.1 with safe_props := q.1 }
      else basicLoop solve begin_cycle n (i + 1) ({ st.1 with safe_props := q.1 }, r.1, q.2.1)

/-- The procedure `basicBmc(tip, begin_cycle, stop_cycle)`. -/
def basicBmc (solve : SolveFn) (tip : TipCirc) (begin_cycle stop_cycle : Nat) : TipCirc :=
  basicLoop solve begin_cycle stop_cycle 0
    (tip, Unroller.initialize tip Circ.empty, (Solver.new, GMap.clear))

/-! ## Simplifying BMC (`SimpBmc.cc`) -/

/-- A frame of input variables `LIFrame`; `none` is `var_Undef`. -/
abbrev LIFrame := List (Option Nat)

/-- The state of the helper class `SimpUnroller`: the frontier literals and the input
variables of each frame. The solver it refers to is passed along with it. -/
structure SimpUnroller where
  flop_front : List (Option Sig)
  unroll_inps : List LIFrame

/-- The loop that extracts the input variables, with its assertions `!sign(l)` and
`num != UINT32_MAX` left unchecked: for each input of `c` the variable of its literal is
recorded at the input's number, and an input without a number is passed over. It is what
`recordVars` returns when the assertions hold of every input; it is used in the proofs
only. -/
def recordVarsU (c : Circ) (cm : GMap Sig) : List Nat → LIFrame → LIFrame
  | [], fr => fr
  | g :: gs, fr =>
    if c.number g = UINT32_MAX then recordVarsU c cm gs fr
    else recordVarsU c cm gs
      ((growTo fr (c.number g + 1) none).set (c.number g) ((lookup cm ⟨g, false⟩).map
        (fun l => l.gate)))

/-- Freezes the variable of a literal, if the literal is defined. -/
def freezeLit (s : Solver) (l : Option Sig) : Solver :=
  match l with
  | some x => s.freezeVar x.gate
  | none => s

/-- Clausifies a list of signals of `src` in order, freezing the variable of each literal;
returns the solver with the clausifier and the literals. -/
def clausifyFreeze (src : Circ) : List Sig → Solver × GMap Sig → (Solver × GMap Sig) × List (Option Sig)
  | [], st => (st, [])
  | x :: xs, st =>
    let c := clausify src st x
    let r := clausifyFreeze src xs (freezeLit c.1.1 c.2, c.1.2)
    (r.1, c.2 :: r.2)

/-- Body of `SimpUnroller::initialize` with the assertions left unchecked: what
`SimpUnroller.initialize` returns when no assertion fails. -/
def SimpUnroller.initializeU (tip : TipCirc) (s : Solver) : SimpUnroller × Solver :=
  let r := clausifyFreeze tip.init (tip.flps.map (fun f => f.init)) (s, GMap.clear)
  ({ flop_front := r.2
     unroll_inps := [recordVarsU tip.init r.1.2 tip.init.inputs []] }, r.1.1)

/-- Binds the old flop outputs to the new flop inputs: `clausifyAs(tip.flps[i],
flop_front[i])` for each flop. -/
def bindFront (src : Circ) : List Flop → List (Option Sig) → Solver × GMap Sig → Solver × GMap Sig
  | f :: fs, some l :: ls, st => bindFront src fs ls (clausifyAs src st ⟨f.gate, false⟩ l)
  | _ :: fs, none :: ls, st => bindFront src fs ls st
  | _, _, st => st

/-- One step `SimpUnroller::operator()` with the assertions left unchecked: what
`SimpUnroller.step` returns when no assertion fails. The clausifier for `main` is cleared
first. Returns the new state, the solver and the clausifier. -/
def SimpUnroller.stepU (tip : TipCirc) (su : SimpUnroller) (s : Solver) :
    SimpUnroller × (Solver × GMap Sig) :=
  let st1 := bindFront tip.main tip.flps su.flop_front (s, GMap.clear)
  let r := clausifyFreeze tip.main (tip.flps.map (fun f => f.next)) st1
  let q := clausifyFreeze tip.main
    ((tip.safe_props.filter (fun d => decide (d.stat = pstat_Unknown))).map (fun d => d.sig)) r.1
  ({ flop_front := r.2
     unroll_inps := su.unroll_inps ++ [recordVarsU tip.main q.1.2 tip.inputs []] }, q.1)

/-- The loop index value `loop_none`. -/
def loop_none : Nat := UINT32_MAX

/-- The frames of the trace read from a model: the model value of each recorded input
variable, `l_Undef` where no variable is recorded. -/
def modelFrames (s : Solver) (m : Nat → Bool) (inps : List LIFrame) : List (List lbool) :=
  inps.map (fun fr => fr.map (fun ov =>
    match ov with
    | some v => s.modelValue m ⟨v, false⟩
    | none => l_Undef))

/-- The SAT tests of one cycle of `simpBmc`, over the safety properties in order. On SAT a
new trace is created from the model and the property is set Falsified with it. The state is
the trace set and the counter of unresolved properties. The assertion
`s.value(plit) == l_True` of the UNSAT branch is about the top-level assignment inside the SAT
solver, which the oracle `solve` does not expose; it is left out. -/
def simpProps (solve : SolveFn) (s : Solver) (cm : GMap Sig) (inps : List LIFrame) :
    List PropData → List TraceData × Nat → List PropData × (List TraceData × Nat)
  | [], st => ([], st)
  | d :: ds, st =>
    if d.stat ≠ pstat_Unknown then
      ((d :: (simpProps solve s cm inps ds st).1), (simpProps solve s cm inps ds st).2)
    else
      match lookup cm d.sig with
      | none => ((d :: (simpProps solve s cm inps ds st).1), (simpProps solve s cm inps ds st).2)
      | some plit =>
        match solve s [plit.neg] with
        | some m =>
          (({ d with stat := pstat_Falsified, cex := some st.1.length } ::
              (simpProps solve s cm inps ds
                (st.1 ++ [⟨modelFrames s m inps, loop_none⟩], st.2)).1),
            (simpProps solve s cm inps ds
              (st.1 ++ [⟨modelFrames s m inps, loop_none⟩], st.2)).2)
        | none =>
          ((d :: (simpProps solve s cm inps ds (st.1, st.2 + 1)).1),
            (simpProps solve s cm inps ds (st.1, st.2 + 1)).2)

/-- The cycles `i, i + 1, ...` of `simpBmc`, at most `n` of them, with the assertions of the
unroll step left unchecked: what `simpLoop` returns when no assertion fails. -/
def simpLoopU (solve : SolveFn) (choose : Solver → List Nat) (begin_cycle : Nat) :
    Nat → Nat → TipCirc × SimpUnroller × Solver → TipCirc
  | 0, _, st => st.1
  | n + 1, i, st =>
    let r := SimpUnroller.stepU st.1 st.2.1 st.2.2
    if i < begin_cycle then simpLoopU solve choose begin_cycle n (i + 1) (st.1, r.1, r.2.1)
    else
      let s1 := r.2.1.eliminate choose
      let q := simpProps solve s1 r.2.2 r.1.unroll_inps st.1.safe_props (st.1.traces, 0)
      if q.2.2 = 0 then { st.1 with safe_props := q.1, traces := q.2.1 }
      else simpLoopU solve choose begin_cycle n (i + 1)
        ({ st.1 with safe_props := q.1, traces := q.2.1 }, r.1, s1.thaw)

/-- The procedure `simpBmc` with the assertions of the unroller left unchecked: what `simpBmc`
returns when no assertion fails. -/
def simpBmcU (solve : SolveFn) (choose : Solver → List Nat) (tip : TipCirc)
    (begin_cycle stop_cycle : Nat) : TipCirc :=
  simpLoopU solve choose begin_cycle stop_cycle 0
    (tip, ( SimpUnroller.initializeU tip Solver.new).1, ( SimpUnroller.initializeU tip Solver.new).2)

/-- The assertion `!sign(l)` on a literal that `lookup` returned; the literal `lit_Undef`
carries no sign. -/
def litUnsigned (o : Option Sig) : Bool :=
  match o with
  | some l => !l.sign
  | none => true

/-- The loop that extracts the input variables: for each input of `c` in order, the variable
of its literal is recorded at the input's number, the frame being grown as needed. The
assertions `!sign(l)` and `num != UINT32_MAX` abort the run (`none`) at an input whose literal
carries a sign or that has no number. -/
def recordVars (c : Circ) (cm : GMap Sig) : List Nat → LIFrame → Option LIFrame
  | [], fr => some fr
  | g :: gs, fr =>
    if litUnsigned (lookup cm ⟨g, false⟩) then
      if c.number g = UINT32_MAX then none
      else recordVars c cm gs
        ((growTo fr (c.number g + 1) none).set (c.number g) ((lookup cm ⟨g, false⟩).map
          (fun l => l.gate)))
    else none

/-- The assertion `!solver.isEliminated(var(flop_front[i]))` for every flop. -/
def frontOk (su : SimpUnroller) (s : Solver) : Bool :=
  su.flop_front.all (fun o =>
    match o with
    | some l => !s.isEliminated l.gate
    | none => true)

/-- Body of `SimpUnroller::initialize`: the initial values of the flops are clausified and
frozen, and the first input frame is extracted; `none` when an assertion fails. -/
def SimpUnroller.initialize (tip : TipCirc) (s : Solver) : Option (SimpUnroller × Solver) :=
  let r := clausifyFreeze tip.init (tip.flps.map (fun f => f.init)) (s, GMap.clear)
  (recordVars tip.init r.1.2 tip.init.inputs []).map
    (fun fr => ({ flop_front := r.2, unroll_inps := [fr] }, r.1.1))

/-- One step `SimpUnroller::operator()`; the clausifier for `main` is cleared first. Returns
the new state, the solver and the clausifier; `none` when an assertion fails. -/
def SimpUnroller.step (tip : TipCirc) (su : SimpUnroller) (s : Solver) :
    Option (SimpUnroller × (Solver × GMap Sig)) :=
  if frontOk su s then
    let st1 := bindFront tip.main tip.flps su.flop_front (s, GMap.clear)
    let r := clausifyFreeze tip.main (tip.flps.map (fun f => f.next)) st1
    let q := clausifyFreeze tip.main
      ((tip.safe_props.filter (fun d => decide (d.stat = pstat_Unknown))).map (fun d => d.sig))
      r.1
    (recordVars tip.main q.1.2 tip.inputs []).map
      (fun fr => ({ flop_front := r.2, unroll_inps := su.unroll_inps ++ [fr] }, q.1))
  else none

/-- The cycles `i, i + 1, ...` of `simpBmc`, at most `n` of them; `none` when an assertion of
the unroll step fails. -/
def simpLoop (solve : SolveFn) (choose : Solver → List Nat) (begin_cycle : Nat) :
    Nat → Nat → TipCirc × SimpUnroller × Solver → Option TipCirc
  | 0, _, st => some st.1
  | n + 1, i, st =>
    match SimpUnroller.step st.1 st.2.1 st.2.2 with
    | none => none
    | some r =>
      if i < begin_cycle then simpLoop solve choose begin_cycle n (i + 1) (st.1, r.1, r.2.1)
      else
        let s1 := r.2.1.eliminate choose
        let q := simpProps solve s1 r.2.2 r.1.unroll_inps st.1.safe_props (st.1.traces, 0)
        if q.2.2 = 0 then some { st.1 with safe_props := q.1, traces := q.2.1 }
        else simpLoop solve choose begin_cycle n (i + 1)
          ({ st.1 with safe_props := q.1, traces := q.2.1 }, r.1, s1.thaw)

/-- The procedure `simpBmc(tip, begin_cycle, stop_cycle)`; `choose` is the choice of variables
that `eliminate` makes. The result is `none` when an assertion of the unroller fails. -/
def simpBmc (solve : SolveFn) (choose : Solver → List Nat) (tip : TipCirc)
    (begin_cycle stop_cycle : Nat) : Option TipCirc :=
  match SimpUnroller.initialize tip Solver.new with
  | none => none
  | some r => simpLoop solve choose begin_cycle stop_cycle 0 (tip, r.1, r.2)

/-- The state of the loop of `simpBmc` at the start of cycle `i + k`, when it starts cycle `i`
in the given state: the loop body is run `k` times. The result is `none` when an assertion
fails or the loop ends before that cycle. -/
def simpStateAt (solve : SolveFn) (choose : Solver → List Nat) (begin_cycle : Nat) :
    Nat → Nat → TipCirc × SimpUnroller × Solver → Option (TipCirc × SimpUnroller × Solver)
  | 0, _, st => some st
  | k + 1, i, st =>
    match SimpUnroller.step st.1 st.2.1 st.2.2 with
    | none => none
    | some r =>
      if i < begin_cycle then
        simpStateAt solve choose begin_cycle k (i + 1) (st.1, r.1, r.2.1)
      else
        let s1 := r.2.1.eliminate choose
        let q := simpProps solve s1 r.2.2 r.1.unroll_inps st.1.safe_props (st.1.traces, 0)
        if q.2.2 = 0 then none
        else simpStateAt solve choose begin_cycle k (i + 1)
          ({ st.1 with safe_props := q.1, traces := q.2.1 }, r.1, s1.thaw)

/-- Every gate of the list carries an input number in `c`: the assertion `num != UINT32_MAX`
holds of each of them. -/
def inputsNumbered (c : Circ) (inps : List Nat) : Bool :=
  inps.all (fun g => decide (c.number g ≠ UINT32_MAX))

/-- What a run of the clausifier over the arena `src` achieves, from the solver and clausifier
`st` to `st'`: the definitional arena is extended, the map still respects the structure of
`src`, cached literals are kept, the clauses and the eliminated variables are untouched, and the free variables allocated for inputs can take any values independently of
the older variables. -/
structure ClRes (src : List GateDef) (st st' : Solver × GMap Sig) : Prop where
  ext : Ext st.1.arena st'.1.arena
  ok : st'.1.arena.ok = true
  loc : Local src st'.1.arena st'.2
  keep : ∀ g s, st.2 g = some s → st'.2 g = some s
  clauses : st'.1.clauses = st.1.clauses
  eliminated : st'.1.eliminated = st.1.eliminated
  range : ∀ g, st.2 g = none → st'.2 g ≠ none → g ≤ src.length
  compl : ∀ asg τ : Nat → Bool, ∃ asg' : Nat → Bool,
    (∀ u, u ≤ st.1.arena.gates.length → asg' u = asg u) ∧
    ∀ g k s, defAt src g = some (.inp k) → st.2 g = none → st'.2 g = some s →
      st'.1.arena.eval asg' s = τ g

/-! ## Predicates of the BMC proofs -/

/-- The frontier `front`, a list of signals of the arena `A`, tracks the state of the circuit
at the start of cycle `k`: every valuation of `A` gives the frontier the flop values of some
run of the circuit, and every run is obtained from some valuation. -/
structure Tracks (tip : TipCirc) (A : Circ) (front : List (Option Sig)) (k : Nat) : Prop where
  ok : A.ok = true
  len : front.length = tip.flps.length
  valid : ∀ o ∈ front, ∃ s, o = some s ∧ A.has s = true
  sound : ∀ asg : Nat → Bool, ∃ (iv0 : Nat → Bool) (ivs : Nat → Nat → Bool),
    front.map (A.evalO asg) = tip.stateAt iv0 ivs k
  compl : ∀ (iv0 : Nat → Bool) (ivs : Nat → Nat → Bool), ∃ asg : Nat → Bool,
    front.map (A.evalO asg) = tip.stateAt iv0 ivs k

/-- The map `m` sends the signals of `main` to signals of `A` that stand for their values in
cycle `k`, soundly and completely. -/
structure Images (tip : TipCirc) (A : Circ) (m : GMap Sig) (k : Nat) : Prop where
  sound : ∀ asg : Nat → Bool, ∃ (iv0 : Nat → Bool) (ivs : Nat → Nat → Bool),
    ∀ x a, tip.main.has x = true → mapSig m x = some a → A.eval asg a = tip.sigAt iv0 ivs k x
  compl : ∀ (iv0 : Nat → Bool) (ivs : Nat → Nat → Bool), ∃ asg : Nat → Bool,
    ∀ x a, tip.main.has x = true → mapSig m x = some a → A.eval asg a = tip.sigAt iv0 ivs k x

/-- One unrolling step seen abstractly: the arena `A` is extended to `A'` and `m` maps gates
of `main` into `A'`, respecting the structure, with the flops bound to the frontier, the
next-state signals mapped, and the images of the other inputs free. -/
structure StepMap (tip : TipCirc) (A : Circ) (front : List (Option Sig)) (A' : Circ)
    (m : GMap Sig) : Prop where
  ext : Ext A A'
  ok : A'.ok = true
  loc : Local tip.main.gates A' m
  bound : ∀ p ∈ tip.flps.zip front, m p.1.gate = p.2
  nexts : ∀ f ∈ tip.flps, m f.next.gate ≠ none
  compl : ∀ asg τ : Nat → Bool, ∃ asg' : Nat → Bool,
    (∀ u, u ≤ A.gates.length → asg' u = asg u) ∧
    ∀ g k s, defAt tip.main.gates g = some (.inp k) → tip.isFlop g = false → m g = some s →
      A'.eval asg' s = τ g

/-- Some run of the circuit makes the signal `s` false in cycle `k`. -/
def ViolAt (tip : TipCirc) (k : Nat) (s : Sig) : Prop :=
  ∃ (iv0 : Nat → Bool) (ivs : Nat → Nat → Bool), tip.sigAt iv0 ivs k s = false

/-- A map `m` from the gates of `init` into the arena `A` that respects the structure, maps
the initial signal of every flop, and leaves the images of the inputs of `init` free. -/
structure InitMap (tip : TipCirc) (A : Circ) (m : GMap Sig) : Prop where
  ok : A.ok = true
  loc : Local tip.init.gates A m
  inits : ∀ f ∈ tip.flps, m f.init.gate ≠ none
  compl : ∀ τ : Nat → Bool, ∃ asg : Nat → Bool,
    ∀ g k s, defAt tip.init.gates g = some (.inp k) → m g = some s → A.eval asg s = τ g

/-- The solver and clausifier of `basicBmc` stand for the unrolled arena `uc`: there are no
clauses besides the definitions, the clausifier respects the structure of `uc`, and every
valuation of the clausified inputs of `uc` is realised by a valuation of the variables. -/
structure SInv (uc : Circ) (st : Solver × GMap Sig) : Prop where
  ok : st.1.arena.ok = true
  clauses : st.1.clauses = []
  loc : Local uc.gates st.1.arena st.2
  range : ∀ g, st.2 g ≠ none → g ≤ uc.gates.length
  compl : ∀ τ : Nat → Bool, ∃ m : Nat → Bool,
    ∀ g k s, defAt uc.gates g = some (.inp k) → st.2 g = some s → st.1.arena.eval m s = τ g

/-! ## A reference for the verdicts of bounded model checking -/

/-- The signal and status of each property of a list. -/
def view (ps : List PropData) : List (Sig × PropStatus) := ps.map (fun d => (d.sig, d.stat))

/-- The status of one property after the SAT tests of a cycle, given which signals some run
violates in that cycle: an Unknown property whose signal can be violated becomes Falsified. -/
def refStat (viol : Sig → Bool) (d : Sig × PropStatus) : Sig × PropStatus :=
  (d.1, if d.2 = pstat_Unknown ∧ viol d.1 = true then pstat_Falsified else d.2)

/-- The number of properties with status Unknown. -/
def unknowns (ps : List (Sig × PropStatus)) : Nat :=
  (ps.filter (fun d => decide (d.2 = pstat_Unknown))).length

/-- The statuses after the cycles `i, i + 1, ...`, at most `n` of them, of a bounded model
checker that starts testing at `begin_cycle` and stops as soon as no property is Unknown
after the tests of a cycle. -/
def refLoop (viol : Nat → Sig → Bool) (begin_cycle : Nat) :
    Nat → Nat → List (Sig × PropStatus) → List (Sig × PropStatus)
  | 0, _, ps => ps
  | n + 1, i, ps =>
    if i < begin_cycle then refLoop viol begin_cycle n (i + 1) ps
    else if unknowns (ps.map (refStat (viol i))) = 0 then ps.map (refStat (viol i))
    else refLoop viol begin_cycle n (i + 1) (ps.map (refStat (viol i)))

/-! ## Constraint equivalences -/

/-- Whether a class mentions the gate of `x` with either sign. -/
def Equivs.touches (x : Sig) (cl : List Sig) : Bool := decide (x ∈ cl) || decide (x.neg ∈ cl)

/-- Whether `x` and `y` are in the same class (up to a common inversion), or equal. -/
def Equivs.equiv (e : Equivs) (x y : Sig) : Bool :=
  decide (x = y) || e.classes.any (fun cl =>
    (decide (x ∈ cl) && decide (y ∈ cl)) || (decide (x.neg ∈ cl) && decide (y.neg ∈ cl)))

/-- The members of the classes that mention `x`, each class written so that `x` itself is a
member. -/
def Equivs.joined (e : Equivs) (x : Sig) : List Sig :=
  (e.classes.filter (Equivs.touches x)).flatMap (fun cl => if x ∈ cl then cl else cl.map Sig.neg)

/-- Modelled from the spec: `Equivs::merge(x, y)`, which makes `x` and `y` equivalent. Nothing
changes when they are equivalent already; otherwise the classes of `x` and of `y` are joined
into one class, led by `x`. -/
def Equivs.merge (e : Equivs) (x y : Sig) : Equivs :=
  if e.equiv x y then e
  else ⟨(x :: e.joined x ++ y :: e.joined y) ::
    e.classes.filter (fun cl => !Equivs.touches x cl && !Equivs.touches y cl)⟩

/-- Whether a valuation of `c` gives equal values to the signals of every class. -/
def Equivs.holdsAt (e : Equivs) (c : Circ) (τ : Nat → Bool) : Bool :=
  e.classes.all (fun cl =>
    match cl with
    | [] => true
    | r :: rest => rest.all (fun x => c.eval τ x == c.eval τ r))

/-! ## Semantic constraint extraction (`Extract.cc`)

The calls to `setPolarity` only steer the search of the solver and are left out. The loops
that the source runs until a fixed point take a bound on the number of iterations; `none`
means that the bound was too small. -/

/-- Clausifies a list of signals in order and returns their literals. -/
def clausifyList (src : Circ) :
    List Sig → Solver × GMap Sig → (Solver × GMap Sig) × List (Option Sig)
  | [], st => (st, [])
  | x :: xs, st =>
    ((clausifyList src xs (clausify src st x).1).1,
      (clausify src st x).2 :: (clausifyList src xs (clausify src st x).1).2)

/-- The literals `~cl.clausify(sig)` of the safety properties with status Unknown. -/
def safeBad (main : Circ) :
    List PropData → Solver × GMap Sig → (Solver × GMap Sig) × List Sig
  | [], st => (st, [])
  | p :: ps, st =>
    if p.stat = pstat_Unknown then
      ((safeBad main ps (clausify main st p.sig).1).1,
        ((clausify main st p.sig).2.map Sig.neg).toList ++
          (safeBad main ps (clausify main st p.sig).1).2)
    else safeBad main ps st

/-- The literals `cl.clausify(sigs[i])` of the liveness properties with status Unknown. -/
def liveBad (main : Circ) :
    List LivePropData → Solver × GMap Sig → (Solver × GMap Sig) × List Sig
  | [], st => (st, [])
  | p :: ps, st =>
    if p.stat = pstat_Unknown then
      ((liveBad main ps (clausifyList main p.sigs st).1).1,
        (clausifyList main p.sigs st).2.filterMap id ++
          (liveBad main ps (clausifyList main p.sigs st).1).2)
    else liveBad main ps st

/-- The candidates read from a model: for each of the gates `1 .. n` of `main` in order, the
signal of the gate with the polarity that is true in the model; a gate without a defined
value is skipped. -/
def candsOf (s : Solver) (cm : GMap Sig) (m : Nat → Bool) : Nat → List Sig
  | 0 => []
  | n + 1 =>
    candsOf s cm m n ++
      (match clModelValue s cm m ⟨n + 1, false⟩ with
       | l_Undef => []
       | v => [mkSig (n + 1) (decide (v = l_False))])

/-- The procedure `initializeCands`: returns the solver with the clausifier and, when the
formula "some property is bad" is satisfiable, the initial candidates (`none` is the result
`false`). -/
def initializeCands (solve : SolveFn) (tip : TipCirc) (st : Solver × GMap Sig)
    (only_coi : Bool) : (Solver × GMap Sig) × Option (List Sig) :=
  let st1 := if only_coi then st else (clausifyList tip.main (tip.flps.map (fun f => f.next)) st).1
  let b1 := safeBad tip.main tip.safe_props st1
  let b2 := liveBad tip.main tip.live_props b1.1
  let s := b2.1.1.addClause (b1.2 ++ b2.2)
  match solve s [] with
  | none => ((s, b2.1.2), none)
  | some m => ((s, b2.1.2), some (candsOf s b2.1.2 m tip.main.gates.length))

/-- The main loop of `refineCandsBaseInSequence`, from index `i`. -/
def baseSeqLoop (solve : SolveFn) (main : Circ) :
    Nat → Nat → Solver × GMap Sig → List Sig → Option (List Sig)
  | 0, _, _, _ => none
  | fuel + 1, i, st, cands =>
    match cands[i]? with
    | none => some cands
    | some c =>
      match (clausify main st c.neg).2 with
      | none => none
      | some l =>
        match solve (clausify main st c.neg).1.1 [l] with
        | some m =>
          baseSeqLoop solve main fuel i (clausify main st c.neg).1
            (cands.take i ++ (cands.drop i).filter (fun x =>
              decide (clModelValue (clausify main st c.neg).1.1 (clausify main st c.neg).1.2 m x
                = l_True)))
        | none => baseSeqLoop solve main fuel (i + 1) (clausify main st c.neg).1 cands

/-- The procedure `refineCandsBaseInSequence`: the result flag and the candidates. -/
def refineCandsBaseInSequence (fuel : Nat) (solve : SolveFn) (tip : TipCirc) (only_coi : Bool) :
    Option (Bool × List Sig) :=
  match (initializeCands solve tip (Solver.new, GMap.clear) only_coi).2 with
  | none => some (false, [])
  | some cands =>
    (baseSeqLoop solve tip.main fuel 0
      (initializeCands solve tip (Solver.new, GMap.clear) only_coi).1 cands).map
      (fun cs => (true, cs))

/-- The loop of `solveMinimum`: `assume` is the current assumption list and `min` the last
model found. -/
def solveMinLoop (solve : SolveFn) (assumps ps : List Sig) (trigger : Option Sig) :
    Nat → Solver → List Sig → Option (Nat → Bool) → Option (Solver × Option (Nat → Bool))
  | 0, _, _, _ => none
  | fuel + 1, s, assume, min =>
    match solve s (assume ++ trigger.toList) with
    | some m =>
      solveMinLoop solve assumps ps trigger fuel
        (s.addClause ((ps.filter (fun p => decide (s.modelValue m p ≠ l_False))).map Sig.neg ++
          trigger.toList.map Sig.neg))
        (assumps ++ (ps.filter (fun p => decide (s.modelValue m p = l_False))).map Sig.neg)
        (some m)
    | none => some (s, min)

/-- The procedure `solveMinimum`: returns the solver with the blocking clauses added and the
minimal model, `none` when the clauses are unsatisfiable under the assumptions. -/
def solveMinimum (fuel : Nat) (solve : SolveFn) (s : Solver) (assumps ps : List Sig)
    (trigger : Option Sig) : Option (Solver × Option (Nat → Bool)) :=
  solveMinLoop solve assumps ps trigger fuel s assumps none

/-- Binds the members of one class to the literal of its representative. -/
def bindClass (src : Circ) (rep : Sig) : List Sig → Solver × GMap Sig → Solver × GMap Sig
  | [], st => st
  | x :: xs, st => bindClass src rep xs (clausifyAs src st x rep)

/-- Adds the constraint equivalences to the solver, class by class. -/
def addConstraints (src : Circ) : List (List Sig) → Solver × GMap Sig → Solver × GMap Sig
  | [], st => st
  | [] :: cls, st => addConstraints src cls st
  | (r :: rest) :: cls, st =>
    match (clausify src st r).2 with
    | some rep => addConstraints src cls (bindClass src rep rest (clausify src st r).1)
    | none => addConstraints src cls (clausify src st r).1

/-- Whether a literal is true in a model, as `min_model[var(l)] ^ sign(l) == l_True`; an
undefined literal is not. -/
def litTrue (s : Solver) (m : Nat → Bool) (o : Option Sig) : Bool :=
  match o with
  | some l => decide (s.modelValue m l = l_True)
  | none => false

/-- The do-while loop of `refineCandsBaseWithMinimize`. -/
def baseMinLoop (solve : SolveFn) (main : Circ) (sfuel : Nat) :
    Nat → Solver × GMap Sig → List Sig → Option (List Sig)
  | 0, _, _ => none
  | fuel + 1, st, cands =>
    match solveMinimum sfuel solve (clausifyList main cands st).1.1 []
        ((clausifyList main cands st).2.filterMap id) none with
    | none => none
    | some (_, none) => some cands
    | some (s', some m) =>
      if (cands.filter (fun c =>
            litTrue s' m (lookup (clausifyList main cands st).1.2 c))).length < cands.length then
        baseMinLoop solve main sfuel fuel (s', (clausifyList main cands st).1.2)
          (cands.filter (fun c => litTrue s' m (lookup (clausifyList main cands st).1.2 c)))
      else some cands

/-- The procedure `refineCandsBaseWithMinimize`: the result flag and the candidates. -/
def refineCandsBaseWithMinimize (fuel : Nat) (solve : SolveFn) (tip : TipCirc)
    (only_coi : Bool) : Option (Bool × List Sig) :=
  match (initializeCands solve tip (Solver.new, GMap.clear) only_coi).2 with
  | none => some (false, [])
  | some cands =>
    (baseMinLoop solve tip.main fuel fuel
      (addConstraints tip.main tip.cnstrs.classes
        (initializeCands solve tip (Solver.new, GMap.clear) only_coi).1) cands).map
      (fun cs => (true, cs))

/-- Clausifies a possibly undefined signal. -/
def clausifyO (src : Circ) (st : Solver × GMap Sig) (o : Option Sig) :
    (Solver × GMap Sig) × Option Sig :=
  match o with
  | some x => clausify src st x
  | none => (st, none)

/-- The cached literal of a possibly undefined signal. -/
def lookupO (cm : GMap Sig) (o : Option Sig) : Option Sig := o.bind (lookup cm)

/-- Clausifies the copies of every candidate in time step 0 and in time step 1; returns the
literals of step 0 and those of step 1. -/
def clausifyPairs (uc : Circ) (umap0 umap1 : GMap Sig) :
    List Sig → Solver × GMap Sig → (Solver × GMap Sig) × (List (Option Sig) × List (Option Sig))
  | [], st => (st, ([], []))
  | c :: cs, st =>
    let q0 := clausifyO uc st (mapSig umap0 c)
    let q1 := clausifyO uc q0.1 (mapSig umap1 c)
    let r := clausifyPairs uc umap0 umap1 cs q1.1
    (r.1, (q0.2 :: r.2.1, q1.2 :: r.2.2))

/-- Whether a candidate is kept by the model in the sequential step phase: its copy in step
0 is true or its copy in step 1 is false. -/
def stepKeep (s : Solver) (cm : GMap Sig) (umap0 umap1 : GMap Sig) (m : Nat → Bool) (x : Sig) :
    Bool :=
  match lookupO cm (mapSig umap0 x), lookupO cm (mapSig umap1 x) with
  | some p0, some p1 => decide (s.modelValue m p0 = l_True) || decide (s.modelValue m p1 = l_False)
  | _, _ => false

/-- The main loop of `refineCandsStepInSequence`, from index `i`. -/
def stepSeqLoop (solve : SolveFn) (s : Solver) (cm : GMap Sig) (umap0 umap1 : GMap Sig) :
    Nat → Nat → List Sig → Option (List Sig)
  | 0, _, _ => none
  | fuel + 1, i, cands =>
    match cands[i]? with
    | none => some cands
    | some c =>
      match lookupO cm (mapSig umap0 c), lookupO cm (mapSig umap1 c) with
      | some l0, some l1 =>
        match solve s [l0.neg, l1] with
        | some m =>
          stepSeqLoop solve s cm umap0 umap1 fuel i
            (cands.take i ++ (cands.drop i).filter (stepKeep s cm umap0 umap1 m))
        | none => stepSeqLoop solve s cm umap0 umap1 fuel (i + 1) cands
      | _, _ => none

/-- The two unrollings of `main` from a random state that both step phases start with:
the unrolled arena and the unroll maps of time step 0 and time step 1. -/
def unrollTwo (tip : TipCirc) : Circ × GMap Sig × GMap Sig :=
  let r0 := UnrollCirc.step tip (UnrollCirc.new tip [] Circ.empty false)
  let r1 := UnrollCirc.step tip r0.1
  (r1.1.unroll_circ, r0.2, r1.2)

/-- The procedure `refineCandsStepInSequence`. -/
def refineCandsStepInSequence (fuel : Nat) (solve : SolveFn) (tip : TipCirc)
    (cands : List Sig) : Option (List Sig) :=
  let u := unrollTwo tip
  let st := (clausifyPairs u.1 u.2.1 u.2.2 cands (Solver.new, GMap.clear)).1
  stepSeqLoop solve st.1 st.2 u.2.1 u.2.2 fuel 0 cands

/-- Binds one member of a class in both time steps: `clausifyAs` of its copy in step 0 with
the literal of the representative in step 0, then the same in step 1. -/
def bindTwo (uc : Circ) (umap0 umap1 : GMap Sig) (rep0 rep1 : Option Sig)
    (t : Solver × GMap Sig) (x : Sig) : Solver × GMap Sig :=
  let t0 := match mapSig umap0 x, rep0 with
    | some x0, some r0 => clausifyAs uc t x0 r0
    | _, _ => t
  match mapSig umap1 x, rep1 with
  | some x1, some r1 => clausifyAs uc t0 x1 r1
  | _, _ => t0

/-- Adds the constraint equivalences to the solver in both time steps, class by class. -/
def addConstraintsTwo (uc : Circ) (umap0 umap1 : GMap Sig) :
    List (List Sig) → Solver × GMap Sig → Solver × GMap Sig
  | [], st => st
  | [] :: cls, st => addConstraintsTwo uc umap0 umap1 cls st
  | (r :: rest) :: cls, st =>
    let q0 := clausifyO uc st (mapSig umap0 r)
    let q1 := clausifyO uc q0.1 (mapSig umap1 r)
    addConstraintsTwo uc umap0 umap1 cls
      (rest.foldl (bindTwo uc umap0 umap1 q0.2 q1.2) q1.1)

/-- The loop of `refineCandsStepWithMinimize`. -/
def stepMinLoop (solve : SolveFn) (uc : Circ) (umap0 umap1 : GMap Sig) (sfuel : Nat) :
    Nat → Solver × GMap Sig → List Sig → Option (List Sig)
  | 0, _, _ => none
  | fuel + 1, st, cands =>
    match solveMinimum sfuel solve (clausifyPairs uc umap0 umap1 cands st).1.1
        ((clausifyPairs uc umap0 umap1 cands st).2.2.filterMap id)
        ((clausifyPairs uc umap0 umap1 cands st).2.1.filterMap id) none with
    | none => none
    | some (_, none) => some cands
    | some (s', some m) =>
      if (cands.filter (fun c =>
            litTrue s' m (lookupO (clausifyPairs uc umap0 umap1 cands st).1.2
              (mapSig umap0 c)))).length = cands.length then some cands
      else
        stepMinLoop solve uc umap0 umap1 sfuel fuel
          (s', (clausifyPairs uc umap0 umap1 cands st).1.2)
          (cands.filter (fun c =>
            litTrue s' m (lookupO (clausifyPairs uc umap0 umap1 cands st).1.2
              (mapSig umap0 c))))

/-- The procedure `refineCandsStepWithMinimize`. -/
def refineCandsStepWithMinimize (fuel : Nat) (solve : SolveFn) (tip : TipCirc)
    (cands : List Sig) : Option (List Sig) :=
  let u := unrollTwo tip
  stepMinLoop solve u.1 u.2.1 u.2.2 fuel fuel
    (addConstraintsTwo u.1 u.2.1 u.2.2 tip.cnstrs.classes (Solver.new, GMap.clear)) cands

/-- The candidates that `semanticConstraintExtraction` ends with: the result flag of the base
phase and, when it is true, the candidates that survive the step phase. -/
def sceCands (fuel : Nat) (solve : SolveFn) (tip : TipCirc) (use_minimize_alg only_coi : Bool) :
    Option (Bool × List Sig) :=
  match (if use_minimize_alg then refineCandsBaseWithMinimize fuel solve tip only_coi
         else refineCandsBaseInSequence fuel solve tip only_coi) with
  | none => none
  | some (false, _) => some (false, [])
  | some (true, cnstrs) =>
    (if use_minimize_alg then refineCandsStepWithMinimize fuel solve tip cnstrs
     else refineCandsStepInSequence fuel solve tip cnstrs).map (fun cs => (true, cs))

/-- Merges every candidate with the constant true. -/
def mergeAll (e : Equivs) : List Sig → Equivs
  | [] => e
  | c :: cs => mergeAll (e.merge sig_True c) cs

/-- The procedure `semanticConstraintExtraction(tip, use_minimize_alg, only_coi)`. When the
base phase returns false the constants false and true are merged; otherwise every surviving
candidate is merged with true. -/
def semanticConstraintExtraction (fuel : Nat) (solve : SolveFn) (tip : TipCirc)
    (use_minimize_alg only_coi : Bool) : Option TipCirc :=
  match sceCands fuel solve tip use_minimize_alg only_coi with
  | none => none
  | some (false, _) => some { tip with cnstrs := tip.cnstrs.merge sig_False sig_True }
  | some (true, cnstrs) => some { tip with cnstrs := mergeAll tip.cnstrs cnstrs }

/-! ## Example circuits for the constraint extraction -/

/-- The circuit of the second end-to-end scenario: one flop (gate 1) with initial value false
and next value the flop itself, and the safety property `not flop`. -/
def trivTip : TipCirc :=
  { main := ⟨[.inp UINT32_MAX]⟩
    init := Circ.empty
    flps := [⟨1, sig_False, ⟨1, false⟩⟩]
    traces := []
    safe_props := [⟨⟨1, true⟩, pstat_Unknown, none⟩]
    live_props := []
    fairs := []
    cnstrs := ⟨[]⟩
    inps_init := []
    inps_main := [] }

/-- A circuit without flops with two wires that are equal under every valuation:
`x = a and a` (gate 2) and `y = x and a` (gate 3), over the input `a` (gate 1). The safety
property is `not (x and y)` (gate 4 inverted). -/
def eqTip : TipCirc :=
  { main := ⟨[.and ⟨2, false⟩ ⟨3, false⟩, .and ⟨2, false⟩ ⟨1, false⟩,
      .and ⟨1, false⟩ ⟨1, false⟩, .inp 0]⟩
    init := Circ.empty
    flps := []
    traces := []
    safe_props := [⟨⟨4, true⟩, pstat_Unknown, none⟩]
    live_props := []
    fairs := []
    cnstrs := ⟨[]⟩
    inps_init := []
    inps_main := [] }

/-- Some property with status Unknown is bad under a valuation of `main`: the signal of a
safety property is false, or a signal of a liveness property is true. -/
def TipCirc.badAt (tip : TipCirc) (τ : Nat → Bool) : Bool :=
  tip.safe_props.any (fun p => decide (p.stat = pstat_Unknown) && !tip.main.eval τ p.sig) ||
  tip.live_props.any (fun p => decide (p.stat = pstat_Unknown) &&
    p.sigs.any (fun s => tip.main.eval τ s))

/-! ## Predicates of the constraint-extraction proofs -/

/-- The valuation `m` of the variables realises the valuation `τ` of the arena `src`: every
clausified input of `src` has a literal whose value under `m` is the input's value under
`τ`. -/
def Realises (src : List GateDef) (A : Circ) (cm : GMap Sig) (m τ : Nat → Bool) : Prop :=
  ∀ g k s, defAt src g = some (.inp k) → cm g = some s → A.eval m s = τ g

/-- The solver and clausifier stand for the arena `src`: the clausifier respects the
structure of `src`, its literals belong to gates of `src`, and every valuation of `src` is
realised by a valuation of the variables. -/
structure CInv (src : Circ) (st : Solver × GMap Sig) : Prop where
  ok : st.1.arena.ok = true
  loc : Local src.gates st.1.arena st.2
  range : ∀ g, st.2 g ≠ none → g ≤ src.gates.length
  compl : ∀ τ : Nat → Bool, ∃ m : Nat → Bool, Realises src.gates st.1.arena st.2 m τ

/-- The one-flop circuit of `trivTip` with the constant true as its safety property: no
valuation makes the property bad. -/
def constTip : TipCirc := { trivTip with safe_props := [⟨sig_True, pstat_Unknown, none⟩] }

/-- The valuation of the source arena that a valuation of the variables stands for: each gate
reads the value of its literal. -/
def readBack (st : Solver × GMap Sig) (m : Nat → Bool) : Nat → Bool :=
  fun g => st.1.arena.evalO m (st.2 g)

/-- The clauses of the solver stand for the predicate `P` on the valuations of the arena
`src`, as far as the valuations in `D` go: a valuation of the variables that satisfies the
clauses realises only valuations in `P`, and every valuation in `P` and `D` is realised by a
valuation of the variables that satisfies the clauses. -/
structure Sem (src : Circ) (st : Solver × GMap Sig) (P D : (Nat → Bool) → Prop) : Prop where
  ok : st.1.arena.ok = true
  loc : Local src.gates st.1.arena st.2
  cls : ∀ c ∈ st.1.clauses, ∀ l ∈ c, st.1.arena.has l = true
  sound : ∀ m τ, Realises src.gates st.1.arena st.2 m τ → st.1.holds [] m = true → P τ
  compl : ∀ τ, P τ → D τ →
    ∃ m, Realises src.gates st.1.arena st.2 m τ ∧ st.1.holds [] m = true

/-- What `solveMinimum` leaves behind when it has found a model: the solver `s'` is `s0` with
blocking clauses added, every blocking clause consists of negations of literals of `ps` and
holds the negation of every literal of `ps` that is true in the final model `m`, the model
satisfies the clauses of `s0` and the assumptions, and no valuation satisfies the clauses of
`s'` and the assumptions while making false every literal of `ps` that is false in `m`. -/
structure MinRes (s0 : Solver) (assumps ps : List Sig) (s' : Solver) (m : Nat → Bool) :
    Prop where
  arena : s'.arena = s0.arena
  blocks : ∃ bs, s'.clauses = bs ++ s0.clauses ∧
    ∀ b ∈ bs, (∀ l ∈ b, ∃ p ∈ ps, l = p.neg) ∧
      ∀ p ∈ ps, s0.arena.eval m p = true → p.neg ∈ b
  model : s0.holds assumps m = true
  last : ∀ μ, s'.holds [] μ = true → (∀ l ∈ assumps, s0.arena.eval μ l = true) →
    (∀ p ∈ ps, s0.arena.eval m p = false → s0.arena.eval μ p = false) → False

/-- The valuations of `main` that the base phase looks at: some property with status Unknown
is bad and, in the minimising variant, the constraints already in `cnstrs` hold. -/
def TipCirc.baseAt (tip : TipCirc) (use_minimize_alg : Bool) (τ : Nat → Bool) : Prop :=
  tip.badAt τ = true ∧ (use_minimize_alg = true → tip.cnstrs.holdsAt tip.main τ = true)

/-- The two unroll maps of the step phase stand for two consecutive cycles of the circuit:
both respect the structure of `main`, the image of a flop in the second map is the image of
its next-state signal in the first, and every pair of valuations of `main` that is linked by
the next-state functions is realised by a valuation of the unrolled arena. -/
structure TwoFrame (tip : TipCirc) (uc : Circ) (u0 u1 : GMap Sig) : Prop where
  ok : uc.ok = true
  loc0 : Local tip.main.gates uc u0
  loc1 : Local tip.main.gates uc u1
  dom0 : ∀ g, g ≤ tip.main.gates.length → u0 g ≠ none
  dom1 : ∀ g, g ≤ tip.main.gates.length → u1 g ≠ none
  link : ∀ f ∈ tip.flps, u1 f.gate = mapSig u0 f.next
  compl : ∀ τ0 τ1 : Nat → Bool, (∀ f ∈ tip.flps, τ1 f.gate = tip.main.eval τ0 f.next) →
    ∃ ν : Nat → Bool,
      (∀ g k s, defAt tip.main.gates g = some (.inp k) → u0 g = some s → uc.eval ν s = τ0 g) ∧
      (∀ g k s, defAt tip.main.gates g = some (.inp k) → u1 g = some s → uc.eval ν s = τ1 g)

/-- The valuation of `main` in one of the two cycles that a valuation of the unrolled arena
stands for. -/
def frameOf (uc : Circ) (u : GMap Sig) (ν : Nat → Bool) : Nat → Bool :=
  fun g => uc.evalO ν (u g)

/-- Two valuations of `main` are linked by the next-state functions: the second gives every
flop the value of its next-state signal under the first. -/
def TipCirc.trans (tip : TipCirc) (τ0 τ1 : Nat → Bool) : Prop :=
  ∀ f ∈ tip.flps, τ1 f.gate = tip.main.eval τ0 f.next

/-- The condition that the step phase establishes for a candidate `c` of a set `X`: whenever
the candidates of `X` are true in a cycle, `c` is true in the cycle before (in the minimising
variant, as far as the constraints already in `cnstrs` hold in both cycles). -/
def TipCirc.stepOk (tip : TipCirc) (use_minimize_alg : Bool) (X : List Sig) (c : Sig) : Prop :=
  ∀ τ0 τ1 : Nat → Bool, tip.trans τ0 τ1 →
    (use_minimize_alg = true → tip.cnstrs.holdsAt tip.main τ0 = true ∧
      tip.cnstrs.holdsAt tip.main τ1 = true) →
    (∀ x ∈ X, tip.main.eval τ1 x = true) → tip.main.eval τ0 c = true

/-! ## Fairness embedding (`EmbedFairness.cc`) -/

/-- Modelled from the spec: `Flops::define(gate, next)` of the circuit library, which enters
`gate` in the flop table, after the flops already there, with the next-state signal `next` and
the initial value false. -/
def defineFlop (flps : List Flop) (g : Nat) (next : Sig) : List Flop :=
  flps ++ [⟨g, sig_False, next⟩]

/-- The loop `flops.push(gate(tip.main.mkInp()))`: allocates `n` inputs without a number and
returns their gates in order. -/
def embedFlops : Nat → Circ → Circ × List Nat
  | 0, main => (main, [])
  | n + 1, main =>
    ((embedFlops n (main.mkInp UINT32_MAX).1).1,
      (main.mkInp UINT32_MAX).2.gate :: (embedFlops n (main.mkInp UINT32_MAX).1).2)

/-- The loop that builds `triggers[j] = mkOr(fairs[j], mkSig(flops[j]))` and folds them into
`accept`; returns the arena, the triggers and the accept signal. -/
def embedTriggers : List Sig → List Nat → Circ → Sig → Circ × List Sig × Sig
  | f :: fs, g :: gs, main, accept =>
    let t := main.mkOr f (mkSig g false)
    let a := t.1.mkAnd accept t.2
    let r := embedTriggers fs gs a.1 a.2
    (r.1, t.2 :: r.2.1, r.2.2)
  | _, _, main, accept => (main, [], accept)

/-- The loop `tip.flps.define(flops[j], mkAnd(~reset, triggers[j]))`, with `nreset = ~reset`. -/
def embedDefine (nreset : Sig) : List Nat → List Sig → Circ → List Flop → Circ × List Flop
  | g :: gs, t :: ts, main, flps =>
    embedDefine nreset gs ts (main.mkAnd nreset t).1 (defineFlop flps g (main.mkAnd nreset t).2)
  | _, _, main, flps => (main, flps)

/-- The standard embedding of the combined list `fairs` of one property: the new arena and
flop table, and the accept signal. A list of one signal is its own accept signal. -/
def embedStandard (fairs : List Sig) (main : Circ) (flps : List Flop) :
    (Circ × List Flop) × Sig :=
  match fairs with
  | [s] => ((main, flps), s)
  | _ =>
    let fl := embedFlops fairs.length main
    let tr := embedTriggers fairs fl.2 fl.1 sig_True
    let ri := tr.1.mkInp UINT32_MAX
    let reset := ri.1.mkOr ri.2 tr.2.2
    (embedDefine reset.2.neg fl.2 tr.2.1 reset.1 flps, tr.2.2)

/-- The first loop of the stable embedding: per fairness signal a fresh input `pre_broken`,
the signal `broken`, which becomes the next-state signal of `pre_broken`, and the signal
`stable_just`; returns the arena, the flop table and the `stable_justs`. -/
def embedBroken (challenged : Sig) : List Sig → Circ → List Flop → (Circ × List Flop) × List Sig
  | f :: fs, main, flps =>
    let pb := main.mkInp UINT32_MAX
    let a := pb.1.mkAnd f.neg challenged
    let broken := a.1.mkOr a.2 pb.2
    let b := broken.1.mkAnd f broken.2.neg
    let sj := b.1.mkAnd challenged b.2
    let r := embedBroken challenged fs sj.1 (defineFlop flps pb.2.gate broken.2)
    (r.1, sj.2 :: r.2)
  | [], main, flps => ((main, flps), [])

/-- The loop `accept = mkAnd(accept, stable_justs[j])`. -/
def embedAccept : List Sig → Circ → Sig → Circ × Sig
  | s :: ss, main, accept => embedAccept ss (main.mkAnd accept s).1 (main.mkAnd accept s).2
  | [], main, accept => (main, accept)

/-- The stable embedding of the combined list `fairs` of one property. -/
def embedStable (fairs : List Sig) (main : Circ) (flps : List Flop) :
    (Circ × List Flop) × Sig :=
  let ch := main.mkInp UINT32_MAX
  let pc := ch.1.mkInp UINT32_MAX
  let cd := pc.1.mkOr ch.2 pc.2
  let br := embedBroken cd.2 fairs cd.1 (defineFlop flps pc.2.gate cd.2)
  let ac := embedAccept br.2 br.1.1 sig_True
  ((ac.1, br.1.2), ac.2)

/-- The accept signal and the circuit after one property with status Unknown has been
embedded, from the combined list of the global fairness signals and the property's own. -/
def embedOne (stableLive : Bool) (fairs : List Sig) (main : Circ) (flps : List Flop) :
    (Circ × List Flop) × Sig :=
  if stableLive then embedStable fairs main flps else embedStandard fairs main flps

/-- The body of the loop of `embedFairness` for one liveness property: a property whose
status is not Unknown is skipped. -/
def embedProp (stableLive : Bool) (fairs : List Sig) (st : Circ × List Flop)
    (p : LivePropData) : (Circ × List Flop) × LivePropData :=
  if p.stat ≠ pstat_Unknown then (st, p)
  else
    ((embedOne stableLive (fairs ++ p.sigs) st.1 st.2).1,
      { p with sigs := [(embedOne stableLive (fairs ++ p.sigs) st.1 st.2).2] })

/-- The loop of `embedFairness` over the liveness properties. -/
def embedProps (stableLive : Bool) (fairs : List Sig) :
    List LivePropData → Circ × List Flop → (Circ × List Flop) × List LivePropData
  | [], st => (st, [])
  | p :: ps, st =>
    ((embedProps stableLive fairs ps (embedProp stableLive fairs st p).1).1,
      (embedProp stableLive fairs st p).2 ::
        (embedProps stableLive fairs ps (embedProp stableLive fairs st p).1).2)

/-- The procedure `embedFairness(tip, stableLive)`. -/
def embedFairness (tip : TipCirc) (stableLive : Bool) : TipCirc :=
  { tip with
    main := (embedProps stableLive tip.fairs tip.live_props (tip.main, tip.flps)).1.1
    flps := (embedProps stableLive tip.fairs tip.live_props (tip.main, tip.flps)).1.2
    live_props := (embedProps stableLive tip.fairs tip.live_props (tip.main, tip.flps)).2
    fairs := [] }

/-- Three inputs `a`, `b`, `c` (gates 1, 2, 3) that are the signals of one liveness property:
the circuit of the third end-to-end scenario. -/
def liveTip : TipCirc :=
  { main := ⟨[.inp 2, .inp 1, .inp 0]⟩
    init := Circ.empty
    flps := []
    traces := []
    safe_props := []
    live_props := [⟨[⟨1, false⟩, ⟨2, false⟩, ⟨3, false⟩], pstat_Unknown, none⟩]
    fairs := []
    cnstrs := ⟨[]⟩
    inps_init := []
    inps_main := [[some 1, some 2, some 3]] }

/-- A run of the embedded circuit over a run `σ` of the original one, with the reset input
held at false: the gates of the original arena (the first `len` gates) follow `σ`, a new flop
starts at false and then follows its next-state signal, and every other new input is false. -/
def embRun (C : Circ) (new : List Flop) (len : Nat) (σ : Nat → Nat → Bool) : Nat → Nat → Bool
  | 0, g => if g ≤ len then σ 0 g else false
  | t + 1, g =>
    if g ≤ len then σ (t + 1) g
    else C.evalO (embRun C new len σ t)
      ((new.find? (fun f => decide (f.gate = g))).map (fun f => f.next))

/-- The cyclic run `a b c a b c …` of the embedded example circuit with the reset input at
false: input `a`, `b` or `c` (gates 1, 2, 3) is true in the cycles `0`, `1`, `2` modulo 3, the
flop of `a` (gate 4) is true in the cycles `1` and `2`, that of `b` (gate 5) in the cycles `2`,
and that of `c` (gate 6) never. -/
def cycRun (t g : Nat) : Bool :=
  decide (g = t % 3 + 1) || (decide (g = 4) && decide (1 ≤ t % 3)) ||
    (decide (g = 5) && decide (t % 3 = 2))

/-- The circuit `xorTip` with a trace adaptor installed: the AIGER-init adaptor for its one
flop, which is initialised to 0. -/
def xorTipAdapted : TipCirc := { xorTip with tradaptor := [[⟨l_False, UINT32_MAX⟩]] }

/-- The clausifier and solver in the middle of an unroll step of `simpBmc`, relative to the
variables `E` eliminated so far: no variable has been eliminated since, the eliminated
variables are variables of the solver, the constant gate is cached with the constant
variable, and every other cached literal has a variable that is not eliminated. -/
structure Fresh (E : List Nat) (st : Solver × GMap Sig) : Prop where
  elim : st.1.eliminated = E
  bound : ∀ v ∈ E, v ≤ st.1.arena.gates.length
  zero : ∀ l, st.2 0 = some l → l.gate = 0
  other : ∀ g l, g ≠ 0 → st.2 g = some l → l.gate ∉ E

/-- A solver with three free variables and the clause `v1 ∨ v2`. -/
def minSolver : Solver :=
  { arena := ⟨[.inp UINT32_MAX, .inp UINT32_MAX, .inp UINT32_MAX]⟩
    clauses := [[⟨1, false⟩, ⟨2, false⟩]]
    frozen := []
    eliminated := [] }

/-- A circuit with one flop `x` (gate 1), one input `i` (gate 2) and the gate `a = x ∧ i`
(gate 3); the next value of the flop is `a` and the safety property is `not a`. -/
def latchTip : TipCirc :=
  { main := ⟨[.and ⟨1, false⟩ ⟨2, false⟩, .inp 0, .inp UINT32_MAX]⟩
    init := Circ.empty
    flps := [⟨1, sig_False, ⟨3, false⟩⟩]
    traces := []
    safe_props := [⟨⟨3, true⟩, pstat_Unknown, none⟩]
    live_props := []
    fairs := []
    cnstrs := ⟨[]⟩
    inps_init := []
    inps_main := [[some 2]] }

/-- A circuit with one flop (gate 1 of `main`) that keeps its value and starts from the value
of input `0` of the init arena; the init arena has a second input, which carries no number. -/
def initTip : TipCirc :=
  { main := ⟨[.inp UINT32_MAX]⟩
    init := ⟨[.inp UINT32_MAX, .inp 0]⟩
    flps := [⟨1, ⟨1, true⟩, ⟨1, false⟩⟩]
    traces := []
    safe_props := [⟨⟨1, true⟩, pstat_Unknown, none⟩]
    live_props := []
    fairs := []
    cnstrs := ⟨[]⟩
    inps_init := [[some 1]]
    inps_main := [] }

/-- The state of `UnrollCirc2`: the unrolled arena and the flop frontier. -/
structure UnrollCirc2 where
  ucirc : Circ
  flop_front : List (Option Sig)

/-- The constructor of `UnrollCirc2` that starts from the initial state: `init` is copied and
the frontier is the image of the init signals; the init map is returned as well. -/
def UnrollCirc2.newInit (tip : TipCirc) (uc : Circ) : UnrollCirc2 × GMap Sig :=
  let r := copyCirc tip.init uc GMap.clear tip.init.lastGate
  ({ ucirc := r.1, flop_front := tip.flps.map (fun f => mapSig r.2 f.init) }, r.2)

/-- The constructor of `UnrollCirc2` that starts from a random state: one fresh input per
flop. -/
def UnrollCirc2.newRandom (tip : TipCirc) (uc : Circ) : UnrollCirc2 :=
  let r := freshFront tip.flps.length uc
  { ucirc := r.1, flop_front := r.2 }

/-- One step `UnrollCirc2::operator()`; `copyCirc` is called without a stop gate and copies
`main` up to its last gate at the time of the call. Returns the new state and the unroll
map. -/
def UnrollCirc2.step (tip : TipCirc) (u : UnrollCirc2) : UnrollCirc2 × GMap Sig :=
  let m0 := seedFront tip.flps u.flop_front GMap.clear
  let r := copyCirc tip.main u.ucirc m0 tip.main.lastGate
  ({ ucirc := r.1, flop_front := tip.flps.map (fun f => mapSig r.2 f.next) }, r.2)

/-- The unroller `UnrollCirc2` after `k` steps. -/
def UnrollCirc2.steps (tip : TipCirc) (u : UnrollCirc2) : Nat → UnrollCirc2
  | 0 => u
  | k + 1 => (UnrollCirc2.step tip (UnrollCirc2.steps tip u k)).1

/-- The circuit `trivTip` with its safety property already proved: no property has status
Unknown. -/
def provedTip : TipCirc :=
  { trivTip with safe_props := [⟨⟨1, true⟩, pstat_Proved, none⟩] }

/-- The solver and the clausifier of the sequential step phase on `latchTip` with the
candidates `x`, `i` and `a`, after both copies of every candidate have been clausified. -/
def latchPairs : Solver × GMap Sig :=
  (clausifyPairs (unrollTwo latchTip).1 (unrollTwo latchTip).2.1 (unrollTwo latchTip).2.2
    [⟨1, false⟩, ⟨2, false⟩, ⟨3, false⟩] (Solver.new, GMap.clear)).1

/-- The loop of `solveMinimum` once more, recording the models of its satisfiable solve calls
in order. Every iteration makes one solve call: a satisfiable call contributes its model and
the loop goes on as in `solveMinLoop`, an unsatisfiable call ends the loop. The loop thus makes
one solve call more than there are models in the list. -/
def solveMinTrace (solve : SolveFn) (assumps ps : List Sig) (trigger : Option Sig) :
    Nat → Solver → List Sig → Option (List (Nat → Bool))
  | 0, _, _ => none
  | fuel + 1, s, assume =>
    match solve s (assume ++ trigger.toList) with
    | some m =>
      (solveMinTrace solve assumps ps trigger fuel
        (s.addClause ((ps.filter (fun p => decide (s.modelValue m p ≠ l_False))).map Sig.neg ++
          trigger.toList.map Sig.neg))
        (assumps ++ (ps.filter (fun p => decide (s.modelValue m p = l_False))).map Sig.neg)).map
        (fun ms => m :: ms)
    | none => some []

/-- The literals of `ps` that are true in `m2` are a proper subset of those true in `m`. -/
def ProperSub (A : Circ) (ps : List Sig) (m m2 : Nat → Bool) : Prop :=
  (∀ p ∈ ps, A.eval m2 p = true → A.eval m p = true) ∧
    ∃ p ∈ ps, A.eval m p = true ∧ A.eval m2 p = false

/-- The values that the stable embedding gives to the signals it builds for one fairness
signal `f`, in the arena `C`: `broken`, the next-state signal of the flop `b` on `pre_broken`,
is `(¬f ∧ challenged) ∨ pre_broken`, and `stable_just` is `challenged ∧ (f ∧ ¬broken)`. -/
def StableRel (C : Circ) (challenged : Sig) (b : Flop) (f sj : Sig) : Prop :=
  ∀ σ : Nat → Bool,
    C.eval σ b.next = ((!C.eval σ f && C.eval σ challenged) || σ b.gate) ∧
    C.eval σ sj = (C.eval σ challenged && (C.eval σ f && !C.eval σ b.next))

/-- The loop body of the stable embedding on the example circuit `liveTip`: the arena and the
flop table after it, and the property with its new signal. -/
def liveStable : (Circ × List Flop) × LivePropData :=
  embedProp true [] (liveTip.main, []) ⟨[⟨1, false⟩, ⟨2, false⟩, ⟨3, false⟩], pstat_Unknown, none⟩

/-- The circuit `xorTip` with a liveness property that has no signal, as it is read from a
file. -/
def xorLive : TipCirc := { xorTip with live_props := [⟨[], pstat_Unknown, none⟩] }

/-- The circuit `xorLive` after `embedFairness` with the standard embedding, which is how the
main program hands a circuit to bounded model checking: the embedding has allocated the reset
input (gate 6), which carries no input number. -/
def xorFair : TipCirc := embedFairness xorLive false

theorem gateVals_length (inp : Nat → Bool) (ds : List GateDef) :
    (gateVals inp ds).length = ds.length := by
  induction ds with
  | nil => rfl
  | cons d ds ih => cases d <;> simp [gateVals, ih]

theorem valAt_zero (vs : List Bool) : valAt vs 0 = true := by
  induction vs with
  | nil => simp [valAt]
  | cons v vs ih => simp [valAt, ih]

theorem valAt_cons_le (v : Bool) (vs : List Bool) (g : Nat) (h : g ≤ vs.length) :
    valAt (v :: vs) g = valAt vs g := by
  have : g ≠ vs.length + 1 := by omega
  simp [valAt, this]

theorem valAt_append_le (ws vs : List Bool) (g : Nat) (h : g ≤ vs.length) :
    valAt (ws ++ vs) g = valAt vs g := by
  induction ws with
  | nil => rfl
  | cons w ws ih =>
    have : g ≤ (ws ++ vs).length := by simp; omega
    rw [List.cons_append, valAt_cons_le _ _ _ this, ih]

theorem gateVals_append (inp : Nat → Bool) (l ds : List GateDef) :
    ∃ ws, gateVals inp (l ++ ds) = ws ++ gateVals inp ds := by
  induction l with
  | nil => exact ⟨[], rfl⟩
  | cons d l ih =>
    obtain ⟨ws, hws⟩ := ih
    cases d with
    | inp n =>
      refine ⟨inp ((l ++ ds).length + 1) :: ws, ?_⟩
      show inp ((l ++ ds).length + 1) :: gateVals inp (l ++ ds) = _
      rw [hws]; rfl
    | and x y =>
      refine ⟨(sigVal (ws ++ gateVals inp ds) x && sigVal (ws ++ gateVals inp ds) y) :: ws, ?_⟩
      show (sigVal (gateVals inp (l ++ ds)) x && sigVal (gateVals inp (l ++ ds)) y)
        :: gateVals inp (l ++ ds) = _
      rw [hws]; rfl

theorem defAt_range {ds : List GateDef} {g : Nat} {d : GateDef} (h : defAt ds g = some d) :
    1 ≤ g ∧ g ≤ ds.length := by
  induction ds with
  | nil => simp [defAt] at h
  | cons e ds ih =>
    simp only [defAt] at h
    split at h
    · simp; omega
    · have := ih h
      simp; omega

theorem gateVals_congr (inp inp' : Nat → Bool) (ds : List GateDef)
    (h : ∀ g n, defAt ds g = some (.inp n) → inp g = inp' g) :
    gateVals inp ds = gateVals inp' ds := by
  induction ds with
  | nil => rfl
  | cons d ds ih =>
    have ih' := ih (fun g n hd => h g n (by
      have hr := defAt_range hd
      have : g ≠ ds.length + 1 := by omega
      simp [defAt, this, hd]))
    cases d with
    | inp n => simp [gateVals, ih', h (ds.length + 1) n (by simp [defAt])]
    | and x y => simp [gateVals, ih']

theorem Ext.refl (c : Circ) : Ext c c := ⟨[], rfl⟩

theorem Ext.trans {a b c : Circ} (h1 : Ext a b) (h2 : Ext b c) : Ext a c := by
  obtain ⟨l1, e1⟩ := h1
  obtain ⟨l2, e2⟩ := h2
  exact ⟨l2 ++ l1, by rw [e2, e1, List.append_assoc]⟩

theorem Ext.length_le {c c' : Circ} (h : Ext c c') : c.gates.length ≤ c'.gates.length := by
  obtain ⟨l, e⟩ := h
  rw [e]; simp

theorem Ext.has {c c' : Circ} (h : Ext c c') {s : Sig} (hs : c.has s = true) :
    c'.has s = true := by
  have := h.length_le
  simp [Circ.has] at hs ⊢
  omega

theorem Ext.eval {c c' : Circ} (h : Ext c c') (inp : Nat → Bool) {s : Sig}
    (hs : c.has s = true) : c'.eval inp s = c.eval inp s := by
  obtain ⟨l, e⟩ := h
  obtain ⟨ws, hws⟩ := gateVals_append inp l c.gates
  simp [Circ.has] at hs
  simp only [Circ.eval, sigVal, e, hws]
  rw [valAt_append_le _ _ _ (by rw [gateVals_length]; exact hs)]

theorem Ext.cons (c : Circ) (d : GateDef) : Ext c ⟨d :: c.gates⟩ := ⟨[d], rfl⟩

theorem eval_congr (c : Circ) (inp inp' : Nat → Bool)
    (h : ∀ g n, defAt c.gates g = some (.inp n) → inp g = inp' g) (s : Sig) :
    c.eval inp s = c.eval inp' s := by
  simp only [Circ.eval, gateVals_congr inp inp' c.gates h]

theorem eval_xorSign (c : Circ) (inp : Nat → Bool) (s : Sig) (b : Bool) :
    c.eval inp (s.xorSign b) = xor (c.eval inp s) b := by
  simp [Circ.eval, sigVal, Sig.xorSign]

theorem eval_neg (c : Circ) (inp : Nat → Bool) (s : Sig) :
    c.eval inp s.neg = !(c.eval inp s) := by
  simp [Circ.eval, sigVal, Sig.neg]

theorem eval_sig_True (c : Circ) (inp : Nat → Bool) : c.eval inp sig_True = true := by
  simp [Circ.eval, sigVal, sig_True, gate_True, valAt_zero]

theorem has_xorSign (c : Circ) (s : Sig) (b : Bool) : c.has (s.xorSign b) = c.has s := rfl

theorem has_neg (c : Circ) (s : Sig) : c.has s.neg = c.has s := rfl

/-! ## Gate definitions and the unfolding of evaluation -/


theorem defAt_of_range (ds : List GateDef) (g : Nat) (h1 : 1 ≤ g) (h2 : g ≤ ds.length) :
    ∃ d, defAt ds g = some d := by
  induction ds with
  | nil => simp at h2; omega
  | cons e ds ih =>
    simp only [defAt]
    by_cases hg : g = ds.length + 1
    · exact ⟨e, by simp [hg]⟩
    · simp only [hg, if_false]
      exact ih (by simp at h2; omega)

theorem defAt_append (l ds : List GateDef) (g : Nat) (h : g ≤ ds.length) :
    defAt (l ++ ds) g = defAt ds g := by
  induction l with
  | nil => rfl
  | cons e l ih =>
    have : g ≠ (l ++ ds).length + 1 := by simp; omega
    show (if g = (l ++ ds).length + 1 then some e else defAt (l ++ ds) g) = _
    rw [if_neg this, ih]

theorem defAt_and_lt {ds : List GateDef} (hok : gatesOk ds = true) {g : Nat} {x y : Sig}
    (h : defAt ds g = some (.and x y)) : x.gate < g ∧ y.gate < g := by
  induction ds with
  | nil => simp [defAt] at h
  | cons e ds ih =>
    simp only [defAt] at h
    split at h
    · next hg =>
      cases h
      simp [gatesOk] at hok
      omega
    · cases e with
      | inp n => exact ih (by simpa [gatesOk] using hok) h
      | and a b =>
        simp [gatesOk] at hok
        exact ih hok.2 h

theorem valAt_unfold {ds : List GateDef} (hok : gatesOk ds = true) (inp : Nat → Bool) {g : Nat}
    {d : GateDef} (h : defAt ds g = some d) :
    valAt (gateVals inp ds) g =
      match d with
      | .inp _ => inp g
      | .and x y => sigVal (gateVals inp ds) x && sigVal (gateVals inp ds) y := by
  induction ds with
  | nil => simp [defAt] at h
  | cons e ds ih =>
    simp only [defAt] at h
    split at h
    · next hg =>
      cases h
      cases d with
      | inp n => simp [gateVals, valAt, gateVals_length, hg]
      | and x y =>
        simp [gatesOk] at hok
        have hx : x.gate ≠ ds.length + 1 := by omega
        have hy : y.gate ≠ ds.length + 1 := by omega
        simp [gateVals, valAt, gateVals_length, hg, sigVal, hx, hy]
    · next hg =>
      have hr := defAt_range h
      have hok' : gatesOk ds = true := by
        cases e with
        | inp n => simpa [gatesOk] using hok
        | and a b => simp [gatesOk] at hok; exact hok.2
      have hlt := fun x y (hd : d = .and x y) => defAt_and_lt hok' (hd ▸ h)
      have e1 : ∀ v, valAt (v :: gateVals inp ds) g = valAt (gateVals inp ds) g := fun v =>
        valAt_cons_le _ _ _ (by rw [gateVals_length]; exact hr.2)
      have key := ih hok' h
      cases e with
      | inp n =>
        simp only [gateVals, e1, key]
        cases d with
        | inp m => rfl
        | and x y =>
          have := hlt x y rfl
          simp only [sigVal]
          rw [valAt_cons_le _ _ x.gate (by rw [gateVals_length]; omega),
            valAt_cons_le _ _ y.gate (by rw [gateVals_length]; omega)]
      | and a b =>
        simp only [gateVals, e1, key]
        cases d with
        | inp m => rfl
        | and x y =>
          have := hlt x y rfl
          simp only [sigVal]
          rw [valAt_cons_le _ _ x.gate (by rw [gateVals_length]; omega),
            valAt_cons_le _ _ y.gate (by rw [gateVals_length]; omega)]

/-! ## Gate creation -/

theorem findAnd_defAt {ds : List GateDef} {x y : Sig} {g : Nat}
    (h : findAnd ds x y = some g) : defAt ds g = some (.and x y) := by
  induction ds with
  | nil => simp [findAnd] at h
  | cons e ds ih =>
    simp only [findAnd] at h
    split at h
    · next he =>
      cases h
      simp [defAt, he]
    · have hd := ih h
      have hr := defAt_range hd
      have : g ≠ ds.length + 1 := by omega
      simp [defAt, this, hd]

theorem eval_gate_inp {c : Circ} (hok : c.ok = true) (inp : Nat → Bool) {g n : Nat}
    (h : defAt c.gates g = some (.inp n)) : c.eval inp ⟨g, false⟩ = inp g := by
  have := valAt_unfold hok inp h
  simpa [Circ.eval, sigVal] using this

theorem eval_gate_and {c : Circ} (hok : c.ok = true) (inp : Nat → Bool) {g : Nat} {x y : Sig}
    (h : defAt c.gates g = some (.and x y)) :
    c.eval inp ⟨g, false⟩ = (c.eval inp x && c.eval inp y) := by
  have := valAt_unfold hok inp h
  simpa [Circ.eval, sigVal] using this

theorem mkInp_spec (c : Circ) (hok : c.ok = true) (n : Nat) :
    Ext c (c.mkInp n).1 ∧ (c.mkInp n).1.ok = true ∧ (c.mkInp n).1.has (c.mkInp n).2 = true ∧
      (c.mkInp n).2 = ⟨c.gates.length + 1, false⟩ ∧
      (c.mkInp n).1.gates = .inp n :: c.gates := by
  refine ⟨Ext.cons c _, ?_, ?_, rfl, rfl⟩
  · simpa [Circ.mkInp, Circ.ok, gatesOk] using hok
  · simp [Circ.mkInp, Circ.has]

theorem mkAnd_spec (c : Circ) (hok : c.ok = true) (x y : Sig) (hx : c.has x = true)
    (hy : c.has y = true) :
    Ext c (c.mkAnd x y).1 ∧ (c.mkAnd x y).1.ok = true ∧
      (c.mkAnd x y).1.has (c.mkAnd x y).2 = true ∧
      ∀ inp, (c.mkAnd x y).1.eval inp (c.mkAnd x y).2 =
        ((c.mkAnd x y).1.eval inp x && (c.mkAnd x y).1.eval inp y) := by
  unfold Circ.mkAnd
  split
  · next g hg =>
    have hd := findAnd_defAt hg
    have hr := defAt_range hd
    refine ⟨Ext.refl c, hok, ?_, fun inp => eval_gate_and hok inp hd⟩
    simp [Circ.has]; omega
  · next hg =>
    simp only [Circ.has, decide_eq_true_eq] at hx hy
    have hok' : gatesOk (.and x y :: c.gates) = true := by
      simp [gatesOk, hx, hy]; exact hok
    refine ⟨Ext.cons c _, hok', by simp [Circ.has], fun inp => ?_⟩
    exact eval_gate_and (c := ⟨.and x y :: c.gates⟩) hok' inp (by simp [defAt])

theorem mkOr_spec (c : Circ) (hok : c.ok = true) (x y : Sig) (hx : c.has x = true)
    (hy : c.has y = true) :
    Ext c (c.mkOr x y).1 ∧ (c.mkOr x y).1.ok = true ∧
      (c.mkOr x y).1.has (c.mkOr x y).2 = true ∧
      ∀ inp, (c.mkOr x y).1.eval inp (c.mkOr x y).2 =
        ((c.mkOr x y).1.eval inp x || (c.mkOr x y).1.eval inp y) := by
  obtain ⟨h1, h2, h3, h4⟩ := mkAnd_spec c hok x.neg y.neg (by rwa [has_neg]) (by rwa [has_neg])
  refine ⟨h1, h2, by simpa [Circ.mkOr, has_neg] using h3, fun inp => ?_⟩
  simp only [Circ.mkOr, eval_neg, h4 inp]
  cases (c.mkAnd x.neg y.neg).1.eval inp x <;> cases (c.mkAnd x.neg y.neg).1.eval inp y <;> rfl

/-! ## Maps that respect the gate structure -/

theorem mapSig_has {src : List GateDef} {dst : Circ} {m : GMap Sig} (hl : Local src dst m)
    {x a : Sig} (h : mapSig m x = some a) : dst.has a = true := by
  unfold mapSig at h
  cases hm : m x.gate with
  | none => simp [hm] at h
  | some s =>
    simp [hm] at h
    subst h
    rw [has_xorSign]
    exact (hl _ _ hm).1

theorem mapSig_defined {m : GMap Sig} {x : Sig} (h : m x.gate ≠ none) :
    ∃ a, mapSig m x = some a := by
  cases hm : m x.gate with
  | none => exact absurd hm h
  | some t => exact ⟨t.xorSign x.sign, by simp [mapSig, hm]⟩

theorem mapSig_inv {m : GMap Sig} {x a : Sig} (h : mapSig m x = some a) :
    ∃ t, m x.gate = some t ∧ a = t.xorSign x.sign := by
  unfold mapSig at h
  cases hm : m x.gate with
  | none => simp [hm] at h
  | some t =>
    simp [hm] at h
    exact ⟨t, rfl, h.symm⟩

theorem Local.mono {src : List GateDef} {dst dst' : Circ} {m : GMap Sig} (he : Ext dst dst')
    (hl : Local src dst m) : Local src dst' m := by
  intro g s hs
  obtain ⟨h1, h2, h3⟩ := hl g s hs
  refine ⟨he.has h1, h2, fun x y hd => ?_⟩
  obtain ⟨a, b, ha, hb, hv⟩ := h3 x y hd
  refine ⟨a, b, ha, hb, fun asg => ?_⟩
  rw [he.eval asg h1, he.eval asg (mapSig_has hl ha), he.eval asg (mapSig_has hl hb)]
  exact hv asg

theorem mapSig_set_of_some {m : GMap Sig} {g : Nat} (hg : m g = none) (s : Sig) {x a : Sig}
    (h : mapSig m x = some a) : mapSig (m.set g s) x = some a := by
  unfold mapSig at h ⊢
  have : x.gate ≠ g := by
    intro e
    rw [e, hg] at h
    simp at h
  simp only [GMap.set, this, if_false]
  exact h

theorem Local.set {src : List GateDef} {dst : Circ} {m : GMap Sig} (hl : Local src dst m)
    {g : Nat} {s : Sig} (hg : m g = none) (hg0 : g = 0 → s = sig_True) (hs : dst.has s = true)
    (hd : ∀ x y, defAt src g = some (.and x y) →
      ∃ a b, mapSig m x = some a ∧ mapSig m y = some b ∧
        ∀ asg, dst.eval asg s = (dst.eval asg a && dst.eval asg b)) :
    Local src dst (m.set g s) := by
  intro g' s' hs'
  by_cases e : g' = g
  · subst e
    simp [GMap.set] at hs'
    subst hs'
    refine ⟨hs, hg0, fun x y hxy => ?_⟩
    obtain ⟨a, b, ha, hb, hv⟩ := hd x y hxy
    exact ⟨a, b, mapSig_set_of_some hg _ ha, mapSig_set_of_some hg _ hb, hv⟩
  · simp only [GMap.set, e, if_false] at hs'
    obtain ⟨h1, h2, h3⟩ := hl g' s' hs'
    refine ⟨h1, h2, fun x y hxy => ?_⟩
    obtain ⟨a, b, ha, hb, hv⟩ := h3 x y hxy
    exact ⟨a, b, mapSig_set_of_some hg _ ha, mapSig_set_of_some hg _ hb, hv⟩

/-- Soundness of a structure-respecting map: when the images of the mapped inputs take the
values of a source valuation `τ`, the image of every mapped gate takes the gate's value
under `τ`. -/
theorem Local.sound {src : List GateDef} {dst : Circ} {m : GMap Sig}
    (hok : gatesOk src = true) (hl : Local src dst m) (asg τ : Nat → Bool)
    (hin : ∀ g n s, defAt src g = some (.inp n) → m g = some s → dst.eval asg s = τ g) :
    ∀ g s, g ≤ src.length → m g = some s → dst.eval asg s = valAt (gateVals τ src) g := by
  intro g
  induction g using Nat.strong_induction_on with
  | _ g ih =>
    intro s hg hs
    obtain ⟨_, h0, hand⟩ := hl g s hs
    by_cases g0 : g = 0
    · subst g0
      rw [h0 rfl, eval_sig_True, valAt_zero]
    · obtain ⟨d, hd⟩ := defAt_of_range src g (by omega) hg
      rw [valAt_unfold hok τ hd]
      cases d with
      | inp n => exact hin g n s hd hs
      | and x y =>
        obtain ⟨a, b, ha, hb, hv⟩ := hand x y hd
        have hlt := defAt_and_lt hok hd
        rw [hv asg]
        have key : ∀ (z c : Sig), z.gate < g → mapSig m z = some c →
            dst.eval asg c = sigVal (gateVals τ src) z := by
          intro z c hz hc
          unfold mapSig at hc
          cases hm : m z.gate with
          | none => simp [hm] at hc
          | some t =>
            simp [hm] at hc
            subst hc
            rw [eval_xorSign, ih z.gate hz t (by omega) hm]
            rfl
        rw [key x a hlt.1 ha, key y b hlt.2 hb]

theorem Local.sound_sig {src : Circ} {dst : Circ} {m : GMap Sig}
    (hok : src.ok = true) (hl : Local src.gates dst m) (asg τ : Nat → Bool)
    (hin : ∀ g n s, defAt src.gates g = some (.inp n) → m g = some s → dst.eval asg s = τ g)
    {x a : Sig} (hx : src.has x = true) (ha : mapSig m x = some a) :
    dst.eval asg a = src.eval τ x := by
  unfold mapSig at ha
  cases hm : m x.gate with
  | none => simp [hm] at ha
  | some t =>
    simp [hm] at ha
    subst ha
    simp only [Circ.has, decide_eq_true_eq] at hx
    rw [eval_xorSign, hl.sound hok asg τ hin x.gate t hx hm]
    rfl

/-! ## Correctness of `copyCirc` -/

theorem defAt_suffix_head (pre : List GateDef) (d : GateDef) (ds : List GateDef) :
    defAt (pre ++ d :: ds) (ds.length + 1) = some d := by
  rw [defAt_append _ _ _ (by simp)]
  simp [defAt]

theorem copyGates_spec (full : List GateDef) (hok : gatesOk full = true) :
    ∀ (ds pre : List GateDef), full = pre ++ ds → ∀ (dst : Circ) (m : GMap Sig),
      dst.ok = true → Local full dst m → m 0 ≠ none →
      CopyRes full ds.length dst m (copyGates ds dst m).1 (copyGates ds dst m).2 := by
  intro ds
  induction ds with
  | nil =>
    intro pre _ dst m hdst hl h0
    refine ⟨Ext.refl _, hdst, hl, fun _ _ h => h, fun _ _ => rfl, ?_, ?_, ?_⟩
    · intro g hg
      have : g = 0 := by simpa using hg
      subst this
      exact h0
    · intro g k hg _ hd
      have := defAt_range hd
      simp at hg
      omega
    · intro asg τ
      refine ⟨asg, fun _ _ => rfl, fun g k s _ h1 h2 => ?_⟩
      simp only [copyGates] at h2
      rw [h1] at h2
      cases h2
  | cons d ds ih =>
    intro pre hfull dst m hdst hl h0
    have IH := ih (pre ++ [d]) (by rw [hfull]; simp) dst m hdst hl h0
    have hdef : defAt full (ds.length + 1) = some d := by
      rw [hfull]; exact defAt_suffix_head pre d ds
    simp only [copyGates]
    generalize copyGates ds dst m = r at IH ⊢
    cases hr : r.2 (ds.length + 1) with
    | some s0 =>
      simp only []
      refine ⟨IH.ext, IH.ok, IH.loc, IH.keep, ?_, ?_, ?_, IH.compl⟩
      · intro g hg
        exact IH.above g (by simp at hg; omega)
      · intro g hg
        by_cases e : g = ds.length + 1
        · rw [e, hr]; simp
        · exact IH.dom g (by simp at hg; omega)
      · intro g k hg hm hd
        by_cases e : g = ds.length + 1
        · have := IH.above (ds.length + 1) (by omega)
          rw [e] at hm
          rw [hm, hr] at this
          simp at this
        · exact IH.fresh g k (by simp at hg; omega) hm hd
    | none =>
      have hmnone : m (ds.length + 1) = none := by
        rw [← IH.above (ds.length + 1) (by omega)]; exact hr
      cases d with
      | inp num =>
        simp only []
        obtain ⟨q1, q2, q3, q4, q5⟩ := mkInp_spec r.1 IH.ok num
        have hloc : Local full (r.1.mkInp num).1 (r.2.set (ds.length + 1) (r.1.mkInp num).2) := by
          refine (IH.loc.mono q1).set hr (fun e => absurd e (by omega)) q3 ?_
          intro x y hxy
          rw [hdef] at hxy
          cases hxy
        refine ⟨IH.ext.trans q1, q2, hloc, ?_, ?_, ?_, ?_, ?_⟩
        rotate_right
        · intro asg τ
          obtain ⟨asg1, a1, a2⟩ := IH.compl asg τ
          refine ⟨fun u => if u = r.1.gates.length + 1 then τ (ds.length + 1) else asg1 u,
            ?_, ?_⟩
          · intro u hu
            have := IH.ext.length_le
            have hne : u ≠ r.1.gates.length + 1 := by omega
            simp only [hne, if_false]
            exact a1 u hu
          · intro g k s hd hm hs
            by_cases e : g = ds.length + 1
            · subst e
              simp [GMap.set] at hs
              subst hs
              rw [q4, eval_gate_inp q2 _ (n := num) (by rw [q5]; simp [defAt])]
              simp
            · simp only [GMap.set, e, if_false] at hs
              rw [q1.eval _ (IH.loc g s hs).1]
              rw [← a2 g k s hd hm hs]
              apply eval_congr
              intro u n hu
              have := defAt_range hu
              have hne : u ≠ r.1.gates.length + 1 := by omega
              simp only [hne, if_false]
        · intro g s hs
          have h1 := IH.keep g s hs
          have : g ≠ ds.length + 1 := by
            intro e; rw [e, hr] at h1; cases h1
          simp [GMap.set, this, h1]
        · intro g hg
          have : g ≠ ds.length + 1 := by simp at hg; omega
          simp only [GMap.set, this, if_false]
          exact IH.above g (by simp at hg; omega)
        · intro g hg
          by_cases e : g = ds.length + 1
          · simp [GMap.set, e]
          · simp only [GMap.set, e, if_false]
            exact IH.dom g (by simp at hg; omega)
        · intro g k hg hm hd
          by_cases e : g = ds.length + 1
          · subst e
            rw [hdef] at hd
            cases hd
            refine ⟨r.1.gates.length + 1, by simp [GMap.set, q4], ?_, ?_⟩
            · have := IH.ext.length_le
              omega
            · rw [q5]; simp [defAt]
          · obtain ⟨u, hu1, hu2, hu3⟩ := IH.fresh g k (by simp at hg; omega) hm hd
            refine ⟨u, by simp [GMap.set, e, hu1], hu2, ?_⟩
            have hur := defAt_range hu3
            rw [q5]
            have : u ≠ r.1.gates.length + 1 := by omega
            simp [defAt, this, hu3]
      | and x y =>
        have hlt := defAt_and_lt hok hdef
        have hxs : ∃ a, mapSig r.2 x = some a := mapSig_defined (IH.dom x.gate (by omega))
        have hys : ∃ b, mapSig r.2 y = some b := mapSig_defined (IH.dom y.gate (by omega))
        obtain ⟨a, ha⟩ := hxs
        obtain ⟨b, hb⟩ := hys
        simp only [ha, hb]
        obtain ⟨q1, q2, q3, q4⟩ := mkAnd_spec r.1 IH.ok a b (mapSig_has IH.loc ha)
          (mapSig_has IH.loc hb)
        have hloc : Local full (r.1.mkAnd a b).1 (r.2.set (ds.length + 1) (r.1.mkAnd a b).2) := by
          refine (IH.loc.mono q1).set hr (fun e => absurd e (by omega)) q3 ?_
          intro x' y' hxy
          rw [hdef] at hxy
          cases hxy
          exact ⟨a, b, ha, hb, q4⟩
        refine ⟨IH.ext.trans q1, q2, hloc, ?_, ?_, ?_, ?_, ?_⟩
        rotate_right
        · intro asg τ
          obtain ⟨asg1, a1, a2⟩ := IH.compl asg τ
          refine ⟨asg1, a1, ?_⟩
          intro g k s hd hm hs
          have e : g ≠ ds.length + 1 := by
            intro e
            rw [e, hdef] at hd
            cases hd
          simp only [GMap.set, e, if_false] at hs
          rw [q1.eval _ (IH.loc g s hs).1]
          exact a2 g k s hd hm hs
        · intro g s hs
          have h1 := IH.keep g s hs
          have : g ≠ ds.length + 1 := by
            intro e; rw [e, hr] at h1; cases h1
          simp [GMap.set, this, h1]
        · intro g hg
          have : g ≠ ds.length + 1 := by simp at hg; omega
          simp only [GMap.set, this, if_false]
          exact IH.above g (by simp at hg; omega)
        · intro g hg
          by_cases e : g = ds.length + 1
          · simp [GMap.set, e]
          · simp only [GMap.set, e, if_false]
            exact IH.dom g (by simp at hg; omega)
        · intro g k hg hm hd
          by_cases e : g = ds.length + 1
          · subst e
            rw [hdef] at hd
            cases hd
          · obtain ⟨u, hu1, hu2, hu3⟩ := IH.fresh g k (by simp at hg; omega) hm hd
            refine ⟨u, by simp [GMap.set, e, hu1], hu2, ?_⟩
            obtain ⟨l, hl⟩ := q1
            have hur := defAt_range hu3
            rw [hl, defAt_append _ _ _ hur.2]
            exact hu3

/-! ## Inputs, frames and the frontier seed -/

theorem mem_inputsOf {ds : List GateDef} {g : Nat} :
    g ∈ inputsOf ds ↔ ∃ n, defAt ds g = some (.inp n) := by
  induction ds with
  | nil => simp [inputsOf, defAt]
  | cons d ds ih =>
    cases d with
    | inp k =>
      simp only [inputsOf, List.mem_append, List.mem_singleton, ih, defAt]
      constructor
      · rintro (⟨n, hn⟩ | h)
        · have := defAt_range hn
          have hne : g ≠ ds.length + 1 := by omega
          exact ⟨n, by simp [hne, hn]⟩
        · exact ⟨k, by simp [h]⟩
      · rintro ⟨n, hn⟩
        by_cases e : g = ds.length + 1
        · exact Or.inr e
        · simp only [e, if_false] at hn
          exact Or.inl ⟨n, hn⟩
    | and x y =>
      simp only [inputsOf, ih, defAt]
      constructor
      · rintro ⟨n, hn⟩
        have := defAt_range hn
        have hne : g ≠ ds.length + 1 := by omega
        exact ⟨n, by simp [hne, hn]⟩
      · rintro ⟨n, hn⟩
        by_cases e : g = ds.length + 1
        · simp [e] at hn
        · simp only [e, if_false] at hn
          exact ⟨n, hn⟩

theorem isInp_iff {c : Circ} {g : Nat} :
    c.isInp g = true ↔ ∃ n, defAt c.gates g = some (.inp n) := by
  unfold Circ.isInp Circ.gateDef
  cases h : defAt c.gates g with
  | none => simp
  | some d => cases d <;> simp

theorem number_of_def {c : Circ} {g n : Nat} (h : defAt c.gates g = some (.inp n)) :
    c.number g = n := by
  simp [Circ.number, Circ.gateDef, h]

theorem record_getD_same (fr : IFrame) (k g : Nat) :
    (fr.record k g).getD k none = some g := by
  unfold IFrame.record growTo
  rw [List.getD_eq_getElem?_getD, List.getElem?_set]
  have : k < fr.length + (k + 1 - fr.length) := by omega
  simp [this]

theorem record_getD_other (fr : IFrame) (k g n : Nat) (h : n ≠ k) :
    (fr.record k g).getD n none = fr.getD n none := by
  unfold IFrame.record growTo
  rw [List.getD_eq_getElem?_getD, List.getD_eq_getElem?_getD, List.getElem?_set]
  have hk : ¬ k = n := fun e => h e.symm
  simp only [hk, if_false]
  by_cases hn : n < fr.length
  · rw [List.getElem?_append_left hn]
  · rw [List.getElem?_append_right (by omega)]
    have : fr[n]? = none := List.getElem?_eq_none (by omega)
    rw [this]
    simp only [List.getElem?_replicate]
    split <;> rfl

theorem undef_getD_other (fr : IFrame) (k n : Nat) (h : n ≠ k) :
    ((growTo fr (k + 1) none).set k none).getD n none = fr.getD n none := by
  unfold growTo
  rw [List.getD_eq_getElem?_getD, List.getD_eq_getElem?_getD, List.getElem?_set]
  have hk : ¬ k = n := fun e => h e.symm
  simp only [hk, if_false]
  by_cases hn : n < fr.length
  · rw [List.getElem?_append_left hn]
  · rw [List.getElem?_append_right (by omega)]
    have : fr[n]? = none := List.getElem?_eq_none (by omega)
    rw [this]
    simp only [List.getElem?_replicate]
    split <;> rfl

theorem recordInputs_keep (c : Circ) (m : GMap Sig) (n : Nat) (v : Option Nat) :
    ∀ (inps : List Nat) (fr : IFrame), (∀ g ∈ inps, c.number g ≠ n) →
      fr.getD n none = v → (recordInputs c m inps fr).getD n none = v := by
  intro inps
  induction inps with
  | nil => intro fr _ h; exact h
  | cons g gs ih =>
    intro fr hne h
    have hg := hne g (by simp)
    have hgs : ∀ g' ∈ gs, c.number g' ≠ n := fun g' hg' => hne g' (by simp [hg'])
    simp only [recordInputs]
    split
    · split
      · apply ih _ hgs
        rw [record_getD_other _ _ _ _ (fun e => hg e.symm)]
        exact h
      · apply ih _ hgs
        rw [undef_getD_other _ _ _ (fun e => hg e.symm)]
        exact h
    · exact ih _ hgs h

theorem recordInputs_get (c : Circ) (m : GMap Sig) :
    ∀ (inps : List Nat) (fr : IFrame), (inps.map c.number).Nodup →
      (∀ g ∈ inps, c.number g ≠ UINT32_MAX) →
      ∀ g ∈ inps, ∀ s, m g = some s →
        (recordInputs c m inps fr).getD (c.number g) none = some s.gate := by
  intro inps
  induction inps with
  | nil => intro fr _ _ g hg; simp at hg
  | cons g0 gs ih =>
    intro fr hnd hnum g hg s hs
    simp only [List.map_cons, List.nodup_cons, List.mem_map, not_exists, not_and] at hnd
    have hnum0 := hnum g0 (by simp)
    have hnums : ∀ g' ∈ gs, c.number g' ≠ UINT32_MAX := fun g' hg' => hnum g' (by simp [hg'])
    simp only [recordInputs, hnum0, ne_eq, not_false_eq_true, if_true]
    rcases List.mem_cons.mp hg with e | hmem
    · subst e
      rw [hs]
      apply recordInputs_keep
      · intro g' hg' e
        exact hnd.1 g' hg' e
      · exact record_getD_same _ _ _
    · cases hm0 : m g0 with
      | none => exact ih _ hnd.2 hnums g hmem s hs
      | some s0 => exact ih _ hnd.2 hnums g hmem s hs

theorem seedFront_spec (ev : Option Sig → Bool) :
    ∀ (fs : List Flop) (ss : List (Option Sig)) (m : GMap Sig), fs.length = ss.length →
      (fs.map (fun f => f.gate)).Nodup →
      (∀ g, g ∉ fs.map (fun f => f.gate) →
        seedFront fs ss m g = m g ∧ flopVal fs (ss.map ev) g = none) ∧
      (∀ p ∈ fs.zip ss, seedFront fs ss m p.1.gate = p.2 ∧
        flopVal fs (ss.map ev) p.1.gate = some (ev p.2)) := by
  intro fs
  induction fs with
  | nil =>
    intro ss m _ _
    exact ⟨fun g _ => ⟨by cases ss <;> rfl, rfl⟩, fun p hp => by simp at hp⟩
  | cons f fs ih =>
    intro ss m hlen hnd
    cases ss with
    | nil => simp at hlen
    | cons s ss =>
      simp only [List.length_cons, Nat.add_right_cancel_iff] at hlen
      simp only [List.map_cons, List.nodup_cons] at hnd
      obtain ⟨ih1, ih2⟩ := ih ss (m.setO f.gate s) hlen hnd.2
      constructor
      · intro g hg
        simp only [List.map_cons, List.mem_cons, not_or] at hg
        have hne : ¬ f.gate = g := fun e => hg.1 e.symm
        obtain ⟨a, b⟩ := ih1 g hg.2
        refine ⟨?_, by simp [flopVal, hne, b]⟩
        simp only [seedFront, a, GMap.setO, hg.1, if_false]
      · intro p hp
        simp only [List.zip_cons_cons, List.mem_cons] at hp
        rcases hp with e | hp
        · subst e
          obtain ⟨a, _⟩ := ih1 f.gate hnd.1
          refine ⟨?_, by simp [flopVal]⟩
          simp only [seedFront, a, GMap.setO, if_true]
        · obtain ⟨a, b⟩ := ih2 p hp
          have hmem : p.1.gate ∈ fs.map (fun f => f.gate) :=
            List.mem_map.mpr ⟨p.1, (List.of_mem_zip hp).1, rfl⟩
          have hne : ¬ f.gate = p.1.gate := fun e => hnd.1 (e ▸ hmem)
          exact ⟨by simp only [seedFront, a], by simp [flopVal, hne, b]⟩

/-! ## One unrolling of `main` -/

theorem wf_main_ok {tip : TipCirc} (h : tip.wf = true) : tip.main.ok = true := by
  simp [TipCirc.wf] at h; exact h.1.1.1.1.1.1.1

theorem wf_init_ok {tip : TipCirc} (h : tip.wf = true) : tip.init.ok = true := by
  simp [TipCirc.wf] at h; exact h.1.1.1.1.1.1.2

theorem wf_flop {tip : TipCirc} (h : tip.wf = true) {f : Flop} (hf : f ∈ tip.flps) :
    tip.main.isInp f.gate = true ∧ tip.init.has f.init = true ∧ tip.main.has f.next = true := by
  simp [TipCirc.wf] at h
  have := h.1.1.1.1.1.2 f hf
  exact ⟨this.1.1, this.1.2, this.2⟩

theorem wf_nodup {tip : TipCirc} (h : tip.wf = true) :
    (tip.flps.map (fun f => f.gate)).Nodup := by
  simp [TipCirc.wf] at h; exact h.1.1.1.1.2

theorem wf_safe {tip : TipCirc} (h : tip.wf = true) {p : PropData} (hp : p ∈ tip.safe_props) :
    tip.main.has p.sig = true := by
  simp [TipCirc.wf] at h; exact h.1.1.1.2 p hp

theorem wf_live {tip : TipCirc} (h : tip.wf = true) {p : LivePropData}
    (hp : p ∈ tip.live_props) {s : Sig} (hs : s ∈ p.sigs) : tip.main.has s = true := by
  simp [TipCirc.wf] at h; exact h.1.1.2 p hp s hs

theorem isFlop_false_iff {tip : TipCirc} {g : Nat} :
    tip.isFlop g = false ↔ g ∉ tip.flps.map (fun f => f.gate) := by
  simp [TipCirc.isFlop]

theorem mem_zip_of_mem_left {α β : Type} :
    ∀ (l : List α) (r : List β), l.length = r.length → ∀ a ∈ l, ∃ b, (a, b) ∈ l.zip r := by
  intro l
  induction l with
  | nil => intro r _ a ha; simp at ha
  | cons x l ih =>
    intro r hlen a ha
    cases r with
    | nil => simp at hlen
    | cons y r =>
      simp only [List.length_cons, Nat.add_right_cancel_iff] at hlen
      rcases List.mem_cons.mp ha with e | h
      · exact ⟨y, by simp [e]⟩
      · obtain ⟨b, hb⟩ := ih r hlen a h
        exact ⟨b, by simp [hb]⟩

theorem copyCirc_full (src dst : Circ) (m : GMap Sig) :
    copyCirc src dst m src.lastGate = copyGates src.gates dst (m.set gate_True sig_True) := by
  simp [copyCirc, Circ.lastGate]

theorem seeded_local (tip : TipCirc) (hwf : tip.wf = true) (uc : Circ)
    (front : List (Option Sig)) (hlen : front.length = tip.flps.length)
    (hfront : ∀ o ∈ front, ∃ s, o = some s ∧ uc.has s = true) :
    Local tip.main.gates uc ((seedFront tip.flps front GMap.clear).set gate_True sig_True) := by
  obtain ⟨s1, s2⟩ := seedFront_spec (fun _ => false) tip.flps front GMap.clear hlen.symm
    (wf_nodup hwf)
  intro g s hs
  by_cases g0 : g = 0
  · subst g0
    simp [GMap.set, gate_True] at hs
    subst hs
    refine ⟨by simp [Circ.has, sig_True, gate_True], fun _ => rfl, fun x y hd => ?_⟩
    have := defAt_range hd
    omega
  · simp only [GMap.set, gate_True, g0, if_false] at hs
    by_cases hmem : g ∈ tip.flps.map (fun f => f.gate)
    · obtain ⟨f, hf, rfl⟩ := List.mem_map.mp hmem
      obtain ⟨o, ho⟩ := mem_zip_of_mem_left tip.flps front hlen.symm f hf
      have h1 := (s2 _ ho).1
      simp only at h1
      rw [hs] at h1
      obtain ⟨s', hs', hhas⟩ := hfront o (List.of_mem_zip ho).2
      rw [← h1] at hs'
      cases hs'
      refine ⟨hhas, fun e => absurd e g0, fun x y hd => ?_⟩
      obtain ⟨n, hn⟩ := isInp_iff.mp (wf_flop hwf hf).1
      rw [hn] at hd
      cases hd
    · have := (s1 g hmem).1
      rw [this] at hs
      simp [GMap.clear] at hs

/-- What one copy of `main` seeded with a frontier achieves. -/
theorem unroll_copy_spec (tip : TipCirc) (hwf : tip.wf = true) (uc : Circ)
    (front : List (Option Sig)) (huc : uc.ok = true) (hlen : front.length = tip.flps.length)
    (hfront : ∀ o ∈ front, ∃ s, o = some s ∧ uc.has s = true) :
    Ext uc (copyCirc tip.main uc (seedFront tip.flps front GMap.clear) tip.main.lastGate).1 ∧
    (copyCirc tip.main uc (seedFront tip.flps front GMap.clear) tip.main.lastGate).1.ok = true ∧
    Local tip.main.gates
      (copyCirc tip.main uc (seedFront tip.flps front GMap.clear) tip.main.lastGate).1
      (copyCirc tip.main uc (seedFront tip.flps front GMap.clear) tip.main.lastGate).2 ∧
    (∀ g, g ≤ tip.main.gates.length →
      (copyCirc tip.main uc (seedFront tip.flps front GMap.clear) tip.main.lastGate).2 g
        ≠ none) ∧
    (∀ p ∈ tip.flps.zip front,
      (copyCirc tip.main uc (seedFront tip.flps front GMap.clear) tip.main.lastGate).2 p.1.gate
        = p.2) ∧
    (∀ g k, defAt tip.main.gates g = some (.inp k) → tip.isFlop g = false →
      ∃ u, (copyCirc tip.main uc (seedFront tip.flps front GMap.clear) tip.main.lastGate).2 g
          = some ⟨u, false⟩ ∧ uc.gates.length < u ∧
        defAt (copyCirc tip.main uc (seedFront tip.flps front GMap.clear)
          tip.main.lastGate).1.gates u = some (.inp k)) := by
  rw [copyCirc_full]
  have hloc := seeded_local tip hwf uc front hlen hfront
  have R := copyGates_spec tip.main.gates (wf_main_ok hwf) tip.main.gates [] rfl uc _ huc hloc
    (by simp [GMap.set, gate_True])
  obtain ⟨s1, s2⟩ := seedFront_spec (fun _ => false) tip.flps front GMap.clear hlen.symm
    (wf_nodup hwf)
  refine ⟨R.ext, R.ok, R.loc, R.dom, ?_, ?_⟩
  · intro p hp
    obtain ⟨s', hs', _⟩ := hfront p.2 (List.of_mem_zip hp).2
    have hg0 : p.1.gate ≠ 0 := by
      obtain ⟨n, hn⟩ := isInp_iff.mp (wf_flop hwf (List.of_mem_zip hp).1).1
      have := defAt_range hn
      omega
    rw [hs']
    apply R.keep
    simp only [GMap.set, gate_True, hg0, if_false]
    rw [(s2 p hp).1, hs']
  · intro g k hd hnf
    have hr := defAt_range hd
    have hg0 : g ≠ 0 := by omega
    apply R.fresh g k hr.2 _ hd
    simp only [GMap.set, gate_True, hg0, if_false]
    rw [(s1 g (isFlop_false_iff.mp hnf)).1]
    rfl

/-- The images of one copy of `main` take the values that the gates of `main` take when the
flops read the values of the frontier and the other inputs read the values of their images. -/
theorem unroll_copy_sound (tip : TipCirc) (hwf : tip.wf = true) (uc : Circ)
    (front : List (Option Sig)) (huc : uc.ok = true) (hlen : front.length = tip.flps.length)
    (hfront : ∀ o ∈ front, ∃ s, o = some s ∧ uc.has s = true) (asg : Nat → Bool)
    (τ : Nat → Bool)
    (hτ : ∀ g k, defAt tip.main.gates g = some (.inp k) → tip.isFlop g = false →
      τ g = (copyCirc tip.main uc (seedFront tip.flps front GMap.clear) tip.main.lastGate).1.evalO
        asg ((copyCirc tip.main uc (seedFront tip.flps front GMap.clear)
          tip.main.lastGate).2 g))
    {x a : Sig} (hx : tip.main.has x = true)
    (ha : mapSig (copyCirc tip.main uc (seedFront tip.flps front GMap.clear)
      tip.main.lastGate).2 x = some a) :
    (copyCirc tip.main uc (seedFront tip.flps front GMap.clear) tip.main.lastGate).1.eval asg a
      = tip.main.eval (tip.mainVal (front.map (uc.evalO asg)) τ) x := by
  obtain ⟨h1, h2, h3, h4, h5, h6⟩ := unroll_copy_spec tip hwf uc front huc hlen hfront
  obtain ⟨s1, s2⟩ := seedFront_spec (uc.evalO asg) tip.flps front GMap.clear hlen.symm
    (wf_nodup hwf)
  generalize copyCirc tip.main uc (seedFront tip.flps front GMap.clear) tip.main.lastGate = r
    at *
  refine Local.sound_sig (wf_main_ok hwf) h3 asg _ ?_ hx ha
  intro g n s hd hs
  by_cases hmem : g ∈ tip.flps.map (fun f => f.gate)
  · obtain ⟨f, hf, rfl⟩ := List.mem_map.mp hmem
    obtain ⟨o, ho⟩ := mem_zip_of_mem_left tip.flps front hlen.symm f hf
    have e1 := h5 _ ho
    have e2 := (s2 _ ho).2
    simp only at e1 e2
    simp only [TipCirc.mainVal, e2]
    rw [hs] at e1
    rw [← e1]
    obtain ⟨s', hs', hhas⟩ := hfront o (List.of_mem_zip ho).2
    rw [← e1] at hs'
    cases hs'
    exact h1.eval asg hhas
  · have e2 := (s1 g hmem).2
    simp only [TipCirc.mainVal, e2]
    rw [hτ g n hd (isFlop_false_iff.mpr hmem), hs]
    rfl

/-! ## The unroller replays the circuit -/

theorem numbered_init {tip : TipCirc} (h : tip.numbered = true) :
    (∀ g ∈ tip.init.inputs, tip.init.number g ≠ UINT32_MAX) ∧
      (tip.init.inputs.map tip.init.number).Nodup := by
  simp [TipCirc.numbered] at h
  exact ⟨h.1.1.1, h.1.1.2⟩

theorem numbered_main {tip : TipCirc} (h : tip.numbered = true) :
    (∀ g ∈ tip.inputs, tip.main.number g ≠ UINT32_MAX) ∧
      (tip.inputs.map tip.main.number).Nodup := by
  simp [TipCirc.numbered] at h
  exact ⟨h.1.2, h.2⟩

theorem mem_tip_inputs {tip : TipCirc} {g : Nat} :
    g ∈ tip.inputs ↔ (∃ n, defAt tip.main.gates g = some (.inp n)) ∧ tip.isFlop g = false := by
  simp [TipCirc.inputs, Circ.inputs, mem_inputsOf]

theorem stateAt_congr (tip : TipCirc) (iv0 : Nat → Bool) (ivs ivs' : Nat → Nat → Bool) :
    ∀ k, (∀ t, t < k → ivs t = ivs' t) → tip.stateAt iv0 ivs k = tip.stateAt iv0 ivs' k := by
  intro k
  induction k with
  | zero => intro _; rfl
  | succ k ih =>
    intro h
    simp only [TipCirc.stateAt]
    rw [ih (fun t ht => h t (by omega)), h k (by omega)]

theorem frameVal_append (frames : List IFrame) (fr : IFrame) (asg : Nat → Bool) (t : Nat)
    (c : Circ) (ht : t < frames.length) :
    frameVal (frames ++ [fr]) asg t c = frameVal frames asg t c := by
  unfold frameVal
  rw [List.getD_append _ _ _ _ ht]

theorem frameVal_last (frames : List IFrame) (fr : IFrame) (asg : Nat → Bool) (c : Circ) :
    frameVal (frames ++ [fr]) asg frames.length c =
      fun g => match fr.getD (c.number g) none with
        | some ug => asg ug
        | none => false := by
  unfold frameVal
  rw [List.getD_append_right _ _ _ _ (Nat.le_refl _)]
  simp

theorem initReset_spec (tip : TipCirc) (hwf : tip.wf = true) (hnum : tip.numbered = true)
    (uc : Circ) (huc : uc.ok = true) :
    ReplayInv tip (UnrollCirc.initReset tip uc []) 0 := by
  have hloc : Local tip.init.gates uc ((GMap.clear : GMap Sig).set gate_True sig_True) := by
    intro g s hs
    by_cases g0 : g = 0
    · subst g0
      simp [GMap.set, gate_True] at hs
      subst hs
      refine ⟨by simp [Circ.has, sig_True, gate_True], fun _ => rfl, fun x y hd => ?_⟩
      have := defAt_range hd
      omega
    · simp [GMap.set, gate_True, g0, GMap.clear] at hs
  have R := copyGates_spec tip.init.gates (wf_init_ok hwf) tip.init.gates [] rfl uc _ huc hloc
    (by simp [GMap.set, gate_True])
  have hdefd : ∀ f ∈ tip.flps, ∃ a, mapSig
      (copyGates tip.init.gates uc ((GMap.clear : GMap Sig).set gate_True sig_True)).2 f.init
        = some a := by
    intro f hf
    apply mapSig_defined
    apply R.dom
    have := (wf_flop hwf hf).2.1
    simpa [Circ.has] using this
  have hfresh : ∀ g k, defAt tip.init.gates g = some (.inp k) →
      ∃ u, (copyGates tip.init.gates uc ((GMap.clear : GMap Sig).set gate_True sig_True)).2 g
          = some ⟨u, false⟩ ∧
        defAt (copyGates tip.init.gates uc
          ((GMap.clear : GMap Sig).set gate_True sig_True)).1.gates u = some (.inp k) := by
    intro g k hd
    have hr := defAt_range hd
    have hg0 : g ≠ 0 := by omega
    obtain ⟨u, h1, _, h3⟩ := R.fresh g k hr.2 (by simp [GMap.set, gate_True, hg0, GMap.clear]) hd
    exact ⟨u, h1, h3⟩
  constructor
  · constructor
    · simp only [UnrollCirc.initReset, copyCirc_full]; exact R.ok
    · simp [UnrollCirc.initReset]
    · intro o ho
      simp only [UnrollCirc.initReset, copyCirc_full, List.mem_map] at ho
      obtain ⟨f, hf, rfl⟩ := ho
      obtain ⟨a, ha⟩ := hdefd f hf
      exact ⟨a, ha, by simpa [UnrollCirc.initReset, copyCirc_full] using mapSig_has R.loc ha⟩
    · rfl
  · simp [UnrollCirc.initReset]
  · intro asg
    simp only [UnrollCirc.initReset, copyCirc_full, TipCirc.stateAt, TipCirc.initState,
      List.map_map, List.nil_append]
    apply List.map_congr_left
    intro f hf
    obtain ⟨a, ha⟩ := hdefd f hf
    simp only [Function.comp, ha, Circ.evalO]
    refine Local.sound_sig (wf_init_ok hwf) R.loc asg _ ?_ (wf_flop hwf hf).2.1 ha
    intro g n s hd hs
    obtain ⟨u, hu1, hu2⟩ := hfresh g n hd
    rw [hu1] at hs
    cases hs
    rw [eval_gate_inp R.ok asg hu2]
    have hg : g ∈ tip.init.inputs := mem_inputsOf.mpr ⟨n, hd⟩
    have := recordInputs_get tip.init
      (copyGates tip.init.gates uc ((GMap.clear : GMap Sig).set gate_True sig_True)).2
      tip.init.inputs [] (numbered_init hnum).2 (numbered_init hnum).1 g hg _ hu1
    simp only [frameVal, List.getD_cons_zero, this]

theorem step_spec (tip : TipCirc) (hwf : tip.wf = true) (hnum : tip.numbered = true)
    (u : UnrollCirc) (k : Nat) (h : ReplayInv tip u k) :
    ReplayInv tip (UnrollCirc.step tip u).1 (k + 1) := by
  obtain ⟨⟨huc, hlen, hfront, hlast⟩, hnf, hvals⟩ := h
  obtain ⟨h1, h2, h3, h4, h5, h6⟩ := unroll_copy_spec tip hwf u.unroll_circ u.flop_front huc
    hlen hfront
  have hsound := unroll_copy_sound tip hwf u.unroll_circ u.flop_front huc hlen hfront
  have hdefd : ∀ f ∈ tip.flps, ∃ a, mapSig (copyCirc tip.main u.unroll_circ
      (seedFront tip.flps u.flop_front GMap.clear) tip.main.lastGate).2 f.next = some a := by
    intro f hf
    apply mapSig_defined
    apply h4
    have := (wf_flop hwf hf).2.2
    simpa [Circ.has] using this
  constructor
  · constructor
    · simp only [UnrollCirc.step, hlast]; exact h2
    · simp [UnrollCirc.step]
    · intro o ho
      simp only [UnrollCirc.step, hlast, List.mem_map] at ho
      obtain ⟨f, hf, rfl⟩ := ho
      obtain ⟨a, ha⟩ := hdefd f hf
      exact ⟨a, ha, by simpa [UnrollCirc.step, hlast] using mapSig_has h3 ha⟩
    · exact hlast
  · simp [UnrollCirc.step, hnf]
  · intro asg
    simp only [UnrollCirc.step, hlast, TipCirc.stateAt, List.map_map]
    have e0 : frameVal (u.unroll_inps ++ [recordInputs tip.main (copyCirc tip.main u.unroll_circ
        (seedFront tip.flps u.flop_front GMap.clear) tip.main.lastGate).2 tip.inputs []]) asg 0
        tip.init = frameVal u.unroll_inps asg 0 tip.init :=
      frameVal_append _ _ _ _ _ (by omega)
    rw [e0, stateAt_congr tip _ _ (fun t => frameVal u.unroll_inps asg (t + 1) tip.main) k
      (fun t ht => frameVal_append _ _ _ _ _ (by omega)), ← hvals asg]
    simp only [TipCirc.nextState]
    apply List.map_congr_left
    intro f hf
    obtain ⟨a, ha⟩ := hdefd f hf
    simp only [Function.comp, ha, Circ.evalO]
    refine hsound asg _ ?_ (wf_flop hwf hf).2.2 ha
    intro g n hd hnf'
    obtain ⟨ug, hu1, _, hu3⟩ := h6 g n hd hnf'
    rw [hu1]
    simp only [Circ.evalO]
    rw [eval_gate_inp h2 asg hu3]
    have hg : g ∈ tip.inputs := mem_tip_inputs.mpr ⟨⟨n, hd⟩, hnf'⟩
    have := recordInputs_get tip.main (copyCirc tip.main u.unroll_circ
      (seedFront tip.flps u.flop_front GMap.clear) tip.main.lastGate).2
      tip.inputs [] (numbered_main hnum).2 (numbered_main hnum).1 g hg _ hu1
    rw [← hnf, frameVal_last]
    simp only [this]

theorem steps_spec (tip : TipCirc) (hwf : tip.wf = true) (hnum : tip.numbered = true)
    (uc : Circ) (huc : uc.ok = true) (k : Nat) :
    ReplayInv tip (UnrollCirc.steps tip (UnrollCirc.new tip [] uc true) k) k := by
  induction k with
  | zero => exact initReset_spec tip hwf hnum uc huc
  | succ k ih => exact step_spec tip hwf hnum _ k ih

/-! ## C1: the frontier of the unroller -/

/-- C1 (amended): for every well-formed sequential circuit whose inputs all carry a number,
distinct within each arena, every `k` and every assignment of the unrolled arena, after
reset-mode initialisation and `k` steps of `UnrollCirc` the value of `flop_front[i]` is the
value of flop `i` at time `k` when the circuit is simulated from its init circuit under the
input values that the assignment gives to the recorded input frames. -/
theorem unroll_front_replays (tip : TipCirc) (hwf : tip.wf = true) (hnum : tip.numbered = true)
    (k : Nat) (asg : Nat → Bool) (i : Nat) :
    (unrollReset tip k).flop_front.length = tip.flps.length ∧
    (unrollReset tip k).unroll_circ.evalO asg ((unrollReset tip k).flop_front.getD i none) =
      (replayState tip (unrollReset tip k).unroll_inps asg k).getD i false := by
  have R := steps_spec tip hwf hnum Circ.empty rfl k
  refine ⟨R.uok.len, ?_⟩
  unfold replayState unrollReset
  rw [← R.vals asg]
  exact (List.getD_map _ none _).symm

theorem unroll_front_replays_witness :
    xorTip.wf = true ∧ xorTip.numbered = true ∧
    (unrollReset xorTip 2).flop_front.length = xorTip.flps.length ∧
    (unrollReset xorTip 2).unroll_circ.evalO (fun g => decide (g = 1))
        ((unrollReset xorTip 2).flop_front.getD 0 none) =
      (replayState xorTip (unrollReset xorTip 2).unroll_inps (fun g => decide (g = 1)) 2).getD 0
        false :=
  ⟨by decide, by decide, unroll_front_replays xorTip (by decide) (by decide) 2 _ 0⟩

/-- C1 (as stated) fails: in `freeTip` the flop's next value is an input without a number, which
the guard of the recording loop leaves out of the input frames. After one step both recorded
frames are empty, the frontier follows the assignment of the unrolled arena (true under the
all-true assignment, false under the all-false one), while the replay from the recorded
frames gives false. -/
theorem unroll_front_unnumbered_counterexample :
    freeTip.wf = true ∧ (unrollReset freeTip 1).unroll_inps = [[], []] ∧
    (unrollReset freeTip 1).unroll_circ.evalO (fun _ => true)
      ((unrollReset freeTip 1).flop_front.getD 0 none) = true ∧
    (unrollReset freeTip 1).unroll_circ.evalO (fun _ => false)
      ((unrollReset freeTip 1).flop_front.getD 0 none) = false ∧
    (replayState freeTip (unrollReset freeTip 1).unroll_inps (fun _ => true) 1).getD 0 false
      = false := by
  decide

/-! ## The exhaustive SAT oracle is correct -/

theorem mem_allLists : ∀ (l : List Bool), l ∈ allLists l.length := by
  intro l
  induction l with
  | nil => simp [allLists]
  | cons b l ih =>
    simp only [List.length_cons, allLists, List.mem_append, List.mem_map]
    cases b
    · exact Or.inl ⟨l, ih, rfl⟩
    · exact Or.inr ⟨l, ih, rfl⟩

theorem asgOfList_range (m : Nat → Bool) (n g : Nat) (h1 : 1 ≤ g) (h2 : g ≤ n) :
    asgOfList ((List.range n).map (fun i => m (i + 1))) g = m g := by
  unfold asgOfList
  rw [List.getD_eq_getElem?_getD, List.getElem?_map, List.getElem?_range (by omega)]
  simp
  congr 1
  omega

theorem holds_congr (s : Solver) (assumps : List Sig) (m m' : Nat → Bool)
    (h : ∀ g n, defAt s.arena.gates g = some (.inp n) → m g = m' g) :
    s.holds assumps m = s.holds assumps m' := by
  unfold Solver.holds
  have : ∀ l, s.arena.eval m l = s.arena.eval m' l := fun l => eval_congr _ _ _ h l
  simp only [this]

theorem bruteSolve_correct : SolverCorrect bruteSolve := by
  intro s assumps
  constructor
  · intro m h
    unfold bruteSolve at h
    cases hf : (allLists s.arena.gates.length).find?
        (fun bs => s.holds assumps (asgOfList bs)) with
    | none => simp [hf] at h
    | some bs =>
      simp [hf] at h
      subst h
      have := List.find?_some hf
      simpa using this
  · intro h m
    unfold bruteSolve at h
    simp only [Option.map_eq_none'] at h
    have hall := List.find?_eq_none.mp h
    have hmem := mem_allLists ((List.range s.arena.gates.length).map (fun i => m (i + 1)))
    simp only [List.length_map, List.length_range] at hmem
    have := hall _ hmem
    rw [holds_congr s assumps m (asgOfList ((List.range s.arena.gates.length).map
      (fun i => m (i + 1))))]
    · simpa using this
    · intro g n hg
      have := defAt_range hg
      exact (asgOfList_range m _ g this.1 this.2).symm

/-! ## Correctness of the clausifier -/

theorem ClRes.same (src : List GateDef) (st : Solver × GMap Sig) (hok : st.1.arena.ok = true)
    (hl : Local src st.1.arena st.2) : ClRes src st st := by
  refine ⟨Ext.refl _, hok, hl, fun _ _ h => h, rfl, rfl, fun g h1 h2 => absurd h1 h2, ?_⟩
  intro asg τ
  refine ⟨asg, fun _ _ => rfl, fun g k s _ h1 h2 => ?_⟩
  rw [h1] at h2
  cases h2

theorem ClRes.chain {src : List GateDef} {a b c : Solver × GMap Sig} (h1 : ClRes src a b)
    (h2 : ClRes src b c) : ClRes src a c := by
  refine ⟨h1.ext.trans h2.ext, h2.ok, h2.loc, fun g s h => h2.keep g s (h1.keep g s h),
    h2.clauses.trans h1.clauses, h2.eliminated.trans h1.eliminated,
    ?_, ?_⟩
  · intro g ha hc
    cases hb : b.2 g with
    | none => exact h2.range g hb hc
    | some s => exact h1.range g ha (by rw [hb]; simp)
  · intro asg τ
    obtain ⟨asg1, p1, p2⟩ := h1.compl asg τ
    obtain ⟨asg2, q1, q2⟩ := h2.compl asg1 τ
    refine ⟨asg2, ?_, ?_⟩
    · intro u hu
      rw [q1 u (by have := h1.ext.length_le; omega), p1 u hu]
    · intro g k s hd ha hc
      cases hb : b.2 g with
      | none => exact q2 g k s hd hb hc
      | some t =>
        have := h2.keep g t hb
        rw [hc] at this
        cases this
        rw [h2.ext.eval _ (h1.loc g s hb).1, ← p2 g k s hd ha hb]
        apply eval_congr
        intro u n hu
        exact q1 u (defAt_range hu).2

theorem clausifyGate_spec (src : Circ) (hok : src.ok = true) :
    ∀ (fuel g : Nat) (st : Solver × GMap Sig), st.1.arena.ok = true →
      Local src.gates st.1.arena st.2 →
      ClRes src.gates st (clausifyGate src fuel g st) ∧
      (∀ h, st.2 h = none → (clausifyGate src fuel g st).2 h ≠ none → h ≤ g) ∧
      (g < fuel → g ≤ src.gates.length → (clausifyGate src fuel g st).2 g ≠ none) := by
  intro fuel
  induction fuel with
  | zero =>
    intro g st hst hl
    exact ⟨ClRes.same _ _ hst hl, fun h h1 h2 => absurd h1 h2, fun h => by omega⟩
  | succ fuel ih =>
    intro g st hst hl
    simp only [clausifyGate]
    cases hg : st.2 g with
    | some s =>
      simp only []
      exact ⟨ClRes.same _ _ hst hl, fun h h1 h2 => absurd h1 h2, fun _ _ => by simp [hg]⟩
    | none =>
      simp only []
      by_cases g0 : g = 0
      · subst g0
        simp only [if_true]
        refine ⟨⟨Ext.refl _, hst, ?_, ?_, rfl, rfl, ?_, ?_⟩, ?_, ?_⟩
        · exact hl.set hg (fun _ => rfl) (by simp [Circ.has, sig_True, gate_True])
            (fun x y hd => by have := defAt_range hd; omega)
        · intro g s hs
          have : g ≠ 0 := by intro e; rw [e, hg] at hs; cases hs
          simp [GMap.set, this, hs]
        · intro g h1 h2
          by_cases e : g = 0
          · omega
          · simp [GMap.set, e, h1] at h2
        · intro asg τ
          refine ⟨asg, fun _ _ => rfl, fun g k s hd h1 h2 => ?_⟩
          have := defAt_range hd
          have e : g ≠ 0 := by omega
          simp [GMap.set, e, h1] at h2
        · intro h h1 h2
          by_cases e : h = 0
          · omega
          · simp [GMap.set, e, h1] at h2
        · intro _ _
          simp [GMap.set]
      · simp only [g0, if_false]
        cases hd : src.gateDef g with
        | none =>
          simp only []
          refine ⟨ClRes.same _ _ hst hl, fun h h1 h2 => absurd h1 h2, fun _ hle => ?_⟩
          obtain ⟨d, hd'⟩ := defAt_of_range src.gates g (by omega) hle
          simp [Circ.gateDef, hd'] at hd
        | some d =>
          have hdef : defAt src.gates g = some d := hd
          have hr := defAt_range hdef
          cases d with
          | inp num =>
            simp only [Solver.newVar]
            obtain ⟨q1, q2, q3, q4, q5⟩ := mkInp_spec st.1.arena hst UINT32_MAX
            refine ⟨⟨q1, q2, ?_, ?_, rfl, rfl, ?_, ?_⟩, ?_, ?_⟩
            · refine (hl.mono q1).set hg (fun e => absurd e g0) q3 ?_
              intro x y hxy
              rw [hdef] at hxy
              cases hxy
            · intro g' s hs
              have : g' ≠ g := by intro e; rw [e, hg] at hs; cases hs
              simp [GMap.set, this, hs]
            · intro g' h1 h2
              by_cases e : g' = g
              · rw [e]; exact hr.2
              · simp [GMap.set, e, h1] at h2
            · intro asg τ
              refine ⟨fun u => if u = st.1.arena.gates.length + 1 then τ g else asg u, ?_, ?_⟩
              · intro u hu
                have hne : u ≠ st.1.arena.gates.length + 1 := by omega
                simp only [hne, if_false]
              · intro g' k s hd' h1 h2
                by_cases e : g' = g
                · subst e
                  simp [GMap.set] at h2
                  subst h2
                  rw [q4, eval_gate_inp q2 _ (n := UINT32_MAX) (by rw [q5]; simp [defAt])]
                  simp
                · simp [GMap.set, e, h1] at h2
            · intro h h1 h2
              by_cases e : h = g
              · omega
              · simp [GMap.set, e, h1] at h2
            · intro _ _
              simp [GMap.set]
          | and x y =>
            simp only []
            have hlt := defAt_and_lt hok hdef
            obtain ⟨A1, A2, A3⟩ := ih x.gate st hst hl
            generalize clausifyGate src fuel x.gate st = st1 at A1 A2 A3 ⊢
            obtain ⟨B1, B2, B3⟩ := ih y.gate st1 A1.ok A1.loc
            generalize clausifyGate src fuel y.gate st1 = st2 at B1 B2 B3 ⊢
            have AB := A1.chain B1
            have hg2 : st2.2 g = none := by
              cases h1 : st1.2 g with
              | some s =>
                have := A2 g hg (by rw [h1]; simp)
                omega
              | none =>
                cases h2 : st2.2 g with
                | some s =>
                  have := B2 g h1 (by rw [h2]; simp)
                  omega
                | none => rfl
            have hbound : ∀ h, st.2 h = none → st2.2 h ≠ none → h ≤ g := by
              intro h h0 h2
              cases h1 : st1.2 h with
              | some s =>
                have := A2 h h0 (by rw [h1]; simp)
                omega
              | none =>
                have := B2 h h1 h2
                omega
            cases hx : mapSig st2.2 x with
            | none =>
              simp only []
              refine ⟨AB, hbound, fun hf hle => ?_⟩
              exfalso
              have h1 := A3 (by omega) (by omega)
              cases h1' : st1.2 x.gate with
              | none => exact h1 h1'
              | some t =>
                have := B1.keep _ _ h1'
                simp [mapSig, this] at hx
            | some a =>
              cases hy : mapSig st2.2 y with
              | none =>
                simp only []
                refine ⟨AB, hbound, fun hf hle => ?_⟩
                exfalso
                have h1 := B3 (by omega) (by omega)
                cases h1' : st2.2 y.gate with
                | none => exact h1 h1'
                | some t => simp [mapSig, h1'] at hy
              | some b =>
                simp only [Solver.newAnd]
                have ha := mapSig_has B1.loc hx
                have hb := mapSig_has B1.loc hy
                simp only [Circ.has, decide_eq_true_eq] at ha hb
                have q1 : Ext st2.1.arena ⟨.and a b :: st2.1.arena.gates⟩ := Ext.cons _ _
                have q2 : gatesOk (.and a b :: st2.1.arena.gates) = true := by
                  simp [gatesOk, ha, hb]; exact B1.ok
                have CR : ClRes src.gates st2
                    ({ st2.1 with arena := ⟨.and a b :: st2.1.arena.gates⟩ },
                     st2.2.set g ⟨st2.1.arena.gates.length + 1, false⟩) := by
                  refine ⟨q1, q2, ?_, ?_, rfl, rfl, ?_, ?_⟩
                  · refine (B1.loc.mono q1).set hg2 (fun e => absurd e g0) (by simp [Circ.has]) ?_
                    intro x' y' hxy
                    rw [hdef] at hxy
                    cases hxy
                    refine ⟨a, b, hx, hy, fun asg => ?_⟩
                    exact eval_gate_and (c := ⟨.and a b :: st2.1.arena.gates⟩) q2 asg
                      (by simp [defAt])
                  · intro g' s hs
                    have : g' ≠ g := by intro e; rw [e, hg2] at hs; cases hs
                    simp [GMap.set, this, hs]
                  · intro g' h1 h2
                    by_cases e : g' = g
                    · rw [e]; exact hr.2
                    · simp [GMap.set, e, h1] at h2
                  · intro asg τ
                    refine ⟨asg, fun _ _ => rfl, fun g' k s hd' h1 h2 => ?_⟩
                    by_cases e : g' = g
                    · rw [e, hdef] at hd'
                      cases hd'
                    · simp [GMap.set, e, h1] at h2
                refine ⟨AB.chain CR, ?_, fun _ _ => by simp [GMap.set]⟩
                intro h h0 h2
                by_cases e : h = g
                · omega
                · apply hbound h h0
                  simpa [GMap.set, e] using h2

theorem clausify_spec (src : Circ) (hok : src.ok = true) (st : Solver × GMap Sig)
    (hst : st.1.arena.ok = true) (hl : Local src.gates st.1.arena st.2) (x : Sig)
    (hx : src.has x = true) :
    ClRes src.gates st (clausify src st x).1 ∧
      ∃ l, (clausify src st x).2 = some l ∧ (clausify src st x).1.1.arena.has l = true := by
  obtain ⟨A1, _, A3⟩ := clausifyGate_spec src hok (x.gate + 1) x.gate st hst hl
  simp only [Circ.has, decide_eq_true_eq] at hx
  obtain ⟨l, hl'⟩ := mapSig_defined (A3 (by omega) hx)
  exact ⟨A1, l, hl', mapSig_has A1.loc hl'⟩

/-! ## One abstract unrolling step -/

theorem stepmap_sound {tip : TipCirc} (hwf : tip.wf = true) {A A' : Circ}
    {front : List (Option Sig)} {m : GMap Sig} (hlen : front.length = tip.flps.length)
    (hfront : ∀ o ∈ front, ∃ s, o = some s ∧ A.has s = true) (S : StepMap tip A front A' m)
    (asg τ : Nat → Bool)
    (hτ : ∀ g k s, defAt tip.main.gates g = some (.inp k) → tip.isFlop g = false →
      m g = some s → A'.eval asg s = τ g)
    {x a : Sig} (hx : tip.main.has x = true) (ha : mapSig m x = some a) :
    A'.eval asg a = tip.main.eval (tip.mainVal (front.map (A.evalO asg)) τ) x := by
  obtain ⟨s1, s2⟩ := seedFront_spec (A.evalO asg) tip.flps front GMap.clear hlen.symm
    (wf_nodup hwf)
  refine Local.sound_sig (wf_main_ok hwf) S.loc asg _ ?_ hx ha
  intro g n s hd hs
  by_cases hmem : g ∈ tip.flps.map (fun f => f.gate)
  · obtain ⟨f, hf, rfl⟩ := List.mem_map.mp hmem
    obtain ⟨o, ho⟩ := mem_zip_of_mem_left tip.flps front hlen.symm f hf
    have e1 := S.bound _ ho
    have e2 := (s2 _ ho).2
    simp only at e1 e2
    simp only [TipCirc.mainVal, e2]
    rw [hs] at e1
    rw [← e1]
    obtain ⟨s', hs', hhas⟩ := hfront o (List.of_mem_zip ho).2
    rw [← e1] at hs'
    cases hs'
    exact S.ext.eval asg hhas
  · have e2 := (s1 g hmem).2
    simp only [TipCirc.mainVal, e2]
    exact hτ g n s hd (isFlop_false_iff.mpr hmem) hs

theorem evalO_congr_front {A : Circ} {front : List (Option Sig)} (asg asg' : Nat → Bool)
    (h : ∀ u, u ≤ A.gates.length → asg' u = asg u) :
    front.map (A.evalO asg') = front.map (A.evalO asg) := by
  apply List.map_congr_left
  intro o _
  cases o with
  | none => rfl
  | some s =>
    simp only [Circ.evalO]
    apply eval_congr
    intro u n hu
    exact h u (defAt_range hu).2

theorem step_tracks {tip : TipCirc} (hwf : tip.wf = true) {A A' : Circ}
    {front : List (Option Sig)} {m : GMap Sig} {k : Nat} (T : Tracks tip A front k)
    (S : StepMap tip A front A' m) :
    Tracks tip A' (tip.flps.map (fun f => mapSig m f.next)) (k + 1) ∧ Images tip A' m k := by
  have hdefd : ∀ f ∈ tip.flps, ∃ a, mapSig m f.next = some a := fun f hf =>
    mapSig_defined (S.nexts f hf)
  have hnext : ∀ (asg τ : Nat → Bool) (st : List Bool),
      (∀ x a, tip.main.has x = true → mapSig m x = some a →
        A'.eval asg a = tip.main.eval (tip.mainVal st τ) x) →
      (tip.flps.map (fun f => mapSig m f.next)).map (A'.evalO asg) = tip.nextState st τ := by
    intro asg τ st h
    simp only [TipCirc.nextState, List.map_map]
    apply List.map_congr_left
    intro f hf
    obtain ⟨a, ha⟩ := hdefd f hf
    simp only [Function.comp, ha, Circ.evalO]
    exact h _ _ (wf_flop hwf hf).2.2 ha
  have hS : ∀ (asg : Nat → Bool) (iv0 : Nat → Bool) (ivs : Nat → Nat → Bool),
      front.map (A.evalO asg) = tip.stateAt iv0 ivs k →
      ∃ ivs' : Nat → Nat → Bool,
        (tip.stateAt iv0 ivs' k = tip.stateAt iv0 ivs k) ∧
        ∀ x a, tip.main.has x = true → mapSig m x = some a →
          A'.eval asg a = tip.main.eval (tip.mainVal (tip.stateAt iv0 ivs' k) (ivs' k)) x := by
    intro asg iv0 ivs hv
    refine ⟨fun t => if t = k then (fun g => A'.evalO asg (m g)) else ivs t, ?_, ?_⟩
    · apply stateAt_congr
      intro t ht
      have : t ≠ k := by omega
      simp [this]
    · intro x a hx ha
      have e : tip.stateAt iv0 (fun t => if t = k then (fun g => A'.evalO asg (m g)) else ivs t)
          k = tip.stateAt iv0 ivs k := by
        apply stateAt_congr
        intro t ht
        have : t ≠ k := by omega
        simp [this]
      rw [e, ← hv]
      simp only [if_true]
      refine stepmap_sound hwf T.len T.valid S asg _ ?_ hx ha
      intro g n s _ _ hs
      simp [hs, Circ.evalO]
  have hC : ∀ (iv0 : Nat → Bool) (ivs : Nat → Nat → Bool), ∃ asg : Nat → Bool,
      ∀ x a, tip.main.has x = true → mapSig m x = some a →
        A'.eval asg a = tip.main.eval (tip.mainVal (tip.stateAt iv0 ivs k) (ivs k)) x := by
    intro iv0 ivs
    obtain ⟨asg0, h0⟩ := T.compl iv0 ivs
    obtain ⟨asg', a1, a2⟩ := S.compl asg0 (ivs k)
    refine ⟨asg', fun x a hx ha => ?_⟩
    rw [← h0, ← evalO_congr_front asg0 asg' a1]
    exact stepmap_sound hwf T.len T.valid S asg' _ a2 hx ha
  refine ⟨⟨S.ok, by simp, ?_, ?_, ?_⟩, ⟨?_, ?_⟩⟩
  · intro o ho
    obtain ⟨f, hf, rfl⟩ := List.mem_map.mp ho
    obtain ⟨a, ha⟩ := hdefd f hf
    exact ⟨a, ha, mapSig_has S.loc ha⟩
  · intro asg
    obtain ⟨iv0, ivs, hv⟩ := T.sound asg
    obtain ⟨ivs', e1, e2⟩ := hS asg iv0 ivs hv
    exact ⟨iv0, ivs', hnext asg _ _ e2⟩
  · intro iv0 ivs
    obtain ⟨asg, h⟩ := hC iv0 ivs
    exact ⟨asg, hnext asg _ _ h⟩
  · intro asg
    obtain ⟨iv0, ivs, hv⟩ := T.sound asg
    obtain ⟨ivs', e1, e2⟩ := hS asg iv0 ivs hv
    exact ⟨iv0, ivs', e2⟩
  · intro iv0 ivs
    exact hC iv0 ivs

/-! ## The initial frontier -/

theorem init_tracks {tip : TipCirc} (hwf : tip.wf = true) {A : Circ} {m : GMap Sig}
    (I : InitMap tip A m) : Tracks tip A (tip.flps.map (fun f => mapSig m f.init)) 0 := by
  have hdefd : ∀ f ∈ tip.flps, ∃ a, mapSig m f.init = some a := fun f hf =>
    mapSig_defined (I.inits f hf)
  have key : ∀ (asg τ : Nat → Bool),
      (∀ g k s, defAt tip.init.gates g = some (.inp k) → m g = some s → A.eval asg s = τ g) →
      (tip.flps.map (fun f => mapSig m f.init)).map (A.evalO asg) = tip.initState τ := by
    intro asg τ h
    simp only [TipCirc.initState, List.map_map]
    apply List.map_congr_left
    intro f hf
    obtain ⟨a, ha⟩ := hdefd f hf
    simp only [Function.comp, ha, Circ.evalO]
    exact Local.sound_sig (wf_init_ok hwf) I.loc asg τ h (wf_flop hwf hf).2.1 ha
  refine ⟨I.ok, by simp, ?_, ?_, ?_⟩
  · intro o ho
    obtain ⟨f, hf, rfl⟩ := List.mem_map.mp ho
    obtain ⟨a, ha⟩ := hdefd f hf
    exact ⟨a, ha, mapSig_has I.loc ha⟩
  · intro asg
    refine ⟨fun g => A.evalO asg (m g), fun _ _ => false, ?_⟩
    apply key
    intro g k s _ hs
    simp [hs, Circ.evalO]
  · intro iv0 ivs
    obtain ⟨asg, h⟩ := I.compl iv0
    exact ⟨asg, key asg iv0 h⟩

theorem local_const (src : List GateDef) (dst : Circ) :
    Local src dst ((GMap.clear : GMap Sig).set gate_True sig_True) := by
  intro g s hs
  by_cases g0 : g = 0
  · subst g0
    simp [GMap.set, gate_True] at hs
    subst hs
    refine ⟨by simp [Circ.has, sig_True, gate_True], fun _ => rfl, fun x y hd => ?_⟩
    have := defAt_range hd
    omega
  · simp [GMap.set, gate_True, g0, GMap.clear] at hs

theorem copy_init_map (tip : TipCirc) (hwf : tip.wf = true) (uc : Circ) (huc : uc.ok = true) :
    InitMap tip (copyCirc tip.init uc GMap.clear tip.init.lastGate).1
      (copyCirc tip.init uc GMap.clear tip.init.lastGate).2 := by
  rw [copyCirc_full]
  have R := copyGates_spec tip.init.gates (wf_init_ok hwf) tip.init.gates [] rfl uc _ huc
    (local_const _ _) (by simp [GMap.set, gate_True])
  refine ⟨R.ok, R.loc, ?_, ?_⟩
  · intro f hf
    apply R.dom
    have := (wf_flop hwf hf).2.1
    simpa [Circ.has] using this
  · intro τ
    obtain ⟨asg, _, h⟩ := R.compl (fun _ => false) τ
    refine ⟨asg, fun g k s hd hs => h g k s hd ?_ hs⟩
    have := defAt_range hd
    have g0 : g ≠ 0 := by omega
    simp [GMap.set, gate_True, g0, GMap.clear]

theorem unroll_copy_stepmap (tip : TipCirc) (hwf : tip.wf = true) (uc : Circ)
    (front : List (Option Sig)) (huc : uc.ok = true) (hlen : front.length = tip.flps.length)
    (hfront : ∀ o ∈ front, ∃ s, o = some s ∧ uc.has s = true) :
    StepMap tip uc front
      (copyCirc tip.main uc (seedFront tip.flps front GMap.clear) tip.main.lastGate).1
      (copyCirc tip.main uc (seedFront tip.flps front GMap.clear) tip.main.lastGate).2 := by
  obtain ⟨h1, h2, h3, h4, h5, h6⟩ := unroll_copy_spec tip hwf uc front huc hlen hfront
  refine ⟨h1, h2, h3, h5, ?_, ?_⟩
  · intro f hf
    apply h4
    have := (wf_flop hwf hf).2.2
    simpa [Circ.has] using this
  · rw [copyCirc_full]
    have hloc := seeded_local tip hwf uc front hlen hfront
    have R := copyGates_spec tip.main.gates (wf_main_ok hwf) tip.main.gates [] rfl uc _ huc hloc
      (by simp [GMap.set, gate_True])
    obtain ⟨s1, _⟩ := seedFront_spec (fun _ => false) tip.flps front GMap.clear hlen.symm
      (wf_nodup hwf)
    intro asg τ
    obtain ⟨asg', a1, a2⟩ := R.compl asg τ
    refine ⟨asg', a1, fun g k s hd hnf hs => a2 g k s hd ?_ hs⟩
    have := defAt_range hd
    have g0 : g ≠ 0 := by omega
    simp only [GMap.set, gate_True, g0, if_false]
    rw [(s1 g (isFlop_false_iff.mp hnf)).1]
    rfl

/-! ## The solver of `basicBmc` -/

theorem Local.src_grow {src src' : Circ} {dst : Circ} {m : GMap Sig} (he : Ext src src')
    (hr : ∀ g, m g ≠ none → g ≤ src.gates.length) (hl : Local src.gates dst m) :
    Local src'.gates dst m := by
  intro g s hs
  obtain ⟨h1, h2, h3⟩ := hl g s hs
  refine ⟨h1, h2, fun x y hd => h3 x y ?_⟩
  obtain ⟨l, e⟩ := he
  rw [e, defAt_append _ _ _ (hr g (by rw [hs]; simp))] at hd
  exact hd

theorem SInv.init (uc : Circ) : SInv uc (Solver.new, GMap.clear) := by
  refine ⟨rfl, rfl, ?_, ?_, ?_⟩
  · intro g s hs
    simp [GMap.clear] at hs
  · intro g hg
    simp [GMap.clear] at hg
  · intro τ
    refine ⟨fun _ => false, fun g k s _ hs => ?_⟩
    simp [GMap.clear] at hs

theorem SInv.grow {uc uc' : Circ} {st : Solver × GMap Sig} (he : Ext uc uc')
    (V : SInv uc st) : SInv uc' st := by
  refine ⟨V.ok, V.clauses, V.loc.src_grow he V.range, ?_, ?_⟩
  · intro g hg
    have := V.range g hg
    have := he.length_le
    omega
  · intro τ
    obtain ⟨m, hm⟩ := V.compl τ
    refine ⟨m, fun g k s hd hs => hm g k s ?_ hs⟩
    obtain ⟨l, e⟩ := he
    rw [e, defAt_append _ _ _ (V.range g (by rw [hs]; simp))] at hd
    exact hd

theorem SInv.clausify {uc : Circ} (huc : uc.ok = true) {st : Solver × GMap Sig}
    (V : SInv uc st) {x : Sig} (hx : uc.has x = true) :
    SInv uc (clausify uc st x).1 ∧
      ∃ l, (clausify uc st x).2 = some l ∧ (clausify uc st x).1.1.arena.has l = true := by
  obtain ⟨R, hl⟩ := clausify_spec uc huc st V.ok V.loc x hx
  refine ⟨⟨R.ok, by rw [R.clauses, V.clauses], R.loc, ?_, ?_⟩, hl⟩
  · intro g hg
    cases h : st.2 g with
    | none => exact R.range g h hg
    | some s => exact V.range g (by rw [h]; simp)
  · intro τ
    obtain ⟨m0, h0⟩ := V.compl τ
    obtain ⟨m, a1, a2⟩ := R.compl m0 τ
    refine ⟨m, fun g k s hd hs => ?_⟩
    cases h : st.2 g with
    | none => exact a2 g k s hd h hs
    | some t =>
      have := R.keep g t h
      rw [hs] at this
      cases this
      rw [R.ext.eval _ (V.loc g s h).1, ← h0 g k s hd h]
      apply eval_congr
      intro u n hu
      exact a1 u (defAt_range hu).2

theorem holds_single (s : Solver) (hc : s.clauses = []) (l : Sig) (m : Nat → Bool) :
    s.holds [l] m = s.arena.eval m l := by
  simp [Solver.holds, hc]

/-- The SAT test of `basicBmc` for one property answers whether some run violates the
property in the current cycle. -/
theorem basic_query {solve : SolveFn} (hs : SolverCorrect solve) {tip : TipCirc} {uc : Circ}
    (huc : uc.ok = true) {umap : GMap Sig} {k : Nat} (I : Images tip uc umap k)
    {st : Solver × GMap Sig} (V : SInv uc st) {x psig plit : Sig}
    (hx : tip.main.has x = true) (hp : mapSig umap x = some psig) (hps : uc.has psig = true)
    (hl : (clausify uc st psig).2 = some plit) :
    (solve (clausify uc st psig).1.1 [plit.neg]).isSome = true ↔ ViolAt tip k x := by
  obtain ⟨V', _⟩ := V.clausify huc hps
  have hl' : mapSig (clausify uc st psig).1.2 psig = some plit := hl
  constructor
  · intro h
    cases hm : solve (clausify uc st psig).1.1 [plit.neg] with
    | none => rw [hm] at h; cases h
    | some m =>
      have h1 := (hs _ _).1 m hm
      rw [holds_single _ V'.clauses, eval_neg] at h1
      have h2 := Local.sound_sig huc V'.loc m
        (fun g => (clausify uc st psig).1.1.arena.evalO m ((clausify uc st psig).1.2 g))
        (fun g n s _ hs' => by simp [hs', Circ.evalO]) hps hl'
      obtain ⟨iv0, ivs, h3⟩ := I.sound
        (fun g => (clausify uc st psig).1.1.arena.evalO m ((clausify uc st psig).1.2 g))
      refine ⟨iv0, ivs, ?_⟩
      rw [← h3 x psig hx hp, ← h2]
      simpa using h1
  · rintro ⟨iv0, ivs, hv⟩
    obtain ⟨asg, h3⟩ := I.compl iv0 ivs
    obtain ⟨m, h4⟩ := V'.compl asg
    have h2 := Local.sound_sig huc V'.loc m asg h4 hps hl'
    cases hm : solve (clausify uc st psig).1.1 [plit.neg] with
    | some m' => rfl
    | none =>
      have h1 := (hs _ _).2 hm m
      rw [holds_single _ V'.clauses, eval_neg, h2, h3 x psig hx hp, hv] at h1
      cases h1

/-! ## `basicBmc` computes the reference verdicts -/

theorem basicProps_spec {solve : SolveFn} (hs : SolverCorrect solve) {tip : TipCirc}
    {uc : Circ} (huc : uc.ok = true) {umap : GMap Sig} {k : Nat} (I : Images tip uc umap k)
    (hdef : ∀ x, tip.main.has x = true → ∃ a, mapSig umap x = some a ∧ uc.has a = true)
    (viol : Sig → Bool) (hv : ∀ s, viol s = true ↔ ViolAt tip k s) :
    ∀ (ds : List PropData) (st : (Solver × GMap Sig) × Nat), SInv uc st.1 →
      (∀ d ∈ ds, tip.main.has d.sig = true) →
      SInv uc (basicProps solve uc umap ds st).2.1 ∧
      view (basicProps solve uc umap ds st).1 = (view ds).map (refStat viol) ∧
      (basicProps solve uc umap ds st).2.2 = st.2 + unknowns ((view ds).map (refStat viol)) := by
  intro ds
  induction ds with
  | nil =>
    intro st V _
    exact ⟨V, rfl, rfl⟩
  | cons d ds ih =>
    intro st V hsig
    have hd := hsig d (by simp)
    have hds : ∀ d' ∈ ds, tip.main.has d'.sig = true := fun d' h => hsig d' (by simp [h])
    simp only [basicProps]
    by_cases hu : d.stat = pstat_Unknown
    · simp only [hu, ne_eq, not_true_eq_false, if_false]
      obtain ⟨psig, hp, hps⟩ := hdef d.sig hd
      simp only [hp]
      obtain ⟨V', plit, hl, _⟩ := V.clausify huc hps
      have Q := basic_query hs huc I V hd hp hps hl
      simp only [hl]
      cases hm : solve (clausify uc st.1 psig).1.1 [plit.neg] with
      | some m =>
        have hvi : viol d.sig = true := (hv _).mpr (Q.mp (by rw [hm]; rfl))
        obtain ⟨a, b, c⟩ := ih ((clausify uc st.1 psig).1, st.2) V' hds
        refine ⟨a, ?_, ?_⟩
        · simp only [view, List.map_cons, refStat, hu, hvi, and_self, if_true] at b ⊢
          rw [b]
        · rw [c]
          simp [view, refStat, hu, hvi, unknowns]
      | none =>
        have hvi : viol d.sig = false := by
          cases h : viol d.sig with
          | false => rfl
          | true =>
            have := Q.mpr ((hv _).mp h)
            rw [hm] at this
            cases this
        obtain ⟨a, b, c⟩ := ih ((clausify uc st.1 psig).1, st.2 + 1) V' hds
        refine ⟨a, ?_, ?_⟩
        · simp only [view, List.map_cons, refStat, hu, hvi] at b ⊢
          simp only [Bool.false_eq_true, and_false, if_false]
          rw [b]
        · rw [c]
          simp [view, refStat, hu, hvi, unknowns]
          omega
    · simp only [hu, ne_eq, not_false_eq_true, if_true]
      obtain ⟨a, b, c⟩ := ih st V hds
      refine ⟨a, ?_, ?_⟩
      · simp only [view, List.map_cons, refStat, hu, false_and, if_false] at b ⊢
        rw [b]
      · rw [c]
        simp [view, refStat, hu, unknowns]

theorem view_sigs {ps qs : List PropData} {f : Sig × PropStatus → Sig × PropStatus}
    (hf : ∀ d, (f d).1 = d.1) (h : view qs = (view ps).map f) (P : Sig → Prop)
    (hp : ∀ d ∈ ps, P d.sig) : ∀ d ∈ qs, P d.sig := by
  intro d hd
  have h1 : (d.sig, d.stat) ∈ view qs := List.mem_map.mpr ⟨d, hd, rfl⟩
  rw [h] at h1
  simp only [view, List.map_map, List.mem_map, Function.comp] at h1
  obtain ⟨e, he, h2⟩ := h1
  have := hf (e.sig, e.stat)
  rw [h2] at this
  simp only at this
  rw [this]
  exact hp e he

theorem basicLoop_spec {solve : SolveFn} (hs : SolverCorrect solve) (tip : TipCirc)
    (hwf : tip.wf = true) (viol : Nat → Sig → Bool)
    (hv : ∀ k s, viol k s = true ↔ ViolAt tip k s) (b : Nat) :
    ∀ (n i : Nat) (ps : List PropData) (u : Unroller) (cs : Solver × GMap Sig),
      Tracks tip u.unroll_circ u.flop_front i → SInv u.unroll_circ cs →
      (∀ d ∈ ps, tip.main.has d.sig = true) →
      ∃ ps', basicLoop solve b n i ({ tip with safe_props := ps }, u, cs)
          = { tip with safe_props := ps' } ∧
        view ps' = refLoop viol b n i (view ps) := by
  intro n
  induction n with
  | zero =>
    intro i ps u cs _ _ _
    exact ⟨ps, rfl, rfl⟩
  | succ n ih =>
    intro i ps u cs T V hsig
    have S := unroll_copy_stepmap tip hwf u.unroll_circ u.flop_front T.ok T.len T.valid
    obtain ⟨T', I⟩ := step_tracks hwf T S
    obtain ⟨_, _, h3, h4, _, _⟩ := unroll_copy_spec tip hwf u.unroll_circ u.flop_front T.ok
      T.len T.valid
    have V' := V.grow S.ext
    have hdef : ∀ x, tip.main.has x = true → ∃ a, mapSig
        (copyCirc tip.main u.unroll_circ (seedFront tip.flps u.flop_front GMap.clear)
          tip.main.lastGate).2 x = some a ∧
        (copyCirc tip.main u.unroll_circ (seedFront tip.flps u.flop_front GMap.clear)
          tip.main.lastGate).1.has a = true := by
      intro x hx
      obtain ⟨a, ha⟩ := mapSig_defined (h4 x.gate (by simpa [Circ.has] using hx))
      exact ⟨a, ha, mapSig_has h3 ha⟩
    simp only [basicLoop, refLoop]
    by_cases hb : i < b
    · simp only [hb, if_true]
      exact ih (i + 1) ps _ cs T' V' hsig
    · simp only [hb, if_false]
      obtain ⟨Q1, Q2, Q3⟩ := basicProps_spec hs S.ok I hdef (viol i) (hv i) ps (cs, 0) V' hsig
      simp only [Unroller.step] at Q1 Q2 Q3 ⊢
      rw [Q3, ← Q2]
      simp only [Nat.zero_add]
      split
      · exact ⟨_, rfl, rfl⟩
      · refine ih (i + 1) _ _ _ T' Q1 ?_
        exact view_sigs (f := refStat (viol i)) (fun d => rfl) Q2
          (fun s => tip.main.has s = true) hsig

/-- The verdicts of `basicBmc` are the reference verdicts. -/
theorem basicBmc_spec {solve : SolveFn} (hs : SolverCorrect solve) (tip : TipCirc)
    (hwf : tip.wf = true) (viol : Nat → Sig → Bool)
    (hv : ∀ k s, viol k s = true ↔ ViolAt tip k s) (b e : Nat) :
    ∃ ps', basicBmc solve tip b e = { tip with safe_props := ps' } ∧
      view ps' = refLoop viol b e 0 (view tip.safe_props) := by
  have I := copy_init_map tip hwf Circ.empty rfl
  have T := init_tracks hwf I
  exact basicLoop_spec hs tip hwf viol hv b e 0 tip.safe_props
    ( Unroller.initialize tip Circ.empty) (Solver.new, GMap.clear) T (SInv.init _)
    (fun d hd => wf_safe hwf hd)

/-! ## `simpBmc` computes the reference verdicts -/

theorem mapSig_keep {m m' : GMap Sig} (h : ∀ g s, m g = some s → m' g = some s) {x a : Sig}
    (ha : mapSig m x = some a) : mapSig m' x = some a := by
  obtain ⟨t, ht, e⟩ := mapSig_inv ha
  simp [mapSig, h _ _ ht, e]

theorem ClRes.freeze {src : List GateDef} {a b : Solver × GMap Sig} (h : ClRes src a b)
    (l : Option Sig) : ClRes src a (freezeLit b.1 l, b.2) := by
  cases l with
  | none => exact h
  | some x => exact ⟨h.ext, h.ok, h.loc, h.keep, h.clauses, h.eliminated, h.range, h.compl⟩

theorem clausifyFreeze_spec (src : Circ) (hok : src.ok = true) :
    ∀ (xs : List Sig) (st : Solver × GMap Sig), st.1.arena.ok = true →
      Local src.gates st.1.arena st.2 → (∀ x ∈ xs, src.has x = true) →
      ClRes src.gates st (clausifyFreeze src xs st).1 ∧
      (clausifyFreeze src xs st).2 = xs.map (mapSig (clausifyFreeze src xs st).1.2) ∧
      ∀ x ∈ xs, (clausifyFreeze src xs st).1.2 x.gate ≠ none := by
  intro xs
  induction xs with
  | nil =>
    intro st hst hl _
    exact ⟨ClRes.same _ _ hst hl, rfl, fun x hx => by simp at hx⟩
  | cons x xs ih =>
    intro st hst hl hxs
    obtain ⟨R, l, hl1, _⟩ := clausify_spec src hok st hst hl x (hxs x (by simp))
    have R' := R.freeze (clausify src st x).2
    obtain ⟨A, B, C⟩ := ih (freezeLit (clausify src st x).1.1 (clausify src st x).2,
      (clausify src st x).1.2) R'.ok R'.loc (fun y hy => hxs y (by simp [hy]))
    simp only [clausifyFreeze]
    refine ⟨R'.chain A, ?_, ?_⟩
    · have e : mapSig (clausifyFreeze src xs (freezeLit (clausify src st x).1.1
          (clausify src st x).2, (clausify src st x).1.2)).1.2 x = some l :=
        mapSig_keep A.keep hl1
      rw [List.map_cons, e, ← B, hl1]
    · intro y hy
      rcases List.mem_cons.mp hy with e | h
      · subst e
        obtain ⟨t, ht, _⟩ := mapSig_inv (mapSig_keep A.keep hl1)
        rw [ht]; simp
      · exact C y h

theorem simp_init_map (tip : TipCirc) (hwf : tip.wf = true) :
    InitMap tip ( SimpUnroller.initializeU tip Solver.new).2.arena
      (clausifyFreeze tip.init (tip.flps.map (fun f => f.init)) (Solver.new, GMap.clear)).1.2 ∧
    ( SimpUnroller.initializeU tip Solver.new).1.flop_front =
      tip.flps.map (fun f => mapSig
        (clausifyFreeze tip.init (tip.flps.map (fun f => f.init)) (Solver.new, GMap.clear)).1.2
        f.init) ∧
    ( SimpUnroller.initializeU tip Solver.new).2.clauses = [] := by
  have hl : Local tip.init.gates (Solver.new, (GMap.clear : GMap Sig)).1.arena
      (Solver.new, (GMap.clear : GMap Sig)).2 := by
    intro g s hs
    simp [GMap.clear] at hs
  obtain ⟨A, B, C⟩ := clausifyFreeze_spec tip.init (wf_init_ok hwf)
    (tip.flps.map (fun f => f.init)) (Solver.new, GMap.clear) rfl hl
    (by
      intro x hx
      obtain ⟨f, hf, rfl⟩ := List.mem_map.mp hx
      exact (wf_flop hwf hf).2.1)
  refine ⟨⟨A.ok, A.loc, ?_, ?_⟩, ?_, ?_⟩
  · intro f hf
    exact C f.init (List.mem_map.mpr ⟨f, hf, rfl⟩)
  · intro τ
    obtain ⟨asg, _, h⟩ := A.compl (fun _ => false) τ
    exact ⟨asg, fun g k s hd hs => h g k s hd rfl hs⟩
  · simp only [ SimpUnroller.initializeU, B, List.map_map]
    rfl
  · simp only [ SimpUnroller.initializeU]
    rw [A.clauses]
    rfl

theorem bindFront_eq (src : Circ) (s : Solver) :
    ∀ (fs : List Flop) (ls : List (Option Sig)) (m : GMap Sig),
      (∀ f ∈ fs, src.isInp f.gate = true ∧ m f.gate = none) →
      (fs.map (fun f => f.gate)).Nodup → (∀ o ∈ ls, ∃ l, o = some l) →
      bindFront src fs ls (s, m) = (s, seedFront fs ls m) := by
  intro fs
  induction fs with
  | nil =>
    intro ls m _ _ _
    cases ls with
    | nil => rfl
    | cons o ls => cases o <;> rfl
  | cons f fs ih =>
    intro ls m hf hnd hls
    cases ls with
    | nil => rfl
    | cons o ls =>
      obtain ⟨l, rfl⟩ := hls o (by simp)
      simp only [List.map_cons, List.nodup_cons] at hnd
      obtain ⟨h1, h2⟩ := hf f (by simp)
      have e : clausifyAs src (s, m) ⟨f.gate, false⟩ l = (s, m.set f.gate l) := by
        simp [clausifyAs, h2, h1, Sig.xorSign]
      simp only [bindFront, seedFront, e]
      have e2 : m.setO f.gate (some l) = m.set f.gate l := rfl
      rw [e2]
      apply ih ls _ _ hnd.2 (fun o ho => hls o (by simp [ho]))
      intro f' hf'
      refine ⟨(hf f' (by simp [hf'])).1, ?_⟩
      have hne : f'.gate ≠ f.gate := by
        intro e
        exact hnd.1 (e ▸ List.mem_map.mpr ⟨f', hf', rfl⟩)
      simp only [GMap.set, hne, if_false]
      exact (hf f' (by simp [hf'])).2

theorem seeded_local0 (tip : TipCirc) (hwf : tip.wf = true) (uc : Circ)
    (front : List (Option Sig)) (hlen : front.length = tip.flps.length)
    (hfront : ∀ o ∈ front, ∃ s, o = some s ∧ uc.has s = true) :
    Local tip.main.gates uc (seedFront tip.flps front GMap.clear) := by
  obtain ⟨s1, s2⟩ := seedFront_spec (fun _ => false) tip.flps front GMap.clear hlen.symm
    (wf_nodup hwf)
  intro g s hs
  by_cases hmem : g ∈ tip.flps.map (fun f => f.gate)
  · obtain ⟨f, hf, rfl⟩ := List.mem_map.mp hmem
    obtain ⟨o, ho⟩ := mem_zip_of_mem_left tip.flps front hlen.symm f hf
    have h1 := (s2 _ ho).1
    simp only at h1
    rw [hs] at h1
    obtain ⟨s', hs', hhas⟩ := hfront o (List.of_mem_zip ho).2
    rw [← h1] at hs'
    cases hs'
    obtain ⟨n, hn⟩ := isInp_iff.mp (wf_flop hwf hf).1
    have hr := defAt_range hn
    refine ⟨hhas, fun e => by omega, fun x y hd => ?_⟩
    rw [hn] at hd
    cases hd
  · have := (s1 g hmem).1
    rw [this] at hs
    simp [GMap.clear] at hs

/-- The step of `SimpUnroller` is an unrolling step in the arena of the solver. -/
theorem simp_stepmap (tip : TipCirc) (hwf : tip.wf = true) (ps : List PropData)
    (tr : List TraceData) (hps : ∀ d ∈ ps, tip.main.has d.sig = true) (su : SimpUnroller)
    (s : Solver) {k : Nat} (T : Tracks tip s.arena su.flop_front k) :
    StepMap tip s.arena su.flop_front
      (SimpUnroller.stepU { tip with safe_props := ps, traces := tr } su s).2.1.arena
      (SimpUnroller.stepU { tip with safe_props := ps, traces := tr } su s).2.2 ∧
    (SimpUnroller.stepU { tip with safe_props := ps, traces := tr } su s).1.flop_front =
      tip.flps.map (fun f => mapSig
        (SimpUnroller.stepU { tip with safe_props := ps, traces := tr } su s).2.2 f.next) ∧
    (SimpUnroller.stepU { tip with safe_props := ps, traces := tr } su s).2.1.clauses
      = s.clauses ∧
    (∀ d ∈ ps, d.stat = pstat_Unknown →
      (SimpUnroller.stepU { tip with safe_props := ps, traces := tr } su s).2.2 d.sig.gate
        ≠ none) := by
  have hb : bindFront tip.main tip.flps su.flop_front (s, GMap.clear) =
      (s, seedFront tip.flps su.flop_front GMap.clear) := by
    apply bindFront_eq _ _ _ _ _ _ (wf_nodup hwf)
    · intro o ho
      obtain ⟨l, hl, _⟩ := T.valid o ho
      exact ⟨l, hl⟩
    · intro f hf
      exact ⟨(wf_flop hwf hf).1, rfl⟩
  have hl0 := seeded_local0 tip hwf s.arena su.flop_front T.len T.valid
  obtain ⟨s1, s2⟩ := seedFront_spec (fun _ => false) tip.flps su.flop_front GMap.clear
    T.len.symm (wf_nodup hwf)
  obtain ⟨A, B, C⟩ := clausifyFreeze_spec tip.main (wf_main_ok hwf)
    (tip.flps.map (fun f => f.next)) (s, seedFront tip.flps su.flop_front GMap.clear) T.ok hl0
    (by
      intro x hx
      obtain ⟨f, hf, rfl⟩ := List.mem_map.mp hx
      exact (wf_flop hwf hf).2.2)
  obtain ⟨A', _, C'⟩ := clausifyFreeze_spec tip.main (wf_main_ok hwf)
    ((ps.filter (fun d => decide (d.stat = pstat_Unknown))).map (fun d => d.sig))
    (clausifyFreeze tip.main (tip.flps.map (fun f => f.next))
      (s, seedFront tip.flps su.flop_front GMap.clear)).1 A.ok A.loc
    (by
      intro x hx
      obtain ⟨d, hd, rfl⟩ := List.mem_map.mp hx
      exact hps d (List.mem_filter.mp hd).1)
  have AA := A.chain A'
  simp only [SimpUnroller.stepU, hb]
  refine ⟨⟨AA.ext, AA.ok, AA.loc, ?_, ?_, ?_⟩, ?_, ?_, ?_⟩
  · intro p hp
    obtain ⟨l, hl, _⟩ := T.valid p.2 (List.of_mem_zip hp).2
    rw [hl]
    apply AA.keep
    show seedFront tip.flps su.flop_front GMap.clear p.1.gate = some l
    rw [(s2 p hp).1, hl]
  · intro f hf
    obtain ⟨t, ht⟩ := Option.ne_none_iff_exists'.mp (C f.next (List.mem_map.mpr ⟨f, hf, rfl⟩))
    rw [A'.keep _ _ ht]
    simp
  · intro asg τ
    obtain ⟨asg', a1, a2⟩ := AA.compl asg τ
    refine ⟨asg', a1, fun g n t hd hnf ht => a2 g n t hd ?_ ht⟩
    show seedFront tip.flps su.flop_front GMap.clear g = none
    rw [(s1 g (isFlop_false_iff.mp hnf)).1]
    rfl
  · rw [B, List.map_map]
    apply List.map_congr_left
    intro f hf
    obtain ⟨a, ha⟩ := mapSig_defined (C f.next (List.mem_map.mpr ⟨f, hf, rfl⟩))
    simp only [Function.comp, ha]
    exact (mapSig_keep A'.keep ha).symm
  · exact AA.clauses
  · intro d hd hu
    exact C' d.sig (List.mem_map.mpr ⟨d, List.mem_filter.mpr ⟨hd, by simp [hu]⟩, rfl⟩)

/-- The SAT test of `simpBmc` for one property answers whether some run violates the
property in the current cycle. -/
theorem simp_query {solve : SolveFn} (hs : SolverCorrect solve) {tip : TipCirc} {s : Solver}
    (hc : s.clauses = []) {cm : GMap Sig} {k : Nat} (I : Images tip s.arena cm k)
    {x plit : Sig} (hx : tip.main.has x = true) (hp : lookup cm x = some plit) :
    (solve s [plit.neg]).isSome = true ↔ ViolAt tip k x := by
  constructor
  · intro h
    cases hm : solve s [plit.neg] with
    | none => rw [hm] at h; cases h
    | some m =>
      have h1 := (hs _ _).1 m hm
      rw [holds_single _ hc, eval_neg] at h1
      obtain ⟨iv0, ivs, h3⟩ := I.sound m
      refine ⟨iv0, ivs, ?_⟩
      rw [← h3 x plit hx hp]
      simpa using h1
  · rintro ⟨iv0, ivs, hv⟩
    obtain ⟨asg, h3⟩ := I.compl iv0 ivs
    cases hm : solve s [plit.neg] with
    | some m' => rfl
    | none =>
      have h1 := (hs _ _).2 hm asg
      rw [holds_single _ hc, eval_neg, h3 x plit hx hp, hv] at h1
      cases h1

theorem simpProps_spec {solve : SolveFn} (hs : SolverCorrect solve) {tip : TipCirc}
    {s : Solver} (hc : s.clauses = []) {cm : GMap Sig} {k : Nat} (I : Images tip s.arena cm k)
    (inps : List LIFrame) (viol : Sig → Bool) (hv : ∀ s, viol s = true ↔ ViolAt tip k s) :
    ∀ (ds : List PropData) (st : List TraceData × Nat),
      (∀ d ∈ ds, tip.main.has d.sig = true) →
      (∀ d ∈ ds, d.stat = pstat_Unknown → cm d.sig.gate ≠ none) →
      view (simpProps solve s cm inps ds st).1 = (view ds).map (refStat viol) ∧
      (simpProps solve s cm inps ds st).2.2 = st.2 + unknowns ((view ds).map (refStat viol)) := by
  intro ds
  induction ds with
  | nil =>
    intro st _ _
    exact ⟨rfl, rfl⟩
  | cons d ds ih =>
    intro st hsig hdef
    have hd := hsig d (by simp)
    have hds : ∀ d' ∈ ds, tip.main.has d'.sig = true := fun d' h => hsig d' (by simp [h])
    have hdefs : ∀ d' ∈ ds, d'.stat = pstat_Unknown → cm d'.sig.gate ≠ none :=
      fun d' h => hdef d' (by simp [h])
    simp only [simpProps]
    by_cases hu : d.stat = pstat_Unknown
    · simp only [hu, ne_eq, not_true_eq_false, if_false]
      obtain ⟨plit, hp⟩ := mapSig_defined (hdef d (by simp) hu)
      have hp' : lookup cm d.sig = some plit := hp
      have Q := simp_query hs hc I hd hp'
      simp only [hp']
      cases hm : solve s [plit.neg] with
      | some m =>
        have hvi : viol d.sig = true := (hv _).mpr (Q.mp (by rw [hm]; rfl))
        obtain ⟨b, c⟩ := ih (st.1 ++ [⟨modelFrames s m inps, loop_none⟩], st.2) hds hdefs
        refine ⟨?_, ?_⟩
        · simp only [view, List.map_cons, refStat, hu, hvi, and_self, if_true] at b ⊢
          rw [b]
        · rw [c]
          simp [view, refStat, hu, hvi, unknowns]
      | none =>
        have hvi : viol d.sig = false := by
          cases h : viol d.sig with
          | false => rfl
          | true =>
            have := Q.mpr ((hv _).mp h)
            rw [hm] at this
            cases this
        obtain ⟨b, c⟩ := ih (st.1, st.2 + 1) hds hdefs
        refine ⟨?_, ?_⟩
        · simp only [view, List.map_cons, refStat, hu, hvi] at b ⊢
          simp only [Bool.false_eq_true, and_false, if_false]
          rw [b]
        · rw [c]
          simp [view, refStat, hu, hvi, unknowns]
          omega
    · simp only [hu, ne_eq, not_false_eq_true, if_true]
      obtain ⟨b, c⟩ := ih st hds hdefs
      refine ⟨?_, ?_⟩
      · simp only [view, List.map_cons, refStat, hu, false_and, if_false] at b ⊢
        rw [b]
      · rw [c]
        simp [view, refStat, hu, unknowns]

theorem simpLoop_spec {solve : SolveFn} (hs : SolverCorrect solve) (choose : Solver → List Nat)
    (tip : TipCirc) (hwf : tip.wf = true) (viol : Nat → Sig → Bool)
    (hv : ∀ k s, viol k s = true ↔ ViolAt tip k s) (b : Nat) :
    ∀ (n i : Nat) (ps : List PropData) (tr : List TraceData) (su : SimpUnroller) (s : Solver),
      Tracks tip s.arena su.flop_front i → s.clauses = [] →
      (∀ d ∈ ps, tip.main.has d.sig = true) →
      ∃ ps' tr', simpLoopU solve choose b n i ({ tip with safe_props := ps, traces := tr }, su, s)
          = { tip with safe_props := ps', traces := tr' } ∧
        view ps' = refLoop viol b n i (view ps) := by
  intro n
  induction n with
  | zero =>
    intro i ps tr su s _ _ _
    exact ⟨ps, tr, rfl, rfl⟩
  | succ n ih =>
    intro i ps tr su s T hc hsig
    obtain ⟨S, hfront, hcl, hdef⟩ := simp_stepmap tip hwf ps tr hsig su s T
    obtain ⟨T', I⟩ := step_tracks hwf T S
    simp only [simpLoopU, refLoop]
    generalize SimpUnroller.stepU { tip with safe_props := ps, traces := tr } su s = r at *
    rw [← hfront] at T'
    by_cases hb : i < b
    · simp only [hb, if_true]
      exact ih (i + 1) ps tr r.1 r.2.1 T' (by rw [hcl, hc]) hsig
    · simp only [hb, if_false]
      have hc1 : (r.2.1.eliminate choose).clauses = [] := by
        simp [Solver.eliminate, hcl, hc]
      have I1 : Images tip (r.2.1.eliminate choose).arena r.2.2 i := I
      obtain ⟨Q2, Q3⟩ := simpProps_spec hs hc1 I1 r.1.unroll_inps (viol i) (hv i) ps (tr, 0)
        hsig hdef
      rw [Q3, ← Q2]
      simp only [Nat.zero_add]
      split
      · exact ⟨_, _, rfl, rfl⟩
      · refine ih (i + 1) _ _ r.1 _ T' ?_ ?_
        · simp [Solver.thaw, Solver.eliminate, hcl, hc]
        · exact view_sigs (f := refStat (viol i)) (fun d => rfl) Q2
            (fun s => tip.main.has s = true) hsig

/-- The verdicts of `simpBmc` are the reference verdicts. -/
theorem simpBmc_spec {solve : SolveFn} (hs : SolverCorrect solve) (choose : Solver → List Nat)
    (tip : TipCirc) (hwf : tip.wf = true) (viol : Nat → Sig → Bool)
    (hv : ∀ k s, viol k s = true ↔ ViolAt tip k s) (b e : Nat) :
    ∃ ps' tr', simpBmcU solve choose tip b e = { tip with safe_props := ps', traces := tr' } ∧
      view ps' = refLoop viol b e 0 (view tip.safe_props) := by
  obtain ⟨I, hf, hc⟩ := simp_init_map tip hwf
  have T := init_tracks hwf I
  rw [← hf] at T
  exact simpLoop_spec hs choose tip hwf viol hv b e 0 tip.safe_props tip.traces
    ( SimpUnroller.initializeU tip Solver.new).1 ( SimpUnroller.initializeU tip Solver.new).2 T hc
    (fun d hd => wf_safe hwf hd)

/-! ## Properties of the reference verdicts -/

theorem refStat_cases (viol : Sig → Bool) (s : Sig) (st : PropStatus) :
    refStat viol (s, st) = (s, st) ∨
      (st = pstat_Unknown ∧ viol s = true ∧ refStat viol (s, st) = (s, pstat_Falsified)) := by
  unfold refStat
  by_cases h : st = pstat_Unknown ∧ viol s = true
  · exact Or.inr ⟨h.1, h.2, by simp [h]⟩
  · exact Or.inl (by simp [h])

theorem unknowns_zero {ps : List (Sig × PropStatus)} (h : unknowns ps = 0) :
    ∀ d ∈ ps, d.2 ≠ pstat_Unknown := by
  intro d hd hu
  unfold unknowns at h
  have : d ∈ ps.filter (fun d => decide (d.2 = pstat_Unknown)) :=
    List.mem_filter.mpr ⟨hd, by simp [hu]⟩
  rw [List.length_eq_zero.mp h] at this
  simp at this

theorem refLoop_get (viol : Nat → Sig → Bool) (b : Nat) :
    ∀ (n i : Nat) (ps : List (Sig × PropStatus)) (j : Nat) (s : Sig) (st' : PropStatus),
      (refLoop viol b n i ps)[j]? = some (s, st') →
      ∃ st, ps[j]? = some (s, st) ∧
        (st' = st ∨ (st = pstat_Unknown ∧ st' = pstat_Falsified ∧
          ∃ t, b ≤ t ∧ i ≤ t ∧ t < i + n ∧ viol t s = true)) := by
  intro n
  induction n with
  | zero =>
    intro i ps j s st' h
    exact ⟨st', h, Or.inl rfl⟩
  | succ n ih =>
    intro i ps j s st' h
    have step : ∀ st1, (ps.map (refStat (viol i)))[j]? = some (s, st1) → ¬ i < b →
        ∃ st, ps[j]? = some (s, st) ∧
          (st1 = st ∨ (st = pstat_Unknown ∧ st1 = pstat_Falsified ∧ viol i s = true)) := by
      intro st1 h1 _
      rw [List.getElem?_map] at h1
      cases hp : ps[j]? with
      | none => simp [hp] at h1
      | some d =>
        obtain ⟨s0, st0⟩ := d
        simp only [hp, Option.map_some'] at h1
        rcases refStat_cases (viol i) s0 st0 with e | ⟨e1, e2, e3⟩
        · rw [e] at h1
          cases h1
          exact ⟨st1, rfl, Or.inl rfl⟩
        · rw [e3] at h1
          cases h1
          exact ⟨st0, rfl, Or.inr ⟨e1, rfl, e2⟩⟩
    simp only [refLoop] at h
    by_cases hb : i < b
    · simp only [hb, if_true] at h
      obtain ⟨st, h1, h2⟩ := ih (i + 1) ps j s st' h
      refine ⟨st, h1, ?_⟩
      rcases h2 with e | ⟨e1, e2, t, t1, t2, t3, t4⟩
      · exact Or.inl e
      · exact Or.inr ⟨e1, e2, t, t1, by omega, by omega, t4⟩
    · simp only [hb, if_false] at h
      split at h
      · obtain ⟨st, h1, h2⟩ := step st' h hb
        refine ⟨st, h1, ?_⟩
        rcases h2 with e | ⟨e1, e2, e3⟩
        · exact Or.inl e
        · exact Or.inr ⟨e1, e2, i, by omega, by omega, by omega, e3⟩
      · obtain ⟨st1, h1, h2⟩ := ih (i + 1) _ j s st' h
        obtain ⟨st, h3, h4⟩ := step st1 h1 hb
        refine ⟨st, h3, ?_⟩
        rcases h2 with e | ⟨e1, e2, t, t1, t2, t3, t4⟩
        · rcases h4 with f | ⟨f1, f2, f3⟩
          · exact Or.inl (e.trans f)
          · exact Or.inr ⟨f1, e.trans f2, i, by omega, by omega, by omega, f3⟩
        · rcases h4 with f | ⟨f1, f2, f3⟩
          · exact Or.inr ⟨f ▸ e1, e2, t, t1, by omega, by omega, t4⟩
          · rw [f2] at e1
            cases e1

theorem refLoop_stable (viol : Nat → Sig → Bool) (b : Nat) :
    ∀ (n i : Nat) (ps : List (Sig × PropStatus)) (j : Nat) (s : Sig) (st : PropStatus),
      ps[j]? = some (s, st) → st ≠ pstat_Unknown →
      (refLoop viol b n i ps)[j]? = some (s, st) := by
  intro n
  induction n with
  | zero => intro i ps j s st h _; exact h
  | succ n ih =>
    intro i ps j s st h hst
    have h1 : (ps.map (refStat (viol i)))[j]? = some (s, st) := by
      rw [List.getElem?_map, h]
      simp [refStat, hst]
    simp only [refLoop]
    split
    · exact ih _ _ _ _ _ h hst
    · split
      · exact h1
      · exact ih _ _ _ _ _ h1 hst

theorem refLoop_complete (viol : Nat → Sig → Bool) (b : Nat) :
    ∀ (n i : Nat) (ps : List (Sig × PropStatus)) (j : Nat) (s : Sig),
      ps[j]? = some (s, pstat_Unknown) →
      (∃ t, b ≤ t ∧ i ≤ t ∧ t < i + n ∧ viol t s = true) →
      (refLoop viol b n i ps)[j]? = some (s, pstat_Falsified) := by
  intro n
  induction n with
  | zero =>
    intro i ps j s _ ⟨t, _, t2, t3, _⟩
    omega
  | succ n ih =>
    intro i ps j s h ⟨t, t1, t2, t3, t4⟩
    simp only [refLoop]
    by_cases hb : i < b
    · simp only [hb, if_true]
      exact ih (i + 1) ps j s h ⟨t, t1, by omega, by omega, t4⟩
    · simp only [hb, if_false]
      by_cases hvi : viol i s = true
      · have h1 : (ps.map (refStat (viol i)))[j]? = some (s, pstat_Falsified) := by
          rw [List.getElem?_map, h]
          simp [refStat, hvi]
        split
        · exact h1
        · exact refLoop_stable viol b n (i + 1) _ j s _ h1 (by simp)
      · have h1 : (ps.map (refStat (viol i)))[j]? = some (s, pstat_Unknown) := by
          rw [List.getElem?_map, h]
          simp [refStat, hvi]
        have hne : t ≠ i := by
          intro e
          rw [e] at t4
          exact hvi t4
        split
        · next h0 =>
          have := unknowns_zero h0 _ (List.getElem?_mem h1)
          simp at this
        · exact ih (i + 1) _ j s h1 ⟨t, t1, by omega, by omega, t4⟩

theorem refLoop_last (viol : Nat → Sig → Bool) (b : Nat) :
    ∀ (n i : Nat) (ps : List (Sig × PropStatus)) (j : Nat) (s s' : Sig),
      (refLoop viol b n i ps)[j]? = some (s, pstat_Unknown) →
      (refLoop viol b (n + 1) i ps)[j]? = some (s', pstat_Falsified) →
      viol (i + n) s = true := by
  intro n
  induction n with
  | zero =>
    intro i ps j s s' h1 h2
    simp only [refLoop] at h1 h2
    have key : (ps.map (refStat (viol i)))[j]? = some (s', pstat_Falsified) →
        viol i s = true := by
      intro h3
      rw [List.getElem?_map, h1] at h3
      simp only [Option.map_some', refStat, Option.some.injEq, Prod.mk.injEq] at h3
      by_cases hv : viol i s = true
      · exact hv
      · simp [hv] at h3
    split at h2
    · rw [h1] at h2
      cases h2
    · split at h2
      · exact key h2
      · exact key h2
  | succ n ih =>
    intro i ps j s s' h1 h2
    rw [refLoop] at h1 h2
    by_cases hb : i < b
    · simp only [hb, if_true] at h1 h2
      have := ih (i + 1) ps j s s' h1 h2
      rw [show i + (n + 1) = i + 1 + n by omega]
      exact this
    · simp only [hb, if_false] at h1 h2
      by_cases h0 : unknowns (ps.map (refStat (viol i))) = 0
      · simp only [h0, if_true] at h1 h2
        rw [h1] at h2
        cases h2
      · simp only [h0, if_false] at h1 h2
        have := ih (i + 1) _ j s s' h1 h2
        rw [show i + (n + 1) = i + 1 + n by omega]
        exact this

theorem view_get {ps : List PropData} {j : Nat} {d : PropData} (h : ps[j]? = some d) :
    (view ps)[j]? = some (d.sig, d.stat) := by
  simp [view, List.getElem?_map, h]

theorem view_get_inv {ps : List PropData} {j : Nat} {x : Sig × PropStatus}
    (h : (view ps)[j]? = some x) : ∃ d, ps[j]? = some d ∧ x = (d.sig, d.stat) := by
  simp only [view, List.getElem?_map] at h
  cases hp : ps[j]? with
  | none => simp [hp] at h
  | some d =>
    simp [hp] at h
    exact ⟨d, rfl, h.symm⟩

/-! ## C2, C3, C4, C5: bounded model checking -/

theorem exists_viol (tip : TipCirc) :
    ∃ viol : Nat → Sig → Bool, ∀ k s, viol k s = true ↔ ViolAt tip k s := by
  classical
  exact ⟨fun k s => decide (ViolAt tip k s), fun k s => by simp⟩

theorem verdict_sound {tip : TipCirc} {viol : Nat → Sig → Bool}
    (hv : ∀ k s, viol k s = true ↔ ViolAt tip k s) {b e : Nat} {ps' : List PropData}
    (h : view ps' = refLoop viol b e 0 (view tip.safe_props)) {j : Nat} {d : PropData}
    (hj : tip.safe_props[j]? = some d) :
    ∃ d', ps'[j]? = some d' ∧ d'.sig = d.sig ∧
      (d'.stat = pstat_Falsified → d.stat ≠ pstat_Falsified →
        ∃ (t : Nat) (iv0 : Nat → Bool) (ivs : Nat → Nat → Bool),
          t < e ∧ tip.sigAt iv0 ivs t d.sig = false) ∧
      (d'.stat = pstat_Proved → d.stat = pstat_Proved) := by
  have hlen : (view ps').length = (view tip.safe_props).length := by
    rw [h]
    clear h
    generalize view tip.safe_props = l
    generalize (0 : Nat) = i
    induction e generalizing i l with
    | zero => rfl
    | succ n ih =>
      simp only [refLoop]
      split
      · exact ih _ _
      · split
        · simp
        · rw [ih]; simp
  have hj' : j < ps'.length := by
    have := (List.getElem?_eq_some.mp hj).1
    simp only [view, List.length_map] at hlen
    omega
  obtain ⟨d', hd'⟩ : ∃ d', ps'[j]? = some d' := ⟨ps'[j], List.getElem?_eq_getElem hj'⟩
  have h1 := view_get hd'
  rw [h] at h1
  obtain ⟨st, h2, h3⟩ := refLoop_get viol b e 0 _ j _ _ h1
  rw [view_get hj] at h2
  simp only [Option.some.injEq, Prod.mk.injEq] at h2
  refine ⟨d', hd', h2.1.symm, ?_, ?_⟩
  · intro hf hnf
    rcases h3 with e1 | ⟨_, _, t, _, _, t3, t4⟩
    · rw [e1, ← h2.2] at hf
      exact absurd hf hnf
    · obtain ⟨iv0, ivs, hvi⟩ := (hv t d'.sig).mp t4
      exact ⟨t, iv0, ivs, by omega, by rw [h2.1]; exact hvi⟩
  · intro hp
    rcases h3 with e1 | ⟨_, e2, _⟩
    · rw [h2.2, ← e1]
      exact hp
    · rw [e2] at hp
      cases hp

/-- Soundness of both procedures, for `simpBmc` with the assertions of its unroller left
unchecked. -/
theorem bmcU_sound (solve : SolveFn) (hs : SolverCorrect solve) (choose : Solver → List Nat)
    (tip : TipCirc) (hwf : tip.wf = true) (begin_cycle stop_cycle j : Nat) (d : PropData)
    (hj : tip.safe_props[j]? = some d) :
    (∃ d', (basicBmc solve tip begin_cycle stop_cycle).safe_props[j]? = some d' ∧
      d'.sig = d.sig ∧
      (d'.stat = pstat_Falsified → d.stat ≠ pstat_Falsified →
        ∃ (t : Nat) (iv0 : Nat → Bool) (ivs : Nat → Nat → Bool),
          t < stop_cycle ∧ tip.sigAt iv0 ivs t d.sig = false) ∧
      (d'.stat = pstat_Proved → d.stat = pstat_Proved)) ∧
    (∃ d', (simpBmcU solve choose tip begin_cycle stop_cycle).safe_props[j]? = some d' ∧
      d'.sig = d.sig ∧
      (d'.stat = pstat_Falsified → d.stat ≠ pstat_Falsified →
        ∃ (t : Nat) (iv0 : Nat → Bool) (ivs : Nat → Nat → Bool),
          t < stop_cycle ∧ tip.sigAt iv0 ivs t d.sig = false) ∧
      (d'.stat = pstat_Proved → d.stat = pstat_Proved)) ∧
    (basicBmc solve tip begin_cycle stop_cycle).live_props = tip.live_props ∧
    (simpBmcU solve choose tip begin_cycle stop_cycle).live_props = tip.live_props := by
  obtain ⟨viol, hv⟩ := exists_viol tip
  obtain ⟨ps1, e1, v1⟩ := basicBmc_spec hs tip hwf viol hv begin_cycle stop_cycle
  obtain ⟨ps2, tr2, e2, v2⟩ := simpBmc_spec hs choose tip hwf viol hv begin_cycle stop_cycle
  rw [e1, e2]
  exact ⟨verdict_sound hv v1 hj, verdict_sound hv v2 hj, rfl, rfl⟩

theorem verdict_complete {tip : TipCirc} {viol : Nat → Sig → Bool}
    (hv : ∀ k s, viol k s = true ↔ ViolAt tip k s) {e : Nat} {ps' : List PropData}
    (h : view ps' = refLoop viol 0 e 0 (view tip.safe_props)) {j : Nat} {d : PropData}
    (hj : tip.safe_props[j]? = some d) (hu : d.stat = pstat_Unknown) {i : Nat} (hi : i < e)
    (hviol : ViolAt tip i d.sig) :
    ps'[j]?.map (fun d => d.stat) = some pstat_Falsified := by
  have h0 := view_get hj
  rw [hu] at h0
  have h1 := refLoop_complete viol 0 e 0 _ j d.sig h0
    ⟨i, by omega, by omega, by omega, (hv i d.sig).mpr hviol⟩
  rw [← h] at h1
  obtain ⟨d', hd', e'⟩ := view_get_inv h1
  simp only [Prod.mk.injEq] at e'
  rw [hd']
  simp [← e'.2]

/-- Completeness of both procedures up to the depth bound, for `simpBmc` with the assertions
of its unroller left unchecked. -/
theorem bmcU_complete (solve : SolveFn) (hs : SolverCorrect solve) (choose : Solver → List Nat)
    (tip : TipCirc) (hwf : tip.wf = true) (stop_cycle j : Nat) (d : PropData)
    (hj : tip.safe_props[j]? = some d) (hu : d.stat = pstat_Unknown) (i : Nat)
    (hi : i < stop_cycle) (iv0 : Nat → Bool) (ivs : Nat → Nat → Bool)
    (hviol : tip.sigAt iv0 ivs i d.sig = false) :
    (basicBmc solve tip 0 stop_cycle).safe_props[j]?.map (fun d => d.stat)
      = some pstat_Falsified ∧
    (simpBmcU solve choose tip 0 stop_cycle).safe_props[j]?.map (fun d => d.stat)
      = some pstat_Falsified := by
  obtain ⟨viol, hv⟩ := exists_viol tip
  obtain ⟨ps1, e1, v1⟩ := basicBmc_spec hs tip hwf viol hv 0 stop_cycle
  obtain ⟨ps2, tr2, e2, v2⟩ := simpBmc_spec hs choose tip hwf viol hv 0 stop_cycle
  rw [e1, e2]
  exact ⟨verdict_complete hv v1 hj hu hi ⟨iv0, ivs, hviol⟩,
    verdict_complete hv v2 hj hu hi ⟨iv0, ivs, hviol⟩⟩

/-- The two procedures leave the same statuses, for `simpBmc` with the assertions of its
unroller left unchecked. -/
theorem bmcU_agree (solve1 solve2 : SolveFn) (h1 : SolverCorrect solve1)
    (h2 : SolverCorrect solve2) (choose : Solver → List Nat) (tip : TipCirc)
    (hwf : tip.wf = true) (begin_cycle stop_cycle : Nat) :
    (basicBmc solve1 tip begin_cycle stop_cycle).safe_props.map (fun d => d.stat) =
      (simpBmcU solve2 choose tip begin_cycle stop_cycle).safe_props.map (fun d => d.stat) ∧
    (basicBmc solve1 tip begin_cycle stop_cycle).live_props =
      (simpBmcU solve2 choose tip begin_cycle stop_cycle).live_props := by
  obtain ⟨viol, hv⟩ := exists_viol tip
  obtain ⟨ps1, e1, v1⟩ := basicBmc_spec h1 tip hwf viol hv begin_cycle stop_cycle
  obtain ⟨ps2, tr2, e2, v2⟩ := simpBmc_spec h2 choose tip hwf viol hv begin_cycle stop_cycle
  rw [e1, e2]
  refine ⟨?_, rfl⟩
  have : view ps1 = view ps2 := by rw [v1, v2]
  have := congrArg (List.map Prod.snd) this
  simpa [view, List.map_map, Function.comp] using this

/-- C4 (amended): if `basicBmc` marks a safety property Falsified at cycle `k` (the property
is still Unknown when the run stops before cycle `k` and Falsified when it stops after it),
then some input sequence drives the property's signal to 0 in cycle `k`. -/
theorem basicBmc_falsified_at (solve : SolveFn) (hs : SolverCorrect solve) (tip : TipCirc)
    (hwf : tip.wf = true) (begin_cycle k j : Nat) (d d1 d2 : PropData)
    (hj : tip.safe_props[j]? = some d)
    (h1 : (basicBmc solve tip begin_cycle k).safe_props[j]? = some d1)
    (hu : d1.stat = pstat_Unknown)
    (h2 : (basicBmc solve tip begin_cycle (k + 1)).safe_props[j]? = some d2)
    (hf : d2.stat = pstat_Falsified) :
    ∃ (iv0 : Nat → Bool) (ivs : Nat → Nat → Bool), tip.sigAt iv0 ivs k d.sig = false := by
  obtain ⟨viol, hv⟩ := exists_viol tip
  obtain ⟨ps1, e1, v1⟩ := basicBmc_spec hs tip hwf viol hv begin_cycle k
  obtain ⟨ps2, e2, v2⟩ := basicBmc_spec hs tip hwf viol hv begin_cycle (k + 1)
  rw [e1] at h1
  rw [e2] at h2
  have a1 := view_get h1
  have a2 := view_get h2
  rw [v1, hu] at a1
  rw [v2, hf] at a2
  have hv' := refLoop_last viol begin_cycle k 0 _ j _ _ a1 a2
  obtain ⟨st, h3, _⟩ := refLoop_get viol begin_cycle k 0 _ j _ _ a1
  rw [view_get hj] at h3
  simp only [Option.some.injEq, Prod.mk.injEq] at h3
  rw [Nat.zero_add, ← h3.1] at hv'
  exact (hv k d.sig).mp hv'

theorem basicBmc_falsified_at_witness :
    SolverCorrect bruteSolve ∧ xorTip.wf = true ∧
    xorTip.safe_props[0]? = some ⟨⟨2, true⟩, pstat_Unknown, none⟩ ∧
    (basicBmc bruteSolve xorTip 0 1).safe_props[0]? = some ⟨⟨2, true⟩, pstat_Unknown, none⟩ ∧
    (basicBmc bruteSolve xorTip 0 2).safe_props[0]? = some ⟨⟨2, true⟩, pstat_Falsified, none⟩ ∧
    ∃ (iv0 : Nat → Bool) (ivs : Nat → Nat → Bool),
      xorTip.sigAt iv0 ivs 1 (⟨⟨2, true⟩, pstat_Unknown, none⟩ : PropData).sig = false :=
  ⟨bruteSolve_correct, by decide, rfl, by decide, by decide,
    basicBmc_falsified_at bruteSolve bruteSolve_correct xorTip (by decide) 0 1 0 _ _ _ rfl
      (by decide : (basicBmc bruteSolve xorTip 0 1).safe_props[0]?
        = some ⟨⟨2, true⟩, pstat_Unknown, none⟩) rfl
      (by decide : (basicBmc bruteSolve xorTip 0 2).safe_props[0]?
        = some ⟨⟨2, true⟩, pstat_Falsified, none⟩) rfl⟩

/-- C4 (as stated) fails: on the circuit of the first scenario `basicBmc` with
`stop_cycle = 2` marks the property Falsified at cycle 1 (it is still Unknown with
`stop_cycle = 1`), but the counter-example it stores is `trace_Undef` and the trace set stays
empty, so the property has no trace of 2 frames; and in the run with `input0 = 1` in cycle 0
the property's signal is 0, not 1, at step 1. -/
theorem basicBmc_trace_counterexample :
    (basicBmc bruteSolve xorTip 0 1).safe_props = [⟨⟨2, true⟩, pstat_Unknown, none⟩] ∧
    (basicBmc bruteSolve xorTip 0 2).safe_props = [⟨⟨2, true⟩, pstat_Falsified, none⟩] ∧
    (basicBmc bruteSolve xorTip 0 2).traces = [] ∧
    xorTip.sigAt (fun _ => false) (fun t g => decide (t = 0 ∧ g = 1)) 1 ⟨2, true⟩ = false := by
  decide

/-! ## The clausifier over a fixed arena -/

theorem CInv.fresh (src : Circ) : CInv src (Solver.new, GMap.clear) := by
  refine ⟨rfl, ?_, ?_, ?_⟩
  · intro g s hs
    simp [GMap.clear] at hs
  · intro g hg
    simp [GMap.clear] at hg
  · intro τ
    refine ⟨fun _ => false, fun g k s _ hs => ?_⟩
    simp [GMap.clear] at hs

theorem CInv.advance {src : Circ} {st st' : Solver × GMap Sig} (V : CInv src st)
    (R : ClRes src.gates st st') : CInv src st' := by
  refine ⟨R.ok, R.loc, ?_, ?_⟩
  · intro g hg
    cases h : st.2 g with
    | none => exact R.range g h hg
    | some s => exact V.range g (by rw [h]; simp)
  · intro τ
    obtain ⟨m0, h0⟩ := V.compl τ
    obtain ⟨m, a1, a2⟩ := R.compl m0 τ
    refine ⟨m, fun g k s hd hs => ?_⟩
    cases h : st.2 g with
    | none => exact a2 g k s hd h hs
    | some t =>
      have := R.keep g t h
      rw [hs] at this
      cases this
      rw [R.ext.eval _ (V.loc g s h).1, ← h0 g k s hd h]
      apply eval_congr
      intro u n hu
      exact a1 u (defAt_range hu).2

theorem CInv.solver {src : Circ} {st : Solver × GMap Sig} (V : CInv src st) (s : Solver)
    (h : s.arena = st.1.arena) : CInv src (s, st.2) := by
  refine ⟨?_, ?_, V.range, ?_⟩
  · show s.arena.ok = true
    rw [h]; exact V.ok
  · show Local src.gates s.arena st.2
    rw [h]; exact V.loc
  · show ∀ τ : Nat → Bool, ∃ m : Nat → Bool, Realises src.gates s.arena st.2 m τ
    rw [h]; exact V.compl

theorem CInv.litValue {src : Circ} (hok : src.ok = true) {st : Solver × GMap Sig}
    (V : CInv src st) {m τ : Nat → Bool} (hr : Realises src.gates st.1.arena st.2 m τ)
    {x l : Sig} (hx : src.has x = true) (hl : mapSig st.2 x = some l) :
    st.1.arena.eval m l = src.eval τ x :=
  Local.sound_sig hok V.loc m τ hr hx hl

theorem CInv.realises_self {src : Circ} {st : Solver × GMap Sig} (m : Nat → Bool) :
    Realises src.gates st.1.arena st.2 m (fun g => st.1.arena.evalO m (st.2 g)) := by
  intro g k s _ hs
  simp [hs, Circ.evalO]

theorem clausifyList_spec (src : Circ) (hok : src.ok = true) :
    ∀ (xs : List Sig) (st : Solver × GMap Sig), st.1.arena.ok = true →
      Local src.gates st.1.arena st.2 → (∀ x ∈ xs, src.has x = true) →
      ClRes src.gates st (clausifyList src xs st).1 ∧
      (clausifyList src xs st).2 = xs.map (mapSig (clausifyList src xs st).1.2) ∧
      ∀ x ∈ xs, (clausifyList src xs st).1.2 x.gate ≠ none := by
  intro xs
  induction xs with
  | nil =>
    intro st hst hl _
    exact ⟨ClRes.same _ _ hst hl, rfl, fun x hx => by simp at hx⟩
  | cons x xs ih =>
    intro st hst hl hxs
    obtain ⟨R, l, hl1, _⟩ := clausify_spec src hok st hst hl x (hxs x (by simp))
    obtain ⟨A, B, C⟩ := ih (clausify src st x).1 R.ok R.loc (fun y hy => hxs y (by simp [hy]))
    simp only [clausifyList]
    refine ⟨R.chain A, ?_, ?_⟩
    · have e : mapSig (clausifyList src xs (clausify src st x).1).1.2 x = some l :=
        mapSig_keep A.keep hl1
      rw [List.map_cons, e, ← B, hl1]
    · intro y hy
      rcases List.mem_cons.mp hy with e | h
      · subst e
        obtain ⟨t, ht, _⟩ := mapSig_inv (mapSig_keep A.keep hl1)
        rw [ht]; simp
      · exact C y h

/-- The value of a clause of literals that were produced for a list of signals. -/
theorem any_lits {α : Type} (ev : Sig → Bool) (g : α → Bool) :
    ∀ (xs : List α) (f : α → Option Sig) (lits : List Sig),
      lits.map some = xs.map f → (∀ x ∈ xs, ∀ l, f x = some l → ev l = g x) →
      lits.any ev = xs.any g := by
  intro xs
  induction xs with
  | nil =>
    intro f lits h _
    cases lits with
    | nil => rfl
    | cons l ls => simp at h
  | cons x xs ih =>
    intro f lits h hv
    cases lits with
    | nil => simp at h
    | cons l ls =>
      simp only [List.map_cons, List.cons.injEq] at h
      simp only [List.any_cons]
      rw [hv x (by simp) l h.1.symm, ih f ls h.2 (fun y hy => hv y (by simp [hy]))]

theorem filterMap_lits (cm cm' : GMap Sig) :
    ∀ (ss : List Sig), (∀ x ∈ ss, cm x.gate ≠ none) → (∀ g s, cm g = some s → cm' g = some s) →
      ((ss.map (mapSig cm)).filterMap id).map some = ss.map (mapSig cm') := by
  intro ss
  induction ss with
  | nil => intro _ _; rfl
  | cons s ss ih =>
    intro hdef hk
    obtain ⟨a, ha⟩ := mapSig_defined (hdef s (by simp))
    have ha' := mapSig_keep hk ha
    simp only [List.map_cons, ha, ha', List.filterMap_cons, id]
    rw [ih (fun x hx => hdef x (by simp [hx])) hk]

theorem safeBad_spec (main : Circ) (hok : main.ok = true) :
    ∀ (ps : List PropData) (st : Solver × GMap Sig), st.1.arena.ok = true →
      Local main.gates st.1.arena st.2 → (∀ p ∈ ps, main.has p.sig = true) →
      ClRes main.gates st (safeBad main ps st).1 ∧
      (safeBad main ps st).2.map some =
        (ps.filter (fun p => decide (p.stat = pstat_Unknown))).map
          (fun p => (mapSig (safeBad main ps st).1.2 p.sig).map Sig.neg) := by
  intro ps
  induction ps with
  | nil =>
    intro st hst hl _
    exact ⟨ClRes.same _ _ hst hl, rfl⟩
  | cons p ps ih =>
    intro st hst hl hps
    have hps' : ∀ q ∈ ps, main.has q.sig = true := fun q hq => hps q (by simp [hq])
    simp only [safeBad]
    by_cases hu : p.stat = pstat_Unknown
    · simp only [hu, if_true]
      obtain ⟨R, l, hl1, _⟩ := clausify_spec main hok st hst hl p.sig (hps p (by simp))
      obtain ⟨A, B⟩ := ih (clausify main st p.sig).1 R.ok R.loc hps'
      refine ⟨R.chain A, ?_⟩
      have e : mapSig (safeBad main ps (clausify main st p.sig).1).1.2 p.sig = some l :=
        mapSig_keep A.keep hl1
      simp only [List.filter_cons, hu, decide_True, if_true, List.map_cons, e, hl1,
        Option.map_some', Option.toList, List.map_append, List.singleton_append, List.map_nil,
        List.cons_append, List.nil_append]
      rw [B]
    · simp only [hu, if_false]
      obtain ⟨A, B⟩ := ih st hst hl hps'
      refine ⟨A, ?_⟩
      simp only [List.filter_cons, hu, decide_False, Bool.false_eq_true, if_false]
      exact B

theorem liveBad_spec (main : Circ) (hok : main.ok = true) :
    ∀ (ps : List LivePropData) (st : Solver × GMap Sig), st.1.arena.ok = true →
      Local main.gates st.1.arena st.2 → (∀ p ∈ ps, ∀ s ∈ p.sigs, main.has s = true) →
      ClRes main.gates st (liveBad main ps st).1 ∧
      (liveBad main ps st).2.map some =
        ((ps.filter (fun p => decide (p.stat = pstat_Unknown))).flatMap (fun p => p.sigs)).map
          (mapSig (liveBad main ps st).1.2) := by
  intro ps
  induction ps with
  | nil =>
    intro st hst hl _
    exact ⟨ClRes.same _ _ hst hl, rfl⟩
  | cons p ps ih =>
    intro st hst hl hps
    have hps' : ∀ q ∈ ps, ∀ s ∈ q.sigs, main.has s = true :=
      fun q hq => hps q (by simp [hq])
    simp only [liveBad]
    by_cases hu : p.stat = pstat_Unknown
    · simp only [hu, if_true]
      obtain ⟨R, hl1, hdef⟩ := clausifyList_spec main hok p.sigs st hst hl (hps p (by simp))
      obtain ⟨A, B⟩ := ih (clausifyList main p.sigs st).1 R.ok R.loc hps'
      refine ⟨R.chain A, ?_⟩
      simp only [List.filter_cons, hu, decide_True, if_true, List.flatMap_cons, List.map_append]
      rw [B]
      congr 1
      rw [hl1]
      exact filterMap_lits _ _ p.sigs hdef A.keep
    · simp only [hu, if_false]
      obtain ⟨A, B⟩ := ih st hst hl hps'
      refine ⟨A, ?_⟩
      simp only [List.filter_cons, hu, decide_False, Bool.false_eq_true, if_false]
      exact B

/-! ## The base formula of the constraint extraction -/

theorem any_filter_eq {α : Type} (p g : α → Bool) (l : List α) :
    (l.filter p).any g = l.any (fun x => p x && g x) := by
  induction l with
  | nil => rfl
  | cons x xs ih =>
    simp only [List.filter_cons, List.any_cons]
    cases hp : p x
    · simp [ih]
    · simp [ih]

theorem any_flatMap_eq {α β : Type} (f : α → List β) (g : β → Bool) (l : List α) :
    (l.flatMap f).any g = l.any (fun x => (f x).any g) := by
  induction l with
  | nil => rfl
  | cons x xs ih => simp [List.flatMap_cons, List.any_append, ih]

/-- The clause "some property is bad" that `initializeCands` builds has the value of
`badAt` under every valuation of the variables that realises a valuation of `main`. -/
theorem bad_clause_spec (tip : TipCirc) (hwf : tip.wf = true) (st1 : Solver × GMap Sig)
    (V : CInv tip.main st1) :
    CInv tip.main (liveBad tip.main tip.live_props (safeBad tip.main tip.safe_props st1).1).1 ∧
    ∀ m τ, Realises tip.main.gates
        (liveBad tip.main tip.live_props (safeBad tip.main tip.safe_props st1).1).1.1.arena
        (liveBad tip.main tip.live_props (safeBad tip.main tip.safe_props st1).1).1.2 m τ →
      ((safeBad tip.main tip.safe_props st1).2 ++
        (liveBad tip.main tip.live_props (safeBad tip.main tip.safe_props st1).1).2).any
        ((liveBad tip.main tip.live_props
          (safeBad tip.main tip.safe_props st1).1).1.1.arena.eval m) = tip.badAt τ := by
  have hok := wf_main_ok hwf
  obtain ⟨R2, L2⟩ := safeBad_spec tip.main hok tip.safe_props st1 V.ok V.loc
    (fun p hp => wf_safe hwf hp)
  obtain ⟨R3, L3⟩ := liveBad_spec tip.main hok tip.live_props
    (safeBad tip.main tip.safe_props st1).1 R2.ok R2.loc (fun p hp s hs => wf_live hwf hp hs)
  have V3 := V.advance (R2.chain R3)
  refine ⟨V3, fun m τ hr => ?_⟩
  rw [List.any_append, TipCirc.badAt]
  congr 1
  · rw [any_lits _ (fun p : PropData => !tip.main.eval τ p.sig) _ _ _ L2, any_filter_eq]
    intro p hp l hl
    have hp' := (List.mem_filter.mp hp).1
    obtain ⟨a, ha, rfl⟩ := Option.map_eq_some'.mp hl
    rw [eval_neg, V3.litValue hok hr (wf_safe hwf hp') (mapSig_keep R3.keep ha)]
  · rw [any_lits _ (fun s : Sig => tip.main.eval τ s) _ _ _ L3, any_flatMap_eq, any_filter_eq]
    intro s hs l hl
    obtain ⟨p, hp, hsp⟩ := List.mem_flatMap.mp hs
    exact V3.litValue hok hr (wf_live hwf (List.mem_filter.mp hp).1 hsp) hl

theorem initializeCands_snd (solve : SolveFn) (tip : TipCirc) (st : Solver × GMap Sig)
    (only_coi : Bool) :
    (initializeCands solve tip st only_coi).2 =
      (solve (initializeCands solve tip st only_coi).1.1 []).map
        (fun m => candsOf (initializeCands solve tip st only_coi).1.1
          (initializeCands solve tip st only_coi).1.2 m tip.main.gates.length) := by
  simp only [initializeCands]
  split <;> rename_i h <;> simp [h]

theorem initializeCands_fst (solve : SolveFn) (tip : TipCirc) (st : Solver × GMap Sig)
    (only_coi : Bool) :
    (initializeCands solve tip st only_coi).1 =
      (((liveBad tip.main tip.live_props (safeBad tip.main tip.safe_props
          (if only_coi then st
           else (clausifyList tip.main (tip.flps.map (fun f => f.next)) st).1)).1).1.1.addClause
          ((safeBad tip.main tip.safe_props
            (if only_coi then st
             else (clausifyList tip.main (tip.flps.map (fun f => f.next)) st).1)).2 ++
           (liveBad tip.main tip.live_props (safeBad tip.main tip.safe_props
            (if only_coi then st
             else (clausifyList tip.main (tip.flps.map (fun f => f.next)) st).1)).1).2)),
        (liveBad tip.main tip.live_props (safeBad tip.main tip.safe_props
          (if only_coi then st
           else (clausifyList tip.main (tip.flps.map (fun f => f.next)) st).1)).1).1.2) := by
  simp only [initializeCands]
  split <;> rfl

/-- The state in which `initializeCands` leaves the solver: it stands for `main`, and it holds
the single clause "some property is bad". -/
theorem initializeCands_state (solve : SolveFn) (tip : TipCirc) (hwf : tip.wf = true)
    (only_coi : Bool) :
    CInv tip.main (initializeCands solve tip (Solver.new, GMap.clear) only_coi).1 ∧
    ∀ m τ, Realises tip.main.gates
        (initializeCands solve tip (Solver.new, GMap.clear) only_coi).1.1.arena
        (initializeCands solve tip (Solver.new, GMap.clear) only_coi).1.2 m τ →
      (initializeCands solve tip (Solver.new, GMap.clear) only_coi).1.1.holds [] m
        = tip.badAt τ := by
  have hok := wf_main_ok hwf
  have V0 := CInv.fresh tip.main
  have R1 : ClRes tip.main.gates (Solver.new, GMap.clear)
      (if only_coi then (Solver.new, GMap.clear)
       else (clausifyList tip.main (tip.flps.map (fun f => f.next)) (Solver.new, GMap.clear)).1) := by
    cases only_coi with
    | true => exact ClRes.same _ _ V0.ok V0.loc
    | false =>
      exact (clausifyList_spec tip.main hok _ _ V0.ok V0.loc (by
        intro x hx
        obtain ⟨f, hf, rfl⟩ := List.mem_map.mp hx
        exact (wf_flop hwf hf).2.2)).1
  obtain ⟨V3, hb⟩ := bad_clause_spec tip hwf _ (V0.advance R1)
  have hcl : (liveBad tip.main tip.live_props (safeBad tip.main tip.safe_props
      (if only_coi then ((Solver.new, GMap.clear) : Solver × GMap Sig)
       else (clausifyList tip.main (tip.flps.map (fun f => f.next))
        (Solver.new, GMap.clear)).1)).1).1.1.clauses = [] := by
    obtain ⟨R2, _⟩ := safeBad_spec tip.main hok tip.safe_props _ R1.ok R1.loc
      (fun p hp => wf_safe hwf hp)
    obtain ⟨R3, _⟩ := liveBad_spec tip.main hok tip.live_props _ R2.ok R2.loc
      (fun p hp s hs => wf_live hwf hp hs)
    rw [R3.clauses, R2.clauses, R1.clauses]; rfl
  rw [initializeCands_fst]
  refine ⟨V3.solver _ rfl, fun m τ hr => ?_⟩
  simp only [Solver.holds, Solver.addClause, hcl, List.all_cons, List.all_nil, Bool.and_true]
  exact hb m τ hr

theorem initializeCands_none_iff (solve : SolveFn) (hs : SolverCorrect solve) (tip : TipCirc)
    (hwf : tip.wf = true) (only_coi : Bool) :
    (initializeCands solve tip (Solver.new, GMap.clear) only_coi).2 = none ↔
      ∀ τ : Nat → Bool, tip.badAt τ = false := by
  obtain ⟨V, hb⟩ := initializeCands_state solve tip hwf only_coi
  rw [initializeCands_snd, Option.map_eq_none']
  constructor
  · intro h τ
    obtain ⟨m, hm⟩ := V.compl τ
    rw [← hb m τ hm]
    exact (hs _ _).2 h m
  · intro h
    cases hsol : solve (initializeCands solve tip (Solver.new, GMap.clear) only_coi).1.1 [] with
    | none => rfl
    | some m =>
      have h1 := (hs _ _).1 m hsol
      rw [hb m _ (CInv.realises_self m), h] at h1
      cases h1

theorem base_false_iff (fuel : Nat) (solve : SolveFn) (tip : TipCirc)
    (use_minimize_alg only_coi : Bool) :
    (if use_minimize_alg then refineCandsBaseWithMinimize fuel solve tip only_coi
      else refineCandsBaseInSequence fuel solve tip only_coi) = some (false, []) ↔
    (initializeCands solve tip (Solver.new, GMap.clear) only_coi).2 = none := by
  cases use_minimize_alg <;>
    simp only [refineCandsBaseWithMinimize, refineCandsBaseInSequence, if_true,
      Bool.false_eq_true, if_false] <;>
    cases h : (initializeCands solve tip (Solver.new, GMap.clear) only_coi).2 <;>
    simp [Option.map_eq_some']

theorem base_true_of_some (fuel : Nat) (solve : SolveFn) (tip : TipCirc)
    (use_minimize_alg only_coi : Bool) (b : Bool) (cs : List Sig)
    (h : (if use_minimize_alg then refineCandsBaseWithMinimize fuel solve tip only_coi
      else refineCandsBaseInSequence fuel solve tip only_coi) = some (b, cs)) :
    (b = false ∧ cs = [] ∧
      (initializeCands solve tip (Solver.new, GMap.clear) only_coi).2 = none) ∨
    (b = true ∧ (initializeCands solve tip (Solver.new, GMap.clear) only_coi).2 ≠ none) := by
  cases use_minimize_alg <;>
    simp only [refineCandsBaseWithMinimize, refineCandsBaseInSequence, if_true,
      Bool.false_eq_true, if_false] at h <;>
    cases h0 : (initializeCands solve tip (Solver.new, GMap.clear) only_coi).2 <;>
    simp only [h0] at h
  · simp only [Option.some.injEq, Prod.mk.injEq] at h
    exact Or.inl ⟨h.1.symm, h.2.symm, rfl⟩
  · obtain ⟨a, _, ha⟩ := Option.map_eq_some'.mp h
    simp only [Prod.mk.injEq] at ha
    exact Or.inr ⟨ha.1.symm, by simp⟩
  · simp only [Option.some.injEq, Prod.mk.injEq] at h
    exact Or.inl ⟨h.1.symm, h.2.symm, rfl⟩
  · obtain ⟨a, _, ha⟩ := Option.map_eq_some'.mp h
    simp only [Prod.mk.injEq] at ha
    exact Or.inr ⟨ha.1.symm, by simp⟩

/-- C10: under a correct SAT oracle and for either refinement variant, the base phase of
`semanticConstraintExtraction` reports "all properties combinationally proved" (result
`(false, [])`) if and only if no valuation of `main` makes some property with status Unknown
bad (a safety signal false or a liveness signal true); in that case, whatever the iteration
bound, the procedure returns the circuit with only the constants false and true merged in
`cnstrs`, and otherwise any circuit it returns has the surviving candidates of the step phase
merged with true. -/
theorem sce_proved_branch_iff (solve : SolveFn) (hs : SolverCorrect solve) (tip : TipCirc)
    (hwf : tip.wf = true) (fuel : Nat) (use_minimize_alg only_coi : Bool) :
    ((if use_minimize_alg then refineCandsBaseWithMinimize fuel solve tip only_coi
        else refineCandsBaseInSequence fuel solve tip only_coi) = some (false, []) ↔
      ∀ τ : Nat → Bool, tip.badAt τ = false) ∧
    ((∀ τ : Nat → Bool, tip.badAt τ = false) →
      sceCands fuel solve tip use_minimize_alg only_coi = some (false, []) ∧
      semanticConstraintExtraction fuel solve tip use_minimize_alg only_coi =
        some { tip with cnstrs := tip.cnstrs.merge sig_False sig_True }) ∧
    ((∃ τ : Nat → Bool, tip.badAt τ = true) →
      ∀ t, semanticConstraintExtraction fuel solve tip use_minimize_alg only_coi = some t →
        ∃ base cs,
          (if use_minimize_alg then refineCandsBaseWithMinimize fuel solve tip only_coi
            else refineCandsBaseInSequence fuel solve tip only_coi) = some (true, base) ∧
          (if use_minimize_alg then refineCandsStepWithMinimize fuel solve tip base
            else refineCandsStepInSequence fuel solve tip base) = some cs ∧
          t = { tip with cnstrs := mergeAll tip.cnstrs cs }) := by
  have hiff := (base_false_iff fuel solve tip use_minimize_alg only_coi).trans
    (initializeCands_none_iff solve hs tip hwf only_coi)
  refine ⟨hiff, fun h => ?_, fun ⟨τ, hτ⟩ t ht => ?_⟩
  · have hb := hiff.mpr h
    have hc : sceCands fuel solve tip use_minimize_alg only_coi = some (false, []) := by
      simp only [sceCands, hb]
    exact ⟨hc, by simp only [semanticConstraintExtraction, hc]⟩
  · simp only [semanticConstraintExtraction, sceCands] at ht
    cases hb : (if use_minimize_alg then refineCandsBaseWithMinimize fuel solve tip only_coi
        else refineCandsBaseInSequence fuel solve tip only_coi) with
    | none => simp [hb] at ht
    | some r =>
      obtain ⟨b, base⟩ := r
      rcases base_true_of_some fuel solve tip use_minimize_alg only_coi b base hb with
        ⟨_, _, h0⟩ | ⟨rfl, _⟩
      · have := (initializeCands_none_iff solve hs tip hwf only_coi).mp h0 τ
        rw [hτ] at this
        cases this
      · simp only [hb] at ht
        cases hst : (if use_minimize_alg then refineCandsStepWithMinimize fuel solve tip base
            else refineCandsStepInSequence fuel solve tip base) with
        | none => simp [hst] at ht
        | some cs =>
          simp only [hst, Option.map_some', Option.some.injEq] at ht
          exact ⟨base, cs, rfl, hst, ht.symm⟩

set_option maxRecDepth 100000 in
theorem sce_proved_branch_iff_witness :
    ((refineCandsBaseInSequence 2 bruteSolve trivTip false = some (false, []) ↔
        ∀ τ : Nat → Bool, trivTip.badAt τ = false) ∧
      ¬ (∀ τ : Nat → Bool, trivTip.badAt τ = false) ∧
      semanticConstraintExtraction 2 bruteSolve trivTip false false =
        some { trivTip with cnstrs := ⟨[[sig_True, ⟨1, false⟩]]⟩ }) ∧
    ((∀ τ : Nat → Bool, constTip.badAt τ = false) ∧
      semanticConstraintExtraction 0 bruteSolve constTip true false =
        some { constTip with cnstrs := ⟨[[sig_False, sig_True]]⟩ }) :=
  ⟨⟨(sce_proved_branch_iff bruteSolve bruteSolve_correct trivTip (by decide) 2 false false).1,
    fun h => absurd (h (fun _ => true)) (by decide), by decide⟩,
   ⟨fun _ => rfl,
    ((sce_proved_branch_iff bruteSolve bruteSolve_correct constTip (by decide) 0 true false).2.1
      (fun _ => rfl)).2⟩⟩

/-! ## The one-flop scenario of the constraint extraction -/

theorem solve_none_of_unsat {solve : SolveFn} (hs : SolverCorrect solve) (s : Solver)
    (a : List Sig) (h : ∀ m, s.holds a m = false) : solve s a = none := by
  cases hsol : solve s a with
  | none => rfl
  | some m =>
    have := (hs s a).1 m hsol
    rw [h m] at this
    cases this

theorem solve_some_of_sat {solve : SolveFn} (hs : SolverCorrect solve) (s : Solver)
    (a : List Sig) (m0 : Nat → Bool) (h : s.holds a m0 = true) :
    ∃ m, solve s a = some m ∧ s.holds a m = true := by
  cases hsol : solve s a with
  | none =>
    have := (hs s a).2 hsol m0
    rw [h] at this
    cases this
  | some m => exact ⟨m, rfl, (hs s a).1 m hsol⟩

theorem triv_eval (m : Nat → Bool) (b : Bool) :
    Circ.eval ⟨[.inp UINT32_MAX]⟩ m ⟨1, b⟩ = xor (m 1) b := by
  simp [Circ.eval, sigVal, gateVals, valAt]

theorem triv_init (solve : SolveFn) (hs : SolverCorrect solve) (only_coi : Bool) :
    (initializeCands solve trivTip (Solver.new, GMap.clear) only_coi).1.1 =
      ⟨⟨[.inp UINT32_MAX]⟩, [[⟨1, false⟩]], [], []⟩ ∧
    (initializeCands solve trivTip (Solver.new, GMap.clear) only_coi).1.2 1 = some ⟨1, false⟩ ∧
    (initializeCands solve trivTip (Solver.new, GMap.clear) only_coi).2 = some [⟨1, false⟩] := by
  have h1 : (initializeCands solve trivTip (Solver.new, GMap.clear) only_coi).1.1 =
      ⟨⟨[.inp UINT32_MAX]⟩, [[⟨1, false⟩]], [], []⟩ := by
    rw [initializeCands_fst]; cases only_coi <;> rfl
  have h2 : (initializeCands solve trivTip (Solver.new, GMap.clear) only_coi).1.2 1 =
      some ⟨1, false⟩ := by
    rw [initializeCands_fst]; cases only_coi <;> rfl
  refine ⟨h1, h2, ?_⟩
  rw [initializeCands_snd, h1]
  obtain ⟨m, hm, hh⟩ := solve_some_of_sat hs ⟨⟨[.inp UINT32_MAX]⟩, [[⟨1, false⟩]], [], []⟩ []
    (fun _ => true) (by decide)
  rw [hm]
  have hm1 : m 1 = true := by
    simpa [Solver.holds, triv_eval] using hh
  simp [candsOf, clModelValue, mapSig, h2, Solver.modelValue, triv_eval, hm1, Sig.xorSign, mkSig]

theorem triv_clausify (src : Circ) (s : Solver) (cm : GMap Sig) (g : Nat) (a : Sig)
    (hcm : cm g = some a) (b : Bool) :
    clausify src (s, cm) ⟨g, b⟩ = ((s, cm), some (a.xorSign b)) := by
  simp [clausify, clausifyGate, hcm, mapSig]

theorem triv_baseSeq (solve : SolveFn) (hs : SolverCorrect solve) (cm : GMap Sig)
    (hcm : cm 1 = some ⟨1, false⟩) (fuel : Nat) :
    baseSeqLoop solve trivTip.main (fuel + 2) 0
      (⟨⟨[.inp UINT32_MAX]⟩, [[⟨1, false⟩]], [], []⟩, cm) [⟨1, false⟩] = some [⟨1, false⟩] := by
  have hn : solve ⟨⟨[.inp UINT32_MAX]⟩, [[⟨1, false⟩]], [], []⟩ [⟨1, true⟩] = none :=
    solve_none_of_unsat hs _ _ (fun m => by
      simp only [Solver.holds, List.all_cons, List.any_cons, List.all_nil, List.any_nil,
        triv_eval]
      cases m 1 <;> rfl)
  simp [baseSeqLoop, Sig.neg, triv_clausify _ _ cm 1 _ hcm, Sig.xorSign, hn]

theorem triv_baseMin (solve : SolveFn) (hs : SolverCorrect solve) (cm : GMap Sig)
    (hcm : cm 1 = some ⟨1, false⟩) (fuel sfuel : Nat) :
    baseMinLoop solve trivTip.main (sfuel + 2) (fuel + 1)
      (⟨⟨[.inp UINT32_MAX]⟩, [[⟨1, false⟩]], [], []⟩, cm) [⟨1, false⟩] = some [⟨1, false⟩] := by
  obtain ⟨m, hm, hh⟩ := solve_some_of_sat hs ⟨⟨[.inp UINT32_MAX]⟩, [[⟨1, false⟩]], [], []⟩ []
    (fun _ => true) (by decide)
  have hm1 : m 1 = true := by
    simpa [Solver.holds, triv_eval] using hh
  have hn : solve ⟨⟨[.inp UINT32_MAX]⟩, [[⟨1, true⟩], [⟨1, false⟩]], [], []⟩ [] = none :=
    solve_none_of_unsat hs _ _ (fun m => by
      simp only [Solver.holds, List.all_cons, List.any_cons, List.all_nil, List.any_nil,
        triv_eval]
      cases m 1 <;> rfl)
  simp [baseMinLoop, clausifyList, triv_clausify _ _ cm 1 _ hcm, Sig.xorSign, solveMinimum,
    solveMinLoop, hm, Solver.modelValue, triv_eval, hm1, Solver.addClause, Sig.neg, hn, lookup,
    mapSig, hcm, litTrue]

theorem triv_stepSeq (solve : SolveFn) (hs : SolverCorrect solve) (fuel : Nat) :
    refineCandsStepInSequence (fuel + 2) solve trivTip [⟨1, false⟩] = some [⟨1, false⟩] := by
  have hn : solve ⟨⟨[.inp UINT32_MAX]⟩, [], [], []⟩ [⟨1, true⟩, ⟨1, false⟩] = none :=
    solve_none_of_unsat hs _ _ (fun m => by
      simp only [Solver.holds, List.all_cons, List.any_cons, List.all_nil, List.any_nil,
        triv_eval]
      cases m 1 <;> rfl)
  have e1 : (clausifyPairs (unrollTwo trivTip).1 (unrollTwo trivTip).2.1 (unrollTwo trivTip).2.2
      [⟨1, false⟩] (Solver.new, GMap.clear)).1.1 = ⟨⟨[.inp UINT32_MAX]⟩, [], [], []⟩ := rfl
  have e2 : lookupO (clausifyPairs (unrollTwo trivTip).1 (unrollTwo trivTip).2.1
      (unrollTwo trivTip).2.2 [⟨1, false⟩] (Solver.new, GMap.clear)).1.2
      (mapSig (unrollTwo trivTip).2.1 ⟨1, false⟩) = some ⟨1, false⟩ := rfl
  have e3 : lookupO (clausifyPairs (unrollTwo trivTip).1 (unrollTwo trivTip).2.1
      (unrollTwo trivTip).2.2 [⟨1, false⟩] (Solver.new, GMap.clear)).1.2
      (mapSig (unrollTwo trivTip).2.2 ⟨1, false⟩) = some ⟨1, false⟩ := rfl
  simp only [refineCandsStepInSequence, stepSeqLoop, List.getElem?_cons_zero, e1, e2, e3,
    Sig.neg, Bool.not_false, hn]
  simp

theorem triv_stepMin (solve : SolveFn) (hs : SolverCorrect solve) (fuel : Nat) :
    refineCandsStepWithMinimize (fuel + 2) solve trivTip [⟨1, false⟩] = some [⟨1, false⟩] := by
  obtain ⟨m, hm, hh⟩ := solve_some_of_sat hs ⟨⟨[.inp UINT32_MAX]⟩, [], [], []⟩ [⟨1, false⟩]
    (fun _ => true) (by decide)
  have hm1 : m 1 = true := by
    simpa [Solver.holds, triv_eval] using hh
  have hn : solve ⟨⟨[.inp UINT32_MAX]⟩, [[⟨1, true⟩]], [], []⟩ [⟨1, false⟩] = none :=
    solve_none_of_unsat hs _ _ (fun m => by
      simp only [Solver.holds, List.all_cons, List.any_cons, List.all_nil, List.any_nil,
        triv_eval]
      cases m 1 <;> rfl)
  have e0 : addConstraintsTwo (unrollTwo trivTip).1 (unrollTwo trivTip).2.1
      (unrollTwo trivTip).2.2 trivTip.cnstrs.classes (Solver.new, GMap.clear) =
      (Solver.new, GMap.clear) := rfl
  have e1 : (clausifyPairs (unrollTwo trivTip).1 (unrollTwo trivTip).2.1 (unrollTwo trivTip).2.2
      [⟨1, false⟩] (Solver.new, GMap.clear)).1.1 = ⟨⟨[.inp UINT32_MAX]⟩, [], [], []⟩ := rfl
  have e2 : lookupO (clausifyPairs (unrollTwo trivTip).1 (unrollTwo trivTip).2.1
      (unrollTwo trivTip).2.2 [⟨1, false⟩] (Solver.new, GMap.clear)).1.2
      (mapSig (unrollTwo trivTip).2.1 ⟨1, false⟩) = some ⟨1, false⟩ := rfl
  have e4 : (clausifyPairs (unrollTwo trivTip).1 (unrollTwo trivTip).2.1 (unrollTwo trivTip).2.2
      [⟨1, false⟩] (Solver.new, GMap.clear)).2 = ([some ⟨1, false⟩], [some ⟨1, false⟩]) := rfl
  simp only [refineCandsStepWithMinimize, stepMinLoop, e0, e1, e2, e4]
  simp [solveMinimum, solveMinLoop, hm, Solver.modelValue, triv_eval, hm1, Solver.addClause,
    Sig.neg, hn, List.filter_cons, e2, litTrue]

theorem triv_cands (solve : SolveFn) (hs : SolverCorrect solve) (fuel : Nat)
    (use_minimize_alg only_coi : Bool) :
    sceCands (fuel + 2) solve trivTip use_minimize_alg only_coi = some (true, [⟨1, false⟩]) := by
  obtain ⟨h1, h2, h3⟩ := triv_init solve hs only_coi
  have e : (initializeCands solve trivTip (Solver.new, GMap.clear) only_coi).1 =
      (⟨⟨[.inp UINT32_MAX]⟩, [[⟨1, false⟩]], [], []⟩,
        (initializeCands solve trivTip (Solver.new, GMap.clear) only_coi).1.2) := by
    rw [← h1]
  cases use_minimize_alg with
  | false =>
    have hb : refineCandsBaseInSequence (fuel + 2) solve trivTip only_coi =
        some (true, [⟨1, false⟩]) := by
      simp only [refineCandsBaseInSequence, h3]
      rw [e, triv_baseSeq solve hs _ h2]
      rfl
    simp only [sceCands, Bool.false_eq_true, if_false, hb, triv_stepSeq solve hs]
    rfl
  | true =>
    have hb : refineCandsBaseWithMinimize (fuel + 2) solve trivTip only_coi =
        some (true, [⟨1, false⟩]) := by
      simp only [refineCandsBaseWithMinimize, h3]
      have ec : trivTip.cnstrs.classes = [] := rfl
      rw [ec]
      simp only [addConstraints]
      rw [e, triv_baseMin solve hs _ h2 (fuel + 1) fuel]
      rfl
    simp only [sceCands, if_true, hb, triv_stepMin solve hs]
    rfl

/-- C7, as the code has it: for the one-flop circuit with initial value 0, next value the
flop itself and the safety property `not flop`, with a correct SAT oracle and an iteration
bound of at least 2, `semanticConstraintExtraction` returns (for either variant and either
value of `only_coi`) the circuit whose constraint equivalence has the single class
`[true, flop]`: the flop is put in the class of the constant true, not in that of false. -/
theorem sce_flop_with_true (solve : SolveFn) (hs : SolverCorrect solve) (fuel : Nat)
    (hf : 2 ≤ fuel) (use_minimize_alg only_coi : Bool) :
    semanticConstraintExtraction fuel solve trivTip use_minimize_alg only_coi =
      some { trivTip with cnstrs := ⟨[[sig_True, ⟨1, false⟩]]⟩ } ∧
    Equivs.equiv ⟨[[sig_True, ⟨1, false⟩]]⟩ ⟨1, false⟩ sig_True = true ∧
    Equivs.equiv ⟨[[sig_True, ⟨1, false⟩]]⟩ ⟨1, false⟩ sig_False = false := by
  obtain ⟨k, rfl⟩ : ∃ k, fuel = k + 2 := ⟨fuel - 2, by omega⟩
  refine ⟨?_, by decide, by decide⟩
  simp only [semanticConstraintExtraction, triv_cands solve hs]
  rfl

theorem sce_flop_with_true_witness :
    semanticConstraintExtraction 2 bruteSolve trivTip true false =
      some { trivTip with cnstrs := ⟨[[sig_True, ⟨1, false⟩]]⟩ } ∧
    Equivs.equiv ⟨[[sig_True, ⟨1, false⟩]]⟩ ⟨1, false⟩ sig_True = true ∧
    Equivs.equiv ⟨[[sig_True, ⟨1, false⟩]]⟩ ⟨1, false⟩ sig_False = false :=
  sce_flop_with_true bruteSolve bruteSolve_correct 2 (by decide) true false

set_option maxRecDepth 100000 in
/-- C7, counterexample: on the one-flop circuit both variants of the procedure return a
constraint equivalence in which the flop is not equivalent to the constant false (it is
equivalent to the constant true). -/
theorem sce_flop_false_counterexample :
    (semanticConstraintExtraction 2 bruteSolve trivTip false false).map
      (fun t => (t.cnstrs.equiv ⟨1, false⟩ sig_False, t.cnstrs.equiv ⟨1, false⟩ sig_True))
      = some (false, true) ∧
    (semanticConstraintExtraction 2 bruteSolve trivTip true false).map
      (fun t => (t.cnstrs.equiv ⟨1, false⟩ sig_False, t.cnstrs.equiv ⟨1, false⟩ sig_True))
      = some (false, true) := by
  decide

/-! ## The meaning of the clauses of a solver -/

theorem holds_nil (s : Solver) (m : Nat → Bool) :
    s.holds [] m = s.clauses.all (fun c => c.any (fun l => s.arena.eval m l)) := by
  simp [Solver.holds]

theorem holds_split (s : Solver) (a : List Sig) (m : Nat → Bool) :
    s.holds a m = (s.holds [] m && a.all (fun l => s.arena.eval m l)) := by
  simp [Solver.holds]

theorem any_congr_mem {α : Type} (f g : α → Bool) :
    ∀ (l : List α), (∀ x ∈ l, f x = g x) → l.any f = l.any g := by
  intro l
  induction l with
  | nil => intro _; rfl
  | cons a as ih =>
    intro h
    simp only [List.any_cons]
    rw [h a (by simp), ih (fun x hx => h x (by simp [hx]))]

theorem all_congr_mem {α : Type} (f g : α → Bool) :
    ∀ (l : List α), (∀ x ∈ l, f x = g x) → l.all f = l.all g := by
  intro l
  induction l with
  | nil => intro _; rfl
  | cons a as ih =>
    intro h
    simp only [List.all_cons]
    rw [h a (by simp), ih (fun x hx => h x (by simp [hx]))]

theorem clauses_ext {A A' : Circ} (he : Ext A A') (cls : List (List Sig))
    (hc : ∀ c ∈ cls, ∀ l ∈ c, A.has l = true) (m m' : Nat → Bool)
    (hm : ∀ u, u ≤ A.gates.length → m' u = m u) :
    cls.all (fun c => c.any (fun l => A'.eval m' l)) =
      cls.all (fun c => c.any (fun l => A.eval m l)) := by
  apply all_congr_mem
  intro c hcm
  apply any_congr_mem
  intro l hl
  rw [he.eval _ (hc c hcm l hl)]
  apply eval_congr
  intro u n hu
  exact hm u (defAt_range hu).2

theorem Sem.step {src : Circ} {st st' : Solver × GMap Sig} {P D : (Nat → Bool) → Prop}
    (V : Sem src st P D) (R : ClRes src.gates st st') : Sem src st' P D := by
  refine ⟨R.ok, R.loc, ?_, ?_, ?_⟩
  · intro c hc l hl
    rw [R.clauses] at hc
    exact R.ext.has (V.cls c hc l hl)
  · intro m τ hr hh
    apply V.sound m τ
    · intro g k s hd hs
      rw [← hr g k s hd (R.keep g s hs)]
      exact (R.ext.eval _ (V.loc g s hs).1).symm
    · rw [holds_nil] at hh ⊢
      rw [← hh, R.clauses]
      exact (clauses_ext R.ext _ V.cls m m (fun _ _ => rfl)).symm
  · intro τ hP hD
    obtain ⟨m0, h0, hh⟩ := V.compl τ hP hD
    obtain ⟨m, a1, a2⟩ := R.compl m0 τ
    refine ⟨m, fun g k s hd hs => ?_, ?_⟩
    · cases h : st.2 g with
      | none => exact a2 g k s hd h hs
      | some t =>
        have := R.keep g t h
        rw [hs] at this
        cases this
        rw [R.ext.eval _ (V.loc g s h).1, ← h0 g k s hd h]
        apply eval_congr
        intro u n hu
        exact a1 u (defAt_range hu).2
    · rw [holds_nil] at hh ⊢
      rw [← hh, R.clauses]
      exact clauses_ext R.ext _ V.cls m0 m a1

theorem Sem.weaken {src : Circ} {st : Solver × GMap Sig} {P D D' : (Nat → Bool) → Prop}
    (V : Sem src st P D) (h : ∀ τ, D' τ → D τ) : Sem src st P D' :=
  ⟨V.ok, V.loc, V.cls, V.sound, fun τ hP hD => V.compl τ hP (h τ hD)⟩

theorem realises_readBack (src : List GateDef) (st : Solver × GMap Sig) (m : Nat → Bool) :
    Realises src st.1.arena st.2 m (readBack st m) := by
  intro g k s _ hs
  simp [readBack, hs, Circ.evalO]

/-- A valuation of the variables that satisfies the clauses stands for a valuation in `P`. -/
theorem Sem.model {src : Circ} {st : Solver × GMap Sig} {P D : (Nat → Bool) → Prop}
    (V : Sem src st P D) {m : Nat → Bool} (h : st.1.holds [] m = true) : P (readBack st m) :=
  V.sound m _ (realises_readBack _ st m) h

theorem Sem.value {src : Circ} (hok : src.ok = true) {st : Solver × GMap Sig}
    {P D : (Nat → Bool) → Prop} (V : Sem src st P D) {m τ : Nat → Bool}
    (hr : Realises src.gates st.1.arena st.2 m τ) {x l : Sig} (hx : src.has x = true)
    (hl : mapSig st.2 x = some l) : st.1.arena.eval m l = src.eval τ x :=
  Local.sound_sig hok V.loc m τ hr hx hl

/-- Adding a clause whose value is that of the predicate `C`. -/
theorem Sem.addClause {src : Circ} {st : Solver × GMap Sig} {P D : (Nat → Bool) → Prop}
    (V : Sem src st P D) (c : List Sig) (C : (Nat → Bool) → Prop)
    (hc : ∀ l ∈ c, st.1.arena.has l = true)
    (hv : ∀ m τ, Realises src.gates st.1.arena st.2 m τ →
      (c.any (fun l => st.1.arena.eval m l) = true ↔ C τ)) :
    Sem src (st.1.addClause c, st.2) (fun τ => P τ ∧ C τ) D := by
  refine ⟨V.ok, V.loc, ?_, ?_, ?_⟩
  · intro d hd l hl
    rcases List.mem_cons.mp hd with e | h
    · subst e; exact hc l hl
    · exact V.cls d h l hl
  · intro m τ hr hh
    have : (c.any (fun l => st.1.arena.eval m l) && st.1.holds [] m) = true := by
      simpa [Solver.holds, Solver.addClause] using hh
    simp only [Bool.and_eq_true] at this
    exact ⟨V.sound m τ hr this.2, (hv m τ hr).mp this.1⟩
  · intro τ hP hD
    obtain ⟨m, hr, hh⟩ := V.compl τ hP.1 hD
    refine ⟨m, hr, ?_⟩
    have h1 := (hv m τ hr).mpr hP.2
    have h2 : st.1.clauses.all (fun c => c.any (fun l => st.1.arena.eval m l)) = true := by
      simpa [Solver.holds] using hh
    simp only [Solver.holds, Solver.addClause, List.all_cons, List.all_nil, Bool.and_true,
      Bool.and_eq_true]
    exact ⟨h1, h2⟩

/-! ## The base phase, one candidate at a time -/

theorem clModel_true_iff {s : Solver} {cm : GMap Sig} {m : Nat → Bool} {x a : Sig}
    (h : mapSig cm x = some a) : clModelValue s cm m x = l_True ↔ s.arena.eval m a = true := by
  simp only [clModelValue, h, Solver.modelValue]
  cases s.arena.eval m a <;> simp

theorem mapSig_neg {cm : GMap Sig} {x l : Sig} (h : mapSig cm x.neg = some l) :
    mapSig cm x = some l.neg := by
  obtain ⟨t, ht, rfl⟩ := mapSig_inv h
  have ht' : cm x.gate = some t := ht
  simp only [mapSig, ht', Option.map_some', Sig.neg, Sig.xorSign, Option.some.injEq,
    Sig.mk.injEq, true_and]
  cases t.sign <;> cases x.sign <;> rfl

theorem neg_neg_sig (x : Sig) : x.neg.neg = x := by
  cases x; simp [Sig.neg]

theorem take_filter_length {α : Type} (p : α → Bool) (l : List α) (i : Nat) :
    (l.take i ++ (l.drop i).filter p).length ≤ l.length := by
  have h1 := List.length_filter_le p (l.drop i)
  have h2 : (l.take i).length + (l.drop i).length = l.length := by
    rw [← List.length_append, List.take_append_drop]
  rw [List.length_append]
  omega

theorem take_filter_length_lt {α : Type} (p : α → Bool) (l : List α) (i : Nat) (c : α)
    (hc : l[i]? = some c) (hp : p c = false) :
    (l.take i ++ (l.drop i).filter p).length < l.length := by
  have hmem : c ∈ l.drop i := by
    have : (l.drop i)[0]? = some c := by rw [List.getElem?_drop]; simpa using hc
    exact List.getElem?_mem this
  have h1 : ((l.drop i).filter p).length < (l.drop i).length :=
    List.length_filter_lt_length_iff_exists.mpr ⟨c, hmem, by simp [hp]⟩
  have h2 : (l.take i).length + (l.drop i).length = l.length := by
    rw [← List.length_append, List.take_append_drop]
  rw [List.length_append]
  omega

theorem mem_take_filter {α : Type} (p : α → Bool) (l : List α) (i : Nat) (x : α) :
    x ∈ l.take i ++ (l.drop i).filter p ↔ x ∈ l.take i ∨ (x ∈ l.drop i ∧ p x = true) := by
  simp [List.mem_append, List.mem_filter]

theorem mem_take_or_drop {α : Type} (l : List α) (i : Nat) (x : α) :
    x ∈ l ↔ x ∈ l.take i ∨ x ∈ l.drop i := by
  conv_lhs => rw [← List.take_append_drop i l]
  exact List.mem_append

theorem baseSeqLoop_spec {solve : SolveFn} (hs : SolverCorrect solve) (main : Circ)
    (hok : main.ok = true) (P : (Nat → Bool) → Prop) :
    ∀ (fuel i : Nat) (st : Solver × GMap Sig) (cands : List Sig),
      Sem main st P (fun _ => True) →
      (∀ c ∈ cands, main.has c = true ∧ st.2 c.gate ≠ none) →
      (∀ c ∈ cands.take i, ∀ τ, P τ → main.eval τ c = true) →
      i ≤ cands.length →
      2 * cands.length + 1 ≤ fuel + i →
      ∃ cs, baseSeqLoop solve main fuel i st cands = some cs ∧
        (∀ c ∈ cs, c ∈ cands ∧ ∀ τ, P τ → main.eval τ c = true) ∧
        (∀ c ∈ cands, (∀ τ, P τ → main.eval τ c = true) → c ∈ cs) := by
  intro fuel
  induction fuel with
  | zero =>
    intro i st cands _ _ _ hi hf
    omega
  | succ fuel ih =>
    intro i st cands V hc hpre hi hf
    simp only [baseSeqLoop]
    cases hci : cands[i]? with
    | none =>
      have hlen : cands.length ≤ i := by
        rcases Nat.lt_or_ge i cands.length with h | h
        · rw [List.getElem?_eq_getElem h] at hci; cases hci
        · exact h
      rw [List.take_of_length_le hlen] at hpre
      exact ⟨cands, rfl, fun c h => ⟨h, hpre c h⟩, fun c h _ => h⟩
    | some c =>
      have hcm : c ∈ cands := List.getElem?_mem hci
      have hil : i < cands.length := by
        rcases Nat.lt_or_ge i cands.length with h | h
        · exact h
        · rw [List.getElem?_eq_none h] at hci; cases hci
      obtain ⟨R, l, hl, _⟩ := clausify_spec main hok st V.ok V.loc c.neg
        (by rw [has_neg]; exact (hc c hcm).1)
      have V' := V.step R
      have hl' : mapSig (clausify main st c.neg).1.2 c.neg = some l := hl
      have hlc := mapSig_neg hl'
      have hc' : ∀ x ∈ cands, main.has x = true ∧ (clausify main st c.neg).1.2 x.gate ≠ none := by
        intro x hx
        refine ⟨(hc x hx).1, ?_⟩
        cases e : st.2 x.gate with
        | none => exact absurd e (hc x hx).2
        | some t => rw [R.keep _ _ e]; simp
      simp only [hl]
      cases hsol : solve (clausify main st c.neg).1.1 [l] with
      | none =>
        have hq : ∀ τ, P τ → main.eval τ c = true := by
          intro τ hP
          obtain ⟨m, hr, hh⟩ := V'.compl τ hP trivial
          have h1 := (hs _ _).2 hsol m
          rw [holds_split, hh] at h1
          simp only [Bool.true_and, List.all_cons, List.all_nil, Bool.and_true] at h1
          have h2 := V'.value hok hr (hc c hcm).1 hlc
          rw [eval_neg, h1] at h2
          exact h2.symm
        simp only []
        apply ih (i + 1) _ cands V' hc' _ hil (by omega)
        intro x hx
        rw [List.take_succ, List.mem_append] at hx
        rcases hx with h | h
        · exact hpre x h
        · rw [hci] at h
          simp at h
          subst h
          exact hq
      | some m =>
        have hh := (hs _ _).1 m hsol
        rw [holds_split] at hh
        simp only [List.all_cons, List.all_nil, Bool.and_true, Bool.and_eq_true] at hh
        have hdrop : decide (clModelValue (clausify main st c.neg).1.1
            (clausify main st c.neg).1.2 m c = l_True) = false := by
          rw [decide_eq_false_iff_not, clModel_true_iff hlc, eval_neg, hh.2]
          simp
        have hlt := take_filter_length_lt (fun x => decide (clModelValue
          (clausify main st c.neg).1.1 (clausify main st c.neg).1.2 m x = l_True)) cands i c
          hci hdrop
        simp only []
        obtain ⟨cs, e, h1, h2⟩ := ih i (clausify main st c.neg).1
          (cands.take i ++ (cands.drop i).filter (fun x => decide (clModelValue
            (clausify main st c.neg).1.1 (clausify main st c.neg).1.2 m x = l_True))) V'
          (by
            intro x hx
            rw [mem_take_filter] at hx
            apply hc'
            rw [mem_take_or_drop cands i]
            rcases hx with h | h
            · exact Or.inl h
            · exact Or.inr h.1)
          (by
            intro x hx
            rw [List.take_append_of_le_length (by rw [List.length_take]; omega)] at hx
            rw [List.take_take, Nat.min_self] at hx
            exact hpre x hx)
          (by rw [List.length_append, List.length_take]; omega)
          (by omega)
        refine ⟨cs, e, ?_, ?_⟩
        · intro x hx
          obtain ⟨a, b⟩ := h1 x hx
          refine ⟨?_, b⟩
          rw [mem_take_filter] at a
          rw [mem_take_or_drop cands i]
          rcases a with h | h
          · exact Or.inl h
          · exact Or.inr h.1
        · intro x hx hq
          apply h2 x _ hq
          rw [mem_take_filter]
          rcases (mem_take_or_drop cands i x).mp hx with h | h
          · exact Or.inl h
          · refine Or.inr ⟨h, ?_⟩
            obtain ⟨a, ha⟩ := mapSig_defined (hc' x hx).2
            rw [decide_eq_true_iff, clModel_true_iff ha,
              V'.value hok (realises_readBack _ _ m) (hc x hx).1 ha]
            exact hq _ (V'.model hh.1)

/-! ## The initial candidates -/

theorem mem_of_map_some {l : Sig} {lits : List Sig} {os : List (Option Sig)}
    (h : lits.map some = os) (hl : l ∈ lits) : some l ∈ os := by
  rw [← h]
  exact List.mem_map.mpr ⟨l, hl, rfl⟩

theorem bad_clause_has (tip : TipCirc) (hwf : tip.wf = true) (st1 : Solver × GMap Sig)
    (V : CInv tip.main st1) :
    ∀ l ∈ (safeBad tip.main tip.safe_props st1).2 ++
        (liveBad tip.main tip.live_props (safeBad tip.main tip.safe_props st1).1).2,
      (liveBad tip.main tip.live_props
        (safeBad tip.main tip.safe_props st1).1).1.1.arena.has l = true := by
  have hok := wf_main_ok hwf
  obtain ⟨R2, L2⟩ := safeBad_spec tip.main hok tip.safe_props st1 V.ok V.loc
    (fun p hp => wf_safe hwf hp)
  obtain ⟨R3, L3⟩ := liveBad_spec tip.main hok tip.live_props
    (safeBad tip.main tip.safe_props st1).1 R2.ok R2.loc (fun p hp s hs => wf_live hwf hp hs)
  intro l hl
  rcases List.mem_append.mp hl with h | h
  · have := mem_of_map_some L2 h
    obtain ⟨p, _, hp⟩ := List.mem_map.mp this
    obtain ⟨a, ha, rfl⟩ := Option.map_eq_some'.mp hp
    rw [has_neg]
    exact R3.ext.has (mapSig_has R2.loc ha)
  · have := mem_of_map_some L3 h
    obtain ⟨p, _, hp⟩ := List.mem_map.mp this
    exact mapSig_has R3.loc hp

/-- After `initializeCands` the clauses of the solver stand for "some property is bad". -/
theorem initializeCands_sem (solve : SolveFn) (tip : TipCirc) (hwf : tip.wf = true)
    (only_coi : Bool) :
    Sem tip.main (initializeCands solve tip (Solver.new, GMap.clear) only_coi).1
      (fun τ => tip.badAt τ = true) (fun _ => True) := by
  obtain ⟨V, hb⟩ := initializeCands_state solve tip hwf only_coi
  refine ⟨V.ok, V.loc, ?_, ?_, ?_⟩
  · have hok := wf_main_ok hwf
    have V0 := CInv.fresh tip.main
    have R1 : ClRes tip.main.gates (Solver.new, GMap.clear)
        (if only_coi then (Solver.new, GMap.clear)
         else (clausifyList tip.main (tip.flps.map (fun f => f.next))
          (Solver.new, GMap.clear)).1) := by
      cases only_coi with
      | true => exact ClRes.same _ _ V0.ok V0.loc
      | false =>
        exact (clausifyList_spec tip.main hok _ _ V0.ok V0.loc (by
          intro x hx
          obtain ⟨f, hf, rfl⟩ := List.mem_map.mp hx
          exact (wf_flop hwf hf).2.2)).1
    have hcl : (liveBad tip.main tip.live_props (safeBad tip.main tip.safe_props
        (if only_coi then ((Solver.new, GMap.clear) : Solver × GMap Sig)
         else (clausifyList tip.main (tip.flps.map (fun f => f.next))
          (Solver.new, GMap.clear)).1)).1).1.1.clauses = [] := by
      obtain ⟨R2, _⟩ := safeBad_spec tip.main hok tip.safe_props _ R1.ok R1.loc
        (fun p hp => wf_safe hwf hp)
      obtain ⟨R3, _⟩ := liveBad_spec tip.main hok tip.live_props _ R2.ok R2.loc
        (fun p hp s hs => wf_live hwf hp hs)
      rw [R3.clauses, R2.clauses, R1.clauses]; rfl
    have hh := bad_clause_has tip hwf _ (V0.advance R1)
    rw [initializeCands_fst]
    intro c hc l hl
    simp only [Solver.addClause, hcl, List.mem_singleton] at hc
    subst hc
    exact hh l hl
  · intro m τ hr hh
    rw [← hb m τ hr]
    exact hh
  · intro τ hP _
    obtain ⟨m, hm⟩ := V.compl τ
    exact ⟨m, hm, by rw [hb m τ hm]; exact hP⟩

theorem candsOf_spec (s : Solver) (cm : GMap Sig) (m : Nat → Bool) :
    ∀ (n : Nat) (c : Sig), c ∈ candsOf s cm m n →
      1 ≤ c.gate ∧ c.gate ≤ n ∧ cm c.gate ≠ none := by
  intro n
  induction n with
  | zero => intro c hc; simp [candsOf] at hc
  | succ n ih =>
    intro c hc
    simp only [candsOf, List.mem_append] at hc
    rcases hc with h | h
    · obtain ⟨a, b, d⟩ := ih c h
      exact ⟨a, by omega, d⟩
    · cases hv : cm (n + 1) with
      | none => simp [clModelValue, mapSig, hv] at h
      | some t =>
        have : c = mkSig (n + 1) (decide (clModelValue s cm m ⟨n + 1, false⟩ = l_False)) := by
          revert h
          cases clModelValue s cm m ⟨n + 1, false⟩ <;> simp
        subst this
        simp [mkSig, hv]

/-! ## The minimising solve -/

theorem modelValue_false_iff (s : Solver) (m : Nat → Bool) (p : Sig) :
    s.modelValue m p = l_False ↔ s.arena.eval m p = false := by
  simp only [Solver.modelValue]
  cases s.arena.eval m p <;> simp

theorem modelValue_ne_false (s : Solver) (m : Nat → Bool) (p : Sig) :
    decide (s.modelValue m p ≠ l_False) = s.arena.eval m p := by
  cases h : s.arena.eval m p <;> simp [Solver.modelValue, h]

theorem filter_length_lt {α : Type} (f g : α → Bool) (l : List α)
    (h1 : ∀ x ∈ l, f x = true → g x = true) (h2 : ∃ x ∈ l, g x = true ∧ f x = false) :
    (l.filter f).length < (l.filter g).length := by
  have e : l.filter f = (l.filter g).filter f := by
    rw [List.filter_filter]
    apply List.filter_congr
    intro x hx
    cases hf : f x
    · simp
    · simp [h1 x hx hf]
  rw [e]
  apply List.length_filter_lt_length_iff_exists.mpr
  obtain ⟨x, hx, hg, hf⟩ := h2
  exact ⟨x, List.mem_filter.mpr ⟨hx, hg⟩, by simp [hf]⟩

theorem holds_all_iff (s : Solver) (a : List Sig) (m : Nat → Bool) :
    s.holds a m = true ↔ s.holds [] m = true ∧ ∀ l ∈ a, s.arena.eval m l = true := by
  rw [holds_split]
  simp [List.all_eq_true]

theorem holds_nil_iff (s : Solver) (m : Nat → Bool) :
    s.holds [] m = true ↔ ∀ c ∈ s.clauses, ∃ l ∈ c, s.arena.eval m l = true := by
  rw [holds_nil]
  simp [List.all_eq_true, List.any_eq_true]

theorem solveMinLoop_next {solve : SolveFn} (hs : SolverCorrect solve) (assumps ps : List Sig)
    (s0 : Solver) :
    ∀ (fuel : Nat) (s : Solver) (m : Nat → Bool),
      s.arena = s0.arena →
      (∃ bs, s.clauses = bs ++ s0.clauses ∧
        ∀ b ∈ bs, (∀ l ∈ b, ∃ p ∈ ps, l = p.neg) ∧
          ∀ p ∈ ps, s0.arena.eval m p = true → p.neg ∈ b) →
      (ps.filter (fun p => s0.arena.eval m p)).map Sig.neg ∈ s.clauses →
      s0.holds assumps m = true →
      (ps.filter (fun p => s0.arena.eval m p)).length + 1 ≤ fuel →
      ∃ s' m', solveMinLoop solve assumps ps none fuel s
          (assumps ++ (ps.filter (fun p => decide (s.modelValue m p = l_False))).map Sig.neg)
          (some m) = some (s', some m') ∧ MinRes s0 assumps ps s' m' := by
  intro fuel
  induction fuel with
  | zero => intro s m _ _ _ _ hf; omega
  | succ fuel ih =>
    intro s m ha hb hhead hm hf
    simp only [solveMinLoop, Option.toList, List.append_nil, List.map_nil]
    have hassume : ∀ μ, (∀ l ∈ assumps ++ (ps.filter (fun p =>
        decide (s.modelValue m p = l_False))).map Sig.neg, s.arena.eval μ l = true) ↔
        ((∀ l ∈ assumps, s0.arena.eval μ l = true) ∧
          ∀ p ∈ ps, s0.arena.eval m p = false → s0.arena.eval μ p = false) := by
      intro μ
      rw [ha]
      constructor
      · intro h
        refine ⟨fun l hl => h l (List.mem_append.mpr (Or.inl hl)), fun p hp hv => ?_⟩
        have := h p.neg (List.mem_append.mpr (Or.inr (List.mem_map.mpr ⟨p,
          List.mem_filter.mpr ⟨hp, by simp [modelValue_false_iff, ha, hv]⟩, rfl⟩)))
        rw [eval_neg] at this
        simpa using this
      · intro h l hl
        rcases List.mem_append.mp hl with h1 | h1
        · exact h.1 l h1
        · obtain ⟨p, hp, rfl⟩ := List.mem_map.mp h1
          obtain ⟨hp1, hp2⟩ := List.mem_filter.mp hp
          simp only [decide_eq_true_eq, modelValue_false_iff, ha] at hp2
          rw [eval_neg, h.2 p hp1 hp2]
          rfl
    cases hsol : solve s (assumps ++ (ps.filter (fun p =>
        decide (s.modelValue m p = l_False))).map Sig.neg) with
    | none =>
      refine ⟨s, m, rfl, ha, hb, hm, ?_⟩
      intro μ h1 h2 h3
      have := (hs _ _).2 hsol μ
      rw [← Bool.not_eq_true] at this
      exact this ((holds_all_iff _ _ _).mpr ⟨h1, (hassume μ).mpr ⟨h2, h3⟩⟩)
    | some m2 =>
      simp only []
      have hh := (holds_all_iff _ _ _).mp ((hs _ _).1 m2 hsol)
      obtain ⟨hA, hF⟩ := (hassume m2).mp hh.2
      have hcl := (holds_nil_iff _ _).mp hh.1
      obtain ⟨bs, ebs, hbs⟩ := hb
      have hsub : ∀ p ∈ ps, s0.arena.eval m2 p = true → s0.arena.eval m p = true := by
        intro p hp h2
        cases hv : s0.arena.eval m p with
        | true => rfl
        | false => rw [hF p hp hv] at h2; cases h2
      have hstrict : ∃ p ∈ ps, s0.arena.eval m p = true ∧ s0.arena.eval m2 p = false := by
        obtain ⟨l, hl, hv⟩ := hcl _ hhead
        obtain ⟨p, hp, rfl⟩ := List.mem_map.mp hl
        obtain ⟨hp1, hp2⟩ := List.mem_filter.mp hp
        refine ⟨p, hp1, hp2, ?_⟩
        rw [ha, eval_neg] at hv
        simpa using hv
      have hlt := filter_length_lt (fun p => s0.arena.eval m2 p) (fun p => s0.arena.eval m p)
        ps hsub hstrict
      have efil : ps.filter (fun p => decide (s.modelValue m2 p ≠ l_False)) =
          ps.filter (fun p => s0.arena.eval m2 p) := by
        apply List.filter_congr
        intro p _
        rw [modelValue_ne_false, ha]
      have hm2 : s0.holds assumps m2 = true := by
        rw [holds_all_iff]
        refine ⟨?_, hA⟩
        rw [holds_nil_iff]
        intro c hc
        obtain ⟨l, hl, hv⟩ := hcl c (by rw [ebs]; exact List.mem_append.mpr (Or.inr hc))
        exact ⟨l, hl, by rw [← ha]; exact hv⟩
      have := ih (s.addClause ((ps.filter (fun p =>
          decide (s.modelValue m2 p ≠ l_False))).map Sig.neg)) m2 ha
        ⟨((ps.filter (fun p => s0.arena.eval m2 p)).map Sig.neg) :: bs, by
          simp only [Solver.addClause, ebs, efil, List.cons_append], by
          intro b hb
          rcases List.mem_cons.mp hb with e | h
          · subst e
            refine ⟨fun l hl => ?_, fun p hp hv => ?_⟩
            · obtain ⟨p, hp, rfl⟩ := List.mem_map.mp hl
              exact ⟨p, (List.mem_filter.mp hp).1, rfl⟩
            · exact List.mem_map.mpr ⟨p, List.mem_filter.mpr ⟨hp, hv⟩, rfl⟩
          · exact ⟨(hbs b h).1, fun p hp hv => (hbs b h).2 p hp (hsub p hp hv)⟩⟩
        (by simp only [Solver.addClause, efil]; exact List.mem_cons_self _ _)
        hm2 (by omega)
      exact this

theorem solveMinimum_spec {solve : SolveFn} (hs : SolverCorrect solve) (assumps ps : List Sig)
    (s0 : Solver) (fuel : Nat) (hf : ps.length + 2 ≤ fuel) :
    (solveMinimum fuel solve s0 assumps ps none = some (s0, none) ∧
      ∀ μ, s0.holds assumps μ = false) ∨
    ∃ s' m', solveMinimum fuel solve s0 assumps ps none = some (s', some m') ∧
      MinRes s0 assumps ps s' m' := by
  obtain ⟨k, rfl⟩ : ∃ k, fuel = k + 1 := ⟨fuel - 1, by omega⟩
  simp only [solveMinimum, solveMinLoop, Option.toList, List.append_nil, List.map_nil]
  cases hsol : solve s0 assumps with
  | none => exact Or.inl ⟨rfl, (hs _ _).2 hsol⟩
  | some m =>
    right
    simp only []
    have hm := (hs _ _).1 m hsol
    have efil : ps.filter (fun p => decide (s0.modelValue m p ≠ l_False)) =
        ps.filter (fun p => s0.arena.eval m p) := by
      apply List.filter_congr
      intro p _
      rw [modelValue_ne_false]
    have hlen := List.length_filter_le (fun p => s0.arena.eval m p) ps
    exact solveMinLoop_next hs assumps ps s0 k
      (s0.addClause ((ps.filter (fun p => decide (s0.modelValue m p ≠ l_False))).map Sig.neg))
      m rfl
      ⟨[(ps.filter (fun p => s0.arena.eval m p)).map Sig.neg], by
        simp only [Solver.addClause, efil, List.singleton_append], by
        intro b hb
        simp only [List.mem_singleton] at hb
        subst hb
        refine ⟨fun l hl => ?_, fun p hp hv => ?_⟩
        · obtain ⟨p, hp, rfl⟩ := List.mem_map.mp hl
          exact ⟨p, (List.mem_filter.mp hp).1, rfl⟩
        · exact List.mem_map.mpr ⟨p, List.mem_filter.mpr ⟨hp, hv⟩, rfl⟩⟩
      (by simp only [Solver.addClause, efil]; exact List.mem_cons_self _ _)
      hm (by omega)

/-! ## Adding the constraint equivalences to a solver -/

theorem Sem.congr {src : Circ} {st : Solver × GMap Sig} {P P' D : (Nat → Bool) → Prop}
    (V : Sem src st P D) (h : ∀ τ, P τ ↔ P' τ) : Sem src st P' D :=
  ⟨V.ok, V.loc, V.cls, fun m τ hr hh => (h τ).mp (V.sound m τ hr hh),
    fun τ hP hD => V.compl τ ((h τ).mpr hP) hD⟩

theorem bool_eq_of_imp {a b : Bool} (h1 : a = true → b = true) (h2 : b = true → a = true) :
    a = b := by
  cases a <;> cases b <;> simp_all

/-- Adding the two clauses of an equivalence between the literals of two signals. -/
theorem Sem.addEquiv {src : Circ} (hok : src.ok = true) {st : Solver × GMap Sig}
    {P D : (Nat → Bool) → Prop} (V : Sem src st P D) {x r a l : Sig}
    (hx : src.has x = true) (hr : src.has r = true) (ha : mapSig st.2 x = some a)
    (hl : mapSig st.2 r = some l) :
    Sem src ((st.1.addClause [a.neg, l]).addClause [a, l.neg], st.2)
      (fun τ => P τ ∧ src.eval τ x = src.eval τ r) D := by
  have hha := mapSig_has V.loc ha
  have hhl := mapSig_has V.loc hl
  have V1 := V.addClause [a.neg, l] (fun τ => src.eval τ x = true → src.eval τ r = true)
    (by
      intro k hk
      simp only [List.mem_cons, List.mem_singleton, List.not_mem_nil, or_false] at hk
      rcases hk with rfl | rfl
      · rw [has_neg]; exact hha
      · exact hhl)
    (by
      intro m τ hrl
      simp only [List.any_cons, List.any_nil, Bool.or_false, eval_neg,
        V.value hok hrl hx ha, V.value hok hrl hr hl]
      cases src.eval τ x <;> cases src.eval τ r <;> simp)
  have V2 := @Sem.addClause src (st.1.addClause [a.neg, l], st.2) _ D V1 [a, l.neg]
    (fun τ => src.eval τ r = true → src.eval τ x = true)
    (by
      intro k hk
      simp only [List.mem_cons, List.mem_singleton, List.not_mem_nil, or_false] at hk
      rcases hk with rfl | rfl
      · exact hha
      · rw [has_neg]; exact hhl)
    (by
      intro m τ hrl
      have e1 : (st.1.addClause [a.neg, l]).arena = st.1.arena := rfl
      simp only [e1, List.any_cons, List.any_nil, Bool.or_false, eval_neg,
        V.value hok hrl hx ha, V.value hok hrl hr hl]
      cases src.eval τ x <;> cases src.eval τ r <;> simp)
  refine V2.congr (fun τ => ?_)
  constructor
  · rintro ⟨⟨hP, h1⟩, h2⟩
    exact ⟨hP, bool_eq_of_imp h1 h2⟩
  · rintro ⟨hP, e⟩
    exact ⟨⟨hP, fun h => by rw [← e]; exact h⟩, fun h => by rw [e]; exact h⟩

theorem eval_inp_sig {c : Circ} (hok : c.ok = true) (τ : Nat → Bool) {x : Sig}
    (h : c.isInp x.gate = true) : c.eval τ x = xor (τ x.gate) x.sign := by
  obtain ⟨n, hn⟩ := isInp_iff.mp h
  have := eval_gate_inp hok τ hn
  have e : c.eval τ x = c.eval τ ((⟨x.gate, false⟩ : Sig).xorSign x.sign) := by
    congr 1
    cases x; simp [Sig.xorSign]
  rw [e, eval_xorSign, this]

theorem clausifyAs_spec {src : Circ} (hok : src.ok = true) {st : Solver × GMap Sig}
    {P D : (Nat → Bool) → Prop} (V : Sem src st P D) {x r l : Sig}
    (hx : src.has x = true) (hr : src.has r = true) (hl : mapSig st.2 r = some l) :
    Sem src (clausifyAs src st x l) (fun τ => P τ ∧ src.eval τ x = src.eval τ r) D ∧
    (∀ g s, st.2 g = some s → (clausifyAs src st x l).2 g = some s) ∧
    Ext st.1.arena (clausifyAs src st x l).1.arena := by
  unfold clausifyAs
  cases hg : st.2 x.gate with
  | some t =>
    simp only []
    have ha : mapSig st.2 x = some (t.xorSign x.sign) := by simp [mapSig, hg]
    exact ⟨V.addEquiv hok hx hr ha hl, fun g s h => h, Ext.refl _⟩
  | none =>
    simp only []
    by_cases hi : src.isInp x.gate = true
    · simp only [hi, if_true]
      obtain ⟨n, hn⟩ := isInp_iff.mp hi
      have hx0 : x.gate ≠ 0 := by
        have := (defAt_range hn).1
        omega
      have hkeep : ∀ g s, st.2 g = some s → (st.2.set x.gate (l.xorSign x.sign)) g = some s := by
        intro g s h
        have : g ≠ x.gate := by rintro rfl; rw [hg] at h; cases h
        simp [GMap.set, this, h]
      have hrl : ∀ m τ, Realises src.gates st.1.arena (st.2.set x.gate (l.xorSign x.sign)) m τ →
          Realises src.gates st.1.arena st.2 m τ :=
        fun m τ h g k s hd hs => h g k s hd (hkeep g s hs)
      refine ⟨⟨V.ok, ?_, V.cls, ?_, ?_⟩, hkeep, Ext.refl _⟩
      · apply Local.set V.loc hg (fun e => absurd e hx0)
        · rw [has_xorSign]; exact mapSig_has V.loc hl
        · intro a b hab
          rw [hn] at hab
          cases hab
      · intro m τ hrm hh
        refine ⟨V.sound m τ (hrl m τ hrm) hh, ?_⟩
        have h1 := hrm x.gate n (l.xorSign x.sign) hn (by simp [GMap.set])
        rw [eval_xorSign, V.value hok (hrl m τ hrm) hr hl] at h1
        rw [eval_inp_sig hok τ hi, ← h1]
        cases src.eval τ r <;> cases x.sign <;> rfl
      · intro τ hP hD
        obtain ⟨m, hrm, hh⟩ := V.compl τ hP.1 hD
        refine ⟨m, ?_, hh⟩
        intro g k s hd hs
        by_cases e : g = x.gate
        · subst e
          simp only [GMap.set, if_true, Option.some.injEq] at hs
          subst hs
          rw [eval_xorSign, V.value hok hrm hr hl, ← hP.2, eval_inp_sig hok τ hi]
          cases τ x.gate <;> cases x.sign <;> rfl
        · simp only [GMap.set, e, if_false] at hs
          exact hrm g k s hd hs
    · simp only [hi, Bool.false_eq_true, if_false]
      obtain ⟨R, a, ha, _⟩ := clausify_spec src hok st V.ok V.loc x hx
      simp only [ha]
      have ha' : mapSig (clausify src st x).1.2 x = some a := ha
      exact ⟨(V.step R).addEquiv hok hx hr ha' (mapSig_keep R.keep hl), R.keep, R.ext⟩

theorem bindClass_spec {src : Circ} (hok : src.ok = true) {D : (Nat → Bool) → Prop}
    {r l : Sig} (hr : src.has r = true) :
    ∀ (rest : List Sig) (st : Solver × GMap Sig) (P : (Nat → Bool) → Prop),
      Sem src st P D → (∀ x ∈ rest, src.has x = true) → mapSig st.2 r = some l →
      Sem src (bindClass src l rest st)
        (fun τ => P τ ∧ ∀ x ∈ rest, src.eval τ x = src.eval τ r) D ∧
      (∀ g s, st.2 g = some s → (bindClass src l rest st).2 g = some s) ∧
      Ext st.1.arena (bindClass src l rest st).1.arena := by
  intro rest
  induction rest with
  | nil =>
    intro st P V _ _
    exact ⟨V.congr (fun τ => by simp), fun g s h => h, Ext.refl _⟩
  | cons x xs ih =>
    intro st P V hxs hl
    obtain ⟨V1, k1, e1⟩ := clausifyAs_spec hok V (hxs x (by simp)) hr hl
    obtain ⟨V2, k2, e2⟩ := ih (clausifyAs src st x l) _ V1
      (fun y hy => hxs y (by simp [hy])) (mapSig_keep k1 hl)
    refine ⟨V2.congr (fun τ => ?_), fun g s h => k2 g s (k1 g s h), e1.trans e2⟩
    simp only [List.mem_cons, forall_eq_or_imp]
    tauto

theorem addConstraints_spec {src : Circ} (hok : src.ok = true) {D : (Nat → Bool) → Prop} :
    ∀ (classes : List (List Sig)) (st : Solver × GMap Sig) (P : (Nat → Bool) → Prop),
      Sem src st P D → (∀ cl ∈ classes, ∀ x ∈ cl, src.has x = true) →
      Sem src (addConstraints src classes st)
        (fun τ => P τ ∧ Equivs.holdsAt ⟨classes⟩ src τ = true) D ∧
      (∀ g s, st.2 g = some s → (addConstraints src classes st).2 g = some s) ∧
      Ext st.1.arena (addConstraints src classes st).1.arena := by
  intro classes
  induction classes with
  | nil =>
    intro st P V _
    exact ⟨V.congr (fun τ => by simp [Equivs.holdsAt]), fun g s h => h, Ext.refl _⟩
  | cons cl cls ih =>
    intro st P V hcl
    have hcls : ∀ c ∈ cls, ∀ x ∈ c, src.has x = true := fun c hc => hcl c (by simp [hc])
    cases cl with
    | nil =>
      simp only [addConstraints]
      obtain ⟨V1, k1, e1⟩ := ih st P V hcls
      exact ⟨V1.congr (fun τ => by simp [Equivs.holdsAt]), k1, e1⟩
    | cons r rest =>
      simp only [addConstraints]
      have hr : src.has r = true := hcl (r :: rest) (by simp) r (by simp)
      obtain ⟨R, l, hl, _⟩ := clausify_spec src hok st V.ok V.loc r hr
      simp only [hl]
      have hl' : mapSig (clausify src st r).1.2 r = some l := hl
      obtain ⟨V1, k1, e1⟩ := bindClass_spec hok hr rest _ _ (V.step R)
        (fun x hx => hcl (r :: rest) (by simp) x (by simp [hx])) hl'
      obtain ⟨V2, k2, e2⟩ := ih _ _ V1 hcls
      refine ⟨V2.congr (fun τ => ?_), fun g s h => k2 g s (k1 g s (R.keep g s h)),
        (R.ext.trans e1).trans e2⟩
      simp only [Equivs.holdsAt, List.all_cons, Bool.and_eq_true, List.all_eq_true, beq_iff_eq]
      tauto

/-! ## The base phase with the minimising solve -/

theorem modelValue_true_iff (s : Solver) (m : Nat → Bool) (p : Sig) :
    s.modelValue m p = l_True ↔ s.arena.eval m p = true := by
  simp only [Solver.modelValue]
  cases s.arena.eval m p <;> simp

/-- The solver that `solveMinimum` returns still stands for the same predicate, as far as the
valuations go that make false a literal of `ps` that is true in the final model. -/
theorem MinRes.sem {src : Circ} {s1 s' : Solver} {cm : GMap Sig} {P D D' : (Nat → Bool) → Prop}
    {assumps ps : List Sig} {m' : Nat → Bool} (V : Sem src (s1, cm) P D)
    (MR : MinRes s1 assumps ps s' m') (hps : ∀ p ∈ ps, s1.arena.has p = true)
    (hD : ∀ τ, D' τ → D τ)
    (hD' : ∀ τ m, D' τ → Realises src.gates s1.arena cm m τ →
      ∃ p ∈ ps, s1.arena.eval m' p = true ∧ s1.arena.eval m p = false) :
    Sem src (s', cm) P D' := by
  obtain ⟨bs, ebs, hbs⟩ := MR.blocks
  have hsub : ∀ m, s'.holds [] m = true → s1.holds [] m = true := by
    intro m h
    rw [holds_nil_iff] at h ⊢
    intro c hc
    obtain ⟨l, hl, hv⟩ := h c (by rw [ebs]; exact List.mem_append.mpr (Or.inr hc))
    exact ⟨l, hl, by rw [← MR.arena]; exact hv⟩
  refine ⟨?_, ?_, ?_, ?_, ?_⟩
  · show s'.arena.ok = true
    rw [MR.arena]; exact V.ok
  · show Local src.gates s'.arena cm
    rw [MR.arena]; exact V.loc
  · intro c hc l hl
    show s'.arena.has l = true
    rw [MR.arena]
    have hc' : c ∈ bs ++ s1.clauses := by rw [← ebs]; exact hc
    rcases List.mem_append.mp hc' with h | h
    · obtain ⟨p, hp, rfl⟩ := (hbs c h).1 l hl
      rw [has_neg]; exact hps p hp
    · exact V.cls c h l hl
  · intro m τ hr hh
    have hr' : Realises src.gates s1.arena cm m τ := by
      have : s'.arena = s1.arena := MR.arena
      intro g k s hd hs
      have := hr g k s hd hs
      simp only [MR.arena] at this
      exact this
    exact V.sound m τ hr' (hsub m hh)
  · intro τ hP hd
    obtain ⟨m, hr, hh⟩ := V.compl τ hP (hD τ hd)
    obtain ⟨p, hp, hp1, hp2⟩ := hD' τ m hd hr
    refine ⟨m, ?_, ?_⟩
    · intro g k s hd hs
      show s'.arena.eval m s = τ g
      rw [MR.arena]
      exact hr g k s hd hs
    · rw [holds_nil_iff] at hh ⊢
      intro c hc
      have hc' : c ∈ bs ++ s1.clauses := by rw [← ebs]; exact hc
      rcases List.mem_append.mp hc' with h | h
      · refine ⟨p.neg, (hbs c h).2 p hp hp1, ?_⟩
        show s'.arena.eval m p.neg = true
        rw [MR.arena, eval_neg, hp2]
        rfl
      · obtain ⟨l, hl, hv⟩ := hh c h
        exact ⟨l, hl, by show s'.arena.eval m l = true; rw [MR.arena]; exact hv⟩

theorem mem_filterMap_id {l : Sig} {os : List (Option Sig)} :
    l ∈ os.filterMap id ↔ some l ∈ os := by
  simp [List.mem_filterMap]

theorem baseMinLoop_spec {solve : SolveFn} (hs : SolverCorrect solve) (main : Circ)
    (hok : main.ok = true) (P : (Nat → Bool) → Prop) (sfuel : Nat) :
    ∀ (fuel : Nat) (st : Solver × GMap Sig) (cands : List Sig),
      Sem main st P (fun τ => ∃ c ∈ cands, main.eval τ c = false) →
      (∀ c ∈ cands, main.has c = true) →
      cands.length + 1 ≤ fuel → cands.length + 2 ≤ sfuel →
      ∃ cs, baseMinLoop solve main sfuel fuel st cands = some cs ∧
        (∀ c ∈ cs, c ∈ cands ∧ ∀ τ, P τ → main.eval τ c = true) ∧
        (∀ c ∈ cands, (∀ τ, P τ → main.eval τ c = true) → c ∈ cs) := by
  intro fuel
  induction fuel with
  | zero => intro st cands _ _ hf _; omega
  | succ fuel ih =>
    intro st cands V hc hf hsf
    obtain ⟨R, hlits, hdef⟩ := clausifyList_spec main hok cands st V.ok V.loc hc
    have V1 := V.step R
    have hlit : ∀ c ∈ cands, ∃ a, mapSig (clausifyList main cands st).1.2 c = some a ∧
        a ∈ (clausifyList main cands st).2.filterMap id := by
      intro c hcm
      obtain ⟨a, ha⟩ := mapSig_defined (hdef c hcm)
      refine ⟨a, ha, mem_filterMap_id.mpr ?_⟩
      rw [hlits, ← ha]
      exact List.mem_map.mpr ⟨c, hcm, rfl⟩
    have hps : ∀ p ∈ (clausifyList main cands st).2.filterMap id,
        (clausifyList main cands st).1.1.arena.has p = true := by
      intro p hp
      have := mem_filterMap_id.mp hp
      rw [hlits] at this
      obtain ⟨c, _, hcp⟩ := List.mem_map.mp this
      exact mapSig_has R.loc hcp
    have hplen : ((clausifyList main cands st).2.filterMap id).length ≤ cands.length := by
      have := List.length_filterMap_le id (clausifyList main cands st).2
      rw [hlits, List.length_map] at this
      rw [hlits]
      exact this
    simp only [baseMinLoop]
    rcases solveMinimum_spec hs [] ((clausifyList main cands st).2.filterMap id)
        (clausifyList main cands st).1.1 sfuel (by omega) with ⟨e, hun⟩ | ⟨s', m', e, MR⟩
    · rw [e]
      refine ⟨cands, rfl, fun c hcm => ⟨hcm, fun τ hP => ?_⟩, fun c hcm _ => hcm⟩
      cases hv : main.eval τ c with
      | true => rfl
      | false =>
        obtain ⟨m, _, hh⟩ := V1.compl τ hP ⟨c, hcm, hv⟩
        rw [hun m] at hh
        cases hh
    · rw [e]
      simp only []
      have hkeep : ∀ c ∈ cands, ∀ a, mapSig (clausifyList main cands st).1.2 c = some a →
          (litTrue s' m' (lookup (clausifyList main cands st).1.2 c) = true ↔
            (clausifyList main cands st).1.1.arena.eval m' a = true) := by
        intro c _ a ha
        simp only [litTrue, lookup, ha, decide_eq_true_eq, modelValue_true_iff, MR.arena]
      have hm1 : (clausifyList main cands st).1.1.holds [] m' = true :=
        ((holds_all_iff _ _ _).mp MR.model).1
      have V2 : Sem main (s', (clausifyList main cands st).1.2) P
          (fun τ => ∃ c ∈ cands.filter (fun c => litTrue s' m' (lookup (clausifyList main cands st).1.2 c)), main.eval τ c = false) := by
        apply MinRes.sem V1 MR hps
        · rintro τ ⟨c, hcm, hv⟩
          exact ⟨c, (List.mem_filter.mp hcm).1, hv⟩
        · rintro τ m ⟨c, hcm, hv⟩ hr
          obtain ⟨hc1, hc2⟩ := List.mem_filter.mp hcm
          obtain ⟨a, ha, hap⟩ := hlit c hc1
          refine ⟨a, hap, (hkeep c hc1 a ha).mp hc2, ?_⟩
          rw [V1.value hok hr (hc c hc1) ha]
          exact hv
      have hex : ∀ c ∈ cands, (∀ τ, P τ → main.eval τ c = true) →
          c ∈ cands.filter (fun c => litTrue s' m' (lookup (clausifyList main cands st).1.2 c)) := by
        intro c hcm hq
        obtain ⟨a, ha, _⟩ := hlit c hcm
        refine List.mem_filter.mpr ⟨hcm, (hkeep c hcm a ha).mpr ?_⟩
        rw [V1.value hok (realises_readBack _ _ m') (hc c hcm) ha]
        exact hq _ (V1.model hm1)
      by_cases hlt : (cands.filter (fun c => litTrue s' m' (lookup (clausifyList main cands st).1.2 c))).length < cands.length
      · rw [if_pos hlt]
        obtain ⟨cs, e2, h1, h2⟩ := ih _ _ V2
          (fun c hcm => hc c (List.mem_filter.mp hcm).1) (by omega)
          (by have := List.length_filter_le (fun c => litTrue s' m' (lookup (clausifyList main cands st).1.2 c)) cands; omega)
        refine ⟨cs, e2, fun c hcm => ⟨(List.mem_filter.mp (h1 c hcm).1).1, (h1 c hcm).2⟩,
          fun c hcm hq => h2 c (hex c hcm hq) hq⟩
      · rw [if_neg hlt]
        have hall : cands.filter (fun c => litTrue s' m' (lookup (clausifyList main cands st).1.2 c)) = cands := by
          apply List.filter_eq_self.mpr
          intro c hcm
          by_contra hne
          apply hlt
          apply List.length_filter_lt_length_iff_exists.mpr
          exact ⟨c, hcm, hne⟩
        rw [hall] at V2
        refine ⟨cands, rfl, fun c hcm => ⟨hcm, fun τ hP => ?_⟩, fun c hcm _ => hcm⟩
        cases hv : main.eval τ c with
        | true => rfl
        | false =>
          exfalso
          obtain ⟨m, hr, hh⟩ := V2.compl τ hP ⟨c, hcm, hv⟩
          apply MR.last m hh (fun l hl => by simp at hl)
          intro p hp hpf
          have := mem_filterMap_id.mp hp
          rw [hlits] at this
          obtain ⟨d, hd, hdp⟩ := List.mem_map.mp this
          have hk : d ∈ cands.filter (fun c => litTrue s' m' (lookup (clausifyList main cands st).1.2 c)) := by rw [hall]; exact hd
          have := (hkeep d hd p hdp).mp (List.mem_filter.mp hk).2
          rw [hpf] at this
          cases this

/-! ## The base phase as a whole -/

theorem candsOf_length (s : Solver) (cm : GMap Sig) (m : Nat → Bool) :
    ∀ n, (candsOf s cm m n).length ≤ n := by
  intro n
  induction n with
  | zero => simp [candsOf]
  | succ n ih =>
    simp only [candsOf, List.length_append]
    cases clModelValue s cm m ⟨n + 1, false⟩ <;> simp <;> omega

theorem wf_cnstrs {tip : TipCirc} (h : tip.wf = true) :
    ∀ cl ∈ tip.cnstrs.classes, ∀ x ∈ cl, tip.main.has x = true := by
  simp only [TipCirc.wf, Bool.and_eq_true, List.all_eq_true] at h
  exact h.2

/-- The base phase of either variant: it reports that no property can be bad, or it returns
exactly the initial candidates that are true in every valuation of `baseAt`. -/
theorem base_spec {solve : SolveFn} (hs : SolverCorrect solve) (tip : TipCirc)
    (hwf : tip.wf = true) (fuel : Nat) (hf : 2 * tip.main.gates.length + 2 ≤ fuel)
    (use_minimize_alg only_coi : Bool) :
    ((∀ τ, tip.badAt τ = false) ∧
      (if use_minimize_alg then refineCandsBaseWithMinimize fuel solve tip only_coi
        else refineCandsBaseInSequence fuel solve tip only_coi) = some (false, [])) ∨
    ∃ cands0 cs,
      (initializeCands solve tip (Solver.new, GMap.clear) only_coi).2 = some cands0 ∧
      (if use_minimize_alg then refineCandsBaseWithMinimize fuel solve tip only_coi
        else refineCandsBaseInSequence fuel solve tip only_coi) = some (true, cs) ∧
      (∀ c ∈ cands0, tip.main.has c = true) ∧
      (∀ c ∈ cs, c ∈ cands0 ∧ ∀ τ, tip.baseAt use_minimize_alg τ → tip.main.eval τ c = true) ∧
      (∀ c ∈ cands0, (∀ τ, tip.baseAt use_minimize_alg τ → tip.main.eval τ c = true) →
        c ∈ cs) := by
  have hok := wf_main_ok hwf
  cases h0 : (initializeCands solve tip (Solver.new, GMap.clear) only_coi).2 with
  | none =>
    left
    exact ⟨(initializeCands_none_iff solve hs tip hwf only_coi).mp h0,
      (base_false_iff fuel solve tip use_minimize_alg only_coi).mpr h0⟩
  | some cands0 =>
    right
    have V := initializeCands_sem solve tip hwf only_coi
    have hc0 : ∀ c ∈ cands0, tip.main.has c = true ∧
        (initializeCands solve tip (Solver.new, GMap.clear) only_coi).1.2 c.gate ≠ none := by
      intro c hc
      rw [initializeCands_snd] at h0
      obtain ⟨m, _, hm⟩ := Option.map_eq_some'.mp h0
      rw [← hm] at hc
      obtain ⟨_, h2, h3⟩ := candsOf_spec _ _ _ _ c hc
      exact ⟨by simp [Circ.has, h2], h3⟩
    have hlen : cands0.length ≤ tip.main.gates.length := by
      rw [initializeCands_snd] at h0
      obtain ⟨m, _, hm⟩ := Option.map_eq_some'.mp h0
      rw [← hm]
      exact candsOf_length _ _ _ _
    cases use_minimize_alg with
    | false =>
      obtain ⟨cs, e, h1, h2⟩ := baseSeqLoop_spec hs tip.main hok _ fuel 0 _ cands0 V hc0
        (by intro c hc; simp at hc) (Nat.zero_le _) (by omega)
      refine ⟨cands0, cs, rfl, ?_, fun c hc => (hc0 c hc).1, ?_, ?_⟩
      · simp only [Bool.false_eq_true, if_false, refineCandsBaseInSequence, h0, e]
        rfl
      · intro c hc
        exact ⟨(h1 c hc).1, fun τ hτ => (h1 c hc).2 τ hτ.1⟩
      · intro c hc hq
        exact h2 c hc (fun τ hτ => hq τ ⟨hτ, fun h => by cases h⟩)
    | true =>
      obtain ⟨V1, _, _⟩ := addConstraints_spec hok tip.cnstrs.classes _ _ V (wf_cnstrs hwf)
      obtain ⟨cs, e, h1, h2⟩ := baseMinLoop_spec hs tip.main hok _ fuel fuel _ cands0
        (V1.weaken (fun _ _ => trivial)) (fun c hc => (hc0 c hc).1) (by omega) (by omega)
      refine ⟨cands0, cs, rfl, ?_, fun c hc => (hc0 c hc).1, ?_, ?_⟩
      · simp only [if_true, refineCandsBaseWithMinimize, h0, e]
        rfl
      · intro c hc
        exact ⟨(h1 c hc).1, fun τ hτ => (h1 c hc).2 τ ⟨hτ.1, hτ.2 rfl⟩⟩
      · intro c hc hq
        exact h2 c hc (fun τ hτ => hq τ ⟨hτ.1, fun _ => hτ.2⟩)

/-! ## The two unrollings of the step phase -/

theorem freshFront_spec :
    ∀ (fs : List Flop) (uc : Circ), uc.ok = true →
      Ext uc (freshFront fs.length uc).1 ∧ (freshFront fs.length uc).1.ok = true ∧
      (freshFront fs.length uc).2.length = fs.length ∧
      (∀ o ∈ (freshFront fs.length uc).2,
        ∃ s, o = some s ∧ (freshFront fs.length uc).1.has s = true) ∧
      ∀ asg τ : Nat → Bool, ∃ asg' : Nat → Bool,
        (∀ u, u ≤ uc.gates.length → asg' u = asg u) ∧
        ∀ p ∈ fs.zip (freshFront fs.length uc).2,
          (freshFront fs.length uc).1.evalO asg' p.2 = τ p.1.gate := by
  intro fs
  induction fs with
  | nil =>
    intro uc hok
    exact ⟨Ext.refl _, hok, rfl, fun o ho => by simp [freshFront] at ho,
      fun asg τ => ⟨asg, fun _ _ => rfl, fun p hp => by simp [freshFront] at hp⟩⟩
  | cons f fs ih =>
    intro uc hok
    obtain ⟨e1, ok1, has1, eq1, g1⟩ := mkInp_spec uc hok UINT32_MAX
    obtain ⟨e2, ok2, len2, fr2, c2⟩ := ih (uc.mkInp UINT32_MAX).1 ok1
    simp only [List.length_cons, freshFront]
    refine ⟨e1.trans e2, ok2, by simp [len2], ?_, ?_⟩
    · intro o ho
      rcases List.mem_cons.mp ho with h | h
      · exact ⟨_, h, e2.has has1⟩
      · exact fr2 o h
    · intro asg τ
      obtain ⟨asg', a1, a2⟩ := c2 (fun u => if u = uc.gates.length + 1 then τ f.gate else asg u) τ
      refine ⟨asg', fun u hu => ?_, fun p hp => ?_⟩
      · rw [a1 u (by rw [g1]; simp; omega)]
        have : u ≠ uc.gates.length + 1 := by omega
        simp [this]
      · simp only [List.zip_cons_cons, List.mem_cons] at hp
        rcases hp with h | h
        · subst h
          simp only [Circ.evalO]
          rw [e2.eval _ has1, eq1]
          have hd : defAt (uc.mkInp UINT32_MAX).1.gates (uc.gates.length + 1) =
              some (.inp UINT32_MAX) := by
            rw [g1]; simp [defAt]
          rw [eval_gate_inp ok1 _ hd, a1 _ (by rw [g1]; simp)]
          simp
        · exact a2 p h

theorem mem_zip_map {α β : Type} (g : α → β) :
    ∀ (l : List α) (p : α × β), p ∈ l.zip (l.map g) → p.2 = g p.1 := by
  intro l
  induction l with
  | nil => intro p hp; simp at hp
  | cons a l ih =>
    intro p hp
    simp only [List.map_cons, List.zip_cons_cons, List.mem_cons] at hp
    rcases hp with h | h
    · subst h; rfl
    · exact ih p h

theorem mem_zip_map_self {α β : Type} (g : α → β) :
    ∀ (l : List α) (a : α), a ∈ l → (a, g a) ∈ l.zip (l.map g) := by
  intro l
  induction l with
  | nil => intro a ha; simp at ha
  | cons x l ih =>
    intro a ha
    simp only [List.map_cons, List.zip_cons_cons, List.mem_cons]
    rcases List.mem_cons.mp ha with h | h
    · subst h; exact Or.inl rfl
    · exact Or.inr (ih a h)

theorem isFlop_true_iff {tip : TipCirc} {g : Nat} :
    tip.isFlop g = true ↔ ∃ f ∈ tip.flps, f.gate = g := by
  simp [TipCirc.isFlop, List.any_eq_true]

theorem unrollTwo_spec (tip : TipCirc) (hwf : tip.wf = true) :
    TwoFrame tip (unrollTwo tip).1 (unrollTwo tip).2.1 (unrollTwo tip).2.2 := by
  have hok := wf_main_ok hwf
  obtain ⟨e0, ok0, len0, fr0, c0⟩ := freshFront_spec tip.flps Circ.empty rfl
  have S0 := unroll_copy_stepmap tip hwf _ _ ok0 len0 fr0
  have D0 := (unroll_copy_spec tip hwf _ _ ok0 len0 fr0).2.2.2.1
  have len1 : (tip.flps.map (fun f => mapSig (copyCirc tip.main
      (freshFront tip.flps.length Circ.empty).1
      (seedFront tip.flps (freshFront tip.flps.length Circ.empty).2 GMap.clear)
      tip.main.lastGate).2 f.next)).length = tip.flps.length := by simp
  have fr1 : ∀ o ∈ tip.flps.map (fun f => mapSig (copyCirc tip.main
      (freshFront tip.flps.length Circ.empty).1
      (seedFront tip.flps (freshFront tip.flps.length Circ.empty).2 GMap.clear)
      tip.main.lastGate).2 f.next),
      ∃ s, o = some s ∧ (copyCirc tip.main (freshFront tip.flps.length Circ.empty).1
        (seedFront tip.flps (freshFront tip.flps.length Circ.empty).2 GMap.clear)
        tip.main.lastGate).1.has s = true := by
    intro o ho
    obtain ⟨f, hf, rfl⟩ := List.mem_map.mp ho
    obtain ⟨a, ha⟩ := mapSig_defined (S0.nexts f hf)
    exact ⟨a, ha, mapSig_has S0.loc ha⟩
  have S1 := unroll_copy_stepmap tip hwf _ _ S0.ok len1 fr1
  have D1 := (unroll_copy_spec tip hwf _ _ S0.ok len1 fr1).2.2.2.1
  have hlink : ∀ f ∈ tip.flps, (unrollTwo tip).2.2 f.gate = mapSig (unrollTwo tip).2.1 f.next :=
    fun f hf => S1.bound _ (mem_zip_map_self _ tip.flps f hf)
  refine ⟨S1.ok, Local.mono S1.ext S0.loc, S1.loc, D0, D1, hlink, ?_⟩
  intro τ0 τ1 htr
  obtain ⟨a0, _, h0⟩ := c0 (fun _ => false) τ0
  obtain ⟨a1, ag1, h1⟩ := S0.compl a0 τ0
  obtain ⟨a2, ag2, h2⟩ := S1.compl a1 τ1
  have r0 : ∀ g k s, defAt tip.main.gates g = some (.inp k) → (unrollTwo tip).2.1 g = some s →
      (unrollTwo tip).1.eval a2 s = τ0 g := by
    intro g k s hd hs
    have hs1 := (S0.loc g s hs).1
    have e12 : (unrollTwo tip).1.eval a2 s = (copyCirc tip.main
        (freshFront tip.flps.length Circ.empty).1
        (seedFront tip.flps (freshFront tip.flps.length Circ.empty).2 GMap.clear)
        tip.main.lastGate).1.eval a1 s :=
      (S1.ext.eval a2 hs1).trans
        (eval_congr _ _ _ (fun u n hu => ag2 u (defAt_range hu).2) s)
    rw [e12]
    cases hfl : tip.isFlop g with
    | false => exact h1 g k s hd hfl hs
    | true =>
      obtain ⟨f, hf, rfl⟩ := isFlop_true_iff.mp hfl
      obtain ⟨o, ho⟩ := mem_zip_of_mem_left tip.flps _ len0.symm f hf
      have hb := S0.bound _ ho
      have hv := h0 _ ho
      simp only at hb hv
      have hbs : o = some s := by rw [← hb]; exact hs
      subst hbs
      obtain ⟨s', hs', hhas⟩ := fr0 _ (List.of_mem_zip ho).2
      cases hs'
      simp only [Circ.evalO] at hv
      rw [← hv, S0.ext.eval _ hhas]
      apply eval_congr
      intro u n hu
      exact ag1 u (defAt_range hu).2
  refine ⟨a2, r0, ?_⟩
  intro g k s hd hs
  cases hfl : tip.isFlop g with
  | false => exact h2 g k s hd hfl hs
  | true =>
    obtain ⟨f, hf, rfl⟩ := isFlop_true_iff.mp hfl
    rw [hlink f hf] at hs
    rw [htr f hf]
    exact Local.sound_sig hok (Local.mono S1.ext S0.loc) a2 τ0 r0 (wf_flop hwf hf).2.2 hs

/-! ## The step phase, one candidate at a time -/

theorem Sem.start (src : Circ) (D : (Nat → Bool) → Prop) :
    Sem src (Solver.new, GMap.clear) (fun _ => True) D := by
  refine ⟨rfl, ?_, ?_, fun _ _ _ _ => trivial, ?_⟩
  · intro g s hs
    simp [GMap.clear] at hs
  · intro c hc
    simp [Solver.new] at hc
  · intro τ _ _
    refine ⟨fun _ => false, fun g k s _ hs => ?_, rfl⟩
    simp [GMap.clear] at hs

theorem frame_val {tip : TipCirc} (hwf : tip.wf = true) {uc : Circ} {u : GMap Sig}
    (hl : Local tip.main.gates uc u) (ν : Nat → Bool) {c x : Sig}
    (hc : tip.main.has c = true) (hx : mapSig u c = some x) :
    uc.eval ν x = tip.main.eval (frameOf uc u ν) c :=
  Local.sound_sig (wf_main_ok hwf) hl ν _
    (fun g n s _ hs => by simp [frameOf, hs, Circ.evalO]) hc hx

theorem frame_trans {tip : TipCirc} (hwf : tip.wf = true) {uc : Circ} {u0 u1 : GMap Sig}
    (T : TwoFrame tip uc u0 u1) (ν : Nat → Bool) :
    tip.trans (frameOf uc u0 ν) (frameOf uc u1 ν) := by
  intro f hf
  obtain ⟨a, ha⟩ := mapSig_defined (T.dom0 f.next.gate (by
    have := (wf_flop hwf hf).2.2
    simpa [Circ.has] using this))
  simp only [frameOf, T.link f hf, ha, Circ.evalO]
  exact frame_val hwf T.loc0 ν (wf_flop hwf hf).2.2 ha

/-- The literals of the copies of a candidate in the two cycles. -/
theorem clausifyPairs_spec {tip : TipCirc} {uc : Circ} {u0 u1 : GMap Sig}
    (T : TwoFrame tip uc u0 u1) :
    ∀ (cands : List Sig) (st : Solver × GMap Sig), st.1.arena.ok = true →
      Local uc.gates st.1.arena st.2 → (∀ c ∈ cands, tip.main.has c = true) →
      ClRes uc.gates st (clausifyPairs uc u0 u1 cands st).1 ∧
      (clausifyPairs uc u0 u1 cands st).2.1 =
        cands.map (fun c => lookupO (clausifyPairs uc u0 u1 cands st).1.2 (mapSig u0 c)) ∧
      (clausifyPairs uc u0 u1 cands st).2.2 =
        cands.map (fun c => lookupO (clausifyPairs uc u0 u1 cands st).1.2 (mapSig u1 c)) ∧
      ∀ c ∈ cands, ∃ x0 a0 x1 a1, mapSig u0 c = some x0 ∧ mapSig u1 c = some x1 ∧
        mapSig (clausifyPairs uc u0 u1 cands st).1.2 x0 = some a0 ∧
        mapSig (clausifyPairs uc u0 u1 cands st).1.2 x1 = some a1 := by
  intro cands
  induction cands with
  | nil =>
    intro st hst hl _
    exact ⟨ClRes.same _ _ hst hl, rfl, rfl, fun c hc => by simp at hc⟩
  | cons c cs ih =>
    intro st hst hl hcs
    have hc : tip.main.has c = true := hcs c (by simp)
    have hg : c.gate ≤ tip.main.gates.length := by simpa [Circ.has] using hc
    obtain ⟨x0, hx0⟩ := mapSig_defined (T.dom0 c.gate hg)
    obtain ⟨x1, hx1⟩ := mapSig_defined (T.dom1 c.gate hg)
    obtain ⟨R0, a0, ha0, _⟩ := clausify_spec uc T.ok st hst hl x0 (mapSig_has T.loc0 hx0)
    obtain ⟨R1, a1, ha1, _⟩ := clausify_spec uc T.ok _ R0.ok R0.loc x1 (mapSig_has T.loc1 hx1)
    obtain ⟨R2, e0, e1, hd⟩ := ih (clausify uc (clausify uc st x0).1 x1).1 R1.ok R1.loc
      (fun y hy => hcs y (by simp [hy]))
    have ha0' : mapSig (clausify uc st x0).1.2 x0 = some a0 := ha0
    have ha1' : mapSig (clausify uc (clausify uc st x0).1 x1).1.2 x1 = some a1 := ha1
    have k0 := mapSig_keep R2.keep (mapSig_keep R1.keep ha0')
    have k1 := mapSig_keep R2.keep ha1'
    simp only [clausifyPairs, hx0, hx1, clausifyO, List.map_cons]
    refine ⟨(R0.chain R1).chain R2, ?_, ?_, ?_⟩
    · rw [e0, ha0]
      simp only [lookupO, Option.bind, lookup, k0]
    · rw [e1, ha1]
      simp only [lookupO, Option.bind, lookup, k1]
    · intro y hy
      rcases List.mem_cons.mp hy with h | h
      · subst h
        exact ⟨x0, a0, x1, a1, hx0, hx1, k0, k1⟩
      · exact hd y h

theorem lookupO_some {cm : GMap Sig} {o : Option Sig} {x a : Sig} (ho : o = some x)
    (ha : mapSig cm x = some a) : lookupO cm o = some a := by
  subst ho
  simp only [lookupO, Option.bind, lookup, ha]

theorem stepKeep_iff {s : Solver} {cm u0 u1 : GMap Sig} {m : Nat → Bool} {x x0 a0 x1 a1 : Sig}
    (h0 : mapSig u0 x = some x0) (h1 : mapSig u1 x = some x1) (k0 : mapSig cm x0 = some a0)
    (k1 : mapSig cm x1 = some a1) :
    stepKeep s cm u0 u1 m x = true ↔
      (s.arena.eval m a1 = true → s.arena.eval m a0 = true) := by
  simp only [stepKeep, lookupO_some h0 k0, lookupO_some h1 k1, Bool.or_eq_true,
    decide_eq_true_eq, modelValue_true_iff, modelValue_false_iff]
  cases s.arena.eval m a0 <;> cases s.arena.eval m a1 <;> simp

theorem stepSeqLoop_spec {solve : SolveFn} (hs : SolverCorrect solve) (tip : TipCirc)
    (hwf : tip.wf = true) {uc : Circ} {u0 u1 : GMap Sig} (T : TwoFrame tip uc u0 u1)
    (s : Solver) (cm : GMap Sig) (V : Sem uc (s, cm) (fun _ => True) (fun _ => True)) :
    ∀ (fuel i : Nat) (cands : List Sig),
      (∀ c ∈ cands, tip.main.has c = true ∧ ∃ x0 a0 x1 a1, mapSig u0 c = some x0 ∧
        mapSig u1 c = some x1 ∧ mapSig cm x0 = some a0 ∧ mapSig cm x1 = some a1) →
      (∀ c ∈ cands.take i, ∀ τ0 τ1, tip.trans τ0 τ1 → tip.main.eval τ1 c = true →
        tip.main.eval τ0 c = true) →
      i ≤ cands.length →
      2 * cands.length + 1 ≤ fuel + i →
      ∃ cs, stepSeqLoop solve s cm u0 u1 fuel i cands = some cs ∧
        (∀ c ∈ cs, c ∈ cands ∧ ∀ τ0 τ1, tip.trans τ0 τ1 → tip.main.eval τ1 c = true →
          tip.main.eval τ0 c = true) ∧
        (∀ c ∈ cands, (∀ τ0 τ1, tip.trans τ0 τ1 → tip.main.eval τ1 c = true →
          tip.main.eval τ0 c = true) → c ∈ cs) := by
  have hok := wf_main_ok hwf
  intro fuel
  induction fuel with
  | zero => intro i cands _ _ hi hf; omega
  | succ fuel ih =>
    intro i cands hc hpre hi hf
    simp only [stepSeqLoop]
    cases hci : cands[i]? with
    | none =>
      have hlen : cands.length ≤ i := by
        rcases Nat.lt_or_ge i cands.length with h | h
        · rw [List.getElem?_eq_getElem h] at hci; cases hci
        · exact h
      rw [List.take_of_length_le hlen] at hpre
      exact ⟨cands, rfl, fun c h => ⟨h, hpre c h⟩, fun c h _ => h⟩
    | some c =>
      have hcm : c ∈ cands := List.getElem?_mem hci
      have hil : i < cands.length := by
        rcases Nat.lt_or_ge i cands.length with h | h
        · exact h
        · rw [List.getElem?_eq_none h] at hci; cases hci
      obtain ⟨hhas, x0, a0, x1, a1, h0, h1, k0, k1⟩ := hc c hcm
      simp only [lookupO_some h0 k0, lookupO_some h1 k1]
      have hx0 := mapSig_has T.loc0 h0
      have hx1 := mapSig_has T.loc1 h1
      cases hsol : solve s [a0.neg, a1] with
      | none =>
        have hq : ∀ τ0 τ1, tip.trans τ0 τ1 → tip.main.eval τ1 c = true →
            tip.main.eval τ0 c = true := by
          intro τ0 τ1 htr hv1
          obtain ⟨ν, r0, r1⟩ := T.compl τ0 τ1 htr
          obtain ⟨m, hr, hh⟩ := V.compl ν trivial trivial
          have e0 : s.arena.eval m a0 = tip.main.eval τ0 c :=
            (V.value T.ok hr hx0 k0).trans (Local.sound_sig hok T.loc0 ν τ0 r0 hhas h0)
          have e1 : s.arena.eval m a1 = tip.main.eval τ1 c :=
            (V.value T.ok hr hx1 k1).trans (Local.sound_sig hok T.loc1 ν τ1 r1 hhas h1)
          have hn := (hs _ _).2 hsol m
          cases hv0 : tip.main.eval τ0 c with
          | true => rfl
          | false =>
            have : s.holds [a0.neg, a1] m = true := by
              rw [holds_all_iff]
              refine ⟨hh, fun l hl => ?_⟩
              simp only [List.mem_cons, List.mem_singleton, List.not_mem_nil, or_false] at hl
              rcases hl with rfl | rfl
              · rw [eval_neg, e0, hv0]; rfl
              · rw [e1, hv1]
            rw [hn] at this
            cases this
        simp only []
        apply ih (i + 1) cands hc _ hil (by omega)
        intro x hx
        rw [List.take_succ, List.mem_append] at hx
        rcases hx with h | h
        · exact hpre x h
        · rw [hci] at h
          simp at h
          subst h
          exact hq
      | some m =>
        have hh := (holds_all_iff _ _ _).mp ((hs _ _).1 m hsol)
        have hl0 : s.arena.eval m a0 = false := by
          have := hh.2 a0.neg (by simp)
          rw [eval_neg] at this
          simpa using this
        have hl1 : s.arena.eval m a1 = true := hh.2 a1 (by simp)
        have hdrop : stepKeep s cm u0 u1 m c = false := by
          rw [← Bool.not_eq_true, stepKeep_iff h0 h1 k0 k1, hl0, hl1]
          simp
        have hlt := take_filter_length_lt (stepKeep s cm u0 u1 m) cands i c hci hdrop
        simp only []
        obtain ⟨cs, e, h1', h2'⟩ := ih i
          (cands.take i ++ (cands.drop i).filter (stepKeep s cm u0 u1 m))
          (by
            intro x hx
            rw [mem_take_filter] at hx
            apply hc
            rw [mem_take_or_drop cands i]
            rcases hx with h | h
            · exact Or.inl h
            · exact Or.inr h.1)
          (by
            intro x hx
            rw [List.take_append_of_le_length (by rw [List.length_take]; omega)] at hx
            rw [List.take_take, Nat.min_self] at hx
            exact hpre x hx)
          (by rw [List.length_append, List.length_take]; omega)
          (by omega)
        refine ⟨cs, e, ?_, ?_⟩
        · intro x hx
          obtain ⟨a, b⟩ := h1' x hx
          refine ⟨?_, b⟩
          rw [mem_take_filter] at a
          rw [mem_take_or_drop cands i]
          rcases a with h | h
          · exact Or.inl h
          · exact Or.inr h.1
        · intro x hx hq
          apply h2' x _ hq
          rw [mem_take_filter]
          rcases (mem_take_or_drop cands i x).mp hx with h | h
          · exact Or.inl h
          · refine Or.inr ⟨h, ?_⟩
            obtain ⟨hxh, y0, b0, y1, b1, g0, g1, j0, j1⟩ := hc x hx
            rw [stepKeep_iff g0 g1 j0 j1]
            have hr := realises_readBack uc.gates (s, cm) m
            rw [V.value T.ok hr (mapSig_has T.loc0 g0) j0,
              V.value T.ok hr (mapSig_has T.loc1 g1) j1,
              frame_val hwf T.loc0 _ hxh g0, frame_val hwf T.loc1 _ hxh g1]
            exact hq _ _ (frame_trans hwf T _)

/-- The sequential step phase returns exactly the candidates that are true in a cycle
whenever they are true in the next one. -/
theorem stepSeq_spec {solve : SolveFn} (hs : SolverCorrect solve) (tip : TipCirc)
    (hwf : tip.wf = true) (cands : List Sig) (hc : ∀ c ∈ cands, tip.main.has c = true)
    (fuel : Nat) (hf : 2 * cands.length + 1 ≤ fuel) :
    ∃ cs, refineCandsStepInSequence fuel solve tip cands = some cs ∧
      (∀ c ∈ cs, c ∈ cands ∧ ∀ τ0 τ1, tip.trans τ0 τ1 → tip.main.eval τ1 c = true →
        tip.main.eval τ0 c = true) ∧
      (∀ c ∈ cands, (∀ τ0 τ1, tip.trans τ0 τ1 → tip.main.eval τ1 c = true →
        tip.main.eval τ0 c = true) → c ∈ cs) := by
  have T := unrollTwo_spec tip hwf
  have V0 := Sem.start (unrollTwo tip).1 (fun _ => True)
  obtain ⟨R, _, _, hd⟩ := clausifyPairs_spec T cands (Solver.new, GMap.clear) V0.ok V0.loc hc
  exact stepSeqLoop_spec hs tip hwf T _ _ (V0.step R) fuel 0 cands
    (fun c hcm => ⟨hc c hcm, hd c hcm⟩) (by intro c h; simp at h) (Nat.zero_le _) (by omega)

/-! ## The constraints in the two cycles of the step phase -/

theorem bindTwo_spec {tip : TipCirc} (hwf : tip.wf = true) {uc : Circ} {u0 u1 : GMap Sig}
    (T : TwoFrame tip uc u0 u1) {D : (Nat → Bool) → Prop} {t : Solver × GMap Sig}
    {P : (Nat → Bool) → Prop} (V : Sem uc t P D) {x r y0 y1 rep0 rep1 : Sig}
    (hx : tip.main.has x = true) (hr : tip.main.has r = true)
    (h0 : mapSig u0 r = some y0) (h1 : mapSig u1 r = some y1)
    (k0 : mapSig t.2 y0 = some rep0) (k1 : mapSig t.2 y1 = some rep1) :
    Sem uc (bindTwo uc u0 u1 (some rep0) (some rep1) t x)
      (fun ν => P ν ∧
        (tip.main.eval (frameOf uc u0 ν) x = tip.main.eval (frameOf uc u0 ν) r ∧
          tip.main.eval (frameOf uc u1 ν) x = tip.main.eval (frameOf uc u1 ν) r)) D ∧
    (∀ g s, t.2 g = some s → (bindTwo uc u0 u1 (some rep0) (some rep1) t x).2 g = some s) := by
  have hg : x.gate ≤ tip.main.gates.length := by simpa [Circ.has] using hx
  obtain ⟨x0, hx0⟩ := mapSig_defined (T.dom0 x.gate hg)
  obtain ⟨x1, hx1⟩ := mapSig_defined (T.dom1 x.gate hg)
  obtain ⟨V1, kp1, _⟩ := clausifyAs_spec T.ok V (mapSig_has T.loc0 hx0)
    (mapSig_has T.loc0 h0) k0
  obtain ⟨V2, kp2, _⟩ := clausifyAs_spec T.ok V1 (mapSig_has T.loc1 hx1)
    (mapSig_has T.loc1 h1) (mapSig_keep kp1 k1)
  simp only [bindTwo, hx0, hx1]
  refine ⟨V2.congr (fun ν => ?_), fun g s h => kp2 g s (kp1 g s h)⟩
  rw [frame_val hwf T.loc0 ν hx hx0, frame_val hwf T.loc0 ν hr h0,
    frame_val hwf T.loc1 ν hx hx1, frame_val hwf T.loc1 ν hr h1]
  tauto

theorem bindTwo_fold {tip : TipCirc} (hwf : tip.wf = true) {uc : Circ} {u0 u1 : GMap Sig}
    (T : TwoFrame tip uc u0 u1) {D : (Nat → Bool) → Prop} {r y0 y1 rep0 rep1 : Sig}
    (hr : tip.main.has r = true) (h0 : mapSig u0 r = some y0) (h1 : mapSig u1 r = some y1) :
    ∀ (rest : List Sig) (t : Solver × GMap Sig) (P : (Nat → Bool) → Prop),
      Sem uc t P D → (∀ x ∈ rest, tip.main.has x = true) →
      mapSig t.2 y0 = some rep0 → mapSig t.2 y1 = some rep1 →
      Sem uc (rest.foldl (bindTwo uc u0 u1 (some rep0) (some rep1)) t)
        (fun ν => P ν ∧ ∀ x ∈ rest,
          (tip.main.eval (frameOf uc u0 ν) x = tip.main.eval (frameOf uc u0 ν) r ∧
            tip.main.eval (frameOf uc u1 ν) x = tip.main.eval (frameOf uc u1 ν) r)) D := by
  intro rest
  induction rest with
  | nil =>
    intro t P V _ _ _
    exact V.congr (fun ν => by simp)
  | cons x xs ih =>
    intro t P V hxs k0 k1
    obtain ⟨V1, kp⟩ := bindTwo_spec hwf T V (hxs x (by simp)) hr h0 h1 k0 k1
    have V2 := ih _ _ V1 (fun y hy => hxs y (by simp [hy])) (mapSig_keep kp k0)
      (mapSig_keep kp k1)
    simp only [List.foldl_cons]
    refine V2.congr (fun ν => ?_)
    simp only [List.mem_cons, forall_eq_or_imp]
    tauto

theorem holdsAt_cons (r : Sig) (rest : List Sig) (cls : List (List Sig)) (c : Circ)
    (τ : Nat → Bool) :
    Equivs.holdsAt ⟨(r :: rest) :: cls⟩ c τ = true ↔
      (∀ x ∈ rest, c.eval τ x = c.eval τ r) ∧ Equivs.holdsAt ⟨cls⟩ c τ = true := by
  simp only [Equivs.holdsAt, List.all_cons, Bool.and_eq_true, List.all_eq_true, beq_iff_eq]

theorem addConstraintsTwo_spec {tip : TipCirc} (hwf : tip.wf = true) {uc : Circ}
    {u0 u1 : GMap Sig} (T : TwoFrame tip uc u0 u1) {D : (Nat → Bool) → Prop} :
    ∀ (classes : List (List Sig)) (st : Solver × GMap Sig) (P : (Nat → Bool) → Prop),
      Sem uc st P D → (∀ cl ∈ classes, ∀ x ∈ cl, tip.main.has x = true) →
      Sem uc (addConstraintsTwo uc u0 u1 classes st)
        (fun ν => P ν ∧ (Equivs.holdsAt ⟨classes⟩ tip.main (frameOf uc u0 ν) = true ∧
          Equivs.holdsAt ⟨classes⟩ tip.main (frameOf uc u1 ν) = true)) D := by
  intro classes
  induction classes with
  | nil =>
    intro st P V _
    exact V.congr (fun ν => by simp [Equivs.holdsAt])
  | cons cl cls ih =>
    intro st P V hcl
    have hcls : ∀ c ∈ cls, ∀ x ∈ c, tip.main.has x = true := fun c hc => hcl c (by simp [hc])
    cases cl with
    | nil =>
      simp only [addConstraintsTwo]
      exact (ih st P V hcls).congr (fun ν => by simp [Equivs.holdsAt])
    | cons r rest =>
      simp only [addConstraintsTwo]
      have hr : tip.main.has r = true := hcl (r :: rest) (by simp) r (by simp)
      have hg : r.gate ≤ tip.main.gates.length := by simpa [Circ.has] using hr
      obtain ⟨y0, h0⟩ := mapSig_defined (T.dom0 r.gate hg)
      obtain ⟨y1, h1⟩ := mapSig_defined (T.dom1 r.gate hg)
      obtain ⟨R0, rep0, k0, _⟩ := clausify_spec uc T.ok st V.ok V.loc y0 (mapSig_has T.loc0 h0)
      obtain ⟨R1, rep1, k1, _⟩ := clausify_spec uc T.ok _ R0.ok R0.loc y1
        (mapSig_has T.loc1 h1)
      have k0' : mapSig (clausify uc st y0).1.2 y0 = some rep0 := k0
      have k1' : mapSig (clausify uc (clausify uc st y0).1 y1).1.2 y1 = some rep1 := k1
      simp only [h0, h1, clausifyO, k0, k1]
      have V1 := bindTwo_fold hwf T hr h0 h1 rest _ _ ((V.step R0).step R1)
        (fun x hx => hcl (r :: rest) (by simp) x (by simp [hx]))
        (mapSig_keep R1.keep k0') k1'
      refine (ih _ _ V1 hcls).congr (fun ν => ?_)
      rw [holdsAt_cons, holdsAt_cons]
      constructor
      · rintro ⟨⟨hP, hx⟩, a, b⟩
        exact ⟨hP, ⟨fun x hm => (hx x hm).1, a⟩, ⟨fun x hm => (hx x hm).2, b⟩⟩
      · rintro ⟨hP, ⟨a1, a2⟩, ⟨b1, b2⟩⟩
        exact ⟨⟨hP, fun x hm => ⟨a1 x hm, b1 x hm⟩⟩, a2, b2⟩

/-! ## The step phase with the minimising solve -/

theorem filter_eq_of_length {α : Type} (p : α → Bool) (l : List α)
    (h : (l.filter p).length = l.length) : l.filter p = l := by
  apply List.filter_eq_self.mpr
  intro c hcm
  by_contra hne
  have := List.length_filter_lt_length_iff_exists.mpr ⟨c, hcm, hne⟩
  omega

theorem litTrue_iff {s : Solver} {m : Nat → Bool} {o : Option Sig} {a : Sig} (h : o = some a) :
    litTrue s m o = true ↔ s.arena.eval m a = true := by
  subst h
  simp only [litTrue, decide_eq_true_eq, modelValue_true_iff]

theorem stepMinLoop_spec {solve : SolveFn} (hs : SolverCorrect solve) (tip : TipCirc)
    (hwf : tip.wf = true) {uc : Circ} {u0 u1 : GMap Sig} (T : TwoFrame tip uc u0 u1)
    (P : (Nat → Bool) → Prop) (sfuel : Nat) :
    ∀ (fuel : Nat) (st : Solver × GMap Sig) (cands : List Sig),
      Sem uc st P (fun ν => ∃ c ∈ cands, tip.main.eval (frameOf uc u0 ν) c = false) →
      (∀ c ∈ cands, tip.main.has c = true) →
      cands.length + 1 ≤ fuel → cands.length + 2 ≤ sfuel →
      ∃ cs, stepMinLoop solve uc u0 u1 sfuel fuel st cands = some cs ∧
        (∀ c ∈ cs, c ∈ cands) ∧
        (∀ c ∈ cs, ∀ ν, P ν → (∀ x ∈ cs, tip.main.eval (frameOf uc u1 ν) x = true) →
          tip.main.eval (frameOf uc u0 ν) c = true) ∧
        (∀ X : List Sig, (∀ x ∈ X, x ∈ cands) →
          (∀ c ∈ X, ∀ ν, P ν → (∀ x ∈ X, tip.main.eval (frameOf uc u1 ν) x = true) →
            tip.main.eval (frameOf uc u0 ν) c = true) → ∀ x ∈ X, x ∈ cs) := by
  intro fuel
  induction fuel with
  | zero => intro st cands _ _ hf _; omega
  | succ fuel ih =>
    intro st cands V hc hf hsf
    obtain ⟨R, e0, e1, hd⟩ := clausifyPairs_spec T cands st V.ok V.loc hc
    have V1 := V.step R
    have hfacts : ∀ c ∈ cands, ∃ a0 a1,
        lookupO (clausifyPairs uc u0 u1 cands st).1.2 (mapSig u0 c) = some a0 ∧
        lookupO (clausifyPairs uc u0 u1 cands st).1.2 (mapSig u1 c) = some a1 ∧
        (clausifyPairs uc u0 u1 cands st).1.1.arena.has a0 = true ∧
        (clausifyPairs uc u0 u1 cands st).1.1.arena.has a1 = true ∧
        ∀ m ν, Realises uc.gates (clausifyPairs uc u0 u1 cands st).1.1.arena
            (clausifyPairs uc u0 u1 cands st).1.2 m ν →
          (clausifyPairs uc u0 u1 cands st).1.1.arena.eval m a0 =
            tip.main.eval (frameOf uc u0 ν) c ∧
          (clausifyPairs uc u0 u1 cands st).1.1.arena.eval m a1 =
            tip.main.eval (frameOf uc u1 ν) c := by
      intro c hcm
      obtain ⟨x0, a0, x1, a1, h0, h1, k0, k1⟩ := hd c hcm
      refine ⟨a0, a1, lookupO_some h0 k0, lookupO_some h1 k1, mapSig_has R.loc k0,
        mapSig_has R.loc k1, fun m ν hr => ⟨?_, ?_⟩⟩
      · rw [V1.value T.ok hr (mapSig_has T.loc0 h0) k0]
        exact frame_val hwf T.loc0 ν (hc c hcm) h0
      · rw [V1.value T.ok hr (mapSig_has T.loc1 h1) k1]
        exact frame_val hwf T.loc1 ν (hc c hcm) h1
    have hps : ∀ p ∈ (clausifyPairs uc u0 u1 cands st).2.1.filterMap id, ∃ c ∈ cands,
        lookupO (clausifyPairs uc u0 u1 cands st).1.2 (mapSig u0 c) = some p := by
      intro p hp
      have := mem_filterMap_id.mp hp
      rw [e0] at this
      obtain ⟨c, hcm, hcp⟩ := List.mem_map.mp this
      exact ⟨c, hcm, hcp⟩
    have hA : ∀ l ∈ (clausifyPairs uc u0 u1 cands st).2.2.filterMap id, ∃ c ∈ cands,
        lookupO (clausifyPairs uc u0 u1 cands st).1.2 (mapSig u1 c) = some l := by
      intro p hp
      have := mem_filterMap_id.mp hp
      rw [e1] at this
      obtain ⟨c, hcm, hcp⟩ := List.mem_map.mp this
      exact ⟨c, hcm, hcp⟩
    have hpshas : ∀ p ∈ (clausifyPairs uc u0 u1 cands st).2.1.filterMap id,
        (clausifyPairs uc u0 u1 cands st).1.1.arena.has p = true := by
      intro p hp
      obtain ⟨c, hcm, hcp⟩ := hps p hp
      obtain ⟨a0, _, l0, _, ha, _, _⟩ := hfacts c hcm
      rw [hcp] at l0
      cases l0
      exact ha
    have hplen : ((clausifyPairs uc u0 u1 cands st).2.1.filterMap id).length ≤ cands.length := by
      have := List.length_filterMap_le id (clausifyPairs uc u0 u1 cands st).2.1
      rw [e0, List.length_map] at this
      rw [e0]
      exact this
    have hAtrue : ∀ m ν, Realises uc.gates (clausifyPairs uc u0 u1 cands st).1.1.arena
        (clausifyPairs uc u0 u1 cands st).1.2 m ν →
        (∀ x ∈ cands, tip.main.eval (frameOf uc u1 ν) x = true) →
        ∀ l ∈ (clausifyPairs uc u0 u1 cands st).2.2.filterMap id,
          (clausifyPairs uc u0 u1 cands st).1.1.arena.eval m l = true := by
      intro m ν hr hall l hl
      obtain ⟨c, hcm, hcl⟩ := hA l hl
      obtain ⟨a0, a1, _, l1, _, _, hv⟩ := hfacts c hcm
      rw [hcl] at l1
      cases l1
      rw [(hv m ν hr).2]
      exact hall c hcm
    simp only [stepMinLoop]
    rcases solveMinimum_spec hs ((clausifyPairs uc u0 u1 cands st).2.2.filterMap id)
        ((clausifyPairs uc u0 u1 cands st).2.1.filterMap id)
        (clausifyPairs uc u0 u1 cands st).1.1 sfuel (by omega) with ⟨e, hun⟩ | ⟨s', m', e, MR⟩
    · rw [e]
      refine ⟨cands, rfl, fun c h => h, fun c hcm ν hP hall => ?_, fun X hX _ x hx => hX x hx⟩
      cases hv : tip.main.eval (frameOf uc u0 ν) c with
      | true => rfl
      | false =>
        obtain ⟨m, hr, hh⟩ := V1.compl ν hP ⟨c, hcm, hv⟩
        have : (clausifyPairs uc u0 u1 cands st).1.1.holds
            ((clausifyPairs uc u0 u1 cands st).2.2.filterMap id) m = true :=
          (holds_all_iff _ _ _).mpr ⟨hh, hAtrue m ν hr hall⟩
        rw [hun m] at this
        cases this
    · rw [e]
      simp only []
      have hkeep : ∀ c ∈ cands, ∀ a,
          lookupO (clausifyPairs uc u0 u1 cands st).1.2 (mapSig u0 c) = some a →
          (litTrue s' m' (lookupO (clausifyPairs uc u0 u1 cands st).1.2 (mapSig u0 c)) = true ↔
            (clausifyPairs uc u0 u1 cands st).1.1.arena.eval m' a = true) := by
        intro c _ a ha
        rw [litTrue_iff ha, MR.arena]
      have hm1 := (holds_all_iff _ _ _).mp MR.model
      have V2 : Sem uc (s', (clausifyPairs uc u0 u1 cands st).1.2) P
          (fun ν => ∃ c ∈ cands.filter (fun c => litTrue s' m'
            (lookupO (clausifyPairs uc u0 u1 cands st).1.2 (mapSig u0 c))),
            tip.main.eval (frameOf uc u0 ν) c = false) := by
        apply MinRes.sem V1 MR hpshas
        · rintro ν ⟨c, hcm, hv⟩
          exact ⟨c, (List.mem_filter.mp hcm).1, hv⟩
        · rintro ν m ⟨c, hcm, hv⟩ hr
          obtain ⟨hc1, hc2⟩ := List.mem_filter.mp hcm
          obtain ⟨a0, a1, l0, _, _, _, hval⟩ := hfacts c hc1
          refine ⟨a0, mem_filterMap_id.mpr ?_, (hkeep c hc1 a0 l0).mp hc2, ?_⟩
          · rw [e0, ← l0]
            exact List.mem_map.mpr ⟨c, hc1, rfl⟩
          · rw [(hval m ν hr).1]
            exact hv
      have hex : ∀ X : List Sig, (∀ x ∈ X, x ∈ cands) →
          (∀ c ∈ X, ∀ ν, P ν → (∀ x ∈ X, tip.main.eval (frameOf uc u1 ν) x = true) →
            tip.main.eval (frameOf uc u0 ν) c = true) →
          ∀ x ∈ X, x ∈ cands.filter (fun c => litTrue s' m'
            (lookupO (clausifyPairs uc u0 u1 cands st).1.2 (mapSig u0 c))) := by
        intro X hX hQ x hx
        have hr := realises_readBack uc.gates (clausifyPairs uc u0 u1 cands st).1 m'
        obtain ⟨a0, a1, l0, _, _, _, hval⟩ := hfacts x (hX x hx)
        refine List.mem_filter.mpr ⟨hX x hx, (hkeep x (hX x hx) a0 l0).mpr ?_⟩
        rw [(hval m' _ hr).1]
        apply hQ x hx _ (V1.model hm1.1)
        intro y hy
        obtain ⟨b0, b1, _, k1, _, _, hvy⟩ := hfacts y (hX y hy)
        rw [← (hvy m' _ hr).2]
        apply hm1.2
        refine mem_filterMap_id.mpr ?_
        rw [e1, ← k1]
        exact List.mem_map.mpr ⟨y, hX y hy, rfl⟩
      by_cases heq : (cands.filter (fun c => litTrue s' m'
            (lookupO (clausifyPairs uc u0 u1 cands st).1.2 (mapSig u0 c)))).length = cands.length
      · rw [if_pos heq]
        have hall := filter_eq_of_length _ _ heq
        rw [hall] at V2
        refine ⟨cands, rfl, fun c h => h, fun c hcm ν hP hal => ?_, fun X hX _ x hx => hX x hx⟩
        cases hv : tip.main.eval (frameOf uc u0 ν) c with
        | true => rfl
        | false =>
          exfalso
          obtain ⟨m, hr, hh⟩ := V2.compl ν hP ⟨c, hcm, hv⟩
          have hr1 : Realises uc.gates (clausifyPairs uc u0 u1 cands st).1.1.arena
              (clausifyPairs uc u0 u1 cands st).1.2 m ν := by
            intro g k s hd hs
            have := hr g k s hd hs
            simp only [MR.arena] at this
            exact this
          apply MR.last m hh (hAtrue m ν hr1 hal)
          intro p hp hpf
          obtain ⟨d, hd, hdp⟩ := hps p hp
          have hk : d ∈ cands.filter (fun c => litTrue s' m'
              (lookupO (clausifyPairs uc u0 u1 cands st).1.2 (mapSig u0 c))) := by
            rw [hall]; exact hd
          have := (hkeep d hd p hdp).mp (List.mem_filter.mp hk).2
          rw [hpf] at this
          cases this
      · rw [if_neg heq]
        have hle := List.length_filter_le (fun c => litTrue s' m'
            (lookupO (clausifyPairs uc u0 u1 cands st).1.2 (mapSig u0 c))) cands
        obtain ⟨cs, e2, h1, h2, h3⟩ := ih _ _ V2
          (fun c hcm => hc c (List.mem_filter.mp hcm).1) (by omega) (by omega)
        exact ⟨cs, e2, fun c hcm => (List.mem_filter.mp (h1 c hcm)).1, h2,
          fun X hX hQ x hx => h3 X (hex X hX hQ) hQ x hx⟩

/-! ## The step phase as a whole -/

theorem holdsAt_congr (e : Equivs) (c : Circ) (τ τ' : Nat → Bool)
    (h : ∀ cl ∈ e.classes, ∀ x ∈ cl, c.eval τ x = c.eval τ' x) :
    e.holdsAt c τ = e.holdsAt c τ' := by
  unfold Equivs.holdsAt
  apply all_congr_mem
  intro cl hcl
  cases cl with
  | nil => rfl
  | cons r rest =>
    simp only []
    apply all_congr_mem
    intro x hx
    rw [h _ hcl x (by simp [hx]), h _ hcl r (by simp)]

theorem stepMin_spec {solve : SolveFn} (hs : SolverCorrect solve) (tip : TipCirc)
    (hwf : tip.wf = true) (cands : List Sig) (hc : ∀ c ∈ cands, tip.main.has c = true)
    (fuel : Nat) (hf : cands.length + 2 ≤ fuel) :
    ∃ cs, refineCandsStepWithMinimize fuel solve tip cands = some cs ∧
      (∀ c ∈ cs, c ∈ cands) ∧ (∀ c ∈ cs, tip.stepOk true cs c) ∧
      (∀ X : List Sig, (∀ x ∈ X, x ∈ cands) → (∀ c ∈ X, tip.stepOk true X c) →
        ∀ x ∈ X, x ∈ cs) := by
  have hok := wf_main_ok hwf
  have T := unrollTwo_spec tip hwf
  have V0 := Sem.start (unrollTwo tip).1
    (fun ν => ∃ c ∈ cands, tip.main.eval (frameOf (unrollTwo tip).1 (unrollTwo tip).2.1 ν) c
      = false)
  have V1 := addConstraintsTwo_spec hwf T tip.cnstrs.classes _ _ V0 (wf_cnstrs hwf)
  obtain ⟨cs, e, h1, h2, h3⟩ := stepMinLoop_spec hs tip hwf T _ fuel fuel _ cands V1 hc
    (by omega) hf
  refine ⟨cs, e, h1, ?_, ?_⟩
  · intro c hcm τ0 τ1 htr hE hall
    obtain ⟨ν, r0, r1⟩ := T.compl τ0 τ1 htr
    have f0 : ∀ x, tip.main.has x = true →
        tip.main.eval (frameOf (unrollTwo tip).1 (unrollTwo tip).2.1 ν) x = tip.main.eval τ0 x := by
      intro x hx
      obtain ⟨a, ha⟩ := mapSig_defined (T.dom0 x.gate (by simpa [Circ.has] using hx))
      rw [← frame_val hwf T.loc0 ν hx ha]
      exact Local.sound_sig hok T.loc0 ν τ0 r0 hx ha
    have f1 : ∀ x, tip.main.has x = true →
        tip.main.eval (frameOf (unrollTwo tip).1 (unrollTwo tip).2.2 ν) x = tip.main.eval τ1 x := by
      intro x hx
      obtain ⟨a, ha⟩ := mapSig_defined (T.dom1 x.gate (by simpa [Circ.has] using hx))
      rw [← frame_val hwf T.loc1 ν hx ha]
      exact Local.sound_sig hok T.loc1 ν τ1 r1 hx ha
    rw [← f0 c (hc c (h1 c hcm))]
    apply h2 c hcm ν
    · refine ⟨trivial, ?_, ?_⟩
      · rw [holdsAt_congr _ _ _ τ0 (fun cl hcl x hx => f0 x (wf_cnstrs hwf cl hcl x hx))]
        exact (hE rfl).1
      · rw [holdsAt_congr _ _ _ τ1 (fun cl hcl x hx => f1 x (wf_cnstrs hwf cl hcl x hx))]
        exact (hE rfl).2
    · intro x hx
      rw [f1 x (hc x (h1 x hx))]
      exact hall x hx
  · intro X hX hQ x hx
    apply h3 X hX _ x hx
    intro c hcm ν hP hall
    exact hQ c hcm _ _ (frame_trans hwf T ν) (fun _ => hP.2) hall

/-- The step phase of either variant returns candidates that satisfy the step condition. -/
theorem stepPhase_spec {solve : SolveFn} (hs : SolverCorrect solve) (tip : TipCirc)
    (hwf : tip.wf = true) (use_minimize_alg : Bool) (cands : List Sig)
    (hc : ∀ c ∈ cands, tip.main.has c = true) (fuel : Nat)
    (hf : 2 * cands.length + 2 ≤ fuel) :
    ∃ cs, (if use_minimize_alg then refineCandsStepWithMinimize fuel solve tip cands
        else refineCandsStepInSequence fuel solve tip cands) = some cs ∧
      (∀ c ∈ cs, c ∈ cands) ∧ (∀ c ∈ cs, tip.stepOk use_minimize_alg cs c) := by
  cases use_minimize_alg with
  | true =>
    obtain ⟨cs, e, h1, h2, _⟩ := stepMin_spec hs tip hwf cands hc fuel (by omega)
    exact ⟨cs, e, h1, h2⟩
  | false =>
    obtain ⟨cs, e, h1, _⟩ := stepSeq_spec hs tip hwf cands hc fuel (by omega)
    refine ⟨cs, e, fun c hcm => (h1 c hcm).1, fun c hcm τ0 τ1 htr _ hall => ?_⟩
    exact (h1 c hcm).2 τ0 τ1 htr (hall c hcm)

/-! ## The procedure as a whole -/

theorem baseSeqLoop_length (solve : SolveFn) (main : Circ) :
    ∀ (fuel i : Nat) (st : Solver × GMap Sig) (cands cs : List Sig),
      baseSeqLoop solve main fuel i st cands = some cs → cs.length ≤ cands.length := by
  intro fuel
  induction fuel with
  | zero => intro i st cands cs h; simp [baseSeqLoop] at h
  | succ fuel ih =>
    intro i st cands cs h
    simp only [baseSeqLoop] at h
    cases hci : cands[i]? with
    | none =>
      simp only [hci, Option.some.injEq] at h
      rw [← h]
    | some c =>
      simp only [hci] at h
      cases hl : (clausify main st c.neg).2 with
      | none => simp [hl] at h
      | some l =>
        simp only [hl] at h
        cases hsol : solve (clausify main st c.neg).1.1 [l] with
        | none =>
          simp only [hsol] at h
          exact ih _ _ _ _ h
        | some m =>
          simp only [hsol] at h
          exact Nat.le_trans (ih _ _ _ _ h) (take_filter_length _ _ _)

theorem baseMinLoop_length (solve : SolveFn) (main : Circ) (sfuel : Nat) :
    ∀ (fuel : Nat) (st : Solver × GMap Sig) (cands cs : List Sig),
      baseMinLoop solve main sfuel fuel st cands = some cs → cs.length ≤ cands.length := by
  intro fuel
  induction fuel with
  | zero => intro st cands cs h; simp [baseMinLoop] at h
  | succ fuel ih =>
    intro st cands cs h
    simp only [baseMinLoop] at h
    split at h
    · cases h
    · simp only [Option.some.injEq] at h
      rw [← h]
    · split at h
      · exact Nat.le_trans (ih _ _ _ h) (List.length_filter_le _ _)
      · simp only [Option.some.injEq] at h
        rw [← h]

theorem base_length (fuel : Nat) (solve : SolveFn) (tip : TipCirc)
    (use_minimize_alg only_coi : Bool) (b : Bool) (cs : List Sig)
    (h : (if use_minimize_alg then refineCandsBaseWithMinimize fuel solve tip only_coi
      else refineCandsBaseInSequence fuel solve tip only_coi) = some (b, cs)) :
    cs.length ≤ tip.main.gates.length := by
  cases h0 : (initializeCands solve tip (Solver.new, GMap.clear) only_coi).2 with
  | none =>
    have := (base_false_iff fuel solve tip use_minimize_alg only_coi).mpr h0
    rw [this] at h
    simp only [Option.some.injEq, Prod.mk.injEq] at h
    rw [← h.2]
    simp
  | some cands0 =>
    have hlen : cands0.length ≤ tip.main.gates.length := by
      rw [initializeCands_snd] at h0
      obtain ⟨m, _, hm⟩ := Option.map_eq_some'.mp h0
      rw [← hm]
      exact candsOf_length _ _ _ _
    cases use_minimize_alg with
    | false =>
      simp only [Bool.false_eq_true, if_false, refineCandsBaseInSequence, h0] at h
      obtain ⟨a, ha, hb⟩ := Option.map_eq_some'.mp h
      simp only [Prod.mk.injEq] at hb
      rw [← hb.2]
      exact Nat.le_trans (baseSeqLoop_length _ _ _ _ _ _ _ ha) hlen
    | true =>
      simp only [if_true, refineCandsBaseWithMinimize, h0] at h
      obtain ⟨a, ha, hb⟩ := Option.map_eq_some'.mp h
      simp only [Prod.mk.injEq] at hb
      rw [← hb.2]
      exact Nat.le_trans (baseMinLoop_length _ _ _ _ _ _ _ ha) hlen

/-- With enough iterations the procedure returns: either no property can be bad and nothing
is committed, or the candidates it commits are true wherever the base phase looks and satisfy
the step condition. -/
theorem sce_spec {solve : SolveFn} (hs : SolverCorrect solve) (tip : TipCirc)
    (hwf : tip.wf = true) (fuel : Nat) (hf : 2 * tip.main.gates.length + 2 ≤ fuel)
    (use_minimize_alg only_coi : Bool) :
    ((∀ τ, tip.badAt τ = false) ∧
      sceCands fuel solve tip use_minimize_alg only_coi = some (false, [])) ∨
    ∃ cs, sceCands fuel solve tip use_minimize_alg only_coi = some (true, cs) ∧
      (∀ c ∈ cs, tip.main.has c = true) ∧
      (∀ c ∈ cs, ∀ τ, tip.baseAt use_minimize_alg τ → tip.main.eval τ c = true) ∧
      (∀ c ∈ cs, tip.stepOk use_minimize_alg cs c) := by
  rcases base_spec hs tip hwf fuel hf use_minimize_alg only_coi with
    ⟨h1, h2⟩ | ⟨cands0, base, h0, hb, hc0, hsound, _⟩
  · left
    exact ⟨h1, by simp only [sceCands, h2]⟩
  · right
    have hbl := base_length fuel solve tip use_minimize_alg only_coi true base hb
    have hbase : ∀ c ∈ base, tip.main.has c = true := fun c hc => hc0 c (hsound c hc).1
    obtain ⟨cs, e, s1, s2⟩ := stepPhase_spec hs tip hwf use_minimize_alg base hbase fuel
      (by omega)
    refine ⟨cs, ?_, fun c hc => hbase c (s1 c hc), fun c hc => (hsound c (s1 c hc)).2, s2⟩
    simp only [sceCands, hb, e]
    rfl

/-- C6, as the code has it: with a correct SAT oracle and enough iterations, the procedure
returns for either variant, and every signal that it merges with true is true in every cycle
of every run of the circuit (from any state) that ends in a cycle in which some property
with status Unknown is bad; in the minimising variant this holds for the runs along which the
constraints already in `cnstrs` hold. -/
theorem sce_commits_backward (solve : SolveFn) (hs : SolverCorrect solve) (tip : TipCirc)
    (hwf : tip.wf = true) (fuel : Nat) (hf : 2 * tip.main.gates.length + 2 ≤ fuel)
    (use_minimize_alg only_coi : Bool) :
    ∃ b cs, sceCands fuel solve tip use_minimize_alg only_coi = some (b, cs) ∧
      semanticConstraintExtraction fuel solve tip use_minimize_alg only_coi =
        some { tip with cnstrs :=
          if b then mergeAll tip.cnstrs cs else tip.cnstrs.merge sig_False sig_True } ∧
      ∀ c ∈ cs, ∀ (τ : Nat → Nat → Bool) (k : Nat),
        (∀ j, j < k → tip.trans (τ j) (τ (j + 1))) →
        (use_minimize_alg = true → ∀ j, j ≤ k → tip.cnstrs.holdsAt tip.main (τ j) = true) →
        tip.badAt (τ k) = true →
        ∀ j, j ≤ k → tip.main.eval (τ j) c = true := by
  rcases sce_spec hs tip hwf fuel hf use_minimize_alg only_coi with
    ⟨_, h2⟩ | ⟨cs, e, _, hbase, hstep⟩
  · refine ⟨false, [], h2, ?_, fun c hc => by simp at hc⟩
    simp only [semanticConstraintExtraction, h2]
    rfl
  · refine ⟨true, cs, e, ?_, ?_⟩
    · simp only [semanticConstraintExtraction, e]
      rfl
    · intro c hc τ k htr hE hbad
      have key : ∀ d, d ≤ k → ∀ x ∈ cs, tip.main.eval (τ (k - d)) x = true := by
        intro d
        induction d with
        | zero =>
          intro _ x hx
          exact hbase x hx _ ⟨hbad, fun h => hE h k (Nat.le_refl k)⟩
        | succ d ih =>
          intro hd x hx
          have e1 : k - (d + 1) + 1 = k - d := by omega
          apply hstep x hx (τ (k - (d + 1))) (τ (k - d))
          · have := htr (k - (d + 1)) (by omega)
            rw [e1] at this
            exact this
          · intro h
            exact ⟨hE h _ (by omega), hE h _ (by omega)⟩
          · exact ih (by omega)
      intro j hj
      have := key (k - j) (by omega) c hc
      have e2 : k - (k - j) = j := by omega
      rw [e2] at this
      exact this

theorem sce_commits_backward_witness :
    trivTip.wf = true ∧ 2 * trivTip.main.gates.length + 2 ≤ 4 ∧
    ∃ b cs, sceCands 4 bruteSolve trivTip false false = some (b, cs) ∧
      semanticConstraintExtraction 4 bruteSolve trivTip false false =
        some { trivTip with cnstrs :=
          if b then mergeAll trivTip.cnstrs cs
          else trivTip.cnstrs.merge sig_False sig_True } ∧
      ∀ c ∈ cs, ∀ (τ : Nat → Nat → Bool) (k : Nat),
        (∀ j, j < k → trivTip.trans (τ j) (τ (j + 1))) →
        (false = true → ∀ j, j ≤ k → trivTip.cnstrs.holdsAt trivTip.main (τ j) = true) →
        trivTip.badAt (τ k) = true →
        ∀ j, j ≤ k → trivTip.main.eval (τ j) c = true :=
  ⟨by decide, by decide,
    sce_commits_backward bruteSolve bruteSolve_correct trivTip (by decide) 4 (by decide)
      false false⟩

set_option maxRecDepth 100000 in
/-- C6, counterexample: on the one-flop circuit (initial value 0, next value the flop itself,
safety property `not flop`) both variants merge the flop with true, but in the initial state,
which is reachable, the flop is false. -/
theorem sce_reachable_counterexample :
    (semanticConstraintExtraction 4 bruteSolve trivTip false false).map
      (fun t => t.cnstrs.classes) = some [[sig_True, ⟨1, false⟩]] ∧
    (semanticConstraintExtraction 4 bruteSolve trivTip true false).map
      (fun t => t.cnstrs.classes) = some [[sig_True, ⟨1, false⟩]] ∧
    trivTip.sigAt (fun _ => false) (fun _ _ => false) 0 ⟨1, false⟩ = false := by
  decide

/-! ## The constraint equivalence after the procedure -/

theorem equiv_merge_self (e : Equivs) (x y : Sig) : (e.merge x y).equiv x y = true := by
  unfold Equivs.merge
  by_cases h : e.equiv x y = true
  · simp only [h, if_true]
  · simp only [h, Bool.false_eq_true, if_false]
    simp only [Equivs.equiv, List.any_cons, Bool.or_eq_true, decide_eq_true_eq,
      Bool.and_eq_true]
    right; left; left
    exact ⟨by simp, by simp⟩

theorem mem_joined {e : Equivs} {x a : Sig} {cl : List Sig} (hcl : cl ∈ e.classes)
    (hx : x ∈ cl) (ha : a ∈ cl) : a ∈ e.joined x := by
  simp only [Equivs.joined, List.mem_flatMap, List.mem_filter]
  exact ⟨cl, ⟨hcl, by simp [Equivs.touches, hx]⟩, by simp [hx, ha]⟩

theorem mem_joined_neg {e : Equivs} {x a : Sig} {cl : List Sig} (hcl : cl ∈ e.classes)
    (hx : x ∉ cl) (hn : x.neg ∈ cl) (ha : a ∈ cl) : a.neg ∈ e.joined x := by
  simp only [Equivs.joined, List.mem_flatMap, List.mem_filter]
  refine ⟨cl, ⟨hcl, by simp [Equivs.touches, hn]⟩, ?_⟩
  simp only [hx, if_false]
  exact List.mem_map.mpr ⟨a, ha, rfl⟩

/-- A class that mentions `x` ends up, possibly inverted, inside the joined members. -/
theorem pair_in_joined {e : Equivs} {x a b : Sig} {cl : List Sig} (hcl : cl ∈ e.classes)
    (ht : Equivs.touches x cl = true)
    (hab : (a ∈ cl ∧ b ∈ cl) ∨ (a.neg ∈ cl ∧ b.neg ∈ cl)) :
    (a ∈ e.joined x ∧ b ∈ e.joined x) ∨ (a.neg ∈ e.joined x ∧ b.neg ∈ e.joined x) := by
  by_cases hx : x ∈ cl
  · rcases hab with ⟨h1, h2⟩ | ⟨h1, h2⟩
    · exact Or.inl ⟨mem_joined hcl hx h1, mem_joined hcl hx h2⟩
    · exact Or.inr ⟨mem_joined hcl hx h1, mem_joined hcl hx h2⟩
  · have hn : x.neg ∈ cl := by
      simp only [Equivs.touches, Bool.or_eq_true, decide_eq_true_eq] at ht
      rcases ht with h | h
      · exact absurd h hx
      · exact h
    rcases hab with ⟨h1, h2⟩ | ⟨h1, h2⟩
    · exact Or.inr ⟨mem_joined_neg hcl hx hn h1, mem_joined_neg hcl hx hn h2⟩
    · left
      have k1 := mem_joined_neg hcl hx hn h1
      have k2 := mem_joined_neg hcl hx hn h2
      rw [neg_neg_sig] at k1 k2
      exact ⟨k1, k2⟩

theorem equiv_merge_keep (e : Equivs) (x y a b : Sig) (h : e.equiv a b = true) :
    (e.merge x y).equiv a b = true := by
  unfold Equivs.merge
  by_cases hxy : e.equiv x y = true
  · simp only [hxy, if_true]; exact h
  · simp only [hxy, Bool.false_eq_true, if_false]
    simp only [Equivs.equiv, Bool.or_eq_true, decide_eq_true_eq, List.any_eq_true,
      Bool.and_eq_true] at h ⊢
    rcases h with h | ⟨cl, hcl, hab⟩
    · exact Or.inl h
    · right
      by_cases tx : Equivs.touches x cl = true
      · refine ⟨_, List.mem_cons_self _ _, ?_⟩
        rcases pair_in_joined hcl tx hab with ⟨h1, h2⟩ | ⟨h1, h2⟩
        · left
          exact ⟨by simp [h1], by simp [h2]⟩
        · right
          exact ⟨by simp [h1], by simp [h2]⟩
      · by_cases ty : Equivs.touches y cl = true
        · refine ⟨_, List.mem_cons_self _ _, ?_⟩
          rcases pair_in_joined hcl ty hab with ⟨h1, h2⟩ | ⟨h1, h2⟩
          · left
            exact ⟨by simp [h1], by simp [h2]⟩
          · right
            exact ⟨by simp [h1], by simp [h2]⟩
        · refine ⟨cl, List.mem_cons_of_mem _ (List.mem_filter.mpr ⟨hcl, ?_⟩), hab⟩
          simp [tx, ty]

theorem equiv_mergeAll_keep :
    ∀ (cs : List Sig) (e : Equivs) (a b : Sig), e.equiv a b = true →
      (mergeAll e cs).equiv a b = true := by
  intro cs
  induction cs with
  | nil => intro e a b h; exact h
  | cons c cs ih =>
    intro e a b h
    exact ih _ a b (equiv_merge_keep e sig_True c a b h)

theorem equiv_mergeAll :
    ∀ (cs : List Sig) (e : Equivs), ∀ c ∈ cs, (mergeAll e cs).equiv sig_True c = true := by
  intro cs
  induction cs with
  | nil => intro e c hc; simp at hc
  | cons d cs ih =>
    intro e c hc
    rcases List.mem_cons.mp hc with h | h
    · subst h
      exact equiv_mergeAll_keep cs _ _ _ (equiv_merge_self e sig_True c)
    · exact ih _ c h

theorem sce_result {solve : SolveFn} (hs : SolverCorrect solve) (tip : TipCirc)
    (hwf : tip.wf = true) (fuel : Nat) (hf : 2 * tip.main.gates.length + 2 ≤ fuel)
    (use_minimize_alg only_coi : Bool) :
    (sceCands fuel solve tip use_minimize_alg only_coi = some (false, []) ∧
      semanticConstraintExtraction fuel solve tip use_minimize_alg only_coi =
        some { tip with cnstrs := tip.cnstrs.merge sig_False sig_True }) ∨
    ∃ cs, sceCands fuel solve tip use_minimize_alg only_coi = some (true, cs) ∧
      semanticConstraintExtraction fuel solve tip use_minimize_alg only_coi =
        some { tip with cnstrs := mergeAll tip.cnstrs cs } := by
  rcases sce_spec hs tip hwf fuel hf use_minimize_alg only_coi with ⟨_, h2⟩ | ⟨cs, e, _⟩
  · exact Or.inl ⟨h2, by simp only [semanticConstraintExtraction, h2]⟩
  · exact Or.inr ⟨cs, e, by simp only [semanticConstraintExtraction, e]⟩

/-- C8, as the code has it: with a correct SAT oracle and enough iterations the procedure
returns (for either variant), and the only equivalences it records are with the constant
true: every signal that survives both phases is equivalent to true in the new `cnstrs`, so
two signals `x` and `y` are related through the class of true when both survive; the
equivalences that were in `cnstrs` before are kept. -/
theorem sce_merges_with_true (solve : SolveFn) (hs : SolverCorrect solve) (tip : TipCirc)
    (hwf : tip.wf = true) (fuel : Nat) (hf : 2 * tip.main.gates.length + 2 ≤ fuel)
    (use_minimize_alg only_coi : Bool) :
    ∃ b cs t, sceCands fuel solve tip use_minimize_alg only_coi = some (b, cs) ∧
      semanticConstraintExtraction fuel solve tip use_minimize_alg only_coi = some t ∧
      t.cnstrs = (if b then mergeAll tip.cnstrs cs else tip.cnstrs.merge sig_False sig_True) ∧
      (∀ x ∈ cs, ∀ y ∈ cs,
        t.cnstrs.equiv sig_True x = true ∧ t.cnstrs.equiv sig_True y = true) ∧
      (∀ a b, tip.cnstrs.equiv a b = true → t.cnstrs.equiv a b = true) := by
  rcases sce_result hs tip hwf fuel hf use_minimize_alg only_coi with ⟨e1, e2⟩ | ⟨cs, e1, e2⟩
  · exact ⟨false, [], _, e1, e2, rfl, fun x hx => by simp at hx,
      fun a b h => equiv_merge_keep _ _ _ a b h⟩
  · exact ⟨true, cs, _, e1, e2, rfl,
      fun x hx y hy => ⟨equiv_mergeAll cs _ x hx, equiv_mergeAll cs _ y hy⟩,
      fun a b h => equiv_mergeAll_keep cs _ a b h⟩

theorem sce_merges_with_true_witness :
    trivTip.wf = true ∧ 2 * trivTip.main.gates.length + 2 ≤ 4 ∧
    ∃ b cs t, sceCands 4 bruteSolve trivTip true false = some (b, cs) ∧
      semanticConstraintExtraction 4 bruteSolve trivTip true false = some t ∧
      t.cnstrs = (if b then mergeAll trivTip.cnstrs cs
        else trivTip.cnstrs.merge sig_False sig_True) ∧
      (∀ x ∈ cs, ∀ y ∈ cs,
        t.cnstrs.equiv sig_True x = true ∧ t.cnstrs.equiv sig_True y = true) ∧
      (∀ a b, trivTip.cnstrs.equiv a b = true → t.cnstrs.equiv a b = true) :=
  ⟨by decide, by decide,
    sce_merges_with_true bruteSolve bruteSolve_correct trivTip (by decide) 4 (by decide)
      true false⟩

set_option maxRecDepth 1000000 in
/-- C8, counterexample: in the circuit `eqTip` the wires `x` (gate 2) and `y` (gate 3) are
equal under every valuation, yet after the procedure with the minimising variant they are not
in a common class: no candidate survives the step phase and `cnstrs` stays empty. -/
theorem sce_equal_wires_counterexample :
    (∀ τ : Nat → Bool, eqTip.main.eval τ ⟨2, false⟩ = eqTip.main.eval τ ⟨3, false⟩) ∧
    (semanticConstraintExtraction 10 bruteSolve eqTip true false).map
      (fun t => (t.cnstrs.classes, t.cnstrs.equiv ⟨2, false⟩ ⟨3, false⟩)) =
      some ([], false) := by
  refine ⟨fun τ => ?_, by decide⟩
  simp [Circ.eval, sigVal, eqTip, gateVals, valAt]

/-! ## Running the procedure twice -/

theorem mem_joined_has {e : Equivs} {c : Circ}
    (he : ∀ cl ∈ e.classes, ∀ a ∈ cl, c.has a = true) (x : Sig) :
    ∀ a ∈ e.joined x, c.has a = true := by
  intro a ha
  simp only [Equivs.joined, List.mem_flatMap, List.mem_filter] at ha
  obtain ⟨cl, ⟨hcl, _⟩, hm⟩ := ha
  by_cases hx : x ∈ cl
  · simp only [hx, if_true] at hm
    exact he cl hcl a hm
  · simp only [hx, if_false] at hm
    obtain ⟨b, hb, rfl⟩ := List.mem_map.mp hm
    rw [has_neg]
    exact he cl hcl b hb

theorem merge_has {e : Equivs} {c : Circ}
    (he : ∀ cl ∈ e.classes, ∀ a ∈ cl, c.has a = true) {x y : Sig} (hx : c.has x = true)
    (hy : c.has y = true) : ∀ cl ∈ (e.merge x y).classes, ∀ a ∈ cl, c.has a = true := by
  unfold Equivs.merge
  by_cases h : e.equiv x y = true
  · simp only [h, if_true]; exact he
  · simp only [h, Bool.false_eq_true, if_false]
    intro cl hcl a ha
    rcases List.mem_cons.mp hcl with e1 | e1
    · subst e1
      simp only [List.mem_cons, List.mem_append] at ha
      rcases ha with (rfl | h1) | rfl | h1
      · exact hx
      · exact mem_joined_has he x a h1
      · exact hy
      · exact mem_joined_has he y a h1
    · exact he cl (List.mem_filter.mp e1).1 a ha

theorem mergeAll_has {c : Circ} :
    ∀ (cs : List Sig) (e : Equivs), (∀ cl ∈ e.classes, ∀ a ∈ cl, c.has a = true) →
      (∀ x ∈ cs, c.has x = true) →
      ∀ cl ∈ (mergeAll e cs).classes, ∀ a ∈ cl, c.has a = true := by
  intro cs
  induction cs with
  | nil => intro e he _; exact he
  | cons x xs ih =>
    intro e he hcs
    exact ih _ (merge_has he (by simp [Circ.has, sig_True, gate_True]) (hcs x (by simp)))
      (fun y hy => hcs y (by simp [hy]))

theorem wf_with_cnstrs {tip : TipCirc} (hwf : tip.wf = true) (e : Equivs)
    (he : ∀ cl ∈ e.classes, ∀ a ∈ cl, tip.main.has a = true) :
    TipCirc.wf { tip with cnstrs := e } = true := by
  simp only [TipCirc.wf, Bool.and_eq_true, List.all_eq_true] at hwf ⊢
  exact ⟨hwf.1, he⟩

theorem holdsAt_members {e : Equivs} {c : Circ} {τ : Nat → Bool}
    (h : e.holdsAt c τ = true) {cl : List Sig} (hcl : cl ∈ e.classes) {a b : Sig}
    (ha : a ∈ cl) (hb : b ∈ cl) : c.eval τ a = c.eval τ b := by
  simp only [Equivs.holdsAt, List.all_eq_true] at h
  have := h cl hcl
  cases cl with
  | nil => simp at ha
  | cons r rest =>
    simp only [List.all_eq_true, beq_iff_eq] at this
    have key : ∀ x ∈ r :: rest, c.eval τ x = c.eval τ r := by
      intro x hx
      rcases List.mem_cons.mp hx with rfl | h1
      · rfl
      · exact this x h1
    rw [key a ha, key b hb]

theorem joined_val {e : Equivs} {c : Circ} {τ : Nat → Bool} (h : e.holdsAt c τ = true)
    (x : Sig) : ∀ a ∈ e.joined x, c.eval τ a = c.eval τ x := by
  intro a ha
  simp only [Equivs.joined, List.mem_flatMap, List.mem_filter] at ha
  obtain ⟨cl, ⟨hcl, ht⟩, hm⟩ := ha
  by_cases hx : x ∈ cl
  · simp only [hx, if_true] at hm
    exact holdsAt_members h hcl hm hx
  · simp only [hx, if_false] at hm
    obtain ⟨b, hb, rfl⟩ := List.mem_map.mp hm
    have hn : x.neg ∈ cl := by
      simp only [Equivs.touches, Bool.or_eq_true, decide_eq_true_eq] at ht
      rcases ht with h1 | h1
      · exact absurd h1 hx
      · exact h1
    have := holdsAt_members h hcl hb hn
    rw [eval_neg] at this
    rw [eval_neg, this]
    simp

theorem holdsAt_merge {e : Equivs} {c : Circ} {τ : Nat → Bool} (h : e.holdsAt c τ = true)
    {x y : Sig} (hxy : c.eval τ x = c.eval τ y) : (e.merge x y).holdsAt c τ = true := by
  unfold Equivs.merge
  by_cases hq : e.equiv x y = true
  · simp only [hq, if_true]; exact h
  · simp only [hq, Bool.false_eq_true, if_false]
    simp only [Equivs.holdsAt, List.all_cons, List.cons_append, Bool.and_eq_true,
      List.all_eq_true, beq_iff_eq]
    constructor
    · intro a ha
      simp only [List.mem_append, List.mem_cons] at ha
      rcases ha with h1 | rfl | h1
      · exact joined_val h x a h1
      · exact hxy.symm
      · rw [joined_val h y a h1, hxy]
    · intro cl hcl
      have h0 := h
      simp only [Equivs.holdsAt, List.all_eq_true] at h0
      exact h0 cl (List.mem_filter.mp hcl).1

theorem holdsAt_mergeAll {c : Circ} {τ : Nat → Bool} :
    ∀ (cs : List Sig) (e : Equivs), e.holdsAt c τ = true → (∀ x ∈ cs, c.eval τ x = true) →
      (mergeAll e cs).holdsAt c τ = true := by
  intro cs
  induction cs with
  | nil => intro e h _; exact h
  | cons x xs ih =>
    intro e h hcs
    exact ih _ (holdsAt_merge h (by rw [eval_sig_True, hcs x (by simp)]))
      (fun y hy => hcs y (by simp [hy]))

theorem mergeAll_noop :
    ∀ (cs : List Sig) (e : Equivs), (∀ c ∈ cs, e.equiv sig_True c = true) → mergeAll e cs = e := by
  intro cs
  induction cs with
  | nil => intro e _; rfl
  | cons x xs ih =>
    intro e h
    have hx : e.merge sig_True x = e := by
      simp [Equivs.merge, h x (by simp)]
    simp only [mergeAll, hx]
    exact ih e (fun c hc => h c (by simp [hc]))

/-- The minimising variant in detail: the base phase returns exactly the initial candidates
that are true wherever it looks, and the step phase returns the largest set of them that
satisfies the step condition. -/
theorem sceMin_detail {solve : SolveFn} (hs : SolverCorrect solve) (tip : TipCirc)
    (hwf : tip.wf = true) (fuel : Nat) (hf : 2 * tip.main.gates.length + 2 ≤ fuel)
    (only_coi : Bool) :
    ((∀ τ, tip.badAt τ = false) ∧
      sceCands fuel solve tip true only_coi = some (false, [])) ∨
    ∃ cands0 base cs : List Sig,
      (initializeCands solve tip (Solver.new, GMap.clear) only_coi).2 = some cands0 ∧
      sceCands fuel solve tip true only_coi = some (true, cs) ∧
      (∀ c ∈ base, c ∈ cands0 ∧ tip.main.has c = true ∧
        ∀ τ, tip.baseAt true τ → tip.main.eval τ c = true) ∧
      (∀ c ∈ cands0, (∀ τ, tip.baseAt true τ → tip.main.eval τ c = true) → c ∈ base) ∧
      (∀ c ∈ cs, c ∈ base) ∧ (∀ c ∈ cs, tip.stepOk true cs c) ∧
      (∀ X : List Sig, (∀ x ∈ X, x ∈ base) → (∀ c ∈ X, tip.stepOk true X c) →
        ∀ x ∈ X, x ∈ cs) := by
  rcases base_spec hs tip hwf fuel hf true only_coi with
    ⟨h1, h2⟩ | ⟨cands0, base, h0, hb, hc0, hsound, hexact⟩
  · left
    have h2' : refineCandsBaseWithMinimize fuel solve tip only_coi = some (false, []) := h2
    exact ⟨h1, by simp only [sceCands, if_true, h2']⟩
  · right
    have hbl := base_length fuel solve tip true only_coi true base hb
    have hb' : refineCandsBaseWithMinimize fuel solve tip only_coi = some (true, base) := hb
    have hbase : ∀ c ∈ base, tip.main.has c = true := fun c hc => hc0 c (hsound c hc).1
    obtain ⟨cs, e, s1, s2, s3⟩ := stepMin_spec hs tip hwf base hbase fuel (by omega)
    refine ⟨cands0, base, cs, h0, ?_, fun c hc => ⟨(hsound c hc).1, hbase c hc,
      (hsound c hc).2⟩, hexact, s1, s2, s3⟩
    simp only [sceCands, if_true, hb', e]
    rfl

theorem merge_twice (e : Equivs) (x y : Sig) : (e.merge x y).merge x y = e.merge x y := by
  have h := equiv_merge_self e x y
  generalize e.merge x y = e' at h
  simp [Equivs.merge, h]

/-- C9: with a correct SAT oracle and enough iterations, running the procedure on its own
result (either variant) returns that result unchanged, so the constraint equivalence after
two runs is the one after the first run. -/
theorem sce_idempotent (solve : SolveFn) (hs : SolverCorrect solve) (tip : TipCirc)
    (hwf : tip.wf = true) (fuel : Nat) (hf : 2 * tip.main.gates.length + 2 ≤ fuel)
    (use_minimize_alg only_coi : Bool) :
    ∃ t, semanticConstraintExtraction fuel solve tip use_minimize_alg only_coi = some t ∧
      semanticConstraintExtraction fuel solve t use_minimize_alg only_coi = some t := by
  cases use_minimize_alg with
  | false =>
    rcases sce_result hs tip hwf fuel hf false only_coi with ⟨e1, e2⟩ | ⟨cs, e1, e2⟩
    · refine ⟨_, e2, ?_⟩
      have e3 : sceCands fuel solve { tip with cnstrs := tip.cnstrs.merge sig_False sig_True }
          false only_coi = some (false, []) := e1
      simp only [semanticConstraintExtraction, e3, merge_twice]
    · refine ⟨_, e2, ?_⟩
      have e3 : sceCands fuel solve { tip with cnstrs := mergeAll tip.cnstrs cs }
          false only_coi = some (true, cs) := e1
      simp only [semanticConstraintExtraction, e3,
        mergeAll_noop cs _ (equiv_mergeAll cs tip.cnstrs)]
  | true =>
    have hT : tip.main.has sig_True = true := by simp [Circ.has, sig_True, gate_True]
    have hF : tip.main.has sig_False = true := by simp [Circ.has, sig_False, gate_True]
    rcases sceMin_detail hs tip hwf fuel hf only_coi with
      ⟨h1, e1⟩ | ⟨cands0, base1, cs1, h0, e1, hb1, hex1, hs1, hok1, hst1⟩
    · have e2 : semanticConstraintExtraction fuel solve tip true only_coi =
          some { tip with cnstrs := tip.cnstrs.merge sig_False sig_True } := by
        simp only [semanticConstraintExtraction, e1]
      refine ⟨_, e2, ?_⟩
      have hwf1 : TipCirc.wf { tip with cnstrs := tip.cnstrs.merge sig_False sig_True } = true :=
        wf_with_cnstrs hwf _ (merge_has (wf_cnstrs hwf) hF hT)
      have hn := (initializeCands_none_iff solve hs _ hwf1 only_coi).mpr h1
      have hb : refineCandsBaseWithMinimize fuel solve
          { tip with cnstrs := tip.cnstrs.merge sig_False sig_True } only_coi =
          some (false, []) := (base_false_iff fuel solve _ true only_coi).mpr hn
      have e3 : sceCands fuel solve { tip with cnstrs := tip.cnstrs.merge sig_False sig_True }
          true only_coi = some (false, []) := by
        simp only [sceCands, if_true, hb]
      simp only [semanticConstraintExtraction, e3, merge_twice]
    · have e2 : semanticConstraintExtraction fuel solve tip true only_coi =
          some { tip with cnstrs := mergeAll tip.cnstrs cs1 } := by
        simp only [semanticConstraintExtraction, e1]
      refine ⟨_, e2, ?_⟩
      have hcs1 : ∀ c ∈ cs1, tip.main.has c = true := fun c hc => (hb1 c (hs1 c hc)).2.1
      have hwf1 : TipCirc.wf { tip with cnstrs := mergeAll tip.cnstrs cs1 } = true :=
        wf_with_cnstrs hwf _ (mergeAll_has cs1 _ (wf_cnstrs hwf) hcs1)
      rcases sceMin_detail hs { tip with cnstrs := mergeAll tip.cnstrs cs1 } hwf1 fuel hf
          only_coi with ⟨h1, _⟩ | ⟨cands0', base2, cs2, h0', e3, hb2, _, hs2, hok2, _⟩
      · have hn := (initializeCands_none_iff solve hs _ hwf1 only_coi).mpr h1
        have : (initializeCands solve tip (Solver.new, GMap.clear) only_coi).2 = none := hn
        rw [h0] at this
        cases this
      · have hc0 : cands0' = cands0 := by
          have : (initializeCands solve tip (Solver.new, GMap.clear) only_coi).2 =
              some cands0' := h0'
          rw [h0] at this
          cases this
          rfl
        subst hc0
        have hsub : ∀ c ∈ cs2, c ∈ cs1 := by
          intro c hc
          apply hst1 (cs2 ++ cs1) _ _ c (List.mem_append.mpr (Or.inl hc))
          · intro x hx
            rcases List.mem_append.mp hx with h | h
            · apply hex1 x (hb2 x (hs2 x h)).1
              intro τ hτ
              apply (hb2 x (hs2 x h)).2.2 τ
              exact ⟨hτ.1, fun _ => holdsAt_mergeAll cs1 _ (hτ.2 rfl)
                (fun y hy => (hb1 y (hs1 y hy)).2.2 τ hτ)⟩
            · exact hs1 x h
          · intro x hx τ0 τ1 htr hE hall
            have hall1 : ∀ y ∈ cs1, tip.main.eval τ1 y = true :=
              fun y hy => hall y (List.mem_append.mpr (Or.inr hy))
            have hall0 : ∀ y ∈ cs1, tip.main.eval τ0 y = true :=
              fun y hy => hok1 y hy τ0 τ1 htr hE hall1
            rcases List.mem_append.mp hx with h | h
            · apply hok2 x h τ0 τ1 htr
              · intro _
                exact ⟨holdsAt_mergeAll cs1 _ (hE rfl).1 hall0,
                  holdsAt_mergeAll cs1 _ (hE rfl).2 hall1⟩
              · exact fun y hy => hall y (List.mem_append.mpr (Or.inl hy))
            · exact hall0 x h
        simp only [semanticConstraintExtraction, e3,
          mergeAll_noop cs2 _ (fun c hc => equiv_mergeAll cs1 tip.cnstrs c (hsub c hc))]

theorem sce_idempotent_witness :
    trivTip.wf = true ∧ 2 * trivTip.main.gates.length + 2 ≤ 4 ∧
    ∃ t, semanticConstraintExtraction 4 bruteSolve trivTip true false = some t ∧
      semanticConstraintExtraction 4 bruteSolve t true false = some t :=
  ⟨by decide, by decide,
    sce_idempotent bruteSolve bruteSolve_correct trivTip (by decide) 4 (by decide) true false⟩

/-! ## Fairness embedding -/

theorem embedProps_length (stableLive : Bool) (fairs : List Sig) :
    ∀ (ps : List LivePropData) (st : Circ × List Flop),
      (embedProps stableLive fairs ps st).2.length = ps.length := by
  intro ps
  induction ps with
  | nil => intro st; rfl
  | cons p ps ih => intro st; simp [embedProps, ih]

theorem embedProp_stat (stableLive : Bool) (fairs : List Sig) (st : Circ × List Flop)
    (p : LivePropData) : (embedProp stableLive fairs st p).2.stat = p.stat := by
  unfold embedProp
  split <;> rfl

theorem embedProp_sigs (stableLive : Bool) (fairs : List Sig) (st : Circ × List Flop)
    (p : LivePropData) :
    (p.stat = pstat_Unknown → ∃ accept, (embedProp stableLive fairs st p).2.sigs = [accept]) ∧
    (p.stat ≠ pstat_Unknown → (embedProp stableLive fairs st p).2 = p) := by
  unfold embedProp
  constructor
  · intro h
    simp [h]
  · intro h
    simp [h]

/-- C12: after `embedFairness`, with the standard or the stable embedding, the global
fairness list of the circuit is empty. -/
theorem embedFairness_fairs_empty (tip : TipCirc) (stableLive : Bool) :
    (embedFairness tip stableLive).fairs = [] := by
  simp [embedFairness]

/-- The property at an index after the loop is the result of the loop body on the property
that was at that index, from some intermediate circuit. -/
theorem embedProps_get (stableLive : Bool) (fairs : List Sig) :
    ∀ (ps : List LivePropData) (st : Circ × List Flop) (i : Nat) (p : LivePropData),
      ps[i]? = some p →
      ∃ st', (embedProps stableLive fairs ps st).2[i]? =
        some (embedProp stableLive fairs st' p).2 := by
  intro ps
  induction ps with
  | nil => intro st i p h; simp at h
  | cons q ps ih =>
    intro st i p h
    cases i with
    | zero =>
      simp only [List.getElem?_cons_zero, Option.some.injEq] at h
      subst h
      exact ⟨st, by simp [embedProps]⟩
    | succ i =>
      simp only [List.getElem?_cons_succ] at h
      obtain ⟨st', h'⟩ := ih (embedProp stableLive fairs st q).1 i p h
      exact ⟨st', by simpa [embedProps] using h'⟩

/-- C13: after `embedFairness`, with either embedding, the list of liveness properties has
the same length and the same statuses as before, every property that had status Unknown
carries exactly one signal, whatever the number of fairness signals and triggers was, and
every other property is unchanged. -/
theorem embedFairness_single_signal (tip : TipCirc) (stableLive : Bool) (i : Nat)
    (p : LivePropData) (hp : tip.live_props[i]? = some p) :
    (embedFairness tip stableLive).live_props.length = tip.live_props.length ∧
    ∃ q, (embedFairness tip stableLive).live_props[i]? = some q ∧ q.stat = p.stat ∧
      (p.stat = pstat_Unknown → q.sigs.length = 1) ∧ (p.stat ≠ pstat_Unknown → q = p) := by
  obtain ⟨st', h⟩ := embedProps_get stableLive tip.fairs tip.live_props (tip.main, tip.flps)
    i p hp
  refine ⟨embedProps_length _ _ _ _, _, h, embedProp_stat _ _ _ _, ?_, ?_⟩
  · intro hu
    obtain ⟨a, ha⟩ := (embedProp_sigs stableLive tip.fairs st' p).1 hu
    rw [ha]; rfl
  · exact (embedProp_sigs stableLive tip.fairs st' p).2

theorem embedFairness_single_signal_witness :
    liveTip.live_props[0]? = some ⟨[⟨1, false⟩, ⟨2, false⟩, ⟨3, false⟩], pstat_Unknown, none⟩ ∧
    (embedFairness liveTip true).live_props.length = liveTip.live_props.length ∧
    ∃ q, (embedFairness liveTip true).live_props[0]? = some q ∧ q.stat = pstat_Unknown ∧
      (pstat_Unknown = pstat_Unknown → q.sigs.length = 1) ∧
      (pstat_Unknown ≠ pstat_Unknown →
        q = ⟨[⟨1, false⟩, ⟨2, false⟩, ⟨3, false⟩], pstat_Unknown, none⟩) :=
  ⟨rfl, embedFairness_single_signal liveTip true 0
    ⟨[⟨1, false⟩, ⟨2, false⟩, ⟨3, false⟩], pstat_Unknown, none⟩ rfl⟩

theorem embedOne_nil (stableLive : Bool) (main : Circ) (flps : List Flop) :
    (embedOne stableLive [] main flps).2 = sig_True := by
  cases stableLive <;> rfl

/-- C15: a liveness property with status Unknown whose combined list of fairness signals and
triggers is empty gets the constant true as its single signal, with the standard and with the
stable embedding. -/
theorem embedFairness_empty_true (tip : TipCirc) (stableLive : Bool) (i : Nat)
    (p : LivePropData) (hp : tip.live_props[i]? = some p) (hu : p.stat = pstat_Unknown)
    (hn : tip.fairs ++ p.sigs = []) :
    (embedFairness tip stableLive).live_props[i]? = some { p with sigs := [sig_True] } := by
  obtain ⟨st', h⟩ := embedProps_get stableLive tip.fairs tip.live_props (tip.main, tip.flps)
    i p hp
  have e : (embedFairness tip stableLive).live_props[i]? =
      some (embedProp stableLive tip.fairs st' p).2 := h
  rw [e]
  simp only [embedProp, hu, ne_eq, not_true_eq_false, if_false, hn, embedOne_nil]

theorem embedFairness_empty_true_witness :
    ({ liveTip with live_props := [⟨[], pstat_Unknown, none⟩] } : TipCirc).live_props[0]? =
      some ⟨[], pstat_Unknown, none⟩ ∧
    (embedFairness { liveTip with live_props := [⟨[], pstat_Unknown, none⟩] } true).live_props[0]?
      = some ⟨[sig_True], pstat_Unknown, none⟩ ∧
    (embedFairness { liveTip with live_props := [⟨[], pstat_Unknown, none⟩] } false).live_props[0]?
      = some ⟨[sig_True], pstat_Unknown, none⟩ :=
  ⟨rfl,
    embedFairness_empty_true { liveTip with live_props := [⟨[], pstat_Unknown, none⟩] } true 0
      ⟨[], pstat_Unknown, none⟩ rfl rfl rfl,
    embedFairness_empty_true { liveTip with live_props := [⟨[], pstat_Unknown, none⟩] } false 0
      ⟨[], pstat_Unknown, none⟩ rfl rfl rfl⟩

theorem embedProp_single (fairs : List Sig) (st : Circ × List Flop) (p : LivePropData)
    (s : Sig) (hu : p.stat = pstat_Unknown) (hs : fairs ++ p.sigs = [s]) :
    embedProp false fairs st p = (st, { p with sigs := [s] }) := by
  simp [embedProp, hu, hs, embedOne, embedStandard]

theorem embedProps_single (fairs : List Sig) :
    ∀ (ps : List LivePropData) (st : Circ × List Flop),
      (∀ q ∈ ps, q.stat = pstat_Unknown → (fairs ++ q.sigs).length = 1) →
      (embedProps false fairs ps st).1 = st := by
  intro ps
  induction ps with
  | nil => intro st _; rfl
  | cons p ps ih =>
    intro st h
    have h1 : (embedProp false fairs st p).1 = st := by
      by_cases hu : p.stat = pstat_Unknown
      · obtain ⟨s, hs⟩ := List.length_eq_one.mp (h p (by simp) hu)
        rw [embedProp_single fairs st p s hu hs]
      · simp [embedProp, hu]
    simp only [embedProps, h1]
    exact ih st (fun q hq => h q (by simp [hq]))

/-- C14: with the standard embedding, a liveness property with status Unknown whose combined
list (global fairness signals, then its own triggers) is the single signal `s` gets `s`
itself as its single signal, and the loop body for it leaves the arena and the flop table as
they are; when this is so for every property with status Unknown, `embedFairness` changes
neither `main` nor the flops. -/
theorem embedFairness_one_signal (tip : TipCirc) (i : Nat) (p : LivePropData) (s : Sig)
    (hp : tip.live_props[i]? = some p) (hu : p.stat = pstat_Unknown)
    (hs : tip.fairs ++ p.sigs = [s]) :
    (embedFairness tip false).live_props[i]? = some { p with sigs := [s] } ∧
    (∀ st, (embedProp false tip.fairs st p).1 = st) ∧
    ((∀ q ∈ tip.live_props, q.stat = pstat_Unknown → (tip.fairs ++ q.sigs).length = 1) →
      (embedFairness tip false).main = tip.main ∧ (embedFairness tip false).flps = tip.flps) := by
  obtain ⟨st', h⟩ := embedProps_get false tip.fairs tip.live_props (tip.main, tip.flps) i p hp
  refine ⟨?_, fun st => by rw [embedProp_single tip.fairs st p s hu hs], fun hall => ?_⟩
  · have e : (embedFairness tip false).live_props[i]? =
        some (embedProp false tip.fairs st' p).2 := h
    rw [e, embedProp_single tip.fairs st' p s hu hs]
  · have := embedProps_single tip.fairs tip.live_props (tip.main, tip.flps) hall
    constructor
    · show (embedProps false tip.fairs tip.live_props (tip.main, tip.flps)).1.1 = tip.main
      rw [this]
    · show (embedProps false tip.fairs tip.live_props (tip.main, tip.flps)).1.2 = tip.flps
      rw [this]

theorem embedFairness_one_signal_witness :
    (embedFairness { liveTip with live_props := [⟨[⟨2, true⟩], pstat_Unknown, none⟩] }
      false).live_props[0]? = some ⟨[⟨2, true⟩], pstat_Unknown, none⟩ ∧
    (embedFairness { liveTip with live_props := [⟨[⟨2, true⟩], pstat_Unknown, none⟩] }
      false).main = liveTip.main ∧
    (embedFairness { liveTip with live_props := [⟨[⟨2, true⟩], pstat_Unknown, none⟩] }
      false).flps = liveTip.flps :=
  ⟨(embedFairness_one_signal { liveTip with live_props := [⟨[⟨2, true⟩], pstat_Unknown, none⟩] }
      0 ⟨[⟨2, true⟩], pstat_Unknown, none⟩ ⟨2, true⟩ rfl rfl rfl).1,
    (embedFairness_one_signal { liveTip with live_props := [⟨[⟨2, true⟩], pstat_Unknown, none⟩] }
      0 ⟨[⟨2, true⟩], pstat_Unknown, none⟩ ⟨2, true⟩ rfl rfl rfl).2.2 (by decide)⟩

/-! ## The gates and flops that the standard embedding allocates -/

theorem mkAnd_ext (c : Circ) (x y : Sig) : Ext c (c.mkAnd x y).1 := by
  unfold Circ.mkAnd
  split
  · exact Ext.refl c
  · exact Ext.cons c _

theorem mkOr_ext (c : Circ) (x y : Sig) : Ext c (c.mkOr x y).1 := mkAnd_ext c x.neg y.neg

theorem defAt_replicate (d : GateDef) (ds : List GateDef) :
    ∀ (n k : Nat), k < n → defAt (List.replicate n d ++ ds) (ds.length + 1 + k) = some d := by
  intro n
  induction n with
  | zero => intro k hk; omega
  | succ n ih =>
    intro k hk
    rw [List.replicate_succ, List.cons_append]
    simp only [defAt, List.length_append, List.length_replicate]
    by_cases e : k = n
    · subst e
      have : ds.length + 1 + k = k + ds.length + 1 := by omega
      simp only [this, if_true]
    · have : ds.length + 1 + k ≠ n + ds.length + 1 := by omega
      simp only [this, if_false]
      exact ih k (by omega)

theorem embedFlops_gates :
    ∀ (n : Nat) (main : Circ),
      (embedFlops n main).2 = List.range' (main.gates.length + 1) n ∧
      (embedFlops n main).1.gates = List.replicate n (.inp UINT32_MAX) ++ main.gates := by
  intro n
  induction n with
  | zero => intro main; exact ⟨rfl, rfl⟩
  | succ n ih =>
    intro main
    obtain ⟨h1, h2⟩ := ih (main.mkInp UINT32_MAX).1
    simp only [embedFlops]
    constructor
    · rw [h1]
      simp [Circ.mkInp, List.range'_succ]
    · rw [h2]
      simp only [Circ.mkInp]
      rw [List.replicate_succ', List.append_assoc]
      rfl

theorem embedTriggers_ext :
    ∀ (fs : List Sig) (gs : List Nat) (main : Circ) (accept : Sig),
      Ext main (embedTriggers fs gs main accept).1 ∧
      (fs.length = gs.length → (embedTriggers fs gs main accept).2.1.length = fs.length) := by
  intro fs
  induction fs with
  | nil => intro gs main accept; exact ⟨Ext.refl _, fun _ => rfl⟩
  | cons f fs ih =>
    intro gs main accept
    cases gs with
    | nil => exact ⟨Ext.refl _, fun h => by simp at h⟩
    | cons g gs =>
      obtain ⟨h1, h2⟩ := ih gs ((main.mkOr f (mkSig g false)).1.mkAnd accept
        (main.mkOr f (mkSig g false)).2).1
        ((main.mkOr f (mkSig g false)).1.mkAnd accept (main.mkOr f (mkSig g false)).2).2
      simp only [embedTriggers]
      refine ⟨((mkOr_ext _ _ _).trans (mkAnd_ext _ _ _)).trans h1, fun h => ?_⟩
      simp only [List.length_cons] at h ⊢
      rw [h2 (by omega)]

theorem embedDefine_flops (nreset : Sig) :
    ∀ (gs : List Nat) (ts : List Sig) (main : Circ) (flps : List Flop),
      gs.length = ts.length →
      Ext main (embedDefine nreset gs ts main flps).1 ∧
      ∃ new, (embedDefine nreset gs ts main flps).2 = flps ++ new ∧
        new.map (fun f => f.gate) = gs ∧ ∀ f ∈ new, f.init = sig_False := by
  intro gs
  induction gs with
  | nil =>
    intro ts main flps _
    exact ⟨Ext.refl _, [], by simp [embedDefine], rfl, fun f hf => by simp at hf⟩
  | cons g gs ih =>
    intro ts main flps hl
    cases ts with
    | nil => simp at hl
    | cons t ts =>
      obtain ⟨h1, new, h2, h3, h4⟩ := ih ts (main.mkAnd nreset t).1
        (defineFlop flps g (main.mkAnd nreset t).2) (by simpa using hl)
      simp only [embedDefine]
      refine ⟨(mkAnd_ext _ _ _).trans h1, ⟨g, sig_False, (main.mkAnd nreset t).2⟩ :: new, ?_, ?_, ?_⟩
      · rw [h2]
        simp [defineFlop]
      · simp [h3]
      · intro f hf
        rcases List.mem_cons.mp hf with rfl | h
        · rfl
        · exact h4 f h

/-- The flops that the standard embedding of at least two signals adds: one per signal, on
fresh inputs without a number, with initial value false. -/
theorem embedStandard_flops (fairs : List Sig) (main : Circ) (flps : List Flop)
    (hn : fairs.length ≠ 1) :
    Ext main (embedStandard fairs main flps).1.1 ∧
    ∃ new, (embedStandard fairs main flps).1.2 = flps ++ new ∧
      new.map (fun f => f.gate) = List.range' (main.gates.length + 1) fairs.length ∧
      ∀ f ∈ new, f.init = sig_False ∧
        defAt (embedStandard fairs main flps).1.1.gates f.gate = some (.inp UINT32_MAX) := by
  have e : embedStandard fairs main flps =
      (embedDefine ((((embedTriggers fairs (embedFlops fairs.length main).2
          (embedFlops fairs.length main).1 sig_True).1.mkInp UINT32_MAX).1.mkOr
          ((embedTriggers fairs (embedFlops fairs.length main).2
            (embedFlops fairs.length main).1 sig_True).1.mkInp UINT32_MAX).2
          (embedTriggers fairs (embedFlops fairs.length main).2
            (embedFlops fairs.length main).1 sig_True).2.2).2.neg)
        (embedFlops fairs.length main).2
        (embedTriggers fairs (embedFlops fairs.length main).2
          (embedFlops fairs.length main).1 sig_True).2.1
        ((((embedTriggers fairs (embedFlops fairs.length main).2
          (embedFlops fairs.length main).1 sig_True).1.mkInp UINT32_MAX).1.mkOr
          ((embedTriggers fairs (embedFlops fairs.length main).2
            (embedFlops fairs.length main).1 sig_True).1.mkInp UINT32_MAX).2
          (embedTriggers fairs (embedFlops fairs.length main).2
            (embedFlops fairs.length main).1 sig_True).2.2).1) flps,
       (embedTriggers fairs (embedFlops fairs.length main).2
          (embedFlops fairs.length main).1 sig_True).2.2) := by
    unfold embedStandard
    split
    · simp at hn
    · rfl
  obtain ⟨g1, g2⟩ := embedFlops_gates fairs.length main
  have hlen : fairs.length = (embedFlops fairs.length main).2.length := by
    rw [g1]; simp
  obtain ⟨t1, t2⟩ := embedTriggers_ext fairs (embedFlops fairs.length main).2
    (embedFlops fairs.length main).1 sig_True
  obtain ⟨d1, new, d2, d3, d4⟩ := embedDefine_flops
    ((((embedTriggers fairs (embedFlops fairs.length main).2
      (embedFlops fairs.length main).1 sig_True).1.mkInp UINT32_MAX).1.mkOr
      ((embedTriggers fairs (embedFlops fairs.length main).2
        (embedFlops fairs.length main).1 sig_True).1.mkInp UINT32_MAX).2
      (embedTriggers fairs (embedFlops fairs.length main).2
        (embedFlops fairs.length main).1 sig_True).2.2).2.neg)
    (embedFlops fairs.length main).2
    (embedTriggers fairs (embedFlops fairs.length main).2
      (embedFlops fairs.length main).1 sig_True).2.1
    ((((embedTriggers fairs (embedFlops fairs.length main).2
      (embedFlops fairs.length main).1 sig_True).1.mkInp UINT32_MAX).1.mkOr
      ((embedTriggers fairs (embedFlops fairs.length main).2
        (embedFlops fairs.length main).1 sig_True).1.mkInp UINT32_MAX).2
      (embedTriggers fairs (embedFlops fairs.length main).2
        (embedFlops fairs.length main).1 sig_True).2.2).1) flps
    (by rw [t2 hlen]; exact hlen.symm)
  have e0 : Ext main (embedFlops fairs.length main).1 := ⟨_, g2⟩
  have eall : Ext (embedFlops fairs.length main).1 (embedStandard fairs main flps).1.1 := by
    rw [e]
    exact ((t1.trans (Ext.cons _ _)).trans (mkOr_ext _ _ _)).trans d1
  refine ⟨e0.trans eall, new, by rw [e]; exact d2, by rw [d3, g1], fun f hf => ⟨d4 f hf, ?_⟩⟩
  have hg : f.gate ∈ List.range' (main.gates.length + 1) fairs.length := by
    rw [← g1, ← d3]
    exact List.mem_map.mpr ⟨f, hf, rfl⟩
  rw [List.mem_range'_1] at hg
  obtain ⟨l, hl⟩ := eall
  rw [hl, defAt_append _ _ _ (by rw [g2]; simp; omega), g2]
  have := defAt_replicate (.inp UINT32_MAX) main.gates fairs.length
    (f.gate - (main.gates.length + 1)) (by omega)
  rw [← this]
  congr 1
  omega

/-- C16: with the standard embedding, the loop body for a liveness property with status
Unknown and `n >= 2` combined signals adds exactly `n` flops to the flop table: their gates
are `n` distinct fresh inputs of the new arena, and their initial value is false. -/
theorem embedFairness_std_flops (fairs : List Sig) (main : Circ) (flps : List Flop)
    (p : LivePropData) (hu : p.stat = pstat_Unknown) (hn : 2 ≤ (fairs ++ p.sigs).length) :
    ∃ new, (embedProp false fairs (main, flps) p).1.2 = flps ++ new ∧
      new.length = (fairs ++ p.sigs).length ∧
      (new.map (fun f => f.gate)).Nodup ∧
      ∀ f ∈ new, main.gates.length < f.gate ∧ f.init = sig_False ∧
        (embedProp false fairs (main, flps) p).1.1.isInp f.gate = true := by
  obtain ⟨_, new, h1, h2, h3⟩ := embedStandard_flops (fairs ++ p.sigs) main flps (by omega)
  have e : (embedProp false fairs (main, flps) p).1 =
      (embedStandard (fairs ++ p.sigs) main flps).1 := by
    simp [embedProp, hu, embedOne]
  rw [e]
  refine ⟨new, h1, ?_, ?_, fun f hf => ⟨?_, (h3 f hf).1, isInp_iff.mpr ⟨_, (h3 f hf).2⟩⟩⟩
  · have := congrArg List.length h2
    simpa using this
  · rw [h2]
    exact List.nodup_range' _ _
  · have hg : f.gate ∈ List.range' (main.gates.length + 1) (fairs ++ p.sigs).length := by
      rw [← h2]
      exact List.mem_map.mpr ⟨f, hf, rfl⟩
    rw [List.mem_range'_1] at hg
    omega

theorem embedFairness_std_flops_witness :
    (∃ new, (embedProp false [] (liveTip.main, [])
        ⟨[⟨1, false⟩, ⟨2, false⟩, ⟨3, false⟩], pstat_Unknown, none⟩).1.2 = [] ++ new ∧
      new.length = ([] ++ [(⟨1, false⟩ : Sig), ⟨2, false⟩, ⟨3, false⟩]).length ∧
      (new.map (fun f => f.gate)).Nodup ∧
      ∀ f ∈ new, liveTip.main.gates.length < f.gate ∧ f.init = sig_False ∧
        (embedProp false [] (liveTip.main, [])
          ⟨[⟨1, false⟩, ⟨2, false⟩, ⟨3, false⟩], pstat_Unknown, none⟩).1.1.isInp f.gate = true) ∧
    (embedFairness liveTip false).flps.length = liveTip.flps.length + 3 :=
  ⟨embedFairness_std_flops [] liveTip.main []
    ⟨[⟨1, false⟩, ⟨2, false⟩, ⟨3, false⟩], pstat_Unknown, none⟩ rfl (by decide), by decide⟩

/-! ## The flops that the stable embedding allocates -/

theorem defAt_ext {c c' : Circ} (he : Ext c c') {g : Nat} {d : GateDef}
    (h : defAt c.gates g = some d) : defAt c'.gates g = some d := by
  obtain ⟨l, e⟩ := he
  rw [e, defAt_append _ _ _ (defAt_range h).2]
  exact h

theorem defAt_mkInp (c : Circ) (n : Nat) :
    defAt (c.mkInp n).1.gates (c.gates.length + 1) = some (.inp n) := by
  simp [Circ.mkInp, defAt]

theorem embedBroken_flops (challenged : Sig) :
    ∀ (fs : List Sig) (main : Circ) (flps : List Flop),
      Ext main (embedBroken challenged fs main flps).1.1 ∧
      ∃ new, (embedBroken challenged fs main flps).1.2 = flps ++ new ∧
        new.length = fs.length ∧
        (new.map (fun f => f.gate)).Pairwise (fun a b => a < b) ∧
        ∀ f ∈ new, main.gates.length < f.gate ∧ f.init = sig_False ∧
          defAt (embedBroken challenged fs main flps).1.1.gates f.gate =
            some (.inp UINT32_MAX) := by
  intro fs
  induction fs with
  | nil =>
    intro main flps
    exact ⟨Ext.refl _, [], by simp [embedBroken], rfl, by simp, fun f hf => by simp at hf⟩
  | cons s fs ih =>
    intro main flps
    simp only [embedBroken]
    generalize hpb : main.mkInp UINT32_MAX = pb
    generalize ha : pb.1.mkAnd s.neg challenged = a
    generalize hbr : a.1.mkOr a.2 pb.2 = broken
    generalize hb : broken.1.mkAnd s broken.2.neg = b
    generalize hsj : b.1.mkAnd challenged b.2 = sj
    have e1 : Ext main pb.1 := by rw [← hpb]; exact Ext.cons _ _
    have e2 : Ext pb.1 sj.1 := by
      rw [← hsj, ← hb, ← hbr, ← ha]
      exact (((mkAnd_ext _ _ _).trans (mkOr_ext _ _ _)).trans (mkAnd_ext _ _ _)).trans
        (mkAnd_ext _ _ _)
    have hg : pb.2.gate = main.gates.length + 1 := by rw [← hpb]; rfl
    have hd : defAt pb.1.gates pb.2.gate = some (.inp UINT32_MAX) := by
      rw [← hpb]; exact defAt_mkInp _ _
    have hlen : main.gates.length + 1 ≤ sj.1.gates.length := by
      have := e2.length_le
      have h2 : pb.1.gates.length = main.gates.length + 1 := by rw [← hpb]; simp [Circ.mkInp]
      omega
    obtain ⟨e3, new, h1, h2, h3, h4⟩ := ih sj.1 (defineFlop flps pb.2.gate broken.2)
    refine ⟨(e1.trans e2).trans e3, ⟨pb.2.gate, sig_False, broken.2⟩ :: new, ?_, ?_, ?_, ?_⟩
    · rw [h1]; simp [defineFlop]
    · simp [h2]
    · simp only [List.map_cons, List.pairwise_cons]
      refine ⟨fun g hgm => ?_, h3⟩
      obtain ⟨f, hf, rfl⟩ := List.mem_map.mp hgm
      have := (h4 f hf).1
      omega
    · intro f hf
      rcases List.mem_cons.mp hf with rfl | h
      · exact ⟨by simp only [hg]; omega, rfl, defAt_ext (e2.trans e3) hd⟩
      · exact ⟨by have := (h4 f h).1; omega, (h4 f h).2.1, (h4 f h).2.2⟩

theorem embedAccept_ext :
    ∀ (ss : List Sig) (main : Circ) (accept : Sig), Ext main (embedAccept ss main accept).1 := by
  intro ss
  induction ss with
  | nil => intro main accept; exact Ext.refl _
  | cons s ss ih =>
    intro main accept
    simp only [embedAccept]
    exact (mkAnd_ext _ _ _).trans (ih _ _)

/-- The flops that the stable embedding adds: the flop `pre_challenged` and one flop per
signal. -/
theorem embedStable_flops (fairs : List Sig) (main : Circ) (flps : List Flop) :
    ∃ new, (embedStable fairs main flps).1.2 = flps ++ new ∧
      new.length = fairs.length + 1 ∧
      (new.map (fun f => f.gate)).Nodup ∧
      ∀ f ∈ new, main.gates.length < f.gate ∧ f.init = sig_False ∧
        (embedStable fairs main flps).1.1.isInp f.gate = true := by
  simp only [embedStable]
  generalize hch : main.mkInp UINT32_MAX = ch
  generalize hpc : ch.1.mkInp UINT32_MAX = pc
  generalize hcd : pc.1.mkOr ch.2 pc.2 = cd
  have l1 : ch.1.gates.length = main.gates.length + 1 := by rw [← hch]; simp [Circ.mkInp]
  have l2 : pc.1.gates.length = main.gates.length + 2 := by
    rw [← hpc]; simp [Circ.mkInp, l1]
  have hg : pc.2.gate = main.gates.length + 2 := by rw [← hpc]; simp [Circ.mkInp, l1]
  have hd : defAt pc.1.gates pc.2.gate = some (.inp UINT32_MAX) := by
    rw [← hpc]; exact defAt_mkInp _ _
  have e1 : Ext pc.1 cd.1 := by rw [← hcd]; exact mkOr_ext _ _ _
  obtain ⟨e2, new, h1, h2, h3, h4⟩ := embedBroken_flops cd.2 fairs cd.1
    (defineFlop flps pc.2.gate cd.2)
  have e3 := embedAccept_ext (embedBroken cd.2 fairs cd.1 (defineFlop flps pc.2.gate cd.2)).2
    (embedBroken cd.2 fairs cd.1 (defineFlop flps pc.2.gate cd.2)).1.1 sig_True
  have hl := e1.length_le
  refine ⟨⟨pc.2.gate, sig_False, cd.2⟩ :: new, ?_, by simp [h2], ?_, ?_⟩
  · rw [h1]; simp [defineFlop]
  · simp only [List.map_cons, List.nodup_cons]
    refine ⟨fun hm => ?_, h3.imp (fun h => Nat.ne_of_lt h)⟩
    obtain ⟨f, hf, hfe⟩ := List.mem_map.mp hm
    have := (h4 f hf).1
    omega
  · intro f hf
    rcases List.mem_cons.mp hf with rfl | h
    · exact ⟨by simp only [hg]; omega, rfl,
        isInp_iff.mpr ⟨UINT32_MAX, defAt_ext ((e1.trans e2).trans e3) hd⟩⟩
    · exact ⟨by have := (h4 f h).1; omega, (h4 f h).2.1,
        isInp_iff.mpr ⟨UINT32_MAX, defAt_ext e3 (h4 f h).2.2⟩⟩

/-- C17, as the code has it: with the stable embedding, the loop body for a liveness property
with status Unknown and `n` combined signals adds exactly `1 + n` flops to the flop table:
the flop `pre_challenged` and one flop `pre_broken` per signal, on distinct fresh inputs, with
initial value false. The signal `challenged` is an OR gate, not a flop. -/
theorem embedFairness_stable_flops (fairs : List Sig) (main : Circ) (flps : List Flop)
    (p : LivePropData) (hu : p.stat = pstat_Unknown) :
    ∃ new, (embedProp true fairs (main, flps) p).1.2 = flps ++ new ∧
      new.length = 1 + (fairs ++ p.sigs).length ∧
      (new.map (fun f => f.gate)).Nodup ∧
      ∀ f ∈ new, main.gates.length < f.gate ∧ f.init = sig_False ∧
        (embedProp true fairs (main, flps) p).1.1.isInp f.gate = true := by
  obtain ⟨new, h1, h2, h3, h4⟩ := embedStable_flops (fairs ++ p.sigs) main flps
  have e : (embedProp true fairs (main, flps) p).1 =
      (embedStable (fairs ++ p.sigs) main flps).1 := by
    simp [embedProp, hu, embedOne]
  rw [e]
  exact ⟨new, h1, by rw [h2]; omega, h3, h4⟩

theorem embedFairness_stable_flops_witness :
    ∃ new, (embedProp true [] (liveTip.main, [])
        ⟨[⟨1, false⟩, ⟨2, false⟩, ⟨3, false⟩], pstat_Unknown, none⟩).1.2 = [] ++ new ∧
      new.length = 1 + ([] ++ [(⟨1, false⟩ : Sig), ⟨2, false⟩, ⟨3, false⟩]).length ∧
      (new.map (fun f => f.gate)).Nodup ∧
      ∀ f ∈ new, liveTip.main.gates.length < f.gate ∧ f.init = sig_False ∧
        (embedProp true [] (liveTip.main, [])
          ⟨[⟨1, false⟩, ⟨2, false⟩, ⟨3, false⟩], pstat_Unknown, none⟩).1.1.isInp f.gate = true :=
  embedFairness_stable_flops [] liveTip.main []
    ⟨[⟨1, false⟩, ⟨2, false⟩, ⟨3, false⟩], pstat_Unknown, none⟩ rfl

/-- C17, counterexample: for the circuit with one liveness property of three signals the
stable embedding leaves four flops (`pre_challenged` and three `pre_broken`), not `2 + 3`;
the gate of the signal `challenged` (gate 6) is not a flop. -/
theorem embedFairness_stable_counterexample :
    (embedFairness liveTip true).flps.length = liveTip.flps.length + 4 ∧
    (embedFairness liveTip true).flps.map (fun f => f.gate) = [5, 7, 12, 17] ∧
    (embedFairness liveTip true).flps.head?.map (fun f => f.next) = some ⟨6, true⟩ ∧
    (embedFairness liveTip true).isFlop 6 = false := by
  decide

/-! ## The values of the gates that the standard embedding builds -/

theorem embedFlops_ok :
    ∀ (n : Nat) (main : Circ), main.ok = true → (embedFlops n main).1.ok = true := by
  intro n
  induction n with
  | zero => intro main h; exact h
  | succ n ih =>
    intro main h
    simp only [embedFlops]
    exact ih _ (mkInp_spec main h UINT32_MAX).2.1

theorem embedTriggers_spec :
    ∀ (fs : List Sig) (gs : List Nat) (main : Circ) (accept : Sig),
      main.ok = true → (∀ f ∈ fs, main.has f = true) →
      (∀ g ∈ gs, main.has (mkSig g false) = true) → main.has accept = true →
      (embedTriggers fs gs main accept).1.ok = true ∧
      (∀ t ∈ (embedTriggers fs gs main accept).2.1,
        (embedTriggers fs gs main accept).1.has t = true) ∧
      (embedTriggers fs gs main accept).1.has (embedTriggers fs gs main accept).2.2 = true ∧
      ∀ τ, (embedTriggers fs gs main accept).1.eval τ (embedTriggers fs gs main accept).2.2 =
          ((embedTriggers fs gs main accept).1.eval τ accept &&
            (fs.zip gs).all (fun p => (embedTriggers fs gs main accept).1.eval τ p.1 ||
              (embedTriggers fs gs main accept).1.eval τ (mkSig p.2 false))) ∧
        (embedTriggers fs gs main accept).2.1.map
            ((embedTriggers fs gs main accept).1.eval τ) =
          (fs.zip gs).map (fun p => (embedTriggers fs gs main accept).1.eval τ p.1 ||
            (embedTriggers fs gs main accept).1.eval τ (mkSig p.2 false)) := by
  intro fs
  induction fs with
  | nil =>
    intro gs main accept hok _ _ ha
    refine ⟨hok, fun t ht => by simp [embedTriggers] at ht, ha, fun τ => ?_⟩
    simp [embedTriggers]
  | cons f fs ih =>
    intro gs main accept hok hf hg ha
    cases gs with
    | nil =>
      refine ⟨hok, fun t ht => by simp [embedTriggers] at ht, ha, fun τ => ?_⟩
      simp [embedTriggers]
    | cons g gs =>
      have hfm := hf f (List.mem_cons_self _ _)
      have hgm := hg g (List.mem_cons_self _ _)
      obtain ⟨t1, t2, t3, t4⟩ := mkOr_spec main hok f (mkSig g false) hfm hgm
      generalize ht : main.mkOr f (mkSig g false) = t at t1 t2 t3 t4
      obtain ⟨a1, a2, a3, a4⟩ := mkAnd_spec t.1 t2 accept t.2 (t1.has ha) t3
      generalize hav : t.1.mkAnd accept t.2 = a at a1 a2 a3 a4
      have hma : Ext main a.1 := t1.trans a1
      obtain ⟨r1, r2, r3, r4⟩ := ih gs a.1 a.2 a2
        (fun x hx => hma.has (hf x (List.mem_cons_of_mem _ hx)))
        (fun x hx => hma.has (hg x (List.mem_cons_of_mem _ hx))) a3
      have er := (embedTriggers_ext fs gs a.1 a.2).1
      simp only [embedTriggers, ht, hav]
      generalize embedTriggers fs gs a.1 a.2 = r at r1 r2 r3 r4 er
      have e2 : ∀ τ, r.1.eval τ t.2 =
          (r.1.eval τ f || r.1.eval τ (mkSig g false)) := by
        intro τ
        rw [(a1.trans er).eval τ t3, t4 τ, ((t1.trans a1).trans er).eval τ hfm,
          ((t1.trans a1).trans er).eval τ hgm, t1.eval τ hfm, t1.eval τ hgm]
      refine ⟨r1, fun x hx => ?_, r3, fun τ => ⟨?_, ?_⟩⟩
      · rcases List.mem_cons.mp hx with rfl | h
        · exact (a1.trans er).has t3
        · exact r2 x h
      · rw [(r4 τ).1, er.eval τ a3, a4 τ, ← er.eval τ (a1.has (t1.has ha)),
          ← er.eval τ (a1.has t3), e2 τ]
        simp only [List.zip_cons_cons, List.all_cons, Bool.and_assoc]
      · simp only [List.map_cons, List.zip_cons_cons, e2 τ, (r4 τ).2]

theorem embedDefine_spec (nreset : Sig) :
    ∀ (gs : List Nat) (ts : List Sig) (main : Circ) (flps : List Flop),
      main.ok = true → main.has nreset = true → (∀ t ∈ ts, main.has t = true) →
      gs.length = ts.length →
      (embedDefine nreset gs ts main flps).1.ok = true ∧
      ∃ new, (embedDefine nreset gs ts main flps).2 = flps ++ new ∧
        new.map (fun f => f.gate) = gs ∧
        (∀ f ∈ new, f.init = sig_False ∧
          (embedDefine nreset gs ts main flps).1.has f.next = true) ∧
        ∀ τ, new.map (fun f => (embedDefine nreset gs ts main flps).1.eval τ f.next) =
          ts.map (fun t => (embedDefine nreset gs ts main flps).1.eval τ nreset &&
            (embedDefine nreset gs ts main flps).1.eval τ t) := by
  intro gs
  induction gs with
  | nil =>
    intro ts main flps hok _ _ hl
    cases ts with
    | nil => exact ⟨hok, [], by simp [embedDefine], rfl, fun f hf => by simp at hf, fun τ => rfl⟩
    | cons t ts => simp at hl
  | cons g gs ih =>
    intro ts main flps hok hr ht hl
    cases ts with
    | nil => simp at hl
    | cons t ts =>
      have htm := ht t (List.mem_cons_self _ _)
      obtain ⟨m1, m2, m3, m4⟩ := mkAnd_spec main hok nreset t hr htm
      generalize hm : main.mkAnd nreset t = m at m1 m2 m3 m4
      obtain ⟨r1, new, r2, r3, r4, r5⟩ := ih ts m.1 (defineFlop flps g m.2) m2 (m1.has hr)
        (fun x hx => m1.has (ht x (List.mem_cons_of_mem _ hx))) (by simpa using hl)
      have er := (embedDefine_flops nreset gs ts m.1 (defineFlop flps g m.2)
        (by simpa using hl)).1
      simp only [embedDefine, hm]
      generalize embedDefine nreset gs ts m.1 (defineFlop flps g m.2) = r at r1 r2 r4 r5 er
      refine ⟨r1, ⟨g, sig_False, m.2⟩ :: new, ?_, by simp [r3], ?_, fun τ => ?_⟩
      · rw [r2]; simp [defineFlop]
      · intro x hx
        rcases List.mem_cons.mp hx with rfl | h
        · exact ⟨rfl, er.has m3⟩
        · exact r4 x h
      · simp only [List.map_cons, r5 τ]
        rw [er.eval τ m3, m4 τ, ← er.eval τ (m1.has hr), ← er.eval τ (m1.has htm)]

/-- The standard embedding of `n = |S|` signals, `n ≠ 1`: the flops `m[j]` lie on the fresh
inputs `|main| + 1 + j`, the reset input `rg` is another fresh input, `accept` is the
conjunction of the triggers `S[j] ∨ m[j]`, and the next state of `m[j]` is
`(S[j] ∨ m[j]) ∧ ¬(r ∨ accept)`. -/
theorem embedStandard_spec (S : List Sig) (main : Circ) (flps : List Flop)
    (hok : main.ok = true) (hS : ∀ s ∈ S, main.has s = true) (hn : S.length ≠ 1) :
    (embedStandard S main flps).1.1.ok = true ∧
    Ext main (embedStandard S main flps).1.1 ∧
    (embedStandard S main flps).1.1.has (embedStandard S main flps).2 = true ∧
    ∃ (new : List Flop) (rg : Nat), (embedStandard S main flps).1.2 = flps ++ new ∧
      new.map (fun f => f.gate) = List.range' (main.gates.length + 1) S.length ∧
      (∀ f ∈ new, f.init = sig_False ∧ (embedStandard S main flps).1.1.isInp f.gate = true ∧
        (embedStandard S main flps).1.1.has f.next = true) ∧
      main.gates.length + S.length < rg ∧ (embedStandard S main flps).1.1.isInp rg = true ∧
      ∀ τ, (embedStandard S main flps).1.1.eval τ (embedStandard S main flps).2 =
          (S.zip (List.range' (main.gates.length + 1) S.length)).all
            (fun p => (embedStandard S main flps).1.1.eval τ p.1 || τ p.2) ∧
        new.map (fun f => (embedStandard S main flps).1.1.eval τ f.next) =
          (S.zip (List.range' (main.gates.length + 1) S.length)).map
            (fun p => ((embedStandard S main flps).1.1.eval τ p.1 || τ p.2) &&
              !(τ rg || (embedStandard S main flps).1.1.eval τ (embedStandard S main flps).2)) := by
  obtain ⟨g1, g2⟩ := embedFlops_gates S.length main
  have Fok := embedFlops_ok S.length main hok
  unfold embedStandard
  split
  · simp at hn
  simp only []
  generalize embedFlops S.length main = F at g1 g2 Fok
  have eF : Ext main F.1 := ⟨_, g2⟩
  have lF : F.1.gates.length = S.length + main.gates.length := by rw [g2]; simp
  have hgF : ∀ g ∈ F.2, defAt F.1.gates g = some (.inp UINT32_MAX) := by
    intro g hg
    rw [g1, List.mem_range'_1] at hg
    have := defAt_replicate (.inp UINT32_MAX) main.gates S.length
      (g - (main.gates.length + 1)) (by omega)
    rw [g2, ← this]
    congr 1
    omega
  have hlen : S.length = F.2.length := by rw [g1]; simp
  obtain ⟨T1, T2, T3, T4⟩ := embedTriggers_spec S F.2 F.1 sig_True Fok
    (fun s hs => eF.has (hS s hs))
    (fun g hg => by
      have := (defAt_range (hgF g hg)).2
      simpa [Circ.has, mkSig] using this)
    (by simp [Circ.has, sig_True, gate_True])
  obtain ⟨eT, lT⟩ := embedTriggers_ext S F.2 F.1 sig_True
  have lT := lT hlen
  generalize embedTriggers S F.2 F.1 sig_True = T at T1 T2 T3 T4 eT lT
  obtain ⟨i1, i2, i3, i4, i5⟩ := mkInp_spec T.1 T1 UINT32_MAX
  have hdi := defAt_mkInp T.1 UINT32_MAX
  generalize T.1.mkInp UINT32_MAX = ri at i1 i2 i3 i4 i5 hdi
  obtain ⟨o1, o2, o3, o4⟩ := mkOr_spec ri.1 i2 ri.2 T.2.2 i3 (i1.has T3)
  generalize ri.1.mkOr ri.2 T.2.2 = reset at o1 o2 o3 o4
  have hl2 : F.2.length = T.2.1.length := by rw [lT]; exact hlen.symm
  obtain ⟨D1, new, D2, D3, D4, D5⟩ := embedDefine_spec reset.2.neg F.2 T.2.1 reset.1 flps o2
    (by rw [has_neg]; exact o3) (fun t ht => o1.has (i1.has (T2 t ht))) hl2
  have eD := (embedDefine_flops reset.2.neg F.2 T.2.1 reset.1 flps hl2).1
  generalize embedDefine reset.2.neg F.2 T.2.1 reset.1 flps = D at D1 D2 D4 D5 eD
  have eTD : Ext T.1 D.1 := (i1.trans o1).trans eD
  have eFD : Ext F.1 D.1 := eT.trans eTD
  have hgD : ∀ g ∈ F.2, defAt D.1.gates g = some (.inp UINT32_MAX) :=
    fun g hg => defAt_ext eFD (hgF g hg)
  have hrg : defAt D.1.gates (T.1.gates.length + 1) = some (.inp UINT32_MAX) :=
    defAt_ext (o1.trans eD) hdi
  have hacc : ∀ τ, D.1.eval τ T.2.2 =
      (S.zip F.2).all (fun p => D.1.eval τ p.1 || τ p.2) := by
    intro τ
    rw [eTD.eval τ T3, (T4 τ).1, eval_sig_True, Bool.true_and]
    apply all_congr_mem
    intro p hp
    have hp1 := (List.of_mem_zip hp).1
    have hp2 := (List.of_mem_zip hp).2
    rw [(eT.trans eTD).eval τ (eF.has (hS _ hp1)), eT.eval τ (eF.has (hS _ hp1))]
    congr 1
    exact eval_gate_inp T1 τ (defAt_ext eT (hgF _ hp2))
  have hri : ∀ τ, D.1.eval τ ri.2 = τ (T.1.gates.length + 1) := by
    intro τ
    rw [i4]
    exact eval_gate_inp D1 τ hrg
  refine ⟨D1, eF.trans eFD, eTD.has T3, new, T.1.gates.length + 1, D2, by rw [D3, g1],
    fun f hf => ⟨(D4 f hf).1, isInp_iff.mpr ⟨UINT32_MAX, hgD _ ?_⟩, (D4 f hf).2⟩, ?_,
    isInp_iff.mpr ⟨UINT32_MAX, hrg⟩, fun τ => ⟨?_, ?_⟩⟩
  · rw [← D3]; exact List.mem_map.mpr ⟨f, hf, rfl⟩
  · have := eT.length_le
    omega
  · rw [hacc τ, g1]
  · rw [D5 τ, ← g1]
    have h4 := (T4 τ).2
    have e1 : T.2.1.map (fun t => D.1.eval τ reset.2.neg && D.1.eval τ t) =
        (T.2.1.map (T.1.eval τ)).map (fun b => D.1.eval τ reset.2.neg && b) := by
      rw [List.map_map]
      apply List.map_congr_left
      intro t ht
      simp only [Function.comp]
      rw [eTD.eval τ (T2 t ht)]
    rw [e1, h4, List.map_map]
    apply List.map_congr_left
    intro p hp
    have hp1 := (List.of_mem_zip hp).1
    have hp2 := (List.of_mem_zip hp).2
    simp only [Function.comp, mkSig]
    rw [eval_neg, eD.eval τ o3, o4 τ, ← eD.eval τ (o1.has i3), hri τ,
      ← eD.eval τ (o1.has (i1.has T3)), eT.eval τ (eF.has (hS _ hp1)),
      ← eFD.eval τ (eF.has (hS _ hp1)),
      eval_gate_inp T1 τ (defAt_ext eT (hgF _ hp2)), Bool.and_comm]

theorem map_zip_index {α β γ δ : Type} (F : γ → δ) (G : α × β → δ) (k : γ → β) :
    ∀ (new : List γ) (S : List α), new.map F = (S.zip (new.map k)).map G →
      ∀ (j : Nat) (s : α) (f : γ), S[j]? = some s → new[j]? = some f → F f = G (s, k f) := by
  intro new
  induction new with
  | nil => intro S _ j s f _ hf; simp at hf
  | cons f0 new ih =>
    intro S h j s f hs hf
    cases S with
    | nil => simp at hs
    | cons s0 S =>
      simp only [List.map_cons, List.zip_cons_cons, List.cons.injEq] at h
      cases j with
      | zero =>
        simp only [List.getElem?_cons_zero, Option.some.injEq] at hs hf
        subst hs; subst hf
        exact h.1
      | succ j =>
        simp only [List.getElem?_cons_succ] at hs hf
        exact ih S h.2 j s f hs hf

theorem all_zip_map_right {α β γ : Type} (P : α × β → Bool) (k : γ → β) :
    ∀ (S : List α) (new : List γ),
      (S.zip (new.map k)).all P = (S.zip new).all (fun q => P (q.1, k q.2)) := by
  intro S
  induction S with
  | nil => intro new; rfl
  | cons s S ih =>
    intro new
    cases new with
    | nil => rfl
    | cons f new => simp only [List.map_cons, List.zip_cons_cons, List.all_cons, ih]

/-- The standard embedding in terms of the new flops: `accept` is the conjunction of
`S[j] ∨ m[j]` over the pairs of a signal and its flop, and the next state of the flop `m[j]`
is `(S[j] ∨ m[j]) ∧ ¬(r ∨ accept)`. -/
theorem embedStandard_index (S : List Sig) (main : Circ) (flps : List Flop)
    (hok : main.ok = true) (hS : ∀ s ∈ S, main.has s = true) (hn : S.length ≠ 1) :
    ∃ (new : List Flop) (rg : Nat), (embedStandard S main flps).1.2 = flps ++ new ∧
      new.map (fun f => f.gate) = List.range' (main.gates.length + 1) S.length ∧
      (∀ f ∈ new, f.init = sig_False ∧ (embedStandard S main flps).1.1.isInp f.gate = true ∧
        (embedStandard S main flps).1.1.has f.next = true) ∧
      main.gates.length + S.length < rg ∧ (embedStandard S main flps).1.1.isInp rg = true ∧
      ∀ τ, (embedStandard S main flps).1.1.eval τ (embedStandard S main flps).2 =
          (S.zip new).all (fun q => main.eval τ q.1 || τ q.2.gate) ∧
        ∀ (j : Nat) (s : Sig) (f : Flop), S[j]? = some s → new[j]? = some f →
          (embedStandard S main flps).1.1.eval τ f.next =
            ((main.eval τ s || τ f.gate) &&
              !(τ rg || (embedStandard S main flps).1.1.eval τ (embedStandard S main flps).2)) := by
  obtain ⟨_, hext, _, new, rg, h1, h2, h3, h4, h5, h6⟩ := embedStandard_spec S main flps hok hS hn
  refine ⟨new, rg, h1, h2, h3, h4, h5, fun τ => ⟨?_, fun j s f hs hf => ?_⟩⟩
  · rw [(h6 τ).1, ← h2, all_zip_map_right]
    apply all_congr_mem
    intro q hq
    simp only []
    rw [hext.eval τ (hS _ (List.of_mem_zip hq).1)]
  · have h := (h6 τ).2
    rw [← h2] at h
    refine (map_zip_index (fun f => (embedStandard S main flps).1.1.eval τ f.next) _
      (fun f => f.gate) new S h j s f hs hf).trans ?_
    simp only []
    rw [hext.eval τ (hS _ (List.getElem?_mem hs))]

/-- C19: for the standard embedding of `n ≠ 1` combined signals `S` of a liveness property
with status Unknown, there are the new flops `m[0..n-1]` (one per signal, each on an input
gate) and one further fresh input `r`, the reset input, which is none of the flop gates, such
that under every valuation `τ` of the inputs and flops the single signal `accept` left in the
property evaluates to the conjunction over `j` of `S[j] ∨ m[j]`, and the next-state signal of
`m[j]` evaluates to `(S[j] ∨ m[j]) ∧ ¬(r ∨ accept)`. -/
theorem embedFairness_std_values (fairs : List Sig) (main : Circ) (flps : List Flop)
    (p : LivePropData) (hok : main.ok = true)
    (hS : ∀ s ∈ fairs ++ p.sigs, main.has s = true) (hu : p.stat = pstat_Unknown)
    (hn : (fairs ++ p.sigs).length ≠ 1) :
    ∃ (new : List Flop) (rg : Nat) (accept : Sig),
      (embedProp false fairs (main, flps) p).1.2 = flps ++ new ∧
      (embedProp false fairs (main, flps) p).2.sigs = [accept] ∧
      new.length = (fairs ++ p.sigs).length ∧
      (∀ f ∈ new, (embedProp false fairs (main, flps) p).1.1.isInp f.gate = true ∧
        f.gate ≠ rg) ∧
      main.gates.length < rg ∧ (embedProp false fairs (main, flps) p).1.1.isInp rg = true ∧
      ∀ τ, (embedProp false fairs (main, flps) p).1.1.eval τ accept =
          ((fairs ++ p.sigs).zip new).all (fun q => main.eval τ q.1 || τ q.2.gate) ∧
        ∀ (j : Nat) (s : Sig) (f : Flop), (fairs ++ p.sigs)[j]? = some s → new[j]? = some f →
          (embedProp false fairs (main, flps) p).1.1.eval τ f.next =
            ((main.eval τ s || τ f.gate) &&
              !(τ rg || (embedProp false fairs (main, flps) p).1.1.eval τ accept)) := by
  obtain ⟨new, rg, h1, h2, h3, h4, h5, h6⟩ :=
    embedStandard_index (fairs ++ p.sigs) main flps hok hS hn
  have e1 : (embedProp false fairs (main, flps) p).1 =
      (embedStandard (fairs ++ p.sigs) main flps).1 := by
    simp [embedProp, hu, embedOne]
  have e2 : (embedProp false fairs (main, flps) p).2.sigs =
      [(embedStandard (fairs ++ p.sigs) main flps).2] := by
    simp [embedProp, hu, embedOne]
  rw [e1, e2]
  refine ⟨new, rg, _, h1, rfl, ?_, fun f hf => ⟨(h3 f hf).2.1, ?_⟩, by omega, h5, h6⟩
  · have := congrArg List.length h2
    simpa using this
  · have hm : f.gate ∈ List.range' (main.gates.length + 1) (fairs ++ p.sigs).length := by
      rw [← h2]; exact List.mem_map.mpr ⟨f, hf, rfl⟩
    rw [List.mem_range'_1] at hm
    omega

theorem embedFairness_std_values_witness :
    ∃ (new : List Flop) (rg : Nat) (accept : Sig),
      (embedProp false [] (liveTip.main, [])
        ⟨[⟨1, false⟩, ⟨2, false⟩, ⟨3, false⟩], pstat_Unknown, none⟩).1.2 = [] ++ new ∧
      (embedProp false [] (liveTip.main, [])
        ⟨[⟨1, false⟩, ⟨2, false⟩, ⟨3, false⟩], pstat_Unknown, none⟩).2.sigs = [accept] ∧
      new.length = ([] ++ [(⟨1, false⟩ : Sig), ⟨2, false⟩, ⟨3, false⟩]).length ∧
      (∀ f ∈ new, (embedProp false [] (liveTip.main, [])
          ⟨[⟨1, false⟩, ⟨2, false⟩, ⟨3, false⟩], pstat_Unknown, none⟩).1.1.isInp f.gate = true ∧
        f.gate ≠ rg) ∧
      liveTip.main.gates.length < rg ∧
      (embedProp false [] (liveTip.main, [])
        ⟨[⟨1, false⟩, ⟨2, false⟩, ⟨3, false⟩], pstat_Unknown, none⟩).1.1.isInp rg = true ∧
      ∀ τ, (embedProp false [] (liveTip.main, [])
          ⟨[⟨1, false⟩, ⟨2, false⟩, ⟨3, false⟩], pstat_Unknown, none⟩).1.1.eval τ accept =
          (([] ++ [(⟨1, false⟩ : Sig), ⟨2, false⟩, ⟨3, false⟩]).zip new).all
            (fun q => liveTip.main.eval τ q.1 || τ q.2.gate) ∧
        ∀ (j : Nat) (s : Sig) (f : Flop),
          ([] ++ [(⟨1, false⟩ : Sig), ⟨2, false⟩, ⟨3, false⟩])[j]? = some s →
          new[j]? = some f →
          (embedProp false [] (liveTip.main, [])
            ⟨[⟨1, false⟩, ⟨2, false⟩, ⟨3, false⟩], pstat_Unknown, none⟩).1.1.eval τ f.next =
            ((liveTip.main.eval τ s || τ f.gate) &&
              !(τ rg || (embedProp false [] (liveTip.main, [])
                ⟨[⟨1, false⟩, ⟨2, false⟩, ⟨3, false⟩], pstat_Unknown, none⟩).1.1.eval τ accept)) :=
  embedFairness_std_values [] liveTip.main []
    ⟨[⟨1, false⟩, ⟨2, false⟩, ⟨3, false⟩], pstat_Unknown, none⟩ (by decide) (by decide) rfl
    (by decide)

/-! ## Runs of the standard embedding -/

theorem latch_back (sj m ra : Nat → Bool)
    (hm : ∀ t, m (t + 1) = ((sj t || m t) && !ra t)) (a : Nat) (ha : m a = false) :
    ∀ b, a ≤ b → (sj b || m b) = true → ∃ t, a ≤ t ∧ t ≤ b ∧ sj t = true := by
  intro b
  induction b with
  | zero =>
    intro hab h
    have : a = 0 := by omega
    subst this
    rw [ha, Bool.or_false] at h
    exact ⟨0, le_refl _, le_refl _, h⟩
  | succ b ih =>
    intro hab h
    by_cases hs : sj (b + 1) = true
    · exact ⟨b + 1, hab, le_refl _, hs⟩
    · have hmb : m (b + 1) = true := by
        cases h1 : sj (b + 1)
        · rw [h1, Bool.false_or] at h; exact h
        · exact absurd h1 hs
      by_cases e : a = b + 1
      · rw [e, hmb] at ha; cases ha
      · have h2 := hm b
        rw [hmb] at h2
        have h3 : (sj b || m b) = true := by
          cases h4 : (sj b || m b)
          · rw [h4] at h2; simp at h2
          · rfl
        obtain ⟨t, t1, t2, t3⟩ := ih (by omega) h3
        exact ⟨t, t1, by omega, t3⟩

theorem latch_fwd (sj m ra : Nat → Bool)
    (hm : ∀ t, m (t + 1) = ((sj t || m t) && !ra t)) (N : Nat)
    (hra : ∀ t, N ≤ t → ra t = false) (t0 : Nat) (h0 : N ≤ t0) (hs : sj t0 = true) :
    ∀ t, t0 ≤ t → (sj t || m t) = true := by
  intro t ht
  induction t, ht using Nat.le_induction with
  | base => rw [hs]; rfl
  | succ t ht ih =>
    rw [hm t, ih, hra t (by omega)]
    simp

theorem eventually_all {α : Type} (P : α → Nat → Prop) :
    ∀ (L : List α), (∀ q ∈ L, ∃ T, ∀ t, T ≤ t → P q t) →
      ∃ T, ∀ q ∈ L, ∀ t, T ≤ t → P q t := by
  intro L
  induction L with
  | nil => intro _; exact ⟨0, fun q hq => by simp at hq⟩
  | cons x L ih =>
    intro h
    obtain ⟨T1, h1⟩ := ih (fun q hq => h q (List.mem_cons_of_mem _ hq))
    obtain ⟨T2, h2⟩ := h x (List.mem_cons_self _ _)
    refine ⟨max T1 T2, fun q hq t ht => ?_⟩
    rcases List.mem_cons.mp hq with rfl | hq
    · exact h2 t (le_trans (le_max_right _ _) ht)
    · exact h1 q hq t (le_trans (le_max_left _ _) ht)

theorem mem_zip_index {α β : Type} :
    ∀ (S : List α) (new : List β) (q : α × β), q ∈ S.zip new →
      ∃ j : Nat, S[j]? = some q.1 ∧ new[j]? = some q.2 := by
  intro S
  induction S with
  | nil => intro new q hq; simp at hq
  | cons s S ih =>
    intro new q hq
    cases new with
    | nil => simp at hq
    | cons f new =>
      rw [List.zip_cons_cons] at hq
      rcases List.mem_cons.mp hq with rfl | h
      · exact ⟨0, by simp, by simp⟩
      · obtain ⟨j, h1, h2⟩ := ih new q h
        exact ⟨j + 1, by simpa using h1, by simpa using h2⟩

theorem embRun_old (C : Circ) (new : List Flop) (len : Nat) (σ : Nat → Nat → Bool)
    (t g : Nat) (hg : g ≤ len) : embRun C new len σ t g = σ t g := by
  cases t <;> simp [embRun, hg]

theorem embRun_zero (C : Circ) (new : List Flop) (len : Nat) (σ : Nat → Nat → Bool)
    (g : Nat) (hg : len < g) : embRun C new len σ 0 g = false := by
  simp [embRun]
  intro h; omega

theorem embRun_free (C : Circ) (new : List Flop) (len : Nat) (σ : Nat → Nat → Bool)
    (t g : Nat) (hg : len < g) (hn : ∀ f ∈ new, f.gate ≠ g) :
    embRun C new len σ t g = false := by
  cases t with
  | zero => exact embRun_zero C new len σ g hg
  | succ t =>
    have hf : new.find? (fun f => decide (f.gate = g)) = none := by
      rw [List.find?_eq_none]
      intro f hf
      simpa using hn f hf
    simp only [embRun, hf, Option.map_none', Circ.evalO]
    rw [if_neg (by omega)]

theorem embRun_flop (C : Circ) (new : List Flop) (len : Nat) (σ : Nat → Nat → Bool)
    (hnd : (new.map (fun f => f.gate)).Nodup) (t : Nat) (f : Flop) (hf : f ∈ new)
    (hg : len < f.gate) :
    embRun C new len σ (t + 1) f.gate = C.eval (embRun C new len σ t) f.next := by
  have hfind : new.find? (fun x => decide (x.gate = f.gate)) = some f := by
    cases h : new.find? (fun x => decide (x.gate = f.gate)) with
    | none =>
      rw [List.find?_eq_none] at h
      have := h f hf
      simp at this
    | some x =>
      have hx := List.find?_some h
      have hxm := List.mem_of_find?_eq_some h
      simp only [decide_eq_true_eq] at hx
      rw [List.inj_on_of_nodup_map hnd hxm hf hx]
  simp only [embRun, hfind, Option.map_some', Circ.evalO]
  rw [if_neg (by omega)]

theorem wf_fairs {tip : TipCirc} (h : tip.wf = true) {s : Sig} (hs : s ∈ tip.fairs) :
    tip.main.has s = true := by
  simp [TipCirc.wf] at h; exact h.1.2 s hs

theorem embedFairness_one (tip : TipCirc) (p : LivePropData) (hp : tip.live_props = [p])
    (hu : p.stat = pstat_Unknown) :
    (embedFairness tip false).main = (embedStandard (tip.fairs ++ p.sigs) tip.main tip.flps).1.1 ∧
    (embedFairness tip false).flps = (embedStandard (tip.fairs ++ p.sigs) tip.main tip.flps).1.2 ∧
    (embedFairness tip false).live_props =
      [{ p with sigs := [(embedStandard (tip.fairs ++ p.sigs) tip.main tip.flps).2] }] := by
  simp [embedFairness, hp, embedProps, embedProp, hu, embedOne]

/-- Every run of the embedded circuit is a run of the original one, and if it visits `accept`
infinitely often then every signal of `S` is true infinitely often on it. -/
theorem embedStandard_fair_of_accept (S : List Sig) (main : Circ) (flps : List Flop)
    (hok : main.ok = true) (hS : ∀ s ∈ S, main.has s = true) (hn : S.length ≠ 1)
    (τ : Nat → Nat → Bool)
    (hrun : ∀ t, ∀ f ∈ (embedStandard S main flps).1.2,
      τ (t + 1) f.gate = (embedStandard S main flps).1.1.eval (τ t) f.next)
    (hacc : ∀ N, ∃ t, N ≤ t ∧
      (embedStandard S main flps).1.1.eval (τ t) (embedStandard S main flps).2 = true) :
    ∀ s ∈ S, ∀ N, ∃ t, N ≤ t ∧ main.eval (τ t) s = true := by
  obtain ⟨new, rg, h1, h2, h3, h4, h5, h6⟩ := embedStandard_index S main flps hok hS hn
  intro s hs N
  have hlen : S.length = new.length := by
    have := congrArg List.length h2
    simp at this
    exact this.symm
  obtain ⟨f, hq⟩ := mem_zip_of_mem_left S new hlen s hs
  obtain ⟨j, j1, j2⟩ := mem_zip_index S new (s, f) hq
  have hf : f ∈ new := (List.of_mem_zip hq).2
  have hm : ∀ t, τ (t + 1) f.gate = ((main.eval (τ t) s || τ t f.gate) &&
      !(τ t rg || (embedStandard S main flps).1.1.eval (τ t) (embedStandard S main flps).2)) := by
    intro t
    rw [hrun t f (by rw [h1]; exact List.mem_append_right _ hf)]
    exact (h6 (τ t)).2 j s f j1 j2
  obtain ⟨t1, t1N, a1⟩ := hacc N
  obtain ⟨t2, t2N, a2⟩ := hacc (t1 + 1)
  have hz : τ (t1 + 1) f.gate = false := by
    rw [hm t1, a1]; simp
  have htr : (main.eval (τ t2) s || τ t2 f.gate) = true := by
    have := (h6 (τ t2)).1
    rw [a2] at this
    exact List.all_eq_true.mp this.symm (s, f) hq
  obtain ⟨t, ta, _, ts⟩ := latch_back (fun t => main.eval (τ t) s) (fun t => τ t f.gate)
    (fun t => τ t rg ||
      (embedStandard S main flps).1.1.eval (τ t) (embedStandard S main flps).2)
    hm (t1 + 1) hz t2 t2N htr
  exact ⟨t, by omega, ts⟩

/-- Over a run `σ` of the original circuit on which every signal of `S` is true infinitely
often, the run `embRun` of the embedded circuit (new flops starting at false, reset input
false) visits `accept` infinitely often. -/
theorem embedStandard_accept_of_fair (S : List Sig) (main : Circ) (flps : List Flop)
    (hn : S.length ≠ 1)
    (hfl : ∀ f ∈ flps, main.isInp f.gate = true ∧ main.has f.next = true)
    (σ : Nat → Nat → Bool)
    (hrun : ∀ t, ∀ f ∈ flps, σ (t + 1) f.gate = main.eval (σ t) f.next)
    (hfair : ∀ s ∈ S, ∀ N, ∃ t, N ≤ t ∧ main.eval (σ t) s = true)
    (new : List Flop) (rg : Nat) (h1 : (embedStandard S main flps).1.2 = flps ++ new)
    (h2 : new.map (fun f => f.gate) = List.range' (main.gates.length + 1) S.length)
    (h4 : main.gates.length + S.length < rg)
    (h6 : ∀ τ, (embedStandard S main flps).1.1.eval τ (embedStandard S main flps).2 =
          (S.zip new).all (fun q => main.eval τ q.1 || τ q.2.gate) ∧
        ∀ (j : Nat) (s : Sig) (f : Flop), S[j]? = some s → new[j]? = some f →
          (embedStandard S main flps).1.1.eval τ f.next =
            ((main.eval τ s || τ f.gate) &&
              !(τ rg || (embedStandard S main flps).1.1.eval τ (embedStandard S main flps).2))) :
    (∀ t g, g ≤ main.gates.length →
      embRun (embedStandard S main flps).1.1 new main.gates.length σ t g = σ t g) ∧
    (∀ f ∈ new, embRun (embedStandard S main flps).1.1 new main.gates.length σ 0 f.gate = false) ∧
    (∀ t, embRun (embedStandard S main flps).1.1 new main.gates.length σ t rg = false) ∧
    (∀ t, ∀ f ∈ (embedStandard S main flps).1.2,
      embRun (embedStandard S main flps).1.1 new main.gates.length σ (t + 1) f.gate =
        (embedStandard S main flps).1.1.eval
          (embRun (embedStandard S main flps).1.1 new main.gates.length σ t) f.next) ∧
    ∀ N, ∃ t, N ≤ t ∧ (embedStandard S main flps).1.1.eval
      (embRun (embedStandard S main flps).1.1 new main.gates.length σ t)
      (embedStandard S main flps).2 = true := by
  have hext := (embedStandard_flops S main flps hn).1
  generalize hC : (embedStandard S main flps).1.1 = C at *
  generalize hA : (embedStandard S main flps).2 = acc at *
  have hgate : ∀ f ∈ new, main.gates.length < f.gate ∧
      f.gate ≤ main.gates.length + S.length := by
    intro f hf
    have hm : f.gate ∈ List.range' (main.gates.length + 1) S.length := by
      rw [← h2]; exact List.mem_map.mpr ⟨f, hf, rfl⟩
    rw [List.mem_range'_1] at hm
    omega
  have hnd : (new.map (fun f => f.gate)).Nodup := by
    rw [h2]; exact List.nodup_range' _ _
  have hold := embRun_old C new main.gates.length σ
  have hev : ∀ t x, main.eval (embRun C new main.gates.length σ t) x = main.eval (σ t) x := by
    intro t x
    apply eval_congr
    intro g n hg
    exact hold t g (defAt_range hg).2
  have hrg : ∀ t, embRun C new main.gates.length σ t rg = false := by
    intro t
    apply embRun_free _ _ _ _ _ _ (by omega)
    intro f hf
    have := (hgate f hf).2
    omega
  have htrans : ∀ t, ∀ f ∈ (embedStandard S main flps).1.2,
      embRun C new main.gates.length σ (t + 1) f.gate =
        C.eval (embRun C new main.gates.length σ t) f.next := by
    intro t f hf
    rw [h1] at hf
    rcases List.mem_append.mp hf with h | h
    · obtain ⟨n, hn1⟩ := isInp_iff.mp (hfl f h).1
      rw [hold _ _ (defAt_range hn1).2, hrun t f h, hext.eval _ (hfl f h).2, hev]
    · exact embRun_flop C new _ σ hnd t f h (hgate f h).1
  refine ⟨hold, fun f hf => embRun_zero _ _ _ _ _ (hgate f hf).1, hrg, htrans, ?_⟩
  intro N
  by_contra hcon
  have hno : ∀ t, N ≤ t → C.eval (embRun C new main.gates.length σ t) acc = false := by
    intro t ht
    cases h : C.eval (embRun C new main.gates.length σ t) acc
    · rfl
    · exact absurd ⟨t, ht, h⟩ hcon
  have hlatch : ∀ q ∈ S.zip new, ∃ T, ∀ t, T ≤ t →
      (main.eval (σ t) q.1 || embRun C new main.gates.length σ t q.2.gate) = true := by
    intro q hq
    obtain ⟨j, j1, j2⟩ := mem_zip_index S new q hq
    obtain ⟨t0, t0N, hs0⟩ := hfair q.1 (List.of_mem_zip hq).1 N
    refine ⟨t0, latch_fwd (fun t => main.eval (σ t) q.1)
      (fun t => embRun C new main.gates.length σ t q.2.gate)
      (fun t => embRun C new main.gates.length σ t rg ||
        C.eval (embRun C new main.gates.length σ t) acc) ?_ N ?_ t0 t0N hs0⟩
    · intro t
      have := htrans t q.2 (by rw [h1]; exact List.mem_append_right _ (List.of_mem_zip hq).2)
      simp only []
      rw [this, (h6 _).2 j q.1 q.2 j1 j2, hev]
    · intro t ht
      simp only []
      rw [hrg t, hno t ht]
      rfl
  obtain ⟨T, hT⟩ := eventually_all
    (fun q t => (main.eval (σ t) q.1 || embRun C new main.gates.length σ t q.2.gate) = true)
    (S.zip new) hlatch
  have hfin : C.eval (embRun C new main.gates.length σ (max T N)) acc = true := by
    rw [(h6 _).1, List.all_eq_true]
    intro q hq
    rw [hev]
    exact hT q hq _ (le_max_left _ _)
  rw [hno _ (le_max_right _ _)] at hfin
  cases hfin

theorem cycRun_mod (t : Nat) : cycRun t = cycRun (t % 3) := by
  funext g
  simp [cycRun, Nat.mod_mod]

set_option maxRecDepth 100000 in
theorem cycRun_trans (t : Nat) :
    (embedFairness liveTip false).trans (cycRun t) (cycRun (t + 1)) := by
  rw [cycRun_mod t, cycRun_mod (t + 1), Nat.add_mod]
  have h : t % 3 < 3 := Nat.mod_lt _ (by decide)
  generalize t % 3 = r at h
  unfold TipCirc.trans
  match r, h with
  | 0, _ => decide
  | 1, _ => decide
  | 2, _ => decide

set_option maxRecDepth 100000 in
theorem cycRun_accept (t : Nat) :
    (embedFairness liveTip false).main.eval (cycRun t) ⟨12, false⟩ = decide (t % 3 = 2) := by
  rw [cycRun_mod t]
  have h : t % 3 < 3 := Nat.mod_lt _ (by decide)
  generalize t % 3 = r at h
  match r, h with
  | 0, _ => decide
  | 1, _ => decide
  | 2, _ => decide

/-- C18: for a well-formed circuit whose single liveness property has status Unknown and
`n >= 2` combined signals `S`, the standard embedding adds flops `new` with initial value
false and a reset input `rg` that is not a flop, and leaves the single signal `accept`, such
that (1) every infinite run of the embedded circuit is a run of the original circuit, and if
it visits `accept` infinitely often then every signal of `S` is true infinitely often on it;
(2) every infinite run `σ` of the original circuit on which every signal of `S` is true
infinitely often extends (same values on the gates of the original arena, new flops starting
at false, reset input held at false) to a run of the embedded circuit that visits `accept`
infinitely often. -/
theorem embedFairness_accept_iff_fair (tip : TipCirc) (p : LivePropData)
    (hwf : tip.wf = true) (hp : tip.live_props = [p]) (hu : p.stat = pstat_Unknown)
    (hn : 2 ≤ (tip.fairs ++ p.sigs).length) :
    ∃ (new : List Flop) (rg : Nat) (accept : Sig),
      (embedFairness tip false).flps = tip.flps ++ new ∧
      (embedFairness tip false).live_props = [{ p with sigs := [accept] }] ∧
      new.length = (tip.fairs ++ p.sigs).length ∧
      (∀ f ∈ new, f.init = sig_False) ∧
      (embedFairness tip false).main.isInp rg = true ∧
      (embedFairness tip false).isFlop rg = false ∧
      (∀ τ : Nat → Nat → Bool,
        (∀ t, (embedFairness tip false).trans (τ t) (τ (t + 1))) →
        (∀ t, tip.trans (τ t) (τ (t + 1))) ∧
        ((∀ N, ∃ t, N ≤ t ∧ (embedFairness tip false).main.eval (τ t) accept = true) →
          ∀ s ∈ tip.fairs ++ p.sigs, ∀ N, ∃ t, N ≤ t ∧ tip.main.eval (τ t) s = true)) ∧
      ∀ σ : Nat → Nat → Bool,
        (∀ t, tip.trans (σ t) (σ (t + 1))) →
        (∀ s ∈ tip.fairs ++ p.sigs, ∀ N, ∃ t, N ≤ t ∧ tip.main.eval (σ t) s = true) →
        ∃ τ : Nat → Nat → Bool,
          (∀ t g, g ≤ tip.main.gates.length → τ t g = σ t g) ∧
          (∀ f ∈ new, τ 0 f.gate = false) ∧ (∀ t, τ t rg = false) ∧
          (∀ t, (embedFairness tip false).trans (τ t) (τ (t + 1))) ∧
          ∀ N, ∃ t, N ≤ t ∧ (embedFairness tip false).main.eval (τ t) accept = true := by
  have hok := wf_main_ok hwf
  have hS : ∀ s ∈ tip.fairs ++ p.sigs, tip.main.has s = true := by
    intro s hs
    rcases List.mem_append.mp hs with h | h
    · exact wf_fairs hwf h
    · exact wf_live hwf (by rw [hp]; exact List.mem_singleton_self p) h
  have hn1 : (tip.fairs ++ p.sigs).length ≠ 1 := by omega
  have hfl : ∀ f ∈ tip.flps, tip.main.isInp f.gate = true ∧ tip.main.has f.next = true :=
    fun f hf => ⟨(wf_flop hwf hf).1, (wf_flop hwf hf).2.2⟩
  have hext := (embedStandard_flops (tip.fairs ++ p.sigs) tip.main tip.flps hn1).1
  obtain ⟨new, rg, h1, h2, h3, h4, h5, h6⟩ :=
    embedStandard_index (tip.fairs ++ p.sigs) tip.main tip.flps hok hS hn1
  obtain ⟨e1, e2, e3⟩ := embedFairness_one tip p hp hu
  have hgate : ∀ f ∈ new, f.gate ≤ tip.main.gates.length + (tip.fairs ++ p.sigs).length := by
    intro f hf
    have hm : f.gate ∈ List.range' (tip.main.gates.length + 1) (tip.fairs ++ p.sigs).length := by
      rw [← h2]; exact List.mem_map.mpr ⟨f, hf, rfl⟩
    rw [List.mem_range'_1] at hm
    omega
  refine ⟨new, rg, (embedStandard (tip.fairs ++ p.sigs) tip.main tip.flps).2, e2.trans h1, e3,
    ?_, fun f hf => (h3 f hf).1, by rw [e1]; exact h5, ?_, ?_, ?_⟩
  · have := congrArg List.length h2
    simpa using this
  · rw [isFlop_false_iff, e2, h1, List.map_append, List.mem_append]
    rintro (h | h)
    · obtain ⟨f, hf, hfg⟩ := List.mem_map.mp h
      obtain ⟨n, hd⟩ := isInp_iff.mp (hfl f hf).1
      have := (defAt_range hd).2
      omega
    · obtain ⟨f, hf, hfg⟩ := List.mem_map.mp h
      have := hgate f hf
      omega
  · intro τ hrun
    simp only [TipCirc.trans, e1, e2] at hrun
    refine ⟨fun t f hf => ?_, fun hacc => ?_⟩
    · rw [hrun t f (by rw [h1]; exact List.mem_append_left _ hf), hext.eval _ (hfl f hf).2]
    · rw [e1] at hacc
      exact embedStandard_fair_of_accept _ _ _ hok hS hn1 τ hrun hacc
  · intro σ hrun hfair
    obtain ⟨r1, r2, r3, r4, r5⟩ := embedStandard_accept_of_fair _ _ _ hn1 hfl σ hrun
      hfair new rg h1 h2 h4 h6
    refine ⟨_, r1, r2, r3, ?_, ?_⟩
    · simp only [TipCirc.trans, e1, e2]
      exact r4
    · rw [e1]
      exact r5

set_option maxRecDepth 100000 in
theorem embedFairness_accept_iff_fair_witness :
    (∃ (new : List Flop) (rg : Nat) (accept : Sig),
      (embedFairness liveTip false).flps = liveTip.flps ++ new ∧
      (embedFairness liveTip false).live_props =
        [{ (⟨[⟨1, false⟩, ⟨2, false⟩, ⟨3, false⟩], pstat_Unknown, none⟩ : LivePropData) with
          sigs := [accept] }] ∧
      new.length = (liveTip.fairs ++ [(⟨1, false⟩ : Sig), ⟨2, false⟩, ⟨3, false⟩]).length ∧
      (∀ f ∈ new, f.init = sig_False) ∧
      (embedFairness liveTip false).main.isInp rg = true ∧
      (embedFairness liveTip false).isFlop rg = false ∧
      (∀ τ : Nat → Nat → Bool,
        (∀ t, (embedFairness liveTip false).trans (τ t) (τ (t + 1))) →
        (∀ t, liveTip.trans (τ t) (τ (t + 1))) ∧
        ((∀ N, ∃ t, N ≤ t ∧ (embedFairness liveTip false).main.eval (τ t) accept = true) →
          ∀ s ∈ liveTip.fairs ++ [(⟨1, false⟩ : Sig), ⟨2, false⟩, ⟨3, false⟩],
            ∀ N, ∃ t, N ≤ t ∧ liveTip.main.eval (τ t) s = true)) ∧
      ∀ σ : Nat → Nat → Bool,
        (∀ t, liveTip.trans (σ t) (σ (t + 1))) →
        (∀ s ∈ liveTip.fairs ++ [(⟨1, false⟩ : Sig), ⟨2, false⟩, ⟨3, false⟩],
          ∀ N, ∃ t, N ≤ t ∧ liveTip.main.eval (σ t) s = true) →
        ∃ τ : Nat → Nat → Bool,
          (∀ t g, g ≤ liveTip.main.gates.length → τ t g = σ t g) ∧
          (∀ f ∈ new, τ 0 f.gate = false) ∧ (∀ t, τ t rg = false) ∧
          (∀ t, (embedFairness liveTip false).trans (τ t) (τ (t + 1))) ∧
          ∀ N, ∃ t, N ≤ t ∧ (embedFairness liveTip false).main.eval (τ t) accept = true) ∧
    (embedFairness liveTip false).live_props.map (fun p => p.sigs) = [[⟨12, false⟩]] ∧
    (embedFairness liveTip false).flps.map (fun f => f.gate) = [4, 5, 6] ∧
    (embedFairness liveTip false).main.isInp 13 = true ∧
    (∀ t, cycRun t 13 = false) ∧ (∀ g, 4 ≤ g → cycRun 0 g = false) ∧
    (∀ t, liveTip.main.eval (cycRun t) ⟨t % 3 + 1, false⟩ = true) ∧
    (∀ t, (embedFairness liveTip false).trans (cycRun t) (cycRun (t + 1))) ∧
    ∀ t, (embedFairness liveTip false).main.eval (cycRun t) ⟨12, false⟩ = decide (t % 3 = 2) :=
  ⟨embedFairness_accept_iff_fair liveTip
      ⟨[⟨1, false⟩, ⟨2, false⟩, ⟨3, false⟩], pstat_Unknown, none⟩ (by decide) rfl rfl
      (by decide),
    by decide, by decide, by decide,
    fun t => by
      have h : t % 3 < 3 := Nat.mod_lt _ (by decide)
      simp [cycRun]
      omega,
    fun g hg => by
      simp [cycRun]
      omega,
    fun t => by
      rw [cycRun_mod t]
      have h : t % 3 < 3 := Nat.mod_lt _ (by decide)
      generalize t % 3 = r at h
      match r, h with
      | 0, _ => decide
      | 1, _ => decide
      | 2, _ => decide,
    cycRun_trans, cycRun_accept⟩

/-! ## The AIGER-init trace adaptor -/

theorem newZero_spec (prv_zero : List lbool) :
    ∀ (flop_init : List FlopInit),
      (∀ fi ∈ flop_init, fi.val = l_Undef → fi.x_id < prv_zero.length) →
      ∃ new_zero, newZero prv_zero flop_init = some new_zero ∧
        new_zero.length = flop_init.length ∧
        ∀ (i : Nat) (fi : FlopInit), flop_init[i]? = some fi →
          new_zero[i]? = if fi.val = l_Undef then prv_zero[fi.x_id]? else some fi.val := by
  intro flop_init
  induction flop_init with
  | nil => intro _; exact ⟨[], rfl, rfl, fun i fi h => by simp at h⟩
  | cons f fs ih =>
    intro h
    obtain ⟨vs, h1, h2, h3⟩ := ih (fun fi hfi => h fi (List.mem_cons_of_mem _ hfi))
    have hv : ∃ v, patchEntry prv_zero f = some v := by
      unfold patchEntry
      by_cases e : f.val = l_Undef
      · rw [if_pos e]
        have := h f (List.mem_cons_self _ _) e
        exact ⟨prv_zero[f.x_id], List.getElem?_eq_getElem this⟩
      · rw [if_neg e]; exact ⟨_, rfl⟩
    obtain ⟨v, hv⟩ := hv
    refine ⟨v :: vs, by simp [newZero, hv, h1], by simp [h2], fun i fi hi => ?_⟩
    cases i with
    | zero =>
      simp only [List.getElem?_cons_zero, Option.some.injEq] at hi ⊢
      subst hi
      exact hv.symm
    | succ i =>
      simp only [List.getElem?_cons_succ] at hi ⊢
      exact h3 i fi hi

/-- C20: for every non-empty list of frames `frame0 :: rest` whose frame 0 covers the input
number `x_id` of every x-initialised entry of `flop_init`, `AigerInitTraceAdaptor::patch`
returns the frames with frame 0 replaced by a vector `new_zero` with one entry per entry of
`flop_init` and the other frames unchanged: entry `i` is the recorded value of flop `i` when
that is not x, and otherwise the value of the old frame 0 at index `x_id` of flop `i`. -/
theorem patch_frame_zero (flop_init : List FlopInit) (frame0 : List lbool)
    (rest : List (List lbool))
    (h : ∀ fi ∈ flop_init, fi.val = l_Undef → fi.x_id < frame0.length) :
    ∃ new_zero, AigerInitTraceAdaptor.patch flop_init (frame0 :: rest) = some (new_zero :: rest) ∧
      new_zero.length = flop_init.length ∧
      ∀ (i : Nat) (fi : FlopInit), flop_init[i]? = some fi →
        (fi.val ≠ l_Undef → new_zero[i]? = some fi.val) ∧
        (fi.val = l_Undef → new_zero[i]? = frame0[fi.x_id]? ∧ fi.x_id < frame0.length) := by
  obtain ⟨vs, h1, h2, h3⟩ := newZero_spec frame0 flop_init h
  refine ⟨vs, by simp [AigerInitTraceAdaptor.patch, h1], h2, fun i fi hi => ⟨fun e => ?_, fun e => ?_⟩⟩
  · rw [h3 i fi hi, if_neg e]
  · rw [h3 i fi hi, if_pos e]
    exact ⟨rfl, h fi (List.getElem?_mem hi) e⟩

theorem patch_frame_zero_witness :
    (∀ fi ∈ [(⟨l_False, UINT32_MAX⟩ : FlopInit), ⟨l_Undef, 1⟩, ⟨l_True, UINT32_MAX⟩],
      fi.val = l_Undef → fi.x_id < [l_True, l_False].length) ∧
    (∃ new_zero, AigerInitTraceAdaptor.patch
        [⟨l_False, UINT32_MAX⟩, ⟨l_Undef, 1⟩, ⟨l_True, UINT32_MAX⟩]
        ([l_True, l_False] :: [[l_Undef, l_True]]) = some (new_zero :: [[l_Undef, l_True]]) ∧
      new_zero.length =
        [(⟨l_False, UINT32_MAX⟩ : FlopInit), ⟨l_Undef, 1⟩, ⟨l_True, UINT32_MAX⟩].length ∧
      ∀ (i : Nat) (fi : FlopInit),
        [(⟨l_False, UINT32_MAX⟩ : FlopInit), ⟨l_Undef, 1⟩, ⟨l_True, UINT32_MAX⟩][i]? = some fi →
        (fi.val ≠ l_Undef → new_zero[i]? = some fi.val) ∧
        (fi.val = l_Undef → new_zero[i]? = [l_True, l_False][fi.x_id]? ∧
          fi.x_id < [l_True, l_False].length)) ∧
    AigerInitTraceAdaptor.patch [⟨l_False, UINT32_MAX⟩, ⟨l_Undef, 1⟩, ⟨l_True, UINT32_MAX⟩]
      ([l_True, l_False] :: [[l_Undef, l_True]]) =
      some [[l_False, l_False, l_True], [l_Undef, l_True]] :=
  ⟨by decide,
    patch_frame_zero [⟨l_False, UINT32_MAX⟩, ⟨l_Undef, 1⟩, ⟨l_True, UINT32_MAX⟩]
      [l_True, l_False] [[l_Undef, l_True]] (by decide),
    by decide⟩

/-! ## The constraint equivalence after the extraction -/

/-- C11: when the base formula is satisfiable (some valuation `τ0` makes a property with
status Unknown bad), the procedure, with a correct SAT oracle and enough iterations, returns
the circuit with only `cnstrs` changed, to the old equivalence extended by `true == c` for
the candidates `cs` that survived both phases: every pair of signals equivalent before is
equivalent afterwards, every survivor is equivalent to true, and the new equivalence asks
nothing more (it holds under every valuation under which the old one holds and the survivors
are true). -/
theorem sce_extends_cnstrs (solve : SolveFn) (hs : SolverCorrect solve) (tip : TipCirc)
    (hwf : tip.wf = true) (fuel : Nat) (hf : 2 * tip.main.gates.length + 2 ≤ fuel)
    (use_minimize_alg only_coi : Bool) (τ0 : Nat → Bool) (hbase : tip.badAt τ0 = true) :
    ∃ cs t, sceCands fuel solve tip use_minimize_alg only_coi = some (true, cs) ∧
      semanticConstraintExtraction fuel solve tip use_minimize_alg only_coi = some t ∧
      t = { tip with cnstrs := mergeAll tip.cnstrs cs } ∧
      (∀ x y, tip.cnstrs.equiv x y = true → t.cnstrs.equiv x y = true) ∧
      (∀ c ∈ cs, t.cnstrs.equiv sig_True c = true) ∧
      ∀ τ, tip.cnstrs.holdsAt tip.main τ = true → (∀ c ∈ cs, tip.main.eval τ c = true) →
        t.cnstrs.holdsAt tip.main τ = true := by
  rcases sce_result hs tip hwf fuel hf use_minimize_alg only_coi with ⟨e1, _⟩ | ⟨cs, e1, e2⟩
  · rcases sce_spec hs tip hwf fuel hf use_minimize_alg only_coi with ⟨h, _⟩ | ⟨cs, e, _⟩
    · rw [h τ0] at hbase
      cases hbase
    · rw [e1] at e
      cases e
  · exact ⟨cs, _, e1, e2, rfl, fun x y h => equiv_mergeAll_keep cs _ x y h,
      fun c hc => equiv_mergeAll cs _ c hc, fun τ h1 h2 => holdsAt_mergeAll cs _ h1 h2⟩

theorem sce_extends_cnstrs_witness :
    trivTip.wf = true ∧ 2 * trivTip.main.gates.length + 2 ≤ 4 ∧
    trivTip.badAt (fun _ => true) = true ∧
    ∃ cs t, sceCands 4 bruteSolve trivTip false false = some (true, cs) ∧
      semanticConstraintExtraction 4 bruteSolve trivTip false false = some t ∧
      t = { trivTip with cnstrs := mergeAll trivTip.cnstrs cs } ∧
      (∀ x y, trivTip.cnstrs.equiv x y = true → t.cnstrs.equiv x y = true) ∧
      (∀ c ∈ cs, t.cnstrs.equiv sig_True c = true) ∧
      ∀ τ, trivTip.cnstrs.holdsAt trivTip.main τ = true →
        (∀ c ∈ cs, trivTip.main.eval τ c = true) →
        t.cnstrs.holdsAt trivTip.main τ = true :=
  ⟨by decide, by decide, by decide,
    sce_extends_cnstrs bruteSolve bruteSolve_correct trivTip (by decide) 4 (by decide)
      false false (fun _ => true) (by decide)⟩

/-! ## The chain of trace adaptors -/

theorem adapt_foldl {P : Type} (patch : P → List (List lbool) → Option (List (List lbool))) :
    ∀ (chain : List P) (o : Option (List (List lbool))),
      o.bind (TraceAdaptor.adapt patch chain) =
        chain.foldl (fun acc q => acc.bind (patch q)) o := by
  intro chain
  induction chain with
  | nil => intro o; cases o <;> rfl
  | cons p chain ih =>
    intro o
    rw [List.foldl_cons, ← ih]
    cases o <;> rfl

/-- C21: for every chain of trace adaptors `p1` (head), `p2`, ..., `pn` and every list of
frames, `adapt` yields the result of the patches applied in the order `p1`, `p2`, ..., `pn`,
each to the output of the one before (a patch without a defined result leaves none); with an
empty tail it is the patch of the head alone, and a chain `p1 :: p2 :: rest` gives `adapt` of
`p2 :: rest` on the output of the patch of `p1`. -/
theorem adapt_applies_in_order {P : Type}
    (patch : P → List (List lbool) → Option (List (List lbool))) (p1 : P) (chain : List P)
    (frames : List (List lbool)) :
    TraceAdaptor.adapt patch (p1 :: chain) frames =
        (p1 :: chain).foldl (fun acc q => acc.bind (patch q)) (some frames) ∧
    TraceAdaptor.adapt patch [p1] frames = patch p1 frames ∧
    TraceAdaptor.adapt patch (p1 :: chain) frames =
      (patch p1 frames).bind (TraceAdaptor.adapt patch chain) := by
  refine ⟨?_, ?_, rfl⟩
  · exact adapt_foldl patch (p1 :: chain) (some frames)
  · show (patch p1 frames).bind (TraceAdaptor.adapt patch []) = patch p1 frames
    cases patch p1 frames <;> rfl

/-! ## What bounded model checking changes in the property tables -/

theorem basicProps_shape (solve : SolveFn) (uc : Circ) (umap : GMap Sig) :
    ∀ (ds : List PropData) (st : (Solver × GMap Sig) × Nat),
      (basicProps solve uc umap ds st).1.length = ds.length ∧
      ∀ (j : Nat) (d d' : PropData), ds[j]? = some d →
        (basicProps solve uc umap ds st).1[j]? = some d' →
        d' = d ∨ (d.stat = pstat_Unknown ∧
          d' = { d with stat := pstat_Falsified, cex := none }) := by
  intro ds
  induction ds with
  | nil => intro st; exact ⟨rfl, fun j d d' h => by simp at h⟩
  | cons d0 ds ih =>
    intro st
    have key : ∀ (st' : (Solver × GMap Sig) × Nat) (x : PropData),
        (x = d0 ∨ (d0.stat = pstat_Unknown ∧
          x = { d0 with stat := pstat_Falsified, cex := none })) →
        (x :: (basicProps solve uc umap ds st').1).length = (d0 :: ds).length ∧
        ∀ (j : Nat) (d d' : PropData), (d0 :: ds)[j]? = some d →
          (x :: (basicProps solve uc umap ds st').1)[j]? = some d' →
          d' = d ∨ (d.stat = pstat_Unknown ∧
            d' = { d with stat := pstat_Falsified, cex := none }) := by
      intro st' x hx
      refine ⟨by simp [(ih st').1], fun j d d' h1 h2 => ?_⟩
      cases j with
      | zero =>
        simp only [List.getElem?_cons_zero, Option.some.injEq] at h1 h2
        subst h1; subst h2
        exact hx
      | succ j =>
        simp only [List.getElem?_cons_succ] at h1 h2
        exact (ih st').2 j d d' h1 h2
    simp only [basicProps]
    split
    · exact key _ _ (Or.inl rfl)
    · next hu =>
      have hu' : d0.stat = pstat_Unknown := by
        by_contra h
        exact hu h
      split
      · exact key _ _ (Or.inl rfl)
      · split
        · exact key _ _ (Or.inl rfl)
        · split
          · exact key _ _ (Or.inr ⟨hu', rfl⟩)
          · exact key _ _ (Or.inl rfl)

theorem basicLoop_shape (solve : SolveFn) (b : Nat) :
    ∀ (n i : Nat) (tip : TipCirc) (u : Unroller) (st : Solver × GMap Sig),
      basicLoop solve b n i (tip, u, st) =
        { tip with safe_props := (basicLoop solve b n i (tip, u, st)).safe_props } ∧
      (basicLoop solve b n i (tip, u, st)).safe_props.length = tip.safe_props.length ∧
      ∀ (j : Nat) (d d' : PropData), tip.safe_props[j]? = some d →
        (basicLoop solve b n i (tip, u, st)).safe_props[j]? = some d' →
        d' = d ∨ (d.stat = pstat_Unknown ∧
          d' = { d with stat := pstat_Falsified, cex := none }) := by
  intro n
  induction n with
  | zero =>
    intro i tip u st
    exact ⟨rfl, rfl, fun j d d' h1 h2 => by
      simp only [basicLoop] at h2
      rw [h1] at h2
      exact Or.inl (Option.some.inj h2).symm⟩
  | succ n ih =>
    intro i tip u st
    simp only [basicLoop]
    split
    · exact ih _ _ _ _
    · obtain ⟨q1, q2⟩ := basicProps_shape solve (Unroller.step tip u).1.unroll_circ
        (Unroller.step tip u).2 tip.safe_props (st, 0)
      split
      · exact ⟨rfl, q1, q2⟩
      · obtain ⟨r1, r2, r3⟩ := ih (i + 1) { tip with safe_props :=
          (basicProps solve (Unroller.step tip u).1.unroll_circ (Unroller.step tip u).2
            tip.safe_props (st, 0)).1 } (Unroller.step tip u).1
          (basicProps solve (Unroller.step tip u).1.unroll_circ (Unroller.step tip u).2
            tip.safe_props (st, 0)).2.1
        refine ⟨?_, by rw [r2]; exact q1, fun j d d' h1 h2 => ?_⟩
        · rw [r1]
        · have hlt : j < tip.safe_props.length := by
            rcases Nat.lt_or_ge j tip.safe_props.length with h | h
            · exact h
            · rw [List.getElem?_eq_none h] at h1; cases h1
          obtain ⟨d1, hd1⟩ : ∃ d1, (basicProps solve (Unroller.step tip u).1.unroll_circ
              (Unroller.step tip u).2 tip.safe_props (st, 0)).1[j]? = some d1 :=
            ⟨_, List.getElem?_eq_getElem (by rw [q1]; exact hlt)⟩
          rcases q2 j d d1 h1 hd1 with e | ⟨e1, e2⟩
          · subst e
            exact r3 j d1 d' hd1 h2
          · rcases r3 j d1 d' hd1 h2 with e | ⟨e3, _⟩
            · subst e
              exact Or.inr ⟨e1, e2⟩
            · rw [e2] at e3
              cases e3

theorem simpProps_shape (solve : SolveFn) (s : Solver) (cm : GMap Sig) (inps : List LIFrame) :
    ∀ (ds : List PropData) (st : List TraceData × Nat),
      (simpProps solve s cm inps ds st).1.length = ds.length ∧
      (∃ new, (simpProps solve s cm inps ds st).2.1 = st.1 ++ new) ∧
      ∀ (j : Nat) (d d' : PropData), ds[j]? = some d →
        (simpProps solve s cm inps ds st).1[j]? = some d' →
        d' = d ∨ (d.stat = pstat_Unknown ∧ ∃ (t : Nat) (m : Nat → Bool) (plit : Sig),
          lookup cm d.sig = some plit ∧ solve s [plit.neg] = some m ∧
          d' = { d with stat := pstat_Falsified, cex := some t } ∧
          (simpProps solve s cm inps ds st).2.1[t]? =
            some ⟨modelFrames s m inps, loop_none⟩) := by
  intro ds
  induction ds with
  | nil => intro st; exact ⟨rfl, ⟨[], by simp [simpProps]⟩, fun j d d' h => by simp at h⟩
  | cons d0 ds ih =>
    intro st
    have key : ∀ (st' : List TraceData × Nat) (x : PropData) (ext : List TraceData),
        st'.1 = st.1 ++ ext →
        (x = d0 ∨ (d0.stat = pstat_Unknown ∧ ∃ (t : Nat) (m : Nat → Bool) (plit : Sig),
          lookup cm d0.sig = some plit ∧ solve s [plit.neg] = some m ∧
          x = { d0 with stat := pstat_Falsified, cex := some t } ∧
          (simpProps solve s cm inps ds st').2.1[t]? =
            some ⟨modelFrames s m inps, loop_none⟩)) →
        (x :: (simpProps solve s cm inps ds st').1).length = (d0 :: ds).length ∧
        (∃ new, (simpProps solve s cm inps ds st').2.1 = st.1 ++ new) ∧
        ∀ (j : Nat) (d d' : PropData), (d0 :: ds)[j]? = some d →
          (x :: (simpProps solve s cm inps ds st').1)[j]? = some d' →
          d' = d ∨ (d.stat = pstat_Unknown ∧ ∃ (t : Nat) (m : Nat → Bool) (plit : Sig),
            lookup cm d.sig = some plit ∧ solve s [plit.neg] = some m ∧
            d' = { d with stat := pstat_Falsified, cex := some t } ∧
            (simpProps solve s cm inps ds st').2.1[t]? =
              some ⟨modelFrames s m inps, loop_none⟩) := by
      intro st' x ext hext hx
      obtain ⟨i1, ⟨new, i2⟩, i3⟩ := ih st'
      refine ⟨by simp [i1], ⟨ext ++ new, by rw [i2, hext, List.append_assoc]⟩,
        fun j d d' h1 h2 => ?_⟩
      cases j with
      | zero =>
        simp only [List.getElem?_cons_zero, Option.some.injEq] at h1 h2
        subst h1; subst h2
        exact hx
      | succ j =>
        simp only [List.getElem?_cons_succ] at h1 h2
        exact i3 j d d' h1 h2
    simp only [simpProps]
    split
    · exact key st d0 [] (by simp) (Or.inl rfl)
    · next hu =>
      have hu' : d0.stat = pstat_Unknown := by
        by_contra h
        exact hu h
      split
      · exact key st d0 [] (by simp) (Or.inl rfl)
      · next plit hp =>
        split
        · next m hm =>
          refine key (st.1 ++ [⟨modelFrames s m inps, loop_none⟩], st.2) _
            [⟨modelFrames s m inps, loop_none⟩] rfl
            (Or.inr ⟨hu', st.1.length, m, plit, hp, hm, rfl, ?_⟩)
          obtain ⟨_, ⟨new, i2⟩, _⟩ := ih (st.1 ++ [⟨modelFrames s m inps, loop_none⟩], st.2)
          rw [i2, List.append_assoc, List.getElem?_append_right (le_refl _)]
          simp
        · exact key (st.1, st.2 + 1) d0 [] (by simp) (Or.inl rfl)

theorem step_inps_length (tip : TipCirc) (su : SimpUnroller) (s : Solver) :
    ( SimpUnroller.stepU tip su s).1.unroll_inps.length = su.unroll_inps.length + 1 := by
  simp [SimpUnroller.stepU]

theorem getElem?_of_prefix {α : Type} {l l' new : List α} (h : l' = l ++ new) {t : Nat} {x : α}
    (hx : l[t]? = some x) : l'[t]? = some x := by
  have hlt : t < l.length := by
    rcases Nat.lt_or_ge t l.length with h1 | h1
    · exact h1
    · rw [List.getElem?_eq_none h1] at hx; cases hx
  rw [h, List.getElem?_append_left hlt]
  exact hx

theorem simpLoop_skip (solve : SolveFn) (choose : Solver → List Nat) (b n i : Nat)
    (tip : TipCirc) (su : SimpUnroller) (s : Solver) (hb : i < b) :
    simpLoopU solve choose b (n + 1) i (tip, su, s) =
      simpLoopU solve choose b n (i + 1)
        (tip, ( SimpUnroller.stepU tip su s).1, ( SimpUnroller.stepU tip su s).2.1) := by
  simp only [simpLoopU, hb, if_true]

theorem simpLoop_test (solve : SolveFn) (choose : Solver → List Nat) (b n i : Nat)
    (tip : TipCirc) (su : SimpUnroller) (s : Solver) (hb : ¬ i < b) :
    simpLoopU solve choose b (n + 1) i (tip, su, s) =
      if (simpProps solve (( SimpUnroller.stepU tip su s).2.1.eliminate choose)
          ( SimpUnroller.stepU tip su s).2.2 ( SimpUnroller.stepU tip su s).1.unroll_inps
          tip.safe_props (tip.traces, 0)).2.2 = 0 then
        { tip with
          safe_props := (simpProps solve (( SimpUnroller.stepU tip su s).2.1.eliminate choose)
            ( SimpUnroller.stepU tip su s).2.2 ( SimpUnroller.stepU tip su s).1.unroll_inps
            tip.safe_props (tip.traces, 0)).1
          traces := (simpProps solve (( SimpUnroller.stepU tip su s).2.1.eliminate choose)
            ( SimpUnroller.stepU tip su s).2.2 ( SimpUnroller.stepU tip su s).1.unroll_inps
            tip.safe_props (tip.traces, 0)).2.1 }
      else simpLoopU solve choose b n (i + 1)
        ({ tip with
            safe_props := (simpProps solve (( SimpUnroller.stepU tip su s).2.1.eliminate choose)
              ( SimpUnroller.stepU tip su s).2.2 ( SimpUnroller.stepU tip su s).1.unroll_inps
              tip.safe_props (tip.traces, 0)).1
            traces := (simpProps solve (( SimpUnroller.stepU tip su s).2.1.eliminate choose)
              ( SimpUnroller.stepU tip su s).2.2 ( SimpUnroller.stepU tip su s).1.unroll_inps
              tip.safe_props (tip.traces, 0)).2.1 },
          ( SimpUnroller.stepU tip su s).1,
          (( SimpUnroller.stepU tip su s).2.1.eliminate choose).thaw) := by
  simp only [simpLoopU, hb, if_false]

theorem simpLoop_shape (solve : SolveFn) (choose : Solver → List Nat) (b : Nat) :
    ∀ (n i : Nat) (tip : TipCirc) (su : SimpUnroller) (s : Solver),
      su.unroll_inps.length = i + 1 →
      simpLoopU solve choose b n i (tip, su, s) =
        { tip with safe_props := (simpLoopU solve choose b n i (tip, su, s)).safe_props
                   traces := (simpLoopU solve choose b n i (tip, su, s)).traces } ∧
      (simpLoopU solve choose b n i (tip, su, s)).safe_props.length = tip.safe_props.length ∧
      (∃ new, (simpLoopU solve choose b n i (tip, su, s)).traces = tip.traces ++ new) ∧
      ∀ (j : Nat) (d d' : PropData), tip.safe_props[j]? = some d →
        (simpLoopU solve choose b n i (tip, su, s)).safe_props[j]? = some d' →
        d' = d ∨ (d.stat = pstat_Unknown ∧ d'.stat = pstat_Falsified ∧ d'.sig = d.sig ∧
          ∃ (k t : Nat) (sv : Solver) (m : Nat → Bool) (inps : List LIFrame) (plit : Sig),
            i ≤ k ∧ b ≤ k ∧ k < i + n ∧ inps.length = k + 2 ∧
            solve sv [plit.neg] = some m ∧ d'.cex = some t ∧
            (simpLoopU solve choose b n i (tip, su, s)).traces[t]? =
              some ⟨modelFrames sv m inps, loop_none⟩ ∧
            ∀ n', i + n' ≤ k →
              (simpLoopU solve choose b n' i (tip, su, s)).safe_props[j]? = some d) := by
  intro n
  induction n with
  | zero =>
    intro i tip su s _
    exact ⟨rfl, rfl, ⟨[], by simp [simpLoopU]⟩, fun j d d' h1 h2 => by
      simp only [simpLoopU] at h2
      rw [h1] at h2
      exact Or.inl (Option.some.inj h2).symm⟩
  | succ n ih =>
    intro i tip su s hlen
    have hl2 := step_inps_length tip su s
    rw [hlen] at hl2
    by_cases hb : i < b
    · rw [simpLoop_skip solve choose b n i tip su s hb]
      obtain ⟨r1, r2, r3, r4⟩ := ih (i + 1) tip _ ( SimpUnroller.stepU tip su s).2.1 hl2
      refine ⟨r1, r2, r3, fun j d d' h1 h2 => ?_⟩
      rcases r4 j d d' h1 h2 with e | ⟨e1, e2, e3, k, t, sv, m, inps, plit, k1, k2, k3, k4, k5,
        k6, k7, k8⟩
      · exact Or.inl e
      · refine Or.inr ⟨e1, e2, e3, k, t, sv, m, inps, plit, by omega, k2, by omega, k4, k5, k6,
          k7, fun n' hn' => ?_⟩
        cases n' with
        | zero => simpa [simpLoopU] using h1
        | succ n' =>
          rw [simpLoop_skip solve choose b n' i tip su s hb]
          exact k8 n' (by omega)
    · rw [simpLoop_test solve choose b n i tip su s hb]
      obtain ⟨q1, ⟨qnew, q2⟩, q3⟩ := simpProps_shape solve
        (( SimpUnroller.stepU tip su s).2.1.eliminate choose)
        ( SimpUnroller.stepU tip su s).2.2 ( SimpUnroller.stepU tip su s).1.unroll_inps
        tip.safe_props (tip.traces, 0)
      generalize hq : simpProps solve (( SimpUnroller.stepU tip su s).2.1.eliminate choose)
        ( SimpUnroller.stepU tip su s).2.2 ( SimpUnroller.stepU tip su s).1.unroll_inps
        tip.safe_props (tip.traces, 0) = q at q1 q2 q3
      have hhere : ∀ (j : Nat) (d d1 : PropData), tip.safe_props[j]? = some d →
          q.1[j]? = some d1 → d1 = d ∨ (d.stat = pstat_Unknown ∧ d1.stat = pstat_Falsified ∧
            d1.sig = d.sig ∧ ∃ (t : Nat) (sv : Solver) (m : Nat → Bool) (inps : List LIFrame)
              (plit : Sig), inps.length = i + 2 ∧ solve sv [plit.neg] = some m ∧
              d1.cex = some t ∧ q.2.1[t]? = some ⟨modelFrames sv m inps, loop_none⟩) := by
        intro j d d1 h1 h2
        rcases q3 j d d1 h1 h2 with e | ⟨e1, t, m, plit, _, e3, e4, e5⟩
        · exact Or.inl e
        · exact Or.inr ⟨e1, by rw [e4], by rw [e4], t, _, m, _, plit, hl2, e3, by rw [e4], e5⟩
      have hzero : ∀ (j : Nat) (d : PropData), tip.safe_props[j]? = some d →
          ∀ n', i + n' ≤ i → (simpLoopU solve choose b n' i (tip, su, s)).safe_props[j]? =
            some d := by
        intro j d h1 n' hn'
        have : n' = 0 := by omega
        subst this
        simpa [simpLoopU] using h1
      by_cases hz : q.2.2 = 0
      · rw [if_pos hz]
        refine ⟨rfl, q1, ⟨qnew, q2⟩, fun j d d' h1 h2 => ?_⟩
        rcases hhere j d d' h1 h2 with e | ⟨e1, e2, e3, t, sv, m, inps, plit, k4, k5, k6, k7⟩
        · exact Or.inl e
        · exact Or.inr ⟨e1, e2, e3, i, t, sv, m, inps, plit, le_refl _, by omega, by omega, k4,
            k5, k6, k7, hzero j d h1⟩
      · rw [if_neg hz]
        obtain ⟨r1, r2, ⟨rnew, r3⟩, r4⟩ := ih (i + 1)
          { tip with safe_props := q.1, traces := q.2.1 } ( SimpUnroller.stepU tip su s).1
          ((( SimpUnroller.stepU tip su s).2.1.eliminate choose).thaw) hl2
        refine ⟨by rw [r1], by rw [r2]; exact q1,
          ⟨qnew ++ rnew, by rw [r3]; simp only [q2, List.append_assoc]⟩, fun j d d' h1 h2 => ?_⟩
        have hlt : j < tip.safe_props.length := by
          rcases Nat.lt_or_ge j tip.safe_props.length with h | h
          · exact h
          · rw [List.getElem?_eq_none h] at h1; cases h1
        obtain ⟨d1, hd1⟩ : ∃ d1, q.1[j]? = some d1 :=
          ⟨_, List.getElem?_eq_getElem (by rw [q1]; exact hlt)⟩
        rcases hhere j d d1 h1 hd1 with e | ⟨e1, e2, e3, t, sv, m, inps, plit, k4, k5, k6, k7⟩
        · subst e
          rcases r4 j d1 d' hd1 h2 with e | ⟨f1, f2, f3, k, t, sv, m, inps, plit, k1, k2, k3,
            k4, k5, k6, k7, k8⟩
          · exact Or.inl e
          · refine Or.inr ⟨f1, f2, f3, k, t, sv, m, inps, plit, by omega, k2, by omega, k4, k5,
              k6, k7, fun n' hn' => ?_⟩
            cases n' with
            | zero => simpa [simpLoopU] using h1
            | succ n' =>
              rw [simpLoop_test solve choose b n' i tip su s hb, hq, if_neg hz]
              exact k8 n' (by omega)
        · rcases r4 j d1 d' hd1 h2 with e | ⟨f1, _⟩
          · subst e
            exact Or.inr ⟨e1, e2, e3, i, t, sv, m, inps, plit, le_refl _, by omega, by omega,
              k4, k5, k6, getElem?_of_prefix r3 k7, hzero j d h1⟩
          · rw [e2] at f1
            cases f1

theorem modelFrames_entries (s : Solver) (m : Nat → Bool) (inps : List LIFrame) :
    (modelFrames s m inps).length = inps.length ∧
    ∀ (f : Nat) (fr : LIFrame), inps[f]? = some fr →
      ∃ row, (modelFrames s m inps)[f]? = some row ∧ row.length = fr.length ∧
        ∀ l : Nat, (∀ v, fr[l]? = some (some v) → row[l]? = some (s.modelValue m ⟨v, false⟩)) ∧
          (fr[l]? = some none → row[l]? = some l_Undef) := by
  refine ⟨by simp [modelFrames], fun f fr hf => ?_⟩
  unfold modelFrames
  simp only [List.getElem?_map, hf, Option.map_some']
  refine ⟨_, rfl, by simp, fun l => ⟨fun v hv => ?_, fun hv => ?_⟩⟩
  · simp only [List.getElem?_map, hv, Option.map_some']
  · simp only [List.getElem?_map, hv, Option.map_some']

theorem simpBmc_shape (solve : SolveFn) (choose : Solver → List Nat) (tip : TipCirc)
    (b e : Nat) :
    simpBmcU solve choose tip b e =
      { tip with safe_props := (simpBmcU solve choose tip b e).safe_props
                 traces := (simpBmcU solve choose tip b e).traces } ∧
    (simpBmcU solve choose tip b e).safe_props.length = tip.safe_props.length ∧
    (∃ new, (simpBmcU solve choose tip b e).traces = tip.traces ++ new) ∧
    ∀ (j : Nat) (d d' : PropData), tip.safe_props[j]? = some d →
      (simpBmcU solve choose tip b e).safe_props[j]? = some d' →
      d' = d ∨ (d.stat = pstat_Unknown ∧ d'.stat = pstat_Falsified ∧ d'.sig = d.sig ∧
        ∃ (k t : Nat) (sv : Solver) (m : Nat → Bool) (inps : List LIFrame) (plit : Sig),
          b ≤ k ∧ k < e ∧ inps.length = k + 2 ∧
          solve sv [plit.neg] = some m ∧ d'.cex = some t ∧
          (simpBmcU solve choose tip b e).traces[t]? =
            some ⟨modelFrames sv m inps, loop_none⟩ ∧
          ∀ e', e' ≤ k → (simpBmcU solve choose tip b e').safe_props[j]? = some d) := by
  obtain ⟨r1, r2, r3, r4⟩ := simpLoop_shape solve choose b e 0 tip
    ( SimpUnroller.initializeU tip Solver.new).1 ( SimpUnroller.initializeU tip Solver.new).2
    (by simp [ SimpUnroller.initializeU])
  refine ⟨r1, r2, r3, fun j d d' h1 h2 => ?_⟩
  rcases r4 j d d' h1 h2 with e0 | ⟨e1, e2, e3, k, t, sv, m, inps, plit, _, k2, k3, k4, k5,
    k6, k7, k8⟩
  · exact Or.inl e0
  · exact Or.inr ⟨e1, e2, e3, k, t, sv, m, inps, plit, k2, by omega, k4, k5, k6, k7,
      fun e' he' => k8 e' (by omega)⟩

/-- Both procedures change a status only from Unknown to Falsified, for `simpBmc` with the
assertions of its unroller left unchecked. -/
theorem bmcU_only_falsifies (solve : SolveFn) (choose : Solver → List Nat) (tip : TipCirc)
    (begin_cycle stop_cycle : Nat) :
    ((basicBmc solve tip begin_cycle stop_cycle).live_props = tip.live_props ∧
      (basicBmc solve tip begin_cycle stop_cycle).safe_props.length = tip.safe_props.length ∧
      ∀ (j : Nat) (d d' : PropData), tip.safe_props[j]? = some d →
        (basicBmc solve tip begin_cycle stop_cycle).safe_props[j]? = some d' →
        d' = d ∨ (d.stat = pstat_Unknown ∧ d'.stat = pstat_Falsified ∧ d'.sig = d.sig)) ∧
    ((simpBmcU solve choose tip begin_cycle stop_cycle).live_props = tip.live_props ∧
      (simpBmcU solve choose tip begin_cycle stop_cycle).safe_props.length =
        tip.safe_props.length ∧
      ∀ (j : Nat) (d d' : PropData), tip.safe_props[j]? = some d →
        (simpBmcU solve choose tip begin_cycle stop_cycle).safe_props[j]? = some d' →
        d' = d ∨ (d.stat = pstat_Unknown ∧ d'.stat = pstat_Falsified ∧ d'.sig = d.sig)) := by
  constructor
  · obtain ⟨r1, r2, r3⟩ := basicLoop_shape solve begin_cycle stop_cycle 0 tip
      ( Unroller.initialize tip Circ.empty) (Solver.new, GMap.clear)
    refine ⟨?_, r2, fun j d d' h1 h2 => ?_⟩
    · show (basicLoop solve begin_cycle stop_cycle 0
        (tip, Unroller.initialize tip Circ.empty, (Solver.new, GMap.clear))).live_props = _
      rw [r1]
    · rcases r3 j d d' h1 h2 with e | ⟨e1, e2⟩
      · exact Or.inl e
      · exact Or.inr ⟨e1, by rw [e2], by rw [e2]⟩
  · obtain ⟨r1, r2, _, r4⟩ := simpBmc_shape solve choose tip begin_cycle stop_cycle
    refine ⟨by rw [r1], r2, fun j d d' h1 h2 => ?_⟩
    rcases r4 j d d' h1 h2 with e | ⟨e1, e2, e3, _⟩
    · exact Or.inl e
    · exact Or.inr ⟨e1, e2, e3⟩

/-! ## The trace adaptor and the traces of bounded model checking -/

theorem simpLoop_tradaptor (solve : SolveFn) (choose : Solver → List Nat) (b : Nat)
    (A : List (List FlopInit)) :
    ∀ (n i : Nat) (tip : TipCirc) (su : SimpUnroller) (s : Solver),
      simpLoopU solve choose b n i ({ tip with tradaptor := A }, su, s) =
        { simpLoopU solve choose b n i (tip, su, s) with tradaptor := A } := by
  intro n
  induction n with
  | zero => intro i tip su s; rfl
  | succ n ih =>
    intro i tip su s
    by_cases hb : i < b
    · rw [simpLoop_skip solve choose b n i _ su s hb, simpLoop_skip solve choose b n i _ su s hb]
      exact ih (i + 1) tip ( SimpUnroller.stepU tip su s).1 ( SimpUnroller.stepU tip su s).2.1
    · rw [simpLoop_test solve choose b n i _ su s hb, simpLoop_test solve choose b n i _ su s hb]
      show (if (simpProps solve (( SimpUnroller.stepU tip su s).2.1.eliminate choose)
          ( SimpUnroller.stepU tip su s).2.2 ( SimpUnroller.stepU tip su s).1.unroll_inps
          tip.safe_props (tip.traces, 0)).2.2 = 0 then _ else _) = _
      split
      · rfl
      · exact ih (i + 1)
          { tip with
            safe_props := (simpProps solve (( SimpUnroller.stepU tip su s).2.1.eliminate choose)
              ( SimpUnroller.stepU tip su s).2.2 ( SimpUnroller.stepU tip su s).1.unroll_inps
              tip.safe_props (tip.traces, 0)).1
            traces := (simpProps solve (( SimpUnroller.stepU tip su s).2.1.eliminate choose)
              ( SimpUnroller.stepU tip su s).2.2 ( SimpUnroller.stepU tip su s).1.unroll_inps
              tip.safe_props (tip.traces, 0)).2.1 }
          ( SimpUnroller.stepU tip su s).1
          ((( SimpUnroller.stepU tip su s).2.1.eliminate choose).thaw)

/-! ## Frozen and eliminated variables in `simpBmc` -/

theorem clausifyGate_fresh (src : Circ) (E : List Nat) :
    ∀ (fuel g : Nat) (st : Solver × GMap Sig), Fresh E st →
      Fresh E (clausifyGate src fuel g st) ∧
      (clausifyGate src fuel g st).1.frozen = st.1.frozen := by
  intro fuel
  induction fuel with
  | zero => intro g st h; exact ⟨h, rfl⟩
  | succ fuel ih =>
    intro g st h
    simp only [clausifyGate]
    split
    · exact ⟨h, rfl⟩
    · split
      · next hg0 =>
        refine ⟨⟨h.elim, h.bound, fun l hl => ?_, fun g' l hg' hl => ?_⟩, rfl⟩
        · simp only [GMap.set, if_true, Option.some.injEq] at hl
          rw [← hl]; rfl
        · simp only [GMap.set, hg', if_false] at hl
          exact h.other g' l hg' hl
      · next hg0 =>
        split
        · exact ⟨h, rfl⟩
        · refine ⟨⟨h.elim, fun v hv => ?_, fun l hl => ?_, fun g' l hg' hl => ?_⟩, rfl⟩
          · have := h.bound v hv
            simp only [Solver.newVar, Circ.mkInp, List.length_cons]
            omega
          · have h0 : (0 : Nat) ≠ g := fun e => hg0 e.symm
            simp only [GMap.set, h0, if_false] at hl
            exact h.zero l hl
          · simp only [GMap.set] at hl
            split at hl
            · simp only [Option.some.injEq] at hl
              rw [← hl]
              intro hmem
              have := h.bound _ hmem
              simp only [Solver.newVar, Circ.mkInp] at this
              omega
            · exact h.other g' l hg' hl
        · next x y _ =>
          obtain ⟨h1, f1⟩ := ih x.gate st h
          obtain ⟨h2, f2⟩ := ih y.gate _ h1
          split
          · refine ⟨⟨h2.elim, fun v hv => ?_, fun l hl => ?_, fun g' l hg' hl => ?_⟩,
              f2.trans f1⟩
            · have := h2.bound v hv
              simp only [Solver.newAnd, List.length_cons]
              omega
            · have h0 : (0 : Nat) ≠ g := fun e => hg0 e.symm
              simp only [GMap.set, h0, if_false] at hl
              exact h2.zero l hl
            · simp only [GMap.set] at hl
              split at hl
              · simp only [Option.some.injEq] at hl
                rw [← hl]
                intro hmem
                have := h2.bound _ hmem
                simp only [Solver.newAnd] at this
                omega
              · exact h2.other g' l hg' hl
          · exact ⟨h2, f2.trans f1⟩

theorem mapSig_gate {m : GMap Sig} {x l : Sig} (h : mapSig m x = some l) :
    ∃ t, m x.gate = some t ∧ l.gate = t.gate := by
  unfold mapSig at h
  cases hm : m x.gate with
  | none => rw [hm] at h; cases h
  | some t =>
    rw [hm] at h
    simp only [Option.map_some', Option.some.injEq] at h
    exact ⟨t, rfl, by rw [← h]; rfl⟩

theorem Fresh.lit {E : List Nat} {st : Solver × GMap Sig} (h : Fresh E st) {x l : Sig}
    (hl : mapSig st.2 x = some l) : (x.gate = 0 → l.gate = 0) ∧ (x.gate ≠ 0 → l.gate ∉ E) := by
  obtain ⟨t, ht, e⟩ := mapSig_gate hl
  refine ⟨fun h0 => ?_, fun h0 => ?_⟩
  · rw [e]; rw [h0] at ht; exact h.zero t ht
  · rw [e]; exact h.other _ t h0 ht

theorem clausify_fresh (src : Circ) (E : List Nat) (st : Solver × GMap Sig) (h : Fresh E st)
    (x : Sig) :
    Fresh E (clausify src st x).1 ∧ (clausify src st x).1.1.frozen = st.1.frozen ∧
    (∀ l, (clausify src st x).2 = some l →
      (x.gate = 0 → l.gate = 0) ∧ (x.gate ≠ 0 → l.gate ∉ E)) ∧
    (x.gate = 0 → ∃ l, (clausify src st x).2 = some l) := by
  obtain ⟨h1, f1⟩ := clausifyGate_fresh src E (x.gate + 1) x.gate st h
  refine ⟨h1, f1, fun l hl => h1.lit hl, fun h0 => ?_⟩
  have hne : (clausifyGate src (x.gate + 1) x.gate st).2 x.gate ≠ none := by
    rw [h0]
    simp only [clausifyGate]
    split
    · next t ht => rw [ht]; simp
    · simp [GMap.set]
  exact mapSig_defined hne

theorem isInp_ne_zero {c : Circ} {g : Nat} (h : c.isInp g = true) : g ≠ 0 := by
  obtain ⟨n, hn⟩ := isInp_iff.mp h
  have := (defAt_range hn).1
  omega

theorem clausifyAs_fresh (src : Circ) (E : List Nat) (st : Solver × GMap Sig) (h : Fresh E st)
    (x l : Sig) (hl : l.gate ∉ E) :
    Fresh E (clausifyAs src st x l) ∧ (clausifyAs src st x l).1.frozen = st.1.frozen := by
  unfold clausifyAs
  split
  · split
    · next hi =>
      have hx0 := isInp_ne_zero hi
      refine ⟨⟨h.elim, h.bound, fun t ht => ?_, fun g' t hg' ht => ?_⟩, rfl⟩
      · have h0 : (0 : Nat) ≠ x.gate := fun e => hx0 e.symm
        simp only [GMap.set, h0, if_false] at ht
        exact h.zero t ht
      · simp only [GMap.set] at ht
        split at ht
        · simp only [Option.some.injEq] at ht
          rw [← ht]
          exact hl
        · exact h.other g' t hg' ht
    · obtain ⟨h1, f1, _, _⟩ := clausify_fresh src E st h x
      split
      · exact ⟨⟨h1.elim, h1.bound, h1.zero, h1.other⟩, f1⟩
      · exact ⟨h1, f1⟩
  · exact ⟨⟨h.elim, h.bound, h.zero, h.other⟩, rfl⟩

theorem bindFront_fresh (src : Circ) (E : List Nat) :
    ∀ (fs : List Flop) (front : List (Option Sig)) (st : Solver × GMap Sig), Fresh E st →
      (∀ l, some l ∈ front → l.gate ∉ E) →
      Fresh E (bindFront src fs front st) ∧ (bindFront src fs front st).1.frozen = st.1.frozen := by
  intro fs
  induction fs with
  | nil => intro front st h _; cases front <;> exact ⟨h, rfl⟩
  | cons f fs ih =>
    intro front st h hf
    cases front with
    | nil => exact ⟨h, rfl⟩
    | cons o front =>
      have hf' : ∀ l, some l ∈ front → l.gate ∉ E := fun l hl => hf l (List.mem_cons_of_mem _ hl)
      cases o with
      | none =>
        simp only [bindFront]
        exact ih front st h hf'
      | some l =>
        simp only [bindFront]
        obtain ⟨h1, f1⟩ := clausifyAs_fresh src E st h ⟨f.gate, false⟩ l
          (hf l (List.mem_cons_self _ _))
        obtain ⟨h2, f2⟩ := ih front _ h1 hf'
        exact ⟨h2, f2.trans f1⟩

theorem freezeLit_fields (s : Solver) (o : Option Sig) :
    (freezeLit s o).eliminated = s.eliminated ∧ (freezeLit s o).arena = s.arena ∧
    (∀ v ∈ s.frozen, v ∈ (freezeLit s o).frozen) ∧
    ∀ l, o = some l → l.gate ∈ (freezeLit s o).frozen := by
  cases o with
  | none => exact ⟨rfl, rfl, fun v hv => hv, fun l hl => by cases hl⟩
  | some x =>
    refine ⟨rfl, rfl, fun v hv => ?_, fun l hl => ?_⟩
    · simp only [freezeLit, Solver.freezeVar]
      exact List.mem_cons_of_mem _ hv
    · simp only [Option.some.injEq] at hl
      subst hl
      simp only [freezeLit, Solver.freezeVar]
      exact List.mem_cons_self _ _

theorem clausifyFreeze_fresh (src : Circ) (E : List Nat) :
    ∀ (xs : List Sig) (st : Solver × GMap Sig), Fresh E st →
      Fresh E (clausifyFreeze src xs st).1 ∧
      (∀ v ∈ st.1.frozen, v ∈ (clausifyFreeze src xs st).1.1.frozen) ∧
      (∀ l, some l ∈ (clausifyFreeze src xs st).2 →
        l.gate ∈ (clausifyFreeze src xs st).1.1.frozen ∧
        (l.gate ∉ E ∨ (l.gate = 0 ∧ ∃ x ∈ xs, x.gate = 0))) ∧
      ∀ x ∈ xs, x.gate = 0 → 0 ∈ (clausifyFreeze src xs st).1.1.frozen := by
  intro xs
  induction xs with
  | nil =>
    intro st h
    exact ⟨h, fun v hv => hv, fun l hl => by simp [clausifyFreeze] at hl,
      fun x hx => by simp at hx⟩
  | cons x xs ih =>
    intro st h
    obtain ⟨h1, f1, l1, z1⟩ := clausify_fresh src E st h x
    obtain ⟨g1, g2, g3, g4⟩ := freezeLit_fields (clausify src st x).1.1 (clausify src st x).2
    have h1' : Fresh E (freezeLit (clausify src st x).1.1 (clausify src st x).2,
        (clausify src st x).1.2) :=
      ⟨g1.trans h1.elim, fun v hv => by rw [g2]; exact h1.bound v hv, h1.zero, h1.other⟩
    obtain ⟨i1, i2, i3, i4⟩ := ih _ h1'
    simp only [clausifyFreeze]
    refine ⟨i1, fun v hv => i2 v (g3 v (by rw [f1]; exact hv)), fun l hl => ?_,
      fun y hy hy0 => ?_⟩
    · rcases List.mem_cons.mp hl with e | hm
      · have e' : (clausify src st x).2 = some l := e.symm
        refine ⟨i2 _ (g4 l e'), ?_⟩
        by_cases hx0 : x.gate = 0
        · exact Or.inr ⟨(l1 l e').1 hx0, x, List.mem_cons_self _ _, hx0⟩
        · exact Or.inl ((l1 l e').2 hx0)
      · obtain ⟨a, b⟩ := i3 l hm
        refine ⟨a, ?_⟩
        rcases b with b | ⟨b0, y, hy, hy0⟩
        · exact Or.inl b
        · exact Or.inr ⟨b0, y, List.mem_cons_of_mem _ hy, hy0⟩
    · rcases List.mem_cons.mp hy with e | hm
      · subst e
        obtain ⟨l, hl⟩ := z1 hy0
        have := g4 l hl
        rw [((l1 l hl).1 hy0)] at this
        exact i2 _ this
      · exact i4 y hm hy0


theorem step_frozen (tip : TipCirc) (su : SimpUnroller) (s : Solver)
    (hA : ∀ l, some l ∈ su.flop_front → l.gate ∉ s.eliminated)
    (hB : ∀ v ∈ s.eliminated, v ≤ s.arena.gates.length)
    (hC : (∃ f ∈ tip.flps, f.next.gate = 0) → 0 ∉ s.eliminated) :
    ( SimpUnroller.stepU tip su s).2.1.eliminated = s.eliminated ∧
    (∀ v ∈ s.eliminated, v ≤ ( SimpUnroller.stepU tip su s).2.1.arena.gates.length) ∧
    (∀ l, some l ∈ ( SimpUnroller.stepU tip su s).1.flop_front →
      l.gate ∉ s.eliminated ∧ l.gate ∈ ( SimpUnroller.stepU tip su s).2.1.frozen) ∧
    ((∃ f ∈ tip.flps, f.next.gate = 0) → 0 ∈ ( SimpUnroller.stepU tip su s).2.1.frozen) := by
  have h0 : Fresh s.eliminated (s, GMap.clear) :=
    ⟨rfl, hB, fun l hl => by simp [GMap.clear] at hl, fun g l _ hl => by simp [GMap.clear] at hl⟩
  obtain ⟨h1, _⟩ := bindFront_fresh tip.main s.eliminated tip.flps su.flop_front _ h0 hA
  obtain ⟨h2, _, l2, z2⟩ := clausifyFreeze_fresh tip.main s.eliminated
    (tip.flps.map (fun f => f.next)) _ h1
  obtain ⟨h3, f3, _, _⟩ := clausifyFreeze_fresh tip.main s.eliminated
    ((tip.safe_props.filter (fun d => decide (d.stat = pstat_Unknown))).map (fun d => d.sig))
    _ h2
  simp only [SimpUnroller.stepU]
  refine ⟨h3.elim, h3.bound, fun l hl => ⟨?_, f3 _ (l2 l hl).1⟩, fun hz => ?_⟩
  · rcases (l2 l hl).2 with h | ⟨h, x, hx, hx0⟩
    · exact h
    · rw [h]
      obtain ⟨f, hf, rfl⟩ := List.mem_map.mp hx
      exact hC ⟨f, hf, hx0⟩
  · obtain ⟨f, hf, hf0⟩ := hz
    exact f3 _ (z2 f.next (List.mem_map.mpr ⟨f, hf, rfl⟩) hf0)

theorem frontOk_iff (su : SimpUnroller) (s : Solver) :
    frontOk su s = true ↔ ∀ l, some l ∈ su.flop_front → l.gate ∉ s.eliminated := by
  unfold frontOk
  rw [List.all_eq_true]
  constructor
  · intro h l hl
    have := h (some l) hl
    simpa [Solver.isEliminated] using this
  · intro h o ho
    cases o with
    | none => rfl
    | some l =>
      have := h l ho
      simpa [Solver.isEliminated] using this

/-! ## The contract of `solveMinimum` -/

theorem solveMinLoop_trig {solve : SolveFn} (hs : SolverCorrect solve) (assumps ps : List Sig)
    (trigger : Option Sig) (s0 : Solver) :
    ∀ (fuel : Nat) (s : Solver) (m : Nat → Bool),
      s.arena = s0.arena →
      (∃ bs, s.clauses = bs ++ s0.clauses ∧
        ∀ b ∈ bs, ∀ p ∈ ps, s0.arena.eval m p = true → p.neg ∈ b) →
      ((ps.filter (fun p => s0.arena.eval m p)).map Sig.neg ++ trigger.toList.map Sig.neg)
        ∈ s.clauses →
      s0.holds (assumps ++ trigger.toList) m = true →
      (ps.filter (fun p => s0.arena.eval m p)).length + 1 ≤ fuel →
      ∃ s' m', solveMinLoop solve assumps ps trigger fuel s
          (assumps ++ (ps.filter (fun p => decide (s.modelValue m p = l_False))).map Sig.neg)
          (some m) = some (s', some m') ∧
        s0.holds (assumps ++ trigger.toList) m' = true ∧
        ∀ μ, s0.holds (assumps ++ trigger.toList) μ = true →
          (∀ p ∈ ps, s0.arena.eval μ p = true → s0.arena.eval m' p = true) →
          ∀ p ∈ ps, s0.arena.eval m' p = true → s0.arena.eval μ p = true := by
  intro fuel
  induction fuel with
  | zero => intro s m _ _ _ _ hf; omega
  | succ fuel ih =>
    intro s m ha hb hhead hm hf
    simp only [solveMinLoop]
    have hassume : ∀ μ, (∀ l ∈ (assumps ++ (ps.filter (fun p =>
        decide (s.modelValue m p = l_False))).map Sig.neg) ++ trigger.toList,
          s.arena.eval μ l = true) ↔
        ((∀ l ∈ assumps ++ trigger.toList, s0.arena.eval μ l = true) ∧
          ∀ p ∈ ps, s0.arena.eval m p = false → s0.arena.eval μ p = false) := by
      intro μ
      rw [ha]
      constructor
      · intro h
        refine ⟨fun l hl => ?_, fun p hp hv => ?_⟩
        · rcases List.mem_append.mp hl with h1 | h1
          · exact h l (List.mem_append.mpr (Or.inl (List.mem_append.mpr (Or.inl h1))))
          · exact h l (List.mem_append.mpr (Or.inr h1))
        · have := h p.neg (List.mem_append.mpr (Or.inl (List.mem_append.mpr (Or.inr
            (List.mem_map.mpr ⟨p, List.mem_filter.mpr ⟨hp, by
              simp [modelValue_false_iff, ha, hv]⟩, rfl⟩)))))
          rw [eval_neg] at this
          simpa using this
      · intro h l hl
        rcases List.mem_append.mp hl with h1 | h1
        · rcases List.mem_append.mp h1 with h2 | h2
          · exact h.1 l (List.mem_append.mpr (Or.inl h2))
          · obtain ⟨p, hp, rfl⟩ := List.mem_map.mp h2
            obtain ⟨hp1, hp2⟩ := List.mem_filter.mp hp
            simp only [decide_eq_true_eq, modelValue_false_iff, ha] at hp2
            rw [eval_neg, h.2 p hp1 hp2]
            rfl
        · exact h.1 l (List.mem_append.mpr (Or.inr h1))
    obtain ⟨bs, ebs, hbs⟩ := hb
    cases hsol : solve s ((assumps ++ (ps.filter (fun p =>
        decide (s.modelValue m p = l_False))).map Sig.neg) ++ trigger.toList) with
    | none =>
      refine ⟨s, m, rfl, hm, fun μ hμ hsub p hp hv => ?_⟩
      by_contra hne
      have hpf : s0.arena.eval μ p = false := by
        cases h : s0.arena.eval μ p
        · rfl
        · exact absurd h hne
      have hμ' := (holds_all_iff _ _ _).mp hμ
      have := (hs _ _).2 hsol μ
      rw [← Bool.not_eq_true] at this
      apply this
      rw [holds_all_iff]
      refine ⟨?_, (hassume μ).mpr ⟨hμ'.2, fun q hq hv' => ?_⟩⟩
      · rw [holds_nil_iff]
        intro c hc
        rw [ebs] at hc
        rcases List.mem_append.mp hc with h1 | h1
        · exact ⟨p.neg, hbs c h1 p hp hv, by rw [ha, eval_neg, hpf]; rfl⟩
        · obtain ⟨l, hl, hv'⟩ := (holds_nil_iff _ _).mp hμ'.1 c h1
          exact ⟨l, hl, by rw [ha]; exact hv'⟩
      · cases h : s0.arena.eval μ q
        · rfl
        · rw [hsub q hq h] at hv'
          cases hv'
    | some m2 =>
      simp only []
      have hh := (holds_all_iff _ _ _).mp ((hs _ _).1 m2 hsol)
      obtain ⟨hA, hF⟩ := (hassume m2).mp hh.2
      have hcl := (holds_nil_iff _ _).mp hh.1
      have hsub : ∀ p ∈ ps, s0.arena.eval m2 p = true → s0.arena.eval m p = true := by
        intro p hp h2
        cases hv : s0.arena.eval m p with
        | true => rfl
        | false => rw [hF p hp hv] at h2; cases h2
      have hstrict : ∃ p ∈ ps, s0.arena.eval m p = true ∧ s0.arena.eval m2 p = false := by
        obtain ⟨l, hl, hv⟩ := hcl _ hhead
        rcases List.mem_append.mp hl with h1 | h1
        · obtain ⟨p, hp, rfl⟩ := List.mem_map.mp h1
          obtain ⟨hp1, hp2⟩ := List.mem_filter.mp hp
          refine ⟨p, hp1, hp2, ?_⟩
          rw [ha, eval_neg] at hv
          simpa using hv
        · obtain ⟨t, ht, rfl⟩ := List.mem_map.mp h1
          have := hA t (List.mem_append.mpr (Or.inr ht))
          rw [ha, eval_neg, this] at hv
          cases hv
      have hlt := filter_length_lt (fun p => s0.arena.eval m2 p) (fun p => s0.arena.eval m p)
        ps hsub hstrict
      have efil : ps.filter (fun p => decide (s.modelValue m2 p ≠ l_False)) =
          ps.filter (fun p => s0.arena.eval m2 p) := by
        apply List.filter_congr
        intro p _
        rw [modelValue_ne_false, ha]
      have hm2 : s0.holds (assumps ++ trigger.toList) m2 = true := by
        rw [holds_all_iff]
        refine ⟨?_, hA⟩
        rw [holds_nil_iff]
        intro c hc
        obtain ⟨l, hl, hv⟩ := hcl c (by rw [ebs]; exact List.mem_append.mpr (Or.inr hc))
        exact ⟨l, hl, by rw [← ha]; exact hv⟩
      exact ih (s.addClause ((ps.filter (fun p =>
          decide (s.modelValue m2 p ≠ l_False))).map Sig.neg ++ trigger.toList.map Sig.neg)) m2
        ha
        ⟨((ps.filter (fun p => s0.arena.eval m2 p)).map Sig.neg ++
            trigger.toList.map Sig.neg) :: bs, by
          simp only [Solver.addClause, ebs, efil, List.cons_append], by
          intro b hb p hp hv
          rcases List.mem_cons.mp hb with e | h
          · subst e
            exact List.mem_append.mpr (Or.inl (List.mem_map.mpr
              ⟨p, List.mem_filter.mpr ⟨hp, hv⟩, rfl⟩))
          · exact hbs b h p hp (hsub p hp hv)⟩
        (by simp only [Solver.addClause, efil]; exact List.mem_cons_self _ _)
        hm2 (by omega)

/-- C25: for every solver state `s`, assumption list `assumps`, literal list `ps` and optional
trigger, with a correct SAT oracle and enough iterations (`ps.length + 2`): either
`solveMinimum` returns false, leaves the solver as it is, and no valuation satisfies the
clauses of `s` with `assumps` and the trigger; or it returns true with a model `min_model`
that satisfies the clauses of `s` at entry, `assumps` and the trigger, such that no model of
those clauses, `assumps` and the trigger makes true only a proper subset of the literals of
`ps` that are true in `min_model`. -/
theorem solveMinimum_contract (solve : SolveFn) (hs : SolverCorrect solve) (s : Solver)
    (assumps ps : List Sig) (trigger : Option Sig) (fuel : Nat) (hf : ps.length + 2 ≤ fuel) :
    (solveMinimum fuel solve s assumps ps trigger = some (s, none) ∧
      ∀ μ, s.holds (assumps ++ trigger.toList) μ = false) ∨
    ∃ s' min_model, solveMinimum fuel solve s assumps ps trigger = some (s', some min_model) ∧
      s.holds (assumps ++ trigger.toList) min_model = true ∧
      ∀ μ, s.holds (assumps ++ trigger.toList) μ = true →
        (∀ p ∈ ps, s.arena.eval μ p = true → s.arena.eval min_model p = true) →
        ∀ p ∈ ps, s.arena.eval min_model p = true → s.arena.eval μ p = true := by
  obtain ⟨k, rfl⟩ : ∃ k, fuel = k + 1 := ⟨fuel - 1, by omega⟩
  simp only [solveMinimum, solveMinLoop]
  cases hsol : solve s (assumps ++ trigger.toList) with
  | none => exact Or.inl ⟨rfl, (hs _ _).2 hsol⟩
  | some m =>
    right
    simp only []
    have hm := (hs _ _).1 m hsol
    have efil : ps.filter (fun p => decide (s.modelValue m p ≠ l_False)) =
        ps.filter (fun p => s.arena.eval m p) := by
      apply List.filter_congr
      intro p _
      rw [modelValue_ne_false]
    have hlen := List.length_filter_le (fun p => s.arena.eval m p) ps
    exact solveMinLoop_trig hs assumps ps trigger s k
      (s.addClause ((ps.filter (fun p => decide (s.modelValue m p ≠ l_False))).map Sig.neg ++
        trigger.toList.map Sig.neg)) m rfl
      ⟨[(ps.filter (fun p => s.arena.eval m p)).map Sig.neg ++ trigger.toList.map Sig.neg], by
        simp only [Solver.addClause, efil, List.singleton_append], by
        intro b hb p hp hv
        simp only [List.mem_singleton] at hb
        subst hb
        exact List.mem_append.mpr (Or.inl (List.mem_map.mpr
          ⟨p, List.mem_filter.mpr ⟨hp, hv⟩, rfl⟩))⟩
      (by simp only [Solver.addClause, efil]; exact List.mem_cons_self _ _)
      hm (by omega)

set_option maxRecDepth 100000 in
theorem solveMinimum_contract_witness :
    SolverCorrect bruteSolve ∧ [(⟨1, false⟩ : Sig), ⟨2, false⟩].length + 2 ≤ 4 ∧
    ((solveMinimum 4 bruteSolve minSolver [] [⟨1, false⟩, ⟨2, false⟩] (some ⟨3, false⟩) =
        some (minSolver, none) ∧
      ∀ μ, minSolver.holds ([] ++ (some (⟨3, false⟩ : Sig)).toList) μ = false) ∨
    ∃ s' min_model,
      solveMinimum 4 bruteSolve minSolver [] [⟨1, false⟩, ⟨2, false⟩] (some ⟨3, false⟩) =
        some (s', some min_model) ∧
      minSolver.holds ([] ++ (some (⟨3, false⟩ : Sig)).toList) min_model = true ∧
      ∀ μ, minSolver.holds ([] ++ (some (⟨3, false⟩ : Sig)).toList) μ = true →
        (∀ p ∈ [(⟨1, false⟩ : Sig), ⟨2, false⟩],
          minSolver.arena.eval μ p = true → minSolver.arena.eval min_model p = true) →
        ∀ p ∈ [(⟨1, false⟩ : Sig), ⟨2, false⟩],
          minSolver.arena.eval min_model p = true → minSolver.arena.eval μ p = true) ∧
    (solveMinimum 4 bruteSolve minSolver [] [⟨1, false⟩, ⟨2, false⟩] (some ⟨3, false⟩)).map
      (fun r => (r.1.clauses, r.2.map (fun m => [m 1, m 2, m 3]))) =
      some ([[⟨2, true⟩, ⟨3, true⟩], [⟨1, false⟩, ⟨2, false⟩]], some [false, true, true]) :=
  ⟨bruteSolve_correct, by decide,
    solveMinimum_contract bruteSolve bruteSolve_correct minSolver [] [⟨1, false⟩, ⟨2, false⟩]
      (some ⟨3, false⟩) 4 (by decide),
    by decide⟩

/-! ## What the committed candidates satisfy -/

theorem holdsAt_empty (e : Equivs) (h : e.classes = []) (c : Circ) (τ : Nat → Bool) :
    e.holdsAt c τ = true := by
  simp [Equivs.holdsAt, h]

theorem sceSeq_detail {solve : SolveFn} (hs : SolverCorrect solve) (tip : TipCirc)
    (hwf : tip.wf = true) (fuel : Nat) (hf : 2 * tip.main.gates.length + 2 ≤ fuel)
    (only_coi : Bool) :
    sceCands fuel solve tip false only_coi = some (false, []) ∨
    ∃ cs, sceCands fuel solve tip false only_coi = some (true, cs) ∧
      ∀ c ∈ cs, ∀ τ0 τ1, tip.trans τ0 τ1 → tip.main.eval τ1 c = true →
        tip.main.eval τ0 c = true := by
  rcases base_spec hs tip hwf fuel hf false only_coi with
    ⟨_, h2⟩ | ⟨cands0, base, h0, hb, hc0, hsound, _⟩
  · left
    have h2' : refineCandsBaseInSequence fuel solve tip only_coi = some (false, []) := h2
    simp [sceCands, h2']
  · right
    have hbl := base_length fuel solve tip false only_coi true base hb
    have hb' : refineCandsBaseInSequence fuel solve tip only_coi = some (true, base) := hb
    have hbase : ∀ c ∈ base, tip.main.has c = true := fun c hc => hc0 c (hsound c hc).1
    obtain ⟨cs, e, s1, _⟩ := stepSeq_spec hs tip hwf base hbase fuel (by omega)
    refine ⟨cs, ?_, fun c hc => (s1 c hc).2⟩
    simp [sceCands, hb', e]

/-- C30, as the code has it: for both variants, with no prior constraints, a correct SAT
oracle and enough iterations, the candidates `cs` that the procedure commits satisfy: every
one is true in every valuation of `main` in which some property with status Unknown is bad;
there is no transition in which all of `cs` are true in the next frame and one of them is
false in the current frame; in the sequential variant there is, for each committed `c` on its
own, no transition in which `c` is false in the current frame and true in the next; hence
every committed candidate is true at every step of every finite run, from an arbitrary start
state, that ends in a valuation in which some property with status Unknown is bad. -/
theorem sce_committed_closed (solve : SolveFn) (hs : SolverCorrect solve) (tip : TipCirc)
    (hwf : tip.wf = true) (hno : tip.cnstrs.classes = []) (fuel : Nat)
    (hf : 2 * tip.main.gates.length + 2 ≤ fuel) (use_minimize_alg only_coi : Bool) :
    ∃ b cs, sceCands fuel solve tip use_minimize_alg only_coi = some (b, cs) ∧
      (∀ c ∈ cs, ∀ τ, tip.badAt τ = true → tip.main.eval τ c = true) ∧
      (∀ τ0 τ1, tip.trans τ0 τ1 → (∀ x ∈ cs, tip.main.eval τ1 x = true) →
        ∀ c ∈ cs, tip.main.eval τ0 c = true) ∧
      (use_minimize_alg = false → ∀ c ∈ cs, ∀ τ0 τ1, tip.trans τ0 τ1 →
        tip.main.eval τ1 c = true → tip.main.eval τ0 c = true) ∧
      ∀ c ∈ cs, ∀ (τ : Nat → Nat → Bool) (k : Nat),
        (∀ j, j < k → tip.trans (τ j) (τ (j + 1))) → tip.badAt (τ k) = true →
        ∀ j, j ≤ k → tip.main.eval (τ j) c = true := by
  have hE := holdsAt_empty tip.cnstrs hno tip.main
  rcases sce_spec hs tip hwf fuel hf use_minimize_alg only_coi with
    ⟨_, h2⟩ | ⟨cs, e, _, hbase, hstep⟩
  · exact ⟨false, [], h2, fun c hc => by simp at hc, fun _ _ _ _ c hc => by simp at hc,
      fun _ c hc => by simp at hc, fun c hc => by simp at hc⟩
  · have hb : ∀ c ∈ cs, ∀ τ, tip.badAt τ = true → tip.main.eval τ c = true :=
      fun c hc τ hbad => hbase c hc τ ⟨hbad, fun _ => hE τ⟩
    have hst : ∀ τ0 τ1, tip.trans τ0 τ1 → (∀ x ∈ cs, tip.main.eval τ1 x = true) →
        ∀ c ∈ cs, tip.main.eval τ0 c = true :=
      fun τ0 τ1 htr hall c hc => hstep c hc τ0 τ1 htr (fun _ => ⟨hE τ0, hE τ1⟩) hall
    refine ⟨true, cs, e, hb, hst, fun hseq c hc => ?_, fun c hc τ k htr hbad => ?_⟩
    · subst hseq
      rcases sceSeq_detail hs tip hwf fuel hf only_coi with h | ⟨cs', e', h'⟩
      · rw [e] at h
        cases h
      · rw [e] at e'
        simp only [Option.some.injEq, Prod.mk.injEq, true_and] at e'
        subst e'
        exact h' c hc
    · have key : ∀ d, d ≤ k → ∀ x ∈ cs, tip.main.eval (τ (k - d)) x = true := by
        intro d
        induction d with
        | zero => intro _ x hx; exact hb x hx _ hbad
        | succ d ih =>
          intro hd x hx
          have e1 : k - (d + 1) + 1 = k - d := by omega
          have htr' := htr (k - (d + 1)) (by omega)
          rw [e1] at htr'
          exact hst _ _ htr' (ih (by omega)) x hx
      intro j hj
      have := key (k - j) (by omega) c hc
      have e2 : k - (k - j) = j := by omega
      rw [e2] at this
      exact this

theorem sce_committed_closed_witness :
    SolverCorrect bruteSolve ∧ latchTip.wf = true ∧ latchTip.cnstrs.classes = [] ∧
    2 * latchTip.main.gates.length + 2 ≤ 8 ∧
    ∃ b cs, sceCands 8 bruteSolve latchTip true false = some (b, cs) ∧
      (∀ c ∈ cs, ∀ τ, latchTip.badAt τ = true → latchTip.main.eval τ c = true) ∧
      (∀ τ0 τ1, latchTip.trans τ0 τ1 → (∀ x ∈ cs, latchTip.main.eval τ1 x = true) →
        ∀ c ∈ cs, latchTip.main.eval τ0 c = true) ∧
      (true = false → ∀ c ∈ cs, ∀ τ0 τ1, latchTip.trans τ0 τ1 →
        latchTip.main.eval τ1 c = true → latchTip.main.eval τ0 c = true) ∧
      ∀ c ∈ cs, ∀ (τ : Nat → Nat → Bool) (k : Nat),
        (∀ j, j < k → latchTip.trans (τ j) (τ (j + 1))) → latchTip.badAt (τ k) = true →
        ∀ j, j ≤ k → latchTip.main.eval (τ j) c = true :=
  ⟨bruteSolve_correct, by decide, rfl, by decide,
    sce_committed_closed bruteSolve bruteSolve_correct latchTip (by decide) rfl 8 (by decide)
      true false⟩

set_option maxRecDepth 1000000 in
/-- C30, counterexample: on `latchTip` the minimising variant commits the flop `x`, the input
`i` and the gate `a = x ∧ i` (all three are true whenever the property is bad, and whenever
all three are true in the next frame they are true in the current one). But the input `i` is
free: in the transition from the valuation with everything false to the valuation in which
only `i` is true, `i` is false in the current frame and true in the next. The sequential
variant does not commit `i`. -/
theorem sce_single_step_counterexample :
    sceCands 8 bruteSolve latchTip true false =
      some (true, [⟨1, false⟩, ⟨2, false⟩, ⟨3, false⟩]) ∧
    sceCands 8 bruteSolve latchTip false false = some (true, [⟨1, false⟩, ⟨3, false⟩]) ∧
    latchTip.trans (fun _ => false) (fun g => decide (g = 2)) ∧
    latchTip.main.eval (fun _ => false) ⟨2, false⟩ = false ∧
    latchTip.main.eval (fun g => decide (g = 2)) ⟨2, false⟩ = true := by
  refine ⟨by decide, by decide, ?_, by decide, by decide⟩
  unfold TipCirc.trans
  decide

/-! ## The unroller after construction in reset mode -/

theorem recordInputs_filter (c : Circ) (m : GMap Sig) :
    ∀ (inps : List Nat) (fr : IFrame),
      recordInputs c m inps fr =
        recordInputs c m (inps.filter (fun g => decide (c.number g ≠ UINT32_MAX))) fr := by
  intro inps
  induction inps with
  | nil => intro fr; rfl
  | cons g gs ih =>
    intro fr
    by_cases hn : c.number g ≠ UINT32_MAX
    · simp only [List.filter_cons, hn, ne_eq, not_false_eq_true, decide_True, if_true,
        recordInputs]
      cases m g with
      | none => exact ih _
      | some s => exact ih _
    · have hn' : c.number g = UINT32_MAX := by
        by_contra h
        exact hn h
      simp only [List.filter_cons, hn', ne_eq, not_true_eq_false, decide_False, if_false,
        recordInputs]
      exact ih fr

/-- C27: after the construction of `UnrollCirc` in reset mode over an empty input log (before
any step), for a well-formed circuit whose numbered inputs of `init` carry distinct numbers:
for every flop `i`, `flop_front[i]` is the image of `flps.init(flps[i])` under the init
copy-map with its sign preserved; and the input log holds exactly one frame, whose entry at
index `number(inp)` is the copy of `inp` for every numbered input `inp` of the init arena (the
copy is an unsigned input of the unrolled arena with the same number) and whose entry at
every other index is `gate_Undef`. -/
theorem initReset_front_and_inputs (tip : TipCirc) (hwf : tip.wf = true) (uc : Circ)
    (huc : uc.ok = true)
    (hnd : ((tip.init.inputs.filter (fun g => decide (tip.init.number g ≠ UINT32_MAX))).map
      tip.init.number).Nodup) :
    (UnrollCirc.new tip [] uc true).flop_front.length = tip.flps.length ∧
    (∀ (i : Nat) (f : Flop), tip.flps[i]? = some f →
      ∃ a, (copyCirc tip.init uc GMap.clear tip.init.lastGate).2 f.init.gate = some a ∧
        (UnrollCirc.new tip [] uc true).flop_front[i]? = some (some (a.xorSign f.init.sign))) ∧
    ∃ fr, (UnrollCirc.new tip [] uc true).unroll_inps = [fr] ∧
      (∀ g ∈ tip.init.inputs, tip.init.number g ≠ UINT32_MAX →
        ∃ u, (copyCirc tip.init uc GMap.clear tip.init.lastGate).2 g = some ⟨u, false⟩ ∧
          fr.getD (tip.init.number g) none = some u ∧
          defAt (UnrollCirc.new tip [] uc true).unroll_circ.gates u =
            some (.inp (tip.init.number g))) ∧
      ∀ n, (∀ g ∈ tip.init.inputs, tip.init.number g ≠ UINT32_MAX → tip.init.number g ≠ n) →
        fr.getD n none = none := by
  have R := copyGates_spec tip.init.gates (wf_init_ok hwf) tip.init.gates [] rfl uc _ huc
    (local_const tip.init.gates uc) (by simp [GMap.set, gate_True])
  have hnew : UnrollCirc.new tip [] uc true = UnrollCirc.initReset tip uc [] := by
    simp [UnrollCirc.new]
  rw [hnew]
  simp only [UnrollCirc.initReset, copyCirc_full, List.nil_append]
  generalize hr : copyGates tip.init.gates uc ((GMap.clear : GMap Sig).set gate_True sig_True)
    = r at R
  refine ⟨by simp, fun i f hf => ?_, _, rfl, fun g hg hnum => ?_, fun n hn => ?_⟩
  · have hfm := List.getElem?_mem hf
    have hdom := R.dom f.init.gate (by
      have := (wf_flop hwf hfm).2.1
      simpa [Circ.has] using this)
    cases ha : r.2 f.init.gate with
    | none => exact absurd ha hdom
    | some a =>
      refine ⟨a, rfl, ?_⟩
      simp only [List.getElem?_map, hf, Option.map_some', mapSig, ha]
  · obtain ⟨k, hd⟩ := mem_inputsOf.mp hg
    have hr2 := defAt_range hd
    have hg0 : g ≠ 0 := by omega
    obtain ⟨u, h1, _, h3⟩ := R.fresh g k hr2.2
      (by simp [GMap.set, gate_True, hg0, GMap.clear]) hd
    refine ⟨u, h1, ?_, by rw [number_of_def hd]; exact h3⟩
    rw [recordInputs_filter]
    have := recordInputs_get tip.init r.2 _ [] hnd
      (fun g' hg' => by simpa using (List.mem_filter.mp hg').2) g
      (List.mem_filter.mpr ⟨hg, by simpa using hnum⟩) _ h1
    exact this
  · rw [recordInputs_filter]
    apply recordInputs_keep
    · intro g hg
      obtain ⟨h1, h2⟩ := List.mem_filter.mp hg
      exact hn g h1 (by simpa using h2)
    · rfl

theorem initReset_front_and_inputs_witness :
    initTip.wf = true ∧ Circ.empty.ok = true ∧
    ((initTip.init.inputs.filter (fun g => decide (initTip.init.number g ≠ UINT32_MAX))).map
      initTip.init.number).Nodup ∧
    ((UnrollCirc.new initTip [] Circ.empty true).flop_front.length = initTip.flps.length ∧
    (∀ (i : Nat) (f : Flop), initTip.flps[i]? = some f →
      ∃ a, (copyCirc initTip.init Circ.empty GMap.clear initTip.init.lastGate).2 f.init.gate =
          some a ∧
        (UnrollCirc.new initTip [] Circ.empty true).flop_front[i]? =
          some (some (a.xorSign f.init.sign))) ∧
    ∃ fr, (UnrollCirc.new initTip [] Circ.empty true).unroll_inps = [fr] ∧
      (∀ g ∈ initTip.init.inputs, initTip.init.number g ≠ UINT32_MAX →
        ∃ u, (copyCirc initTip.init Circ.empty GMap.clear initTip.init.lastGate).2 g =
            some ⟨u, false⟩ ∧
          fr.getD (initTip.init.number g) none = some u ∧
          defAt (UnrollCirc.new initTip [] Circ.empty true).unroll_circ.gates u =
            some (.inp (initTip.init.number g))) ∧
      ∀ n, (∀ g ∈ initTip.init.inputs, initTip.init.number g ≠ UINT32_MAX →
          initTip.init.number g ≠ n) →
        fr.getD n none = none) ∧
    (UnrollCirc.new initTip [] Circ.empty true).flop_front = [some ⟨1, true⟩] ∧
    (UnrollCirc.new initTip [] Circ.empty true).unroll_inps = [[some 1]] :=
  ⟨by decide, by decide, by decide,
    initReset_front_and_inputs initTip (by decide) Circ.empty (by decide) (by decide),
    by decide, by decide⟩

/-! ## The two unrollers -/

theorem steps_last_gate (tip : TipCirc) (u : UnrollCirc) :
    ∀ k, (UnrollCirc.steps tip u k).last_gate = u.last_gate := by
  intro k
  induction k with
  | zero => rfl
  | succ k ih => simpa [UnrollCirc.steps, UnrollCirc.step] using ih

theorem new_last_gate (tip : TipCirc) (ui : List IFrame) (uc : Circ) (reset : Bool) :
    (UnrollCirc.new tip ui uc reset).last_gate = tip.main.lastGate := by
  cases reset <;> rfl

/-- C28: when the last gate that `UnrollCirc` captured at construction is the last gate of
`main` (the arena has not been extended since) and the two unrollers have the same unrolled
arena and the same frontier, one step of `UnrollCirc` (copy with the stop gate) and one step
of `UnrollCirc2` (copy without a stop gate) give the same unroll map, the same unrolled arena
and the same new frontier; this is the case after any number of steps of two unrollers built
over the same arena in the same mode. -/
theorem unroll_step_agrees (tip : TipCirc) (u : UnrollCirc) (u2 : UnrollCirc2)
    (hlast : u.last_gate = tip.main.lastGate) (hc : u.unroll_circ = u2.ucirc)
    (hfr : u.flop_front = u2.flop_front) :
    ((UnrollCirc.step tip u).2 = (UnrollCirc2.step tip u2).2 ∧
      (UnrollCirc.step tip u).1.unroll_circ = (UnrollCirc2.step tip u2).1.ucirc ∧
      (UnrollCirc.step tip u).1.flop_front = (UnrollCirc2.step tip u2).1.flop_front) ∧
    ∀ k, (UnrollCirc.steps tip u k).unroll_circ = (UnrollCirc2.steps tip u2 k).ucirc ∧
      (UnrollCirc.steps tip u k).flop_front = (UnrollCirc2.steps tip u2 k).flop_front ∧
      (UnrollCirc.step tip (UnrollCirc.steps tip u k)).2 =
        (UnrollCirc2.step tip (UnrollCirc2.steps tip u2 k)).2 := by
  have one : ∀ (v : UnrollCirc) (v2 : UnrollCirc2), v.last_gate = tip.main.lastGate →
      v.unroll_circ = v2.ucirc → v.flop_front = v2.flop_front →
      (UnrollCirc.step tip v).2 = (UnrollCirc2.step tip v2).2 ∧
      (UnrollCirc.step tip v).1.unroll_circ = (UnrollCirc2.step tip v2).1.ucirc ∧
      (UnrollCirc.step tip v).1.flop_front = (UnrollCirc2.step tip v2).1.flop_front := by
    intro v v2 h1 h2 h3
    simp only [UnrollCirc.step, UnrollCirc2.step, h1, h2, h3, and_self]
  refine ⟨one u u2 hlast hc hfr, fun k => ?_⟩
  have hk : (UnrollCirc.steps tip u k).unroll_circ = (UnrollCirc2.steps tip u2 k).ucirc ∧
      (UnrollCirc.steps tip u k).flop_front = (UnrollCirc2.steps tip u2 k).flop_front := by
    induction k with
    | zero => exact ⟨hc, hfr⟩
    | succ k ih =>
      have := one (UnrollCirc.steps tip u k) (UnrollCirc2.steps tip u2 k)
        ((steps_last_gate tip u k).trans hlast) ih.1 ih.2
      exact ⟨this.2.1, this.2.2⟩
  exact ⟨hk.1, hk.2, (one _ _ ((steps_last_gate tip u k).trans hlast) hk.1 hk.2).1⟩

theorem unroll_step_agrees_witness :
    (UnrollCirc.new xorTip [] Circ.empty true).last_gate = xorTip.main.lastGate ∧
    (UnrollCirc.new xorTip [] Circ.empty true).unroll_circ =
      (UnrollCirc2.newInit xorTip Circ.empty).1.ucirc ∧
    (UnrollCirc.new xorTip [] Circ.empty true).flop_front =
      (UnrollCirc2.newInit xorTip Circ.empty).1.flop_front ∧
    (((UnrollCirc.step xorTip (UnrollCirc.new xorTip [] Circ.empty true)).2 =
        (UnrollCirc2.step xorTip (UnrollCirc2.newInit xorTip Circ.empty).1).2 ∧
      (UnrollCirc.step xorTip (UnrollCirc.new xorTip [] Circ.empty true)).1.unroll_circ =
        (UnrollCirc2.step xorTip (UnrollCirc2.newInit xorTip Circ.empty).1).1.ucirc ∧
      (UnrollCirc.step xorTip (UnrollCirc.new xorTip [] Circ.empty true)).1.flop_front =
        (UnrollCirc2.step xorTip (UnrollCirc2.newInit xorTip Circ.empty).1).1.flop_front) ∧
    ∀ k, (UnrollCirc.steps xorTip (UnrollCirc.new xorTip [] Circ.empty true) k).unroll_circ =
        (UnrollCirc2.steps xorTip (UnrollCirc2.newInit xorTip Circ.empty).1 k).ucirc ∧
      (UnrollCirc.steps xorTip (UnrollCirc.new xorTip [] Circ.empty true) k).flop_front =
        (UnrollCirc2.steps xorTip (UnrollCirc2.newInit xorTip Circ.empty).1 k).flop_front ∧
      (UnrollCirc.step xorTip
          (UnrollCirc.steps xorTip (UnrollCirc.new xorTip [] Circ.empty true) k)).2 =
        (UnrollCirc2.step xorTip
          (UnrollCirc2.steps xorTip (UnrollCirc2.newInit xorTip Circ.empty).1 k)).2) ∧
    (UnrollCirc2.step xorTip (UnrollCirc2.newInit xorTip Circ.empty).1).1.ucirc.gates.length =
      4 :=
  ⟨rfl, rfl, rfl,
    unroll_step_agrees xorTip (UnrollCirc.new xorTip [] Circ.empty true)
      (UnrollCirc2.newInit xorTip Circ.empty).1 rfl rfl rfl,
    by decide⟩

/-! ## Constraint extraction without an Unknown property -/

theorem safeBad_no_unknown (main : Circ) :
    ∀ (ps : List PropData) (st : Solver × GMap Sig),
      (∀ p ∈ ps, p.stat ≠ pstat_Unknown) → safeBad main ps st = (st, [])
  | [], _, _ => rfl
  | p :: ps, st, h => by
    have hp : p.stat ≠ pstat_Unknown := h p (List.mem_cons_self _ _)
    simp only [safeBad, hp, if_false]
    exact safeBad_no_unknown main ps st (fun q hq => h q (List.mem_cons_of_mem _ hq))

theorem liveBad_no_unknown (main : Circ) :
    ∀ (ps : List LivePropData) (st : Solver × GMap Sig),
      (∀ p ∈ ps, p.stat ≠ pstat_Unknown) → liveBad main ps st = (st, [])
  | [], _, _ => rfl
  | p :: ps, st, h => by
    have hp : p.stat ≠ pstat_Unknown := h p (List.mem_cons_self _ _)
    simp only [liveBad, hp, if_false]
    exact liveBad_no_unknown main ps st (fun q hq => h q (List.mem_cons_of_mem _ hq))

theorem holds_empty_clause (s : Solver) (a : List Sig) (m : Nat → Bool) :
    (s.addClause []).holds a m = false := by
  simp [Solver.holds, Solver.addClause]

/-- Claim C37. When no safety and no liveness property has status Unknown, the clause "some
property is bad" that `initializeCands` adds is the empty clause, the solve after it fails, the
base phase of either variant returns false, and `semanticConstraintExtraction` merges the
constants false and true in `tip.cnstrs` and changes nothing else. -/
theorem sce_no_unknown_property (solve : SolveFn) (hs : SolverCorrect solve) (tip : TipCirc)
    (hsafe : ∀ p ∈ tip.safe_props, p.stat ≠ pstat_Unknown)
    (hlive : ∀ p ∈ tip.live_props, p.stat ≠ pstat_Unknown)
    (fuel : Nat) (use_minimize_alg only_coi : Bool) :
    (∀ st, safeBad tip.main tip.safe_props st = (st, []) ∧
      liveBad tip.main tip.live_props st = (st, [])) ∧
    (initializeCands solve tip (Solver.new, GMap.clear) only_coi).1.1 =
      (if only_coi then (Solver.new, GMap.clear)
        else (clausifyList tip.main (tip.flps.map (fun f => f.next))
          (Solver.new, GMap.clear)).1).1.addClause [] ∧
    (initializeCands solve tip (Solver.new, GMap.clear) only_coi).2 = none ∧
    (if use_minimize_alg then refineCandsBaseWithMinimize fuel solve tip only_coi
      else refineCandsBaseInSequence fuel solve tip only_coi) = some (false, []) ∧
    semanticConstraintExtraction fuel solve tip use_minimize_alg only_coi =
      some { tip with cnstrs := tip.cnstrs.merge sig_False sig_True } := by
  have hb : ∀ st, safeBad tip.main tip.safe_props st = (st, []) ∧
      liveBad tip.main tip.live_props st = (st, []) := fun st =>
    ⟨safeBad_no_unknown _ _ st hsafe, liveBad_no_unknown _ _ st hlive⟩
  have h1 : (initializeCands solve tip (Solver.new, GMap.clear) only_coi).1.1 =
      (if only_coi then (Solver.new, GMap.clear)
        else (clausifyList tip.main (tip.flps.map (fun f => f.next))
          (Solver.new, GMap.clear)).1).1.addClause [] := by
    rw [initializeCands_fst]
    simp only [(hb _).1, (hb _).2, List.append_nil]
  have h2 : (initializeCands solve tip (Solver.new, GMap.clear) only_coi).2 = none := by
    rw [initializeCands_snd, Option.map_eq_none', h1]
    exact solve_none_of_unsat hs _ _ (fun m => holds_empty_clause _ _ m)
  have h3 := (base_false_iff fuel solve tip use_minimize_alg only_coi).mpr h2
  refine ⟨hb, h1, h2, h3, ?_⟩
  simp only [semanticConstraintExtraction, sceCands, h3]

set_option maxRecDepth 100000 in
theorem sce_no_unknown_property_witness :
    (∀ p ∈ provedTip.safe_props, p.stat ≠ pstat_Unknown) ∧
    (∀ p ∈ provedTip.live_props, p.stat ≠ pstat_Unknown) ∧
    semanticConstraintExtraction 0 bruteSolve provedTip true false =
      some { provedTip with cnstrs := provedTip.cnstrs.merge sig_False sig_True } :=
  ⟨by decide, by decide,
    (sce_no_unknown_property bruteSolve bruteSolve_correct provedTip (by decide) (by decide)
      0 true false).2.2.2.2⟩

/-! ## The standard embedding of an empty list -/

theorem mkAnd_inputs (c : Circ) (x y : Sig) : (c.mkAnd x y).1.inputs = c.inputs := by
  unfold Circ.mkAnd
  split <;> rfl

theorem mkOr_inputs (c : Circ) (x y : Sig) : (c.mkOr x y).1.inputs = c.inputs :=
  mkAnd_inputs c x.neg y.neg

theorem mkAnd_length_le (c : Circ) (x y : Sig) :
    c.gates.length ≤ (c.mkAnd x y).1.gates.length := by
  unfold Circ.mkAnd
  split <;> simp

theorem embedStandard_nil (main : Circ) (flps : List Flop) :
    (embedStandard [] main flps).1.2 = flps ∧
    (embedStandard [] main flps).1.1.inputs = main.inputs ++ [main.gates.length + 1] ∧
    main.gates.length < (embedStandard [] main flps).1.1.gates.length ∧
    (embedStandard [] main flps).2 = sig_True := by
  refine ⟨rfl, ?_, ?_, rfl⟩
  · show ((main.mkInp UINT32_MAX).1.mkOr _ _).1.inputs = _
    rw [mkOr_inputs]
    rfl
  · have h := mkAnd_length_le (main.mkInp UINT32_MAX).1 (main.mkInp UINT32_MAX).2.neg
      sig_True.neg
    have h0 : (main.mkInp UINT32_MAX).1.gates.length = main.gates.length + 1 := rfl
    rw [h0] at h
    exact h

/-- Claim C35. With the standard embedding, the loop body for a liveness property with status
Unknown whose combined list (global fairness signals, then its own triggers) is empty defines
no flop, and allocates exactly one fresh input in the main arena, the reset input, which is
the gate after the last gate of the arena before: the arena is not left unchanged. The
property gets the constant true as its single signal. The same holds of `embedFairness` on a
circuit with this single liveness property. -/
theorem embedFairness_empty_reset_input (fairs : List Sig) (st : Circ × List Flop)
    (p : LivePropData) (hu : p.stat = pstat_Unknown) (hn : fairs ++ p.sigs = []) :
    ((embedProp false fairs st p).1.2 = st.2 ∧
      (embedProp false fairs st p).1.1.inputs = st.1.inputs ++ [st.1.gates.length + 1] ∧
      st.1.gates.length < (embedProp false fairs st p).1.1.gates.length ∧
      (embedProp false fairs st p).1.1 ≠ st.1 ∧
      (embedProp false fairs st p).2 = { p with sigs := [sig_True] }) ∧
    ∀ tip : TipCirc, tip.fairs = fairs → tip.live_props = [p] → tip.main = st.1 →
      tip.flps = st.2 →
      (embedFairness tip false).flps = tip.flps ∧
      (embedFairness tip false).main.inputs = tip.main.inputs ++ [tip.main.gates.length + 1] ∧
      (embedFairness tip false).main ≠ tip.main := by
  obtain ⟨h1, h2, h3, h4⟩ := embedStandard_nil st.1 st.2
  have hne : (embedStandard [] st.1 st.2).1.1 ≠ st.1 := by
    intro h
    rw [h] at h3
    exact Nat.lt_irrefl _ h3
  have e : embedProp false fairs st p =
      ((embedStandard [] st.1 st.2).1, { p with sigs := [(embedStandard [] st.1 st.2).2] }) := by
    simp [embedProp, hu, hn, embedOne]
  refine ⟨?_, ?_⟩
  · rw [e]
    exact ⟨h1, h2, h3, hne, by rw [h4]⟩
  · intro tip hf hl hm hfl
    obtain ⟨e1, e2, _⟩ := embedFairness_one tip p hl hu
    rw [e1, e2, hf, hn, hm, hfl]
    exact ⟨h1, h2, hne⟩

theorem embedFairness_empty_reset_input_witness :
    (⟨[], pstat_Unknown, none⟩ : LivePropData).stat = pstat_Unknown ∧
    (embedFairness { liveTip with live_props := [⟨[], pstat_Unknown, none⟩] } false).flps = [] ∧
    (embedFairness { liveTip with live_props := [⟨[], pstat_Unknown, none⟩] } false).main.inputs =
      [1, 2, 3, 4] :=
  ⟨rfl,
    ((embedFairness_empty_reset_input [] (liveTip.main, liveTip.flps)
      ⟨[], pstat_Unknown, none⟩ rfl rfl).2
      { liveTip with live_props := [⟨[], pstat_Unknown, none⟩] } rfl rfl rfl rfl).1,
    ((embedFairness_empty_reset_input [] (liveTip.main, liveTip.flps)
      ⟨[], pstat_Unknown, none⟩ rfl rfl).2
      { liveTip with live_props := [⟨[], pstat_Unknown, none⟩] } rfl rfl rfl rfl).2.1⟩

/-! ## The candidate list only shrinks -/

theorem take_filter_sublist {α : Type} (p : α → Bool) (l : List α) (i : Nat) :
    (l.take i ++ (l.drop i).filter p).Sublist l := by
  have h := List.Sublist.append (List.Sublist.refl (l.take i)) (List.filter_sublist (p := p) (l.drop i))
  rw [List.take_append_drop] at h
  exact h

theorem baseSeqLoop_sublist (solve : SolveFn) (main : Circ) :
    ∀ (fuel i : Nat) (st : Solver × GMap Sig) (cands cs : List Sig),
      baseSeqLoop solve main fuel i st cands = some cs → cs.Sublist cands := by
  intro fuel
  induction fuel with
  | zero => intro i st cands cs h; simp [baseSeqLoop] at h
  | succ fuel ih =>
    intro i st cands cs h
    simp only [baseSeqLoop] at h
    cases hci : cands[i]? with
    | none =>
      simp only [hci, Option.some.injEq] at h
      rw [← h]
    | some c =>
      simp only [hci] at h
      cases hl : (clausify main st c.neg).2 with
      | none => simp [hl] at h
      | some l =>
        simp only [hl] at h
        cases hsol : solve (clausify main st c.neg).1.1 [l] with
        | none =>
          simp only [hsol] at h
          exact ih _ _ _ _ h
        | some m =>
          simp only [hsol] at h
          exact (ih _ _ _ _ h).trans (take_filter_sublist _ _ _)

theorem baseMinLoop_sublist (solve : SolveFn) (main : Circ) (sfuel : Nat) :
    ∀ (fuel : Nat) (st : Solver × GMap Sig) (cands cs : List Sig),
      baseMinLoop solve main sfuel fuel st cands = some cs → cs.Sublist cands := by
  intro fuel
  induction fuel with
  | zero => intro st cands cs h; simp [baseMinLoop] at h
  | succ fuel ih =>
    intro st cands cs h
    simp only [baseMinLoop] at h
    split at h
    · cases h
    · simp only [Option.some.injEq] at h
      rw [← h]
    · split at h
      · exact (ih _ _ _ h).trans (List.filter_sublist _)
      · simp only [Option.some.injEq] at h
        rw [← h]

theorem stepSeqLoop_sublist (solve : SolveFn) (s : Solver) (cm umap0 umap1 : GMap Sig) :
    ∀ (fuel i : Nat) (cands cs : List Sig),
      stepSeqLoop solve s cm umap0 umap1 fuel i cands = some cs → cs.Sublist cands := by
  intro fuel
  induction fuel with
  | zero => intro i cands cs h; simp [stepSeqLoop] at h
  | succ fuel ih =>
    intro i cands cs h
    simp only [stepSeqLoop] at h
    cases hci : cands[i]? with
    | none =>
      simp only [hci, Option.some.injEq] at h
      rw [← h]
    | some c =>
      simp only [hci] at h
      split at h
      · rename_i l0 l1 _ _
        cases hsol : solve s [l0.neg, l1] with
        | none =>
          simp only [hsol] at h
          exact ih _ _ _ h
        | some m =>
          simp only [hsol] at h
          exact (ih _ _ _ h).trans (take_filter_sublist _ _ _)
      · cases h

theorem stepMinLoop_sublist (solve : SolveFn) (uc : Circ) (umap0 umap1 : GMap Sig)
    (sfuel : Nat) :
    ∀ (fuel : Nat) (st : Solver × GMap Sig) (cands cs : List Sig),
      stepMinLoop solve uc umap0 umap1 sfuel fuel st cands = some cs → cs.Sublist cands := by
  intro fuel
  induction fuel with
  | zero => intro st cands cs h; simp [stepMinLoop] at h
  | succ fuel ih =>
    intro st cands cs h
    simp only [stepMinLoop] at h
    split at h
    · cases h
    · simp only [Option.some.injEq] at h
      rw [← h]
    · split at h
      · simp only [Option.some.injEq] at h
        rw [← h]
      · exact (ih _ _ _ h).trans (List.filter_sublist _)

theorem base_sublist (fuel : Nat) (solve : SolveFn) (tip : TipCirc)
    (use_minimize_alg only_coi : Bool) (cands0 : List Sig) (b : Bool) (cs : List Sig)
    (h0 : (initializeCands solve tip (Solver.new, GMap.clear) only_coi).2 = some cands0)
    (h : (if use_minimize_alg then refineCandsBaseWithMinimize fuel solve tip only_coi
      else refineCandsBaseInSequence fuel solve tip only_coi) = some (b, cs)) :
    cs.Sublist cands0 := by
  cases use_minimize_alg with
  | false =>
    simp only [Bool.false_eq_true, if_false, refineCandsBaseInSequence, h0] at h
    obtain ⟨a, ha, hb⟩ := Option.map_eq_some'.mp h
    simp only [Prod.mk.injEq] at hb
    rw [← hb.2]
    exact baseSeqLoop_sublist _ _ _ _ _ _ _ ha
  | true =>
    simp only [if_true, refineCandsBaseWithMinimize, h0] at h
    obtain ⟨a, ha, hb⟩ := Option.map_eq_some'.mp h
    simp only [Prod.mk.injEq] at hb
    rw [← hb.2]
    exact baseMinLoop_sublist _ _ _ _ _ _ _ ha

theorem step_sublist (fuel : Nat) (solve : SolveFn) (tip : TipCirc)
    (use_minimize_alg : Bool) (cands cs : List Sig)
    (h : (if use_minimize_alg then refineCandsStepWithMinimize fuel solve tip cands
      else refineCandsStepInSequence fuel solve tip cands) = some cs) :
    cs.Sublist cands := by
  cases use_minimize_alg with
  | false =>
    simp only [Bool.false_eq_true, if_false, refineCandsStepInSequence] at h
    exact stepSeqLoop_sublist _ _ _ _ _ _ _ _ _ h
  | true =>
    simp only [if_true, refineCandsStepWithMinimize] at h
    exact stepMinLoop_sublist _ _ _ _ _ _ _ _ _ h

/-- Claim C33. In all four refinement routines the candidate list only shrinks. Whenever a
base routine (sequential or minimising) returns, its list is a sublist of the list produced by
`initializeCands`, and whenever a step routine returns, its list is a sublist of the list it
was given: the candidates that remain are in the same relative order, and none is added or
altered. With a correct SAT oracle, a well-formed circuit and enough iterations the routines
do return: either `initializeCands` finds no candidate list and the base routine returns
false with the empty list, or the base routine returns a sublist of the initial candidates and
the step routine a sublist of that. -/
theorem refinement_only_shrinks (solve : SolveFn) (hs : SolverCorrect solve) (tip : TipCirc)
    (hwf : tip.wf = true) (fuel : Nat) (hf : 2 * tip.main.gates.length + 2 ≤ fuel)
    (use_minimize_alg only_coi : Bool) :
    (∀ (fuel0 : Nat) (cands0 : List Sig) (b : Bool) (cs : List Sig),
      (initializeCands solve tip (Solver.new, GMap.clear) only_coi).2 = some cands0 →
      (if use_minimize_alg then refineCandsBaseWithMinimize fuel0 solve tip only_coi
        else refineCandsBaseInSequence fuel0 solve tip only_coi) = some (b, cs) →
      cs.Sublist cands0) ∧
    (∀ (fuel0 : Nat) (cands cs : List Sig),
      (if use_minimize_alg then refineCandsStepWithMinimize fuel0 solve tip cands
        else refineCandsStepInSequence fuel0 solve tip cands) = some cs →
      cs.Sublist cands) ∧
    (((initializeCands solve tip (Solver.new, GMap.clear) only_coi).2 = none ∧
      (if use_minimize_alg then refineCandsBaseWithMinimize fuel solve tip only_coi
        else refineCandsBaseInSequence fuel solve tip only_coi) = some (false, [])) ∨
    ∃ cands0 base cs,
      (initializeCands solve tip (Solver.new, GMap.clear) only_coi).2 = some cands0 ∧
      (if use_minimize_alg then refineCandsBaseWithMinimize fuel solve tip only_coi
        else refineCandsBaseInSequence fuel solve tip only_coi) = some (true, base) ∧
      (if use_minimize_alg then refineCandsStepWithMinimize fuel solve tip base
        else refineCandsStepInSequence fuel solve tip base) = some cs ∧
      base.Sublist cands0 ∧ cs.Sublist base) := by
  refine ⟨fun fuel0 cands0 b cs h0 h => base_sublist fuel0 solve tip _ _ cands0 b cs h0 h,
    fun fuel0 cands cs h => step_sublist fuel0 solve tip _ cands cs h, ?_⟩
  rcases base_spec hs tip hwf fuel hf use_minimize_alg only_coi with
    ⟨_, h2⟩ | ⟨cands0, base, h0, hb, hc0, hsound, _⟩
  · left
    exact ⟨(base_false_iff fuel solve tip use_minimize_alg only_coi).mp h2, h2⟩
  · right
    have hbl := base_length fuel solve tip use_minimize_alg only_coi true base hb
    have hbase : ∀ c ∈ base, tip.main.has c = true := fun c hc => hc0 c (hsound c hc).1
    obtain ⟨cs, e, _, _⟩ := stepPhase_spec hs tip hwf use_minimize_alg base hbase fuel
      (by omega)
    exact ⟨cands0, base, cs, h0, hb, e, base_sublist fuel solve tip _ _ cands0 true base h0 hb,
      step_sublist fuel solve tip _ base cs e⟩

theorem refinement_only_shrinks_witness :
    SolverCorrect bruteSolve ∧ latchTip.wf = true ∧ 2 * latchTip.main.gates.length + 2 ≤ 8 ∧
    (((initializeCands bruteSolve latchTip (Solver.new, GMap.clear) false).2 = none ∧
      refineCandsBaseInSequence 8 bruteSolve latchTip false = some (false, [])) ∨
    ∃ cands0 base cs,
      (initializeCands bruteSolve latchTip (Solver.new, GMap.clear) false).2 = some cands0 ∧
      refineCandsBaseInSequence 8 bruteSolve latchTip false = some (true, base) ∧
      refineCandsStepInSequence 8 bruteSolve latchTip base = some cs ∧
      base.Sublist cands0 ∧ cs.Sublist base) :=
  ⟨bruteSolve_correct, by decide, by decide,
    (refinement_only_shrinks bruteSolve bruteSolve_correct latchTip (by decide) 8 (by decide)
      false false).2.2⟩

/-! ## What the sequential step phase establishes -/

/-- Claim C31, as the code has it. With a correct SAT oracle and enough iterations the
sequential step-phase refinement returns, and a candidate survives it exactly when there is no
transition of `main` (from an arbitrary state) in which the candidate fails in the current
frame and holds in the next frame: the SAT call assumes the negated copy of frame 0 and the
copy of frame 1. -/
theorem stepSeq_survivors_backward (solve : SolveFn) (hs : SolverCorrect solve)
    (tip : TipCirc) (hwf : tip.wf = true) (cands : List Sig)
    (hc : ∀ c ∈ cands, tip.main.has c = true) (fuel : Nat) (hf : 2 * cands.length + 1 ≤ fuel) :
    ∃ cs, refineCandsStepInSequence fuel solve tip cands = some cs ∧
      ∀ c, c ∈ cs ↔ (c ∈ cands ∧
        ¬ ∃ τ0 τ1, tip.trans τ0 τ1 ∧ tip.main.eval τ0 c = false ∧
          tip.main.eval τ1 c = true) := by
  obtain ⟨cs, e, h1, h2⟩ := stepSeq_spec hs tip hwf cands hc fuel hf
  refine ⟨cs, e, fun c => ⟨fun hcm => ⟨(h1 c hcm).1, ?_⟩, fun ⟨hcm, hno⟩ => h2 c hcm ?_⟩⟩
  · rintro ⟨τ0, τ1, htr, h0, h1'⟩
    rw [(h1 c hcm).2 τ0 τ1 htr h1'] at h0
    cases h0
  · intro τ0 τ1 htr h1'
    cases h0 : tip.main.eval τ0 c with
    | true => rfl
    | false => exact absurd ⟨τ0, τ1, htr, h0, h1'⟩ hno

set_option maxRecDepth 1000000 in
theorem stepSeq_survivors_backward_witness :
    SolverCorrect bruteSolve ∧ latchTip.wf = true ∧
    (∀ c ∈ [(⟨1, false⟩ : Sig), ⟨2, false⟩, ⟨3, false⟩], latchTip.main.has c = true) ∧
    ∃ cs, refineCandsStepInSequence 7 bruteSolve latchTip [⟨1, false⟩, ⟨2, false⟩, ⟨3, false⟩]
        = some cs ∧
      ∀ c, c ∈ cs ↔ (c ∈ [(⟨1, false⟩ : Sig), ⟨2, false⟩, ⟨3, false⟩] ∧
        ¬ ∃ τ0 τ1, latchTip.trans τ0 τ1 ∧ latchTip.main.eval τ0 c = false ∧
          latchTip.main.eval τ1 c = true) :=
  ⟨bruteSolve_correct, by decide, by decide,
    stepSeq_survivors_backward bruteSolve bruteSolve_correct latchTip (by decide)
      [⟨1, false⟩, ⟨2, false⟩, ⟨3, false⟩] (by decide) 7 (by decide)⟩

set_option maxRecDepth 1000000 in
/-- Claim C31, counterexample: on `latchTip` (flop `x`, free input `i`, gate `a = x ∧ i`, next
value of `x` is `a`) the sequential step phase, given the candidates `x`, `i`, `a`, keeps `x`
and `a`. But in the transition from the valuation in which only `x` is true to the valuation
in which everything is false, `x` holds in the current frame and fails in the next frame. -/
theorem stepSeq_forward_counterexample :
    refineCandsStepInSequence 7 bruteSolve latchTip [⟨1, false⟩, ⟨2, false⟩, ⟨3, false⟩] =
      some [⟨1, false⟩, ⟨3, false⟩] ∧
    latchTip.trans (fun g => decide (g = 1)) (fun _ => false) ∧
    latchTip.main.eval (fun g => decide (g = 1)) ⟨1, false⟩ = true ∧
    latchTip.main.eval (fun _ => false) ⟨1, false⟩ = false := by
  refine ⟨by decide, ?_, by decide, by decide⟩
  unfold TipCirc.trans
  decide

/-! ## One pruning iteration of the sequential step phase -/

theorem stepKeep_false_iff (s : Solver) (cm umap0 umap1 : GMap Sig) (m : Nat → Bool)
    (x p0 p1 : Sig) (h0 : lookupO cm (mapSig umap0 x) = some p0)
    (h1 : lookupO cm (mapSig umap1 x) = some p1) :
    stepKeep s cm umap0 umap1 m x = false ↔
      (s.modelValue m p0 = l_False ∧ s.modelValue m p1 = l_True) := by
  unfold stepKeep
  simp only [h0, h1, Bool.or_eq_false_iff, decide_eq_false_iff_not, modelValue_true_iff,
    modelValue_false_iff]
  simp

/-- Claim C32, as the code has it. In the sequential step-phase refinement, when the SAT call
for candidate `i` (assuming its copy of frame 0 false and its copy of frame 1 true) succeeds,
the loop continues at the same index with the list in which the candidates before position
`i` are as they were and, among the positions from `i` on, exactly the candidates whose
frame-0 copy is false and whose frame-1 copy is true in the model are removed; candidate `i`
is one of them. -/
theorem step_prune_false_and_true (solve : SolveFn) (hs : SolverCorrect solve) (s : Solver)
    (cm umap0 umap1 : GMap Sig) (fuel i : Nat) (cands : List Sig) (c l0 l1 : Sig)
    (m : Nat → Bool) (hci : cands[i]? = some c)
    (hl0 : lookupO cm (mapSig umap0 c) = some l0)
    (hl1 : lookupO cm (mapSig umap1 c) = some l1)
    (hsol : solve s [l0.neg, l1] = some m) :
    stepSeqLoop solve s cm umap0 umap1 (fuel + 1) i cands =
      stepSeqLoop solve s cm umap0 umap1 fuel i
        (cands.take i ++ (cands.drop i).filter (stepKeep s cm umap0 umap1 m)) ∧
    (s.modelValue m l0 = l_False ∧ s.modelValue m l1 = l_True) ∧
    c ∈ cands.drop i ∧
    c ∉ (cands.drop i).filter (stepKeep s cm umap0 umap1 m) ∧
    ∀ x ∈ cands.drop i, ∀ p0 p1, lookupO cm (mapSig umap0 x) = some p0 →
      lookupO cm (mapSig umap1 x) = some p1 →
      (x ∉ (cands.drop i).filter (stepKeep s cm umap0 umap1 m) ↔
        (s.modelValue m p0 = l_False ∧ s.modelValue m p1 = l_True)) := by
  have hmod : s.modelValue m l0 = l_False ∧ s.modelValue m l1 = l_True := by
    have h := (hs s [l0.neg, l1]).1 m hsol
    simp only [Solver.holds, List.all_cons, List.all_nil, Bool.and_true, Bool.and_eq_true,
      eval_neg, Bool.not_eq_true'] at h
    simp [Solver.modelValue, h.2.1, h.2.2]
  have hmem : c ∈ cands.drop i := by
    have : (cands.drop i)[0]? = some c := by rw [List.getElem?_drop]; simpa using hci
    exact List.getElem?_mem this
  have hall : ∀ x ∈ cands.drop i, ∀ p0 p1, lookupO cm (mapSig umap0 x) = some p0 →
      lookupO cm (mapSig umap1 x) = some p1 →
      (x ∉ (cands.drop i).filter (stepKeep s cm umap0 umap1 m) ↔
        (s.modelValue m p0 = l_False ∧ s.modelValue m p1 = l_True)) := by
    intro x hx p0 p1 h0 h1
    rw [← stepKeep_false_iff s cm umap0 umap1 m x p0 p1 h0 h1, List.mem_filter]
    simp [hx]
  refine ⟨?_, hmod, hmem, (hall c hmem l0 l1 hl0 hl1).mpr hmod, hall⟩
  simp only [stepSeqLoop, hci, hl0, hl1, hsol]

set_option maxRecDepth 1000000 in
theorem step_prune_false_and_true_witness :
    SolverCorrect bruteSolve ∧
    stepSeqLoop bruteSolve latchPairs.1 latchPairs.2 (unrollTwo latchTip).2.1
        (unrollTwo latchTip).2.2 (6 + 1) 1 [⟨1, false⟩, ⟨2, false⟩, ⟨3, false⟩] =
      stepSeqLoop bruteSolve latchPairs.1 latchPairs.2 (unrollTwo latchTip).2.1
        (unrollTwo latchTip).2.2 6 1
        (([⟨1, false⟩, ⟨2, false⟩, ⟨3, false⟩] : List Sig).take 1 ++
          (([⟨1, false⟩, ⟨2, false⟩, ⟨3, false⟩] : List Sig).drop 1).filter
            (stepKeep latchPairs.1 latchPairs.2 (unrollTwo latchTip).2.1 (unrollTwo latchTip).2.2
              (asgOfList [false, false, false, true, false]))) ∧
    (latchPairs.1.modelValue (asgOfList [false, false, false, true, false]) ⟨2, false⟩ =
        l_False ∧
      latchPairs.1.modelValue (asgOfList [false, false, false, true, false]) ⟨4, false⟩ =
        l_True) :=
  ⟨bruteSolve_correct,
    (step_prune_false_and_true bruteSolve bruteSolve_correct latchPairs.1 latchPairs.2
      (unrollTwo latchTip).2.1 (unrollTwo latchTip).2.2 6 1
      [⟨1, false⟩, ⟨2, false⟩, ⟨3, false⟩] ⟨2, false⟩ ⟨2, false⟩ ⟨4, false⟩
      (asgOfList [false, false, false, true, false]) rfl rfl rfl rfl).1,
    (step_prune_false_and_true bruteSolve bruteSolve_correct latchPairs.1 latchPairs.2
      (unrollTwo latchTip).2.1 (unrollTwo latchTip).2.2 6 1
      [⟨1, false⟩, ⟨2, false⟩, ⟨3, false⟩] ⟨2, false⟩ ⟨2, false⟩ ⟨4, false⟩
      (asgOfList [false, false, false, true, false]) rfl rfl rfl rfl).2.1⟩

set_option maxRecDepth 1000000 in
/-- Claim C32, counterexample: on `latchTip` with the candidates `x`, `i`, `a`, the SAT call
for candidate `i` (position 1) succeeds. In its model the frame-0 copy of `a` (literal 3) is
false and its frame-1 copy (literal 5) is false too: `a` is a candidate whose frame-0 copy is
false, and it is kept. The loop removes `i` only and returns `x` and `a`. -/
theorem step_prune_or_counterexample :
    lookupO latchPairs.2 (mapSig (unrollTwo latchTip).2.1 ⟨2, false⟩) = some ⟨2, false⟩ ∧
    lookupO latchPairs.2 (mapSig (unrollTwo latchTip).2.2 ⟨2, false⟩) = some ⟨4, false⟩ ∧
    lookupO latchPairs.2 (mapSig (unrollTwo latchTip).2.1 ⟨3, false⟩) = some ⟨3, false⟩ ∧
    lookupO latchPairs.2 (mapSig (unrollTwo latchTip).2.2 ⟨3, false⟩) = some ⟨5, false⟩ ∧
    (bruteSolve latchPairs.1 [⟨2, true⟩, ⟨4, false⟩]).map
      (fun m => (latchPairs.1.modelValue m ⟨3, false⟩, latchPairs.1.modelValue m ⟨5, false⟩,
        ([⟨2, false⟩, ⟨3, false⟩] : List Sig).filter
          (stepKeep latchPairs.1 latchPairs.2 (unrollTwo latchTip).2.1
            (unrollTwo latchTip).2.2 m))) =
      some (l_False, l_False, [⟨3, false⟩]) ∧
    stepSeqLoop bruteSolve latchPairs.1 latchPairs.2 (unrollTwo latchTip).2.1
        (unrollTwo latchTip).2.2 7 1 [⟨1, false⟩, ⟨2, false⟩, ⟨3, false⟩] =
      some [⟨1, false⟩, ⟨3, false⟩] := by
  decide

/-! ## Termination of `solveMinimum` -/

theorem getLast_cons_orElse {α : Type} (m : α) (ms : List α) (min : Option α) :
    ((m :: ms).getLast?).orElse (fun _ => min) = (ms.getLast?).orElse (fun _ => some m) := by
  cases ms with
  | nil => rfl
  | cons b l =>
    rw [List.getLast?_cons_cons]
    cases h : (b :: l).getLast? with
    | none => simp at h
    | some x => rfl

/-- The loop of `solveMinimum` returns whenever the recording loop does, with the last
recorded model as `min_model` (the model at entry when no call was satisfiable). -/
theorem solveMinLoop_trace (solve : SolveFn) (assumps ps : List Sig) (trigger : Option Sig) :
    ∀ (fuel : Nat) (s : Solver) (assume : List Sig) (min : Option (Nat → Bool)),
      (solveMinLoop solve assumps ps trigger fuel s assume min).map (fun r => r.2) =
        (solveMinTrace solve assumps ps trigger fuel s assume).map
          (fun ms => (ms.getLast?).orElse (fun _ => min)) := by
  intro fuel
  induction fuel with
  | zero => intro s assume min; rfl
  | succ fuel ih =>
    intro s assume min
    simp only [solveMinLoop, solveMinTrace]
    cases hsol : solve s (assume ++ trigger.toList) with
    | none => rfl
    | some m =>
      simp only []
      rw [ih, Option.map_map]
      cases solveMinTrace solve assumps ps trigger fuel
        (s.addClause ((ps.filter (fun p => decide (s.modelValue m p ≠ l_False))).map Sig.neg ++
          trigger.toList.map Sig.neg))
        (assumps ++ (ps.filter (fun p => decide (s.modelValue m p = l_False))).map Sig.neg) with
      | none => rfl
      | some ms =>
        simp only [Option.map_some', Function.comp]
        rw [getLast_cons_orElse]

theorem solveMinTrace_next {solve : SolveFn} (hs : SolverCorrect solve) (assumps ps : List Sig)
    (trigger : Option Sig) (A : Circ) :
    ∀ (fuel : Nat) (s : Solver) (m : Nat → Bool),
      s.arena = A →
      ((ps.filter (fun p => decide (s.modelValue m p ≠ l_False))).map Sig.neg ++
        trigger.toList.map Sig.neg) ∈ s.clauses →
      (ps.filter (fun p => A.eval m p)).length + 1 ≤ fuel →
      ∃ ms, solveMinTrace solve assumps ps trigger fuel s
          (assumps ++ (ps.filter (fun p => decide (s.modelValue m p = l_False))).map Sig.neg)
          = some ms ∧
        ms.length ≤ (ps.filter (fun p => A.eval m p)).length ∧
        List.Chain (ProperSub A ps) m ms := by
  intro fuel
  induction fuel with
  | zero => intro s m _ _ hf; omega
  | succ fuel ih =>
    intro s m ha hhead hf
    simp only [solveMinTrace]
    cases hsol : solve s ((assumps ++ (ps.filter (fun p =>
        decide (s.modelValue m p = l_False))).map Sig.neg) ++ trigger.toList) with
    | none => exact ⟨[], rfl, Nat.zero_le _, List.Chain.nil⟩
    | some m2 =>
      simp only []
      have hh := (holds_all_iff _ _ _).mp ((hs _ _).1 m2 hsol)
      have hcl := (holds_nil_iff _ _).mp hh.1
      have hA := hh.2
      rw [ha] at hA hcl
      have hsub : ∀ p ∈ ps, A.eval m2 p = true → A.eval m p = true := by
        intro p hp h2
        cases hv : A.eval m p with
        | true => rfl
        | false =>
          have := hA p.neg (List.mem_append.mpr (Or.inl (List.mem_append.mpr (Or.inr
            (List.mem_map.mpr ⟨p, List.mem_filter.mpr ⟨hp, by
              simp [modelValue_false_iff, ha, hv]⟩, rfl⟩)))))
          rw [eval_neg, h2] at this
          cases this
      have hstrict : ∃ p ∈ ps, A.eval m p = true ∧ A.eval m2 p = false := by
        obtain ⟨l, hl, hv⟩ := hcl _ hhead
        rcases List.mem_append.mp hl with h1 | h1
        · obtain ⟨p, hp, rfl⟩ := List.mem_map.mp h1
          obtain ⟨hp1, hp2⟩ := List.mem_filter.mp hp
          rw [modelValue_ne_false, ha] at hp2
          refine ⟨p, hp1, hp2, ?_⟩
          rw [eval_neg] at hv
          simpa using hv
        · obtain ⟨t, ht, rfl⟩ := List.mem_map.mp h1
          have := hA t (List.mem_append.mpr (Or.inr ht))
          rw [eval_neg, this] at hv
          cases hv
      have hlt := filter_length_lt (fun p => A.eval m2 p) (fun p => A.eval m p) ps hsub hstrict
      obtain ⟨ms, e, hlen, hch⟩ := ih (s.addClause ((ps.filter (fun p =>
          decide (s.modelValue m2 p ≠ l_False))).map Sig.neg ++ trigger.toList.map Sig.neg)) m2
        ha (List.mem_cons_self _ _) (by omega)
      refine ⟨m2 :: ms, ?_, ?_, List.Chain.cons ⟨hsub, hstrict⟩ hch⟩
      · have e2 : solveMinTrace solve assumps ps trigger fuel
            (s.addClause ((ps.filter (fun p =>
              decide (s.modelValue m2 p ≠ l_False))).map Sig.neg ++ trigger.toList.map Sig.neg))
            (assumps ++ (ps.filter (fun p => decide (s.modelValue m2 p = l_False))).map Sig.neg)
            = some ms := e
        rw [e2]
        rfl
      · simp only [List.length_cons]
        omega

theorem chain_last_of_stuck {α : Type} (R : α → α → Prop) :
    ∀ (l : List α) (a : α), List.Chain' R l → a ∈ l → (∀ b, ¬ R a b) → l.getLast? = some a
  | [], _, _, h, _ => by cases h
  | [x], a, _, h, _ => by
    simp only [List.mem_singleton] at h
    rw [h]
    rfl
  | x :: y :: l, a, hc, h, hn => by
    have hxy : R x y := (List.chain'_cons.mp hc).1
    have hne : a ≠ x := fun e => hn y (e ▸ hxy)
    have hmem : a ∈ y :: l := by
      rcases List.mem_cons.mp h with e | e
      · exact absurd e hne
      · exact e
    rw [List.getLast?_cons_cons]
    exact chain_last_of_stuck R (y :: l) a (List.chain'_cons.mp hc).2 hmem hn

/-- Claim C34. With a correct SAT oracle, `solveMinimum` terminates for every solver state,
every assumption list, every list `ps` and every trigger: an iteration budget of `|ps| + 2`
is enough for the loop to return. The models `ms` of its satisfiable solve calls, in order,
are such that in each model after the first the true literals of `ps` are a proper subset of
those true in the model before; there are at most `|ps| + 1` of them, so the loop makes at
most `|ps| + 2` solve calls (one more than there are models). The procedure returns the last
of these models as `min_model`. A model in which no literal of `ps` is true is the last one:
the solve call after it fails (without a trigger its blocking clause is the empty clause). -/
theorem solveMinimum_terminates (solve : SolveFn) (hs : SolverCorrect solve) (s : Solver)
    (assumps ps : List Sig) (trigger : Option Sig) (fuel : Nat) (hf : ps.length + 2 ≤ fuel) :
    ∃ ms s', solveMinTrace solve assumps ps trigger fuel s assumps = some ms ∧
      solveMinimum fuel solve s assumps ps trigger = some (s', ms.getLast?) ∧
      ms.length + 1 ≤ ps.length + 2 ∧
      List.Chain' (ProperSub s.arena ps) ms ∧
      (∀ m ∈ ms, (∀ p ∈ ps, s.arena.eval m p = false) → ms.getLast? = some m) ∧
      (∀ m : Nat → Bool, trigger = none → (∀ p ∈ ps, s.modelValue m p = l_False) →
        (ps.filter (fun p => decide (s.modelValue m p ≠ l_False))).map Sig.neg ++
          trigger.toList.map Sig.neg = []) := by
  have key : ∃ ms, solveMinTrace solve assumps ps trigger fuel s assumps = some ms ∧
      ms.length + 1 ≤ ps.length + 2 ∧ List.Chain' (ProperSub s.arena ps) ms := by
    obtain ⟨k, rfl⟩ : ∃ k, fuel = k + 1 := ⟨fuel - 1, by omega⟩
    simp only [solveMinTrace]
    cases hsol : solve s (assumps ++ trigger.toList) with
    | none => exact ⟨[], rfl, by simp, List.chain'_nil⟩
    | some m =>
      simp only []
      have hlen := List.length_filter_le (fun p => s.arena.eval m p) ps
      obtain ⟨ms, e, hl, hch⟩ := solveMinTrace_next hs assumps ps trigger s.arena k
        (s.addClause ((ps.filter (fun p => decide (s.modelValue m p ≠ l_False))).map Sig.neg ++
          trigger.toList.map Sig.neg)) m rfl (List.mem_cons_self _ _) (by omega)
      have e2 : solveMinTrace solve assumps ps trigger k
          (s.addClause ((ps.filter (fun p =>
            decide (s.modelValue m p ≠ l_False))).map Sig.neg ++ trigger.toList.map Sig.neg))
          (assumps ++ (ps.filter (fun p => decide (s.modelValue m p = l_False))).map Sig.neg)
          = some ms := e
      refine ⟨m :: ms, by rw [e2]; rfl, ?_, hch⟩
      simp only [List.length_cons]
      omega
  obtain ⟨ms, e, hlen, hch⟩ := key
  have hmin := solveMinLoop_trace solve assumps ps trigger fuel s assumps none
  have hnone : (ms.getLast?).orElse (fun _ => (none : Option (Nat → Bool))) = ms.getLast? := by
    cases ms.getLast? <;> rfl
  rw [e, Option.map_some', hnone] at hmin
  obtain ⟨r, hr, hr2⟩ := Option.map_eq_some'.mp hmin
  refine ⟨ms, r.1, e, ?_, hlen, hch, fun m hm hz => ?_, fun m ht hz => ?_⟩
  · show solveMinLoop solve assumps ps trigger fuel s assumps none = _
    rw [hr, ← hr2]
  · refine chain_last_of_stuck _ ms m hch hm (fun b hb => ?_)
    obtain ⟨p, hp, h1, _⟩ := hb.2
    rw [hz p hp] at h1
    cases h1
  · rw [ht]
    have : ps.filter (fun p => decide (s.modelValue m p ≠ l_False)) = [] := by
      rw [List.filter_eq_nil_iff]
      intro p hp
      simp [hz p hp]
    rw [this]
    rfl

set_option maxRecDepth 100000 in
theorem solveMinimum_terminates_witness :
    SolverCorrect bruteSolve ∧ [(⟨1, false⟩ : Sig), ⟨2, false⟩].length + 2 ≤ 4 ∧
    (∃ ms s', solveMinTrace bruteSolve [] [⟨1, false⟩, ⟨2, false⟩] (some ⟨3, false⟩) 4
          minSolver [] = some ms ∧
      solveMinimum 4 bruteSolve minSolver [] [⟨1, false⟩, ⟨2, false⟩] (some ⟨3, false⟩) =
        some (s', ms.getLast?) ∧
      ms.length + 1 ≤ [(⟨1, false⟩ : Sig), ⟨2, false⟩].length + 2 ∧
      List.Chain' (ProperSub minSolver.arena [⟨1, false⟩, ⟨2, false⟩]) ms ∧
      (∀ m ∈ ms, (∀ p ∈ [(⟨1, false⟩ : Sig), ⟨2, false⟩], minSolver.arena.eval m p = false) →
        ms.getLast? = some m) ∧
      (∀ m : Nat → Bool, some (⟨3, false⟩ : Sig) = none →
        (∀ p ∈ [(⟨1, false⟩ : Sig), ⟨2, false⟩], minSolver.modelValue m p = l_False) →
        ([(⟨1, false⟩ : Sig), ⟨2, false⟩].filter
          (fun p => decide (minSolver.modelValue m p ≠ l_False))).map Sig.neg ++
          (some (⟨3, false⟩ : Sig)).toList.map Sig.neg = [])) ∧
    (solveMinTrace bruteSolve [] [⟨1, false⟩, ⟨2, false⟩] (some ⟨3, false⟩) 4 minSolver []).map
      (fun ms => ms.map (fun m => [m 1, m 2, m 3])) = some [[false, true, true]] :=
  ⟨bruteSolve_correct, by decide,
    solveMinimum_terminates bruteSolve bruteSolve_correct minSolver [] [⟨1, false⟩, ⟨2, false⟩]
      (some ⟨3, false⟩) 4 (by decide),
    by decide⟩

/-! ## The values of the gates that the stable embedding builds -/

theorem mkAnd_lift (c : Circ) (hok : c.ok = true) (x y : Sig) (hx : c.has x = true)
    (hy : c.has y = true) :
    (c.mkAnd x y).1.ok = true ∧ Ext c (c.mkAnd x y).1 ∧
      (c.mkAnd x y).1.has (c.mkAnd x y).2 = true ∧
      ∀ Cf, Ext (c.mkAnd x y).1 Cf → ∀ σ,
        Cf.eval σ (c.mkAnd x y).2 = (Cf.eval σ x && Cf.eval σ y) := by
  obtain ⟨h1, h2, h3, h4⟩ := mkAnd_spec c hok x y hx hy
  refine ⟨h2, h1, h3, fun Cf he σ => ?_⟩
  rw [he.eval σ h3, h4 σ, he.eval σ (h1.has hx), he.eval σ (h1.has hy)]

theorem mkOr_lift (c : Circ) (hok : c.ok = true) (x y : Sig) (hx : c.has x = true)
    (hy : c.has y = true) :
    (c.mkOr x y).1.ok = true ∧ Ext c (c.mkOr x y).1 ∧
      (c.mkOr x y).1.has (c.mkOr x y).2 = true ∧
      ∀ Cf, Ext (c.mkOr x y).1 Cf → ∀ σ,
        Cf.eval σ (c.mkOr x y).2 = (Cf.eval σ x || Cf.eval σ y) := by
  obtain ⟨h1, h2, h3, h4⟩ := mkOr_spec c hok x y hx hy
  refine ⟨h2, h1, h3, fun Cf he σ => ?_⟩
  rw [he.eval σ h3, h4 σ, he.eval σ (h1.has hx), he.eval σ (h1.has hy)]

theorem mkInp_lift (c : Circ) (hok : c.ok = true) (n : Nat) :
    (c.mkInp n).1.ok = true ∧ Ext c (c.mkInp n).1 ∧
      (c.mkInp n).1.has (c.mkInp n).2 = true ∧
      (c.mkInp n).2.gate = c.gates.length + 1 ∧
      ∀ Cf, Cf.ok = true → Ext (c.mkInp n).1 Cf → ∀ σ,
        Cf.eval σ (c.mkInp n).2 = σ (c.mkInp n).2.gate := by
  obtain ⟨h1, h2, h3, _, _⟩ := mkInp_spec c hok n
  refine ⟨h2, h1, h3, rfl, fun Cf hCf he σ => ?_⟩
  exact eval_gate_inp hCf σ (defAt_ext he (defAt_mkInp c n))

theorem embedBroken_spec (challenged : Sig) :
    ∀ (fs : List Sig) (main : Circ) (flps : List Flop),
      main.ok = true → main.has challenged = true → (∀ f ∈ fs, main.has f = true) →
      (embedBroken challenged fs main flps).1.1.ok = true ∧
      Ext main (embedBroken challenged fs main flps).1.1 ∧
      (∀ sj ∈ (embedBroken challenged fs main flps).2,
        (embedBroken challenged fs main flps).1.1.has sj = true) ∧
      ∃ new, (embedBroken challenged fs main flps).1.2 = flps ++ new ∧
        new.length = fs.length ∧
        (∀ b ∈ new, (embedBroken challenged fs main flps).1.1.has b.next = true) ∧
        (∀ b ∈ new, ∃ f ∈ fs, ∃ sj ∈ (embedBroken challenged fs main flps).2,
          StableRel (embedBroken challenged fs main flps).1.1 challenged b f sj) ∧
        (∀ sj ∈ (embedBroken challenged fs main flps).2, ∃ b ∈ new, ∃ f ∈ fs,
          StableRel (embedBroken challenged fs main flps).1.1 challenged b f sj) := by
  intro fs
  induction fs with
  | nil =>
    intro main flps hok _ _
    exact ⟨hok, Ext.refl _, fun sj h => by simp [embedBroken] at h, [],
      by simp [embedBroken], rfl, fun b h => by simp at h, fun b h => by simp at h,
      fun sj h => by simp [embedBroken] at h⟩
  | cons s fs ih =>
    intro main flps hok hch hfs
    have hs : main.has s = true := hfs s (List.mem_cons_self _ _)
    have spb := mkInp_lift main hok UINT32_MAX
    have sa := mkAnd_lift (main.mkInp UINT32_MAX).1 spb.1 s.neg challenged
      (by rw [has_neg]; exact spb.2.1.has hs) (spb.2.1.has hch)
    simp only [embedBroken]
    generalize hpb : main.mkInp UINT32_MAX = pb at spb sa
    generalize ha : pb.1.mkAnd s.neg challenged = a at sa
    have sbr := mkOr_lift a.1 sa.1 a.2 pb.2 sa.2.2.1 (sa.2.1.has spb.2.2.1)
    generalize hbr : a.1.mkOr a.2 pb.2 = broken at sbr
    have e03 : Ext main broken.1 := (spb.2.1.trans sa.2.1).trans sbr.2.1
    have sb := mkAnd_lift broken.1 sbr.1 s broken.2.neg (e03.has hs)
      (by rw [has_neg]; exact sbr.2.2.1)
    generalize hb : broken.1.mkAnd s broken.2.neg = b at sb
    have ssj := mkAnd_lift b.1 sb.1 challenged b.2 ((e03.trans sb.2.1).has hch) sb.2.2.1
    generalize hsj : b.1.mkAnd challenged b.2 = sj at ssj
    have e05 : Ext main sj.1 := (e03.trans sb.2.1).trans ssj.2.1
    obtain ⟨okf, e3, hsjs, new, h1, hlen, hN, hB, hS⟩ :=
      ih sj.1 (defineFlop flps pb.2.gate broken.2) ssj.1 (e05.has hch)
        (fun f hf => e05.has (hfs f (List.mem_cons_of_mem _ hf)))
    have hrel : StableRel (embedBroken challenged fs sj.1
        (defineFlop flps pb.2.gate broken.2)).1.1 challenged
        ⟨pb.2.gate, sig_False, broken.2⟩ s sj.2 := by
      intro σ
      have v1 := ssj.2.2.2 _ e3 σ
      have v2 := sb.2.2.2 _ (ssj.2.1.trans e3) σ
      have v3 := sbr.2.2.2 _ ((sb.2.1.trans ssj.2.1).trans e3) σ
      have v4 := sa.2.2.2 _ (((sbr.2.1.trans sb.2.1).trans ssj.2.1).trans e3) σ
      have v5 := spb.2.2.2.2 _ okf
        ((((sa.2.1.trans sbr.2.1).trans sb.2.1).trans ssj.2.1).trans e3) σ
      rw [eval_neg] at v2 v4
      refine ⟨?_, ?_⟩
      · show _ = ((!_ && _) || σ pb.2.gate)
        rw [v3, v4, v5]
      · rw [v1, v2]
    refine ⟨okf, e05.trans e3, ?_, ⟨pb.2.gate, sig_False, broken.2⟩ :: new, ?_, ?_, ?_, ?_, ?_⟩
    · intro x hx
      rcases List.mem_cons.mp hx with rfl | h
      · exact e3.has ssj.2.2.1
      · exact hsjs x h
    · rw [h1]; simp [defineFlop]
    · simp [hlen]
    · intro x hx
      rcases List.mem_cons.mp hx with rfl | h
      · exact ((sb.2.1.trans ssj.2.1).trans e3).has sbr.2.2.1
      · exact hN x h
    · intro x hx
      rcases List.mem_cons.mp hx with rfl | h
      · exact ⟨s, List.mem_cons_self _ _, sj.2, List.mem_cons_self _ _, hrel⟩
      · obtain ⟨f, hf, y, hy, hr⟩ := hB x h
        exact ⟨f, List.mem_cons_of_mem _ hf, y, List.mem_cons_of_mem _ hy, hr⟩
    · intro y hy
      rcases List.mem_cons.mp hy with rfl | h
      · exact ⟨_, List.mem_cons_self _ _, s, List.mem_cons_self _ _, hrel⟩
      · obtain ⟨x, hx, f, hf, hr⟩ := hS y h
        exact ⟨x, List.mem_cons_of_mem _ hx, f, List.mem_cons_of_mem _ hf, hr⟩

theorem embedAccept_spec :
    ∀ (ss : List Sig) (main : Circ) (accept : Sig),
      main.ok = true → main.has accept = true → (∀ s ∈ ss, main.has s = true) →
      (embedAccept ss main accept).1.ok = true ∧
      (embedAccept ss main accept).1.has (embedAccept ss main accept).2 = true ∧
      ∀ σ, (embedAccept ss main accept).1.eval σ (embedAccept ss main accept).2 =
        ((embedAccept ss main accept).1.eval σ accept &&
          ss.all (fun s => (embedAccept ss main accept).1.eval σ s)) := by
  intro ss
  induction ss with
  | nil =>
    intro main accept hok ha _
    exact ⟨hok, ha, fun σ => by simp [embedAccept]⟩
  | cons s ss ih =>
    intro main accept hok ha hss
    have sm := mkAnd_lift main hok accept s ha (hss s (List.mem_cons_self _ _))
    obtain ⟨h1, h2, h3⟩ := ih (main.mkAnd accept s).1 (main.mkAnd accept s).2 sm.1 sm.2.2.1
      (fun x hx => sm.2.1.has (hss x (List.mem_cons_of_mem _ hx)))
    simp only [embedAccept]
    refine ⟨h1, h2, fun σ => ?_⟩
    rw [h3 σ, sm.2.2.2 _ (embedAccept_ext _ _ _) σ, List.all_cons, Bool.and_assoc]

theorem embedStable_spec (S : List Sig) (main : Circ) (flps : List Flop)
    (hok : main.ok = true) (hS : ∀ s ∈ S, main.has s = true) :
    (embedStable S main flps).1.1.ok = true ∧
    Ext main (embedStable S main flps).1.1 ∧
    (embedStable S main flps).1.1.has (embedStable S main flps).2 = true ∧
    ∃ (pc : Flop) (pbs : List Flop) (sjs : List Sig),
      (embedStable S main flps).1.2 = flps ++ pc :: pbs ∧
      pbs.length = S.length ∧
      pc.gate = main.gates.length + 2 ∧
      (∀ σ, (embedStable S main flps).1.1.eval σ pc.next =
        (σ (main.gates.length + 1) || σ (main.gates.length + 2))) ∧
      (∀ b ∈ pbs, ∃ f ∈ S, ∃ sj ∈ sjs,
        StableRel (embedStable S main flps).1.1 pc.next b f sj) ∧
      (∀ sj ∈ sjs, ∃ b ∈ pbs, ∃ f ∈ S,
        StableRel (embedStable S main flps).1.1 pc.next b f sj) ∧
      ∀ σ, (embedStable S main flps).1.1.eval σ (embedStable S main flps).2 =
        sjs.all (fun s => (embedStable S main flps).1.1.eval σ s) := by
  have sch := mkInp_lift main hok UINT32_MAX
  have spc := mkInp_lift (main.mkInp UINT32_MAX).1 sch.1 UINT32_MAX
  have l1 : (main.mkInp UINT32_MAX).1.gates.length = main.gates.length + 1 := by
    simp [Circ.mkInp]
  rw [l1] at spc
  simp only [embedStable]
  generalize hch : main.mkInp UINT32_MAX = ch at sch spc
  generalize hpc : ch.1.mkInp UINT32_MAX = pc at spc
  have scd := mkOr_lift pc.1 spc.1 ch.2 pc.2 (spc.2.1.has sch.2.2.1) spc.2.2.1
  generalize hcd : pc.1.mkOr ch.2 pc.2 = cd at scd
  have e0 : Ext main cd.1 := (sch.2.1.trans spc.2.1).trans scd.2.1
  obtain ⟨okb, eb, hsjs, new, h1, hlen, hN, hB, hSj⟩ :=
    embedBroken_spec cd.2 S cd.1 (defineFlop flps pc.2.gate cd.2) scd.1 scd.2.2.1
      (fun f hf => e0.has (hS f hf))
  generalize hbr : embedBroken cd.2 S cd.1 (defineFlop flps pc.2.gate cd.2) = br at *
  have hT : br.1.1.has sig_True = true := by simp [Circ.has, sig_True, gate_True]
  obtain ⟨oka, hha, hva⟩ := embedAccept_spec br.2 br.1.1 sig_True okb hT hsjs
  have ea := embedAccept_ext br.2 br.1.1 sig_True
  generalize hac : embedAccept br.2 br.1.1 sig_True = ac at *
  have lift : ∀ (b : Flop) (f sj : Sig), br.1.1.has b.next = true → br.1.1.has f = true →
      br.1.1.has sj = true → StableRel br.1.1 cd.2 b f sj → StableRel ac.1 cd.2 b f sj := by
    intro b f sj hb hf hsj hr σ
    rw [ea.eval σ hb, ea.eval σ hf, ea.eval σ hsj, ea.eval σ (eb.has scd.2.2.1)]
    exact hr σ
  have e1 : Ext main ac.1 := (e0.trans eb).trans ea
  have hgpc : pc.2.gate = main.gates.length + 2 := spc.2.2.2.1
  refine ⟨oka, e1, hha, ⟨pc.2.gate, sig_False, cd.2⟩, new, br.2, ?_, hlen, hgpc, fun σ => ?_,
    fun b hb => ?_, fun sj hsj => ?_, fun σ => ?_⟩
  · rw [h1]; simp [defineFlop]
  · show ac.1.eval σ cd.2 = _
    rw [scd.2.2.2 _ (eb.trans ea) σ,
      sch.2.2.2.2 _ oka (((spc.2.1.trans scd.2.1).trans eb).trans ea) σ,
      spc.2.2.2.2 _ oka ((scd.2.1.trans eb).trans ea) σ, sch.2.2.2.1, hgpc]
  · obtain ⟨f, hf, sj, hsj, hr⟩ := hB b hb
    exact ⟨f, hf, sj, hsj, lift b f sj (hN b hb) ((e0.trans eb).has (hS f hf)) (hsjs sj hsj) hr⟩
  · obtain ⟨b, hb, f, hf, hr⟩ := hSj sj hsj
    exact ⟨b, hb, f, hf, lift b f sj (hN b hb) ((e0.trans eb).has (hS f hf)) (hsjs sj hsj) hr⟩
  · rw [hva σ, eval_sig_True, Bool.true_and]

theorem sticky_of_step (P : Nat → Prop) (h : ∀ t, P t → P (t + 1)) :
    ∀ t t', t ≤ t' → P t → P t' := by
  intro t t' hle h0
  induction t', hle using Nat.le_induction with
  | base => exact h0
  | succ n _ ih => exact h n ih

/-- Claim C36. In the stable embedding of a liveness property with status Unknown over a
well-formed arena, the loop body adds the flop `pre_challenged`, whose next-state signal is
`challenged = challenge ∨ pre_challenged`, and one flop `pre_broken[j]` per signal, whose
next-state signal is `broken[j] = (¬fairs[j] ∧ challenged) ∨ pre_broken[j]`. Along every run
of the embedded circuit (every sequence of valuations in which each flop takes the value of
its next-state signal in the cycle before, from any state): if `challenged` is true at a cycle
it is true at every later cycle, if `broken[j]` is true at a cycle it is true at every later
cycle, and once `accept` is false at a cycle where `challenged` is true, `accept` is false at
every later cycle. -/
theorem embedFairness_stable_sticky (fairs : List Sig) (main : Circ) (flps : List Flop)
    (p : LivePropData) (hu : p.stat = pstat_Unknown) (hok : main.ok = true)
    (hS : ∀ s ∈ fairs ++ p.sigs, main.has s = true) (τ : Nat → Nat → Bool)
    (hrun : ∀ t, ∀ f ∈ (embedProp true fairs (main, flps) p).1.2,
      τ (t + 1) f.gate = (embedProp true fairs (main, flps) p).1.1.eval (τ t) f.next) :
    ∃ (pc : Flop) (pbs : List Flop) (accept : Sig),
      (embedProp true fairs (main, flps) p).1.2 = flps ++ pc :: pbs ∧
      pbs.length = (fairs ++ p.sigs).length ∧
      (embedProp true fairs (main, flps) p).2.sigs = [accept] ∧
      (∀ σ, (embedProp true fairs (main, flps) p).1.1.eval σ pc.next =
        (σ (main.gates.length + 1) || σ pc.gate)) ∧
      (∀ b ∈ pbs, ∃ f ∈ fairs ++ p.sigs, ∀ σ,
        (embedProp true fairs (main, flps) p).1.1.eval σ b.next =
          ((!(embedProp true fairs (main, flps) p).1.1.eval σ f &&
            (embedProp true fairs (main, flps) p).1.1.eval σ pc.next) || σ b.gate)) ∧
      (∀ t t', t ≤ t' → (embedProp true fairs (main, flps) p).1.1.eval (τ t) pc.next = true →
        (embedProp true fairs (main, flps) p).1.1.eval (τ t') pc.next = true) ∧
      (∀ b ∈ pbs, ∀ t t', t ≤ t' →
        (embedProp true fairs (main, flps) p).1.1.eval (τ t) b.next = true →
        (embedProp true fairs (main, flps) p).1.1.eval (τ t') b.next = true) ∧
      (∀ t t', t ≤ t' → (embedProp true fairs (main, flps) p).1.1.eval (τ t) accept = false →
        (embedProp true fairs (main, flps) p).1.1.eval (τ t) pc.next = true →
        (embedProp true fairs (main, flps) p).1.1.eval (τ t') accept = false) := by
  have e : embedProp true fairs (main, flps) p =
      ((embedStable (fairs ++ p.sigs) main flps).1,
        { p with sigs := [(embedStable (fairs ++ p.sigs) main flps).2] }) := by
    simp [embedProp, hu, embedOne]
  rw [e] at hrun
  rw [e]
  obtain ⟨_, _, _, pc, pbs, sjs, hfl, hlen, hg, hcd, hB, hSj, hacc⟩ :=
    embedStable_spec (fairs ++ p.sigs) main flps hok hS
  generalize (embedStable (fairs ++ p.sigs) main flps).1.1 = C at *
  generalize (embedStable (fairs ++ p.sigs) main flps).2 = accept at *
  have hpc : pc ∈ (embedStable (fairs ++ p.sigs) main flps).1.2 := by rw [hfl]; simp
  have hpb : ∀ b ∈ pbs, b ∈ (embedStable (fairs ++ p.sigs) main flps).1.2 := by
    intro b hb; rw [hfl]; simp [hb]
  have stC : ∀ t t', t ≤ t' → C.eval (τ t) pc.next = true → C.eval (τ t') pc.next = true := by
    apply sticky_of_step
    intro t h
    rw [hcd, ← hg, hrun t pc hpc]
    simp only [h, Bool.or_true]
  have stB : ∀ b ∈ pbs, ∀ t t', t ≤ t' → C.eval (τ t) b.next = true →
      C.eval (τ t') b.next = true := by
    intro b hb
    obtain ⟨f, _, sj, _, hr⟩ := hB b hb
    apply sticky_of_step
    intro t h
    rw [(hr _).1, hrun t b (hpb b hb)]
    simp only [h, Bool.or_true]
  refine ⟨pc, pbs, accept, hfl, hlen, rfl, fun σ => ?_, fun b hb => ?_, stC, stB, ?_⟩
  · rw [hcd, hg]
  · obtain ⟨f, hf, sj, _, hr⟩ := hB b hb
    exact ⟨f, hf, fun σ => (hr σ).1⟩
  · intro t t' hle ha hc
    rw [hacc, List.all_eq_false] at ha
    obtain ⟨sj, hsj, hv⟩ := ha
    obtain ⟨b, hb, f, _, hr⟩ := hSj sj hsj
    have hbt : C.eval (τ t) b.next = true := by
      have h1 := (hr (τ t)).1
      have h2 := (hr (τ t)).2
      rw [hc] at h1 h2
      cases hf : C.eval (τ t) f with
      | false => rw [h1, hf]; rfl
      | true =>
        cases hbn : C.eval (τ t) b.next with
        | true => rfl
        | false =>
          rw [hf, hbn] at h2
          exact absurd h2 hv
    have hbt' := stB b hb t t' hle hbt
    rw [hacc, List.all_eq_false]
    refine ⟨sj, hsj, ?_⟩
    rw [(hr (τ t')).2, hbt']
    simp

set_option maxRecDepth 1000000 in
theorem embedFairness_stable_sticky_witness :
    liveTip.main.ok = true ∧
    (∀ f ∈ liveStable.1.2, true = liveStable.1.1.eval (fun _ => true) f.next) ∧
    liveStable.1.1.eval (fun _ => true) ⟨6, true⟩ = true ∧
    ∃ (pc : Flop) (pbs : List Flop) (accept : Sig),
      liveStable.1.2 = [] ++ pc :: pbs ∧
      pbs.length = ([] ++ [(⟨1, false⟩ : Sig), ⟨2, false⟩, ⟨3, false⟩]).length ∧
      liveStable.2.sigs = [accept] ∧
      (∀ σ, liveStable.1.1.eval σ pc.next = (σ (liveTip.main.gates.length + 1) || σ pc.gate)) ∧
      (∀ b ∈ pbs, ∃ f ∈ [] ++ [(⟨1, false⟩ : Sig), ⟨2, false⟩, ⟨3, false⟩], ∀ σ,
        liveStable.1.1.eval σ b.next =
          ((!liveStable.1.1.eval σ f && liveStable.1.1.eval σ pc.next) || σ b.gate)) ∧
      (∀ t t', t ≤ t' →
        liveStable.1.1.eval ((fun _ _ => true : Nat → Nat → Bool) t) pc.next = true →
        liveStable.1.1.eval ((fun _ _ => true : Nat → Nat → Bool) t') pc.next = true) ∧
      (∀ b ∈ pbs, ∀ t t', t ≤ t' →
        liveStable.1.1.eval ((fun _ _ => true : Nat → Nat → Bool) t) b.next = true →
        liveStable.1.1.eval ((fun _ _ => true : Nat → Nat → Bool) t') b.next = true) ∧
      (∀ t t', t ≤ t' →
        liveStable.1.1.eval ((fun _ _ => true : Nat → Nat → Bool) t) accept = false →
        liveStable.1.1.eval ((fun _ _ => true : Nat → Nat → Bool) t) pc.next = true →
        liveStable.1.1.eval ((fun _ _ => true : Nat → Nat → Bool) t') accept = false) :=
  have h : ∀ f ∈ liveStable.1.2, true = liveStable.1.1.eval (fun _ => true) f.next := by decide
  ⟨by decide, h, by decide,
    embedFairness_stable_sticky [] liveTip.main []
      ⟨[⟨1, false⟩, ⟨2, false⟩, ⟨3, false⟩], pstat_Unknown, none⟩ rfl (by decide) (by decide)
      (fun _ _ => true) (fun _ => h)⟩

/-! ## The literals of the inputs carry no sign -/

theorem set_cases {α : Type} (m : GMap α) (g h : Nat) (v l : α)
    (hl : (m.set g v) h = some l) : (h = g ∧ l = v) ∨ (h ≠ g ∧ m h = some l) := by
  by_cases e : h = g
  · left
    simp only [GMap.set, e, if_true, Option.some.injEq] at hl
    exact ⟨e, hl.symm⟩
  · right
    simp only [GMap.set, e, if_false] at hl
    exact ⟨e, hl⟩

/-- The clausifier gives an input gate a fresh variable as its literal, without a sign; the
gates flagged by `F` (the flops, which `clausifyAs` binds) are left aside. -/
theorem clausifyGate_pos (src : Circ) (F : Nat → Bool) :
    ∀ (fuel g : Nat) (st : Solver × GMap Sig),
      (∀ h l, st.2 h = some l → src.isInp h = true → F h = false → l.sign = false) →
      ∀ h l, (clausifyGate src fuel g st).2 h = some l → src.isInp h = true → F h = false →
        l.sign = false := by
  intro fuel
  induction fuel with
  | zero => intro g st hp; exact hp
  | succ fuel ih =>
    intro g st hp h l
    simp only [clausifyGate]
    cases hg : st.2 g with
    | some _ => exact hp h l
    | none =>
      simp only []
      by_cases h0 : g = 0
      · simp only [h0, if_true]
        intro hl hi hf
        rcases set_cases _ _ _ _ _ hl with ⟨_, e⟩ | ⟨_, e⟩
        · rw [e]; rfl
        · exact hp h l e hi hf
      · simp only [h0, if_false]
        cases hd : src.gateDef g with
        | none => exact hp h l
        | some gd =>
          cases gd with
          | inp n =>
            intro hl hi hf
            rcases set_cases _ _ _ _ _ hl with ⟨_, e⟩ | ⟨_, e⟩
            · rw [e]; rfl
            · exact hp h l e hi hf
          | and x y =>
            simp only []
            have h2 := ih y.gate _ (ih x.gate st hp)
            split
            · intro hl hi hf
              rcases set_cases _ _ _ _ _ hl with ⟨e1, _⟩ | ⟨_, e⟩
              · rw [e1] at hi
                simp [Circ.isInp, hd] at hi
              · exact h2 h l e hi hf
            · exact h2 h l

theorem clausify_pos (src : Circ) (F : Nat → Bool) (st : Solver × GMap Sig) (x : Sig)
    (hp : ∀ h l, st.2 h = some l → src.isInp h = true → F h = false → l.sign = false) :
    ∀ h l, (clausify src st x).1.2 h = some l → src.isInp h = true → F h = false →
      l.sign = false :=
  clausifyGate_pos src F _ _ st hp

theorem clausifyFreeze_pos (src : Circ) (F : Nat → Bool) :
    ∀ (xs : List Sig) (st : Solver × GMap Sig),
      (∀ h l, st.2 h = some l → src.isInp h = true → F h = false → l.sign = false) →
      ∀ h l, (clausifyFreeze src xs st).1.2 h = some l → src.isInp h = true → F h = false →
        l.sign = false := by
  intro xs
  induction xs with
  | nil => intro st hp; exact hp
  | cons x xs ih =>
    intro st hp
    simp only [clausifyFreeze]
    exact ih _ (clausify_pos src F st x hp)

theorem clausifyAs_pos (src : Circ) (F : Nat → Bool) (st : Solver × GMap Sig) (x a : Sig)
    (hx : F x.gate = true)
    (hp : ∀ h l, st.2 h = some l → src.isInp h = true → F h = false → l.sign = false) :
    ∀ h l, (clausifyAs src st x a).2 h = some l → src.isInp h = true → F h = false →
      l.sign = false := by
  intro h l
  unfold clausifyAs
  cases hg : st.2 x.gate with
  | some t => exact hp h l
  | none =>
    simp only []
    split
    · intro hl hi hf
      rcases set_cases _ _ _ _ _ hl with ⟨e1, _⟩ | ⟨_, e⟩
      · rw [e1, hx] at hf
        cases hf
      · exact hp h l e hi hf
    · split
      · exact clausify_pos src F st x hp h l
      · exact clausify_pos src F st x hp h l

theorem bindFront_pos (src : Circ) (F : Nat → Bool) :
    ∀ (fs : List Flop) (front : List (Option Sig)) (st : Solver × GMap Sig),
      (∀ f ∈ fs, F f.gate = true) →
      (∀ h l, st.2 h = some l → src.isInp h = true → F h = false → l.sign = false) →
      ∀ h l, (bindFront src fs front st).2 h = some l → src.isInp h = true → F h = false →
        l.sign = false := by
  intro fs
  induction fs with
  | nil =>
    intro front st _ hp
    cases front with
    | nil => exact hp
    | cons o ls => cases o <;> exact hp
  | cons f fs ih =>
    intro front st hF hp
    cases front with
    | nil => exact hp
    | cons o ls =>
      cases o with
      | none =>
        simp only [bindFront]
        exact ih ls st (fun f' hf' => hF f' (List.mem_cons_of_mem _ hf')) hp
      | some a =>
        simp only [bindFront]
        exact ih ls _ (fun f' hf' => hF f' (List.mem_cons_of_mem _ hf'))
          (clausifyAs_pos src F st ⟨f.gate, false⟩ a (hF f (List.mem_cons_self _ _)) hp)

theorem litUnsigned_lookup (src : Circ) (F : Nat → Bool) (cm : GMap Sig)
    (hp : ∀ h l, cm h = some l → src.isInp h = true → F h = false → l.sign = false)
    (g : Nat) (hi : src.isInp g = true) (hf : F g = false) :
    litUnsigned (lookup cm ⟨g, false⟩) = true := by
  cases h : cm g with
  | none => simp [litUnsigned, lookup, mapSig, h]
  | some l => simp [litUnsigned, lookup, mapSig, h, Sig.xorSign, hp g l h hi hf]

theorem init_inputs_unsigned (tip : TipCirc) (s : Solver) :
    ∀ g ∈ tip.init.inputs,
      litUnsigned (lookup
        (clausifyFreeze tip.init (tip.flps.map (fun f => f.init)) (s, GMap.clear)).1.2
        ⟨g, false⟩) = true := by
  intro g hg
  refine litUnsigned_lookup tip.init (fun _ => false) _
    (clausifyFreeze_pos tip.init (fun _ => false) _ _ (fun h l hl => by cases hl)) g ?_ rfl
  exact isInp_iff.mpr (mem_inputsOf.mp hg)

theorem step_inputs_unsigned (tip : TipCirc) (su : SimpUnroller) (s : Solver) :
    ∀ g ∈ tip.inputs,
      litUnsigned (lookup
        (clausifyFreeze tip.main
          ((tip.safe_props.filter (fun d => decide (d.stat = pstat_Unknown))).map
            (fun d => d.sig))
          (clausifyFreeze tip.main (tip.flps.map (fun f => f.next))
            (bindFront tip.main tip.flps su.flop_front (s, GMap.clear))).1).1.2
        ⟨g, false⟩) = true := by
  intro g hg
  obtain ⟨hi, hf⟩ := mem_tip_inputs.mp hg
  refine litUnsigned_lookup tip.main tip.isFlop _
    (clausifyFreeze_pos tip.main tip.isFlop _ _
      (clausifyFreeze_pos tip.main tip.isFlop _ _
        (bindFront_pos tip.main tip.isFlop tip.flps su.flop_front (s, GMap.clear)
          (fun f hf' => isFlop_true_iff.mpr ⟨f, hf', rfl⟩) (fun h l hl => by cases hl))))
    g (isInp_iff.mpr hi) hf

/-! ## The assertions of the simplifying unroller -/

theorem recordVars_eq (c : Circ) (cm : GMap Sig) :
    ∀ (gs : List Nat) (fr : LIFrame),
      (∀ g ∈ gs, litUnsigned (lookup cm ⟨g, false⟩) = true) →
      recordVars c cm gs fr =
        if inputsNumbered c gs then some (recordVarsU c cm gs fr) else none := by
  intro gs
  induction gs with
  | nil => intro fr _; rfl
  | cons g gs ih =>
    intro fr hs
    have hu := hs g (List.mem_cons_self _ _)
    by_cases h : c.number g = UINT32_MAX
    · simp [recordVars, inputsNumbered, h]
    · simp only [recordVars, recordVarsU, hu, h, if_true, if_false]
      rw [ih _ (fun g' hg' => hs g' (List.mem_cons_of_mem _ hg'))]
      simp [inputsNumbered, h]

theorem initialize_eq (tip : TipCirc) (s : Solver) :
    SimpUnroller.initialize tip s =
      if inputsNumbered tip.init tip.init.inputs then some ( SimpUnroller.initializeU tip s)
      else none := by
  have h := recordVars_eq tip.init _ tip.init.inputs [] (init_inputs_unsigned tip s)
  simp only [ SimpUnroller.initialize, h, SimpUnroller.initializeU]
  split <;> rfl

theorem step_eq (tip : TipCirc) (su : SimpUnroller) (s : Solver) :
    SimpUnroller.step tip su s =
      if frontOk su s && inputsNumbered tip.main tip.inputs then
        some ( SimpUnroller.stepU tip su s)
      else none := by
  have h := recordVars_eq tip.main _ tip.inputs [] (step_inputs_unsigned tip su s)
  simp only [SimpUnroller.step, h, SimpUnroller.stepU]
  cases frontOk su s <;> cases inputsNumbered tip.main tip.inputs <;> rfl

theorem step_some {tip : TipCirc} {su : SimpUnroller} {s : Solver}
    {r : SimpUnroller × (Solver × GMap Sig)} (h : SimpUnroller.step tip su s = some r) :
    r = SimpUnroller.stepU tip su s ∧ frontOk su s = true ∧
      inputsNumbered tip.main tip.inputs = true := by
  rw [step_eq] at h
  cases h1 : frontOk su s <;> cases h2 : inputsNumbered tip.main tip.inputs <;>
    simp [h1, h2] at h
  exact ⟨h.symm, rfl, rfl⟩

/-- The loop of `simpBmc` returns what the loop without the assertions returns, whenever it
returns. -/
theorem simpLoop_some (solve : SolveFn) (choose : Solver → List Nat) (b : Nat) :
    ∀ (n i : Nat) (st : TipCirc × SimpUnroller × Solver) (res : TipCirc),
      simpLoop solve choose b n i st = some res → res = simpLoopU solve choose b n i st := by
  intro n
  induction n with
  | zero =>
    intro i st res h
    simp only [simpLoop, Option.some.injEq] at h
    exact h.symm
  | succ n ih =>
    intro i st res h
    simp only [simpLoop] at h
    cases hst : SimpUnroller.step st.1 st.2.1 st.2.2 with
    | none => simp [hst] at h
    | some r =>
      obtain ⟨er, _, _⟩ := step_some hst
      simp only [hst] at h
      simp only [simpLoopU, ← er]
      by_cases hb : i < b
      · simp only [hb, if_true] at h ⊢
        exact ih _ _ _ h
      · simp only [hb, if_false] at h ⊢
        split at h
        · next hz =>
          rw [if_pos hz]
          exact (Option.some.inj h).symm
        · next hz =>
          rw [if_neg hz]
          exact ih _ _ _ h

theorem simpBmc_some {solve : SolveFn} {choose : Solver → List Nat} {tip : TipCirc}
    {b e : Nat} {res : TipCirc} (h : simpBmc solve choose tip b e = some res) :
    res = simpBmcU solve choose tip b e ∧
      SimpUnroller.initialize tip Solver.new = some ( SimpUnroller.initializeU tip Solver.new) ∧
      simpLoop solve choose b e 0 (tip, ( SimpUnroller.initializeU tip Solver.new).1,
        ( SimpUnroller.initializeU tip Solver.new).2) = some res := by
  simp only [simpBmc] at h
  have hi := initialize_eq tip Solver.new
  cases hn : inputsNumbered tip.init tip.init.inputs with
  | false =>
    rw [hn] at hi
    simp [hi] at h
  | true =>
    rw [hn, if_pos rfl] at hi
    simp only [hi] at h
    exact ⟨simpLoop_some solve choose b e 0 _ res h, hi, h⟩

/-- The loop of `simpBmc` aborts in its first cycle when an input of the circuit carries no
number. -/
theorem simpLoop_unnumbered (solve : SolveFn) (choose : Solver → List Nat) (b n i : Nat)
    (st : TipCirc × SimpUnroller × Solver)
    (h : inputsNumbered st.1.main st.1.inputs = false) :
    simpLoop solve choose b (n + 1) i st = none := by
  simp only [simpLoop, step_eq, h, Bool.and_false, Bool.false_eq_true, if_false]

/-- The invariant of the loop of `simpBmc` that keeps the frontier from elimination. -/
theorem simpLoop_eq (solve : SolveFn) (choose : Solver → List Nat) (b : Nat)
    (hch : ∀ s : Solver, ∀ v ∈ choose s, v ≤ s.arena.gates.length) :
    ∀ (n i : Nat) (tip : TipCirc) (su : SimpUnroller) (s : Solver),
      inputsNumbered tip.main tip.inputs = true →
      (∀ l, some l ∈ su.flop_front → l.gate ∉ s.eliminated) →
      (∀ v ∈ s.eliminated, v ≤ s.arena.gates.length) →
      ((∃ f ∈ tip.flps, f.next.gate = 0) → 0 ∉ s.eliminated) →
      simpLoop solve choose b n i (tip, su, s) =
        some (simpLoopU solve choose b n i (tip, su, s)) := by
  intro n
  induction n with
  | zero => intro i tip su s _ _ _ _; rfl
  | succ n ih =>
    intro i tip su s hnum hA hB hC
    obtain ⟨e1, e2, e3, e4⟩ := step_frozen tip su s hA hB hC
    simp only [simpLoop, step_eq, (frontOk_iff su s).mpr hA, hnum, Bool.and_self, if_true]
    by_cases hb : i < b
    · rw [simpLoop_skip solve choose b n i tip su s hb]
      simp only [hb, if_true]
      exact ih (i + 1) tip _ _ hnum (fun l hl => by rw [e1]; exact (e3 l hl).1)
        (fun v hv => by rw [e1] at hv; exact e2 v hv) (fun hz => by rw [e1]; exact hC hz)
    · rw [simpLoop_test solve choose b n i tip su s hb]
      simp only [hb, if_false]
      split
      · rfl
      · have hel : ∀ v, v ∉ s.eliminated → v ∈ ( SimpUnroller.stepU tip su s).2.1.frozen →
            v ∉ ((( SimpUnroller.stepU tip su s).2.1.eliminate choose).thaw).eliminated := by
          intro v h1 h2
          simp only [Solver.thaw, Solver.eliminate, e1, List.mem_append, List.mem_filter,
            not_or, not_and]
          refine ⟨h1, fun _ => ?_⟩
          simp [h2]
        exact ih (i + 1) _ _ _ hnum (fun l hl => hel _ (e3 l hl).1 (e3 l hl).2)
          (fun v hv => by
            simp only [Solver.thaw, Solver.eliminate, e1, List.mem_append,
              List.mem_filter] at hv
            rcases hv with h | ⟨h, _⟩
            · exact e2 v h
            · exact hch ( SimpUnroller.stepU tip su s).2.1 v h)
          (fun hz => hel 0 (hC hz) (e4 hz))

theorem initializeU_eliminated (tip : TipCirc) :
    ( SimpUnroller.initializeU tip Solver.new).2.eliminated = [] := by
  have h0 : Fresh [] (Solver.new, (GMap.clear : GMap Sig)) :=
    ⟨rfl, fun v hv => by simp at hv, fun l hl => by simp [GMap.clear] at hl,
      fun g l _ _ => by simp⟩
  exact (clausifyFreeze_fresh tip.init [] (tip.flps.map (fun f => f.init)) _ h0).1.elim

/-- When the assertion on the input numbers holds, `simpBmc` returns, and it returns what the
procedure without the assertions returns; otherwise it aborts. -/
theorem simpBmc_eq (solve : SolveFn) (choose : Solver → List Nat)
    (hch : ∀ s : Solver, ∀ v ∈ choose s, v ≤ s.arena.gates.length) (tip : TipCirc)
    (b e : Nat) :
    simpBmc solve choose tip b e =
      if inputsNumbered tip.init tip.init.inputs &&
          (decide (e = 0) || inputsNumbered tip.main tip.inputs) then
        some (simpBmcU solve choose tip b e)
      else none := by
  have hE := initializeU_eliminated tip
  simp only [simpBmc, initialize_eq]
  cases hn : inputsNumbered tip.init tip.init.inputs with
  | false => simp
  | true =>
    simp only [if_true, Bool.true_and]
    cases e with
    | zero => simp [simpLoop, simpBmcU, simpLoopU]
    | succ e =>
      cases hm : inputsNumbered tip.main tip.inputs with
      | false =>
        simp only [Nat.add_one_ne_zero, decide_False, Bool.or_false, Bool.false_eq_true,
          if_false]
        exact simpLoop_unnumbered solve choose b e 0 _ hm
      | true =>
        simp only [Bool.or_true, if_true]
        exact simpLoop_eq solve choose b hch (e + 1) 0 tip _ _ hm
          (fun l _ => by rw [hE]; simp) (fun v hv => by rw [hE] at hv; simp at hv)
          (fun _ => by rw [hE]; simp)

theorem simpStateAt_inv (solve : SolveFn) (choose : Solver → List Nat) (b : Nat)
    (hch : ∀ s : Solver, ∀ v ∈ choose s, v ≤ s.arena.gates.length) :
    ∀ (k i : Nat) (tip : TipCirc) (su : SimpUnroller) (s : Solver)
      (σ : TipCirc × SimpUnroller × Solver),
      (∀ l, some l ∈ su.flop_front → l.gate ∉ s.eliminated) →
      (∀ v ∈ s.eliminated, v ≤ s.arena.gates.length) →
      ((∃ f ∈ tip.flps, f.next.gate = 0) → 0 ∉ s.eliminated) →
      simpStateAt solve choose b k i (tip, su, s) = some σ →
      ∀ l, some l ∈ σ.2.1.flop_front → l.gate ∉ σ.2.2.eliminated := by
  intro k
  induction k with
  | zero =>
    intro i tip su s σ hA _ _ h
    simp only [simpStateAt, Option.some.injEq] at h
    rw [← h]
    exact hA
  | succ k ih =>
    intro i tip su s σ hA hB hC h
    obtain ⟨e1, e2, e3, e4⟩ := step_frozen tip su s hA hB hC
    simp only [simpStateAt] at h
    cases hst : SimpUnroller.step tip su s with
    | none => simp [hst] at h
    | some r =>
      obtain ⟨er, _, _⟩ := step_some hst
      simp only [hst] at h
      subst er
      by_cases hb : i < b
      · simp only [hb, if_true] at h
        exact ih (i + 1) tip _ _ σ (fun l hl => by rw [e1]; exact (e3 l hl).1)
          (fun v hv => by rw [e1] at hv; exact e2 v hv) (fun hz => by rw [e1]; exact hC hz) h
      · simp only [hb, if_false] at h
        split at h
        · cases h
        · have hel : ∀ v, v ∉ s.eliminated → v ∈ ( SimpUnroller.stepU tip su s).2.1.frozen →
              v ∉ ((( SimpUnroller.stepU tip su s).2.1.eliminate choose).thaw).eliminated := by
            intro v h1 h2
            simp only [Solver.thaw, Solver.eliminate, e1, List.mem_append, List.mem_filter,
              not_or, not_and]
            refine ⟨h1, fun _ => ?_⟩
            simp [h2]
          refine ih (i + 1) _ _ _ σ ?_ ?_ ?_ h
          · exact fun l hl => hel _ (e3 l hl).1 (e3 l hl).2
          · intro v hv
            simp only [Solver.thaw, Solver.eliminate, e1, List.mem_append,
              List.mem_filter] at hv
            rcases hv with h | ⟨h, _⟩
            · exact e2 v h
            · exact hch ( SimpUnroller.stepU tip su s).2.1 v h
          · exact fun hz => hel 0 (hC hz) (e4 hz)

/-- Claim C29. In `simpBmc`, with `eliminate` removing any variables of the solver that are
not frozen (the choice `choose` is arbitrary among the variables allocated so far), at the
start of every unroll step that a run reaches, for every circuit and `begin_cycle`, no
variable of a literal of `flop_front` has been eliminated: the assertion
`!solver.isEliminated(var(flop_front[i]))` holds there. So this assertion never aborts a run,
and neither does the assertion `!sign(l)` on the literals of the inputs: `simpBmc` returns
whenever the remaining assertion of the unroller, that every input carries a number, holds
(of the inputs of `init`, and of the inputs of the circuit when at least one cycle is run),
and aborts otherwise. -/
theorem simpBmc_front_not_eliminated (solve : SolveFn) (choose : Solver → List Nat)
    (hch : ∀ s : Solver, ∀ v ∈ choose s, v ≤ s.arena.gates.length) (tip : TipCirc)
    (begin_cycle stop_cycle : Nat) :
    (∀ (k : Nat) (r : SimpUnroller × Solver) (σ : TipCirc × SimpUnroller × Solver),
      SimpUnroller.initialize tip Solver.new = some r →
      simpStateAt solve choose begin_cycle k 0 (tip, r.1, r.2) = some σ →
      frontOk σ.2.1 σ.2.2 = true) ∧
    simpBmc solve choose tip begin_cycle stop_cycle =
      (if inputsNumbered tip.init tip.init.inputs &&
          (decide (stop_cycle = 0) || inputsNumbered tip.main tip.inputs) then
        some (simpBmcU solve choose tip begin_cycle stop_cycle)
      else none) := by
  refine ⟨fun k r σ hr hσ => ?_, simpBmc_eq solve choose hch tip begin_cycle stop_cycle⟩
  have hE := initializeU_eliminated tip
  have er : r = SimpUnroller.initializeU tip Solver.new := by
    rw [initialize_eq] at hr
    split at hr
    · exact (Option.some.inj hr).symm
    · cases hr
  subst er
  rw [frontOk_iff]
  exact simpStateAt_inv solve choose begin_cycle hch k 0 tip _ _ σ
    (fun l _ => by rw [hE]; simp) (fun v hv => by rw [hE] at hv; simp at hv)
    (fun _ => by rw [hE]; simp) hσ

set_option maxRecDepth 100000 in
theorem simpBmc_front_not_eliminated_witness :
    (∀ s : Solver, ∀ v ∈ List.range (s.arena.gates.length + 1), v ≤ s.arena.gates.length) ∧
    simpBmc bruteSolve (fun s => List.range (s.arena.gates.length + 1)) xorTip 0 2 =
      (if inputsNumbered xorTip.init xorTip.init.inputs &&
          (decide (2 = 0) || inputsNumbered xorTip.main xorTip.inputs) then
        some (simpBmcU bruteSolve (fun s => List.range (s.arena.gates.length + 1)) xorTip 0 2)
      else none) ∧
    (simpBmc bruteSolve (fun s => List.range (s.arena.gates.length + 1)) xorTip 0 2).map
      (fun r => r.safe_props) = some [⟨⟨2, true⟩, pstat_Falsified, some 0⟩] ∧
    (( SimpUnroller.initialize xorTip Solver.new).bind (fun r =>
      simpStateAt bruteSolve (fun s => List.range (s.arena.gates.length + 1)) 0 1 0
        (xorTip, r.1, r.2))).map (fun σ => frontOk σ.2.1 σ.2.2) = some true :=
  ⟨fun s v hv => by rw [List.mem_range] at hv; omega,
    (simpBmc_front_not_eliminated bruteSolve (fun s => List.range (s.arena.gates.length + 1))
      (fun s v hv => by rw [List.mem_range] at hv; omega) xorTip 0 2).2,
    by decide, by decide⟩

/-! ## The trace of a falsified property and the run of `simpBmc` -/

theorem stepU_inps (tip : TipCirc) (su : SimpUnroller) (s : Solver) :
    ∃ fr, ( SimpUnroller.stepU tip su s).1.unroll_inps = su.unroll_inps ++ [fr] :=
  ⟨_, rfl⟩

/-- A property that the loop of `simpBmc` falsifies is falsified in a cycle that the loop
reaches: the SAT call of that cycle, on the literal that the clausifier of the cycle holds for
the property, returns the model whose values of the unroller's input log make up the trace. -/
theorem simpLoop_trace (solve : SolveFn) (choose : Solver → List Nat) (b : Nat) :
    ∀ (n i : Nat) (tip : TipCirc) (su : SimpUnroller) (s : Solver) (res : TipCirc),
      su.unroll_inps.length = i + 1 →
      simpLoop solve choose b n i (tip, su, s) = some res →
      ∀ (j : Nat) (d d' : PropData), tip.safe_props[j]? = some d →
        res.safe_props[j]? = some d' → d.stat = pstat_Unknown → d'.stat = pstat_Falsified →
        ∃ (k : Nat) (σ : TipCirc × SimpUnroller × Solver)
          (r : SimpUnroller × (Solver × GMap Sig)) (t : Nat) (m : Nat → Bool) (plit : Sig),
          k < n ∧ b ≤ i + k ∧
          simpStateAt solve choose b k i (tip, su, s) = some σ ∧
          σ.1.safe_props[j]? = some d ∧
          SimpUnroller.step σ.1 σ.2.1 σ.2.2 = some r ∧
          lookup r.2.2 d.sig = some plit ∧
          solve (r.2.1.eliminate choose) [plit.neg] = some m ∧
          d' = { d with stat := pstat_Falsified, cex := some t } ∧
          res.traces[t]? =
            some ⟨modelFrames (r.2.1.eliminate choose) m r.1.unroll_inps, loop_none⟩ ∧
          (∃ rest, r.1.unroll_inps = su.unroll_inps ++ rest ∧ rest.length = k + 1) := by
  intro n
  induction n with
  | zero =>
    intro i tip su s res _ h j d d' h1 h2 hu hf
    simp only [simpLoop, Option.some.injEq] at h
    subst h
    rw [h1] at h2
    rw [← Option.some.inj h2, hu] at hf
    cases hf
  | succ n ih =>
    intro i tip su s res hlen h j d d' h1 h2 hu hf
    have h0 := h
    simp only [simpLoop] at h
    cases hst : SimpUnroller.step tip su s with
    | none => simp [hst] at h
    | some r0 =>
      obtain ⟨er, _, _⟩ := step_some hst
      simp only [hst] at h
      have hl2 : r0.1.unroll_inps.length = i + 1 + 1 := by
        rw [er, step_inps_length, hlen]
      obtain ⟨fr0, hfr0⟩ : ∃ fr, r0.1.unroll_inps = su.unroll_inps ++ [fr] := by
        rw [er]; exact stepU_inps tip su s
      by_cases hb : i < b
      · simp only [hb, if_true] at h
        obtain ⟨k, σ, r, t, m, plit, a1, a2, a3, a4, a5, a6, a7, a8, a9, rest, a10, a11⟩ :=
          ih (i + 1) tip r0.1 r0.2.1 res hl2 h j d d' h1 h2 hu hf
        refine ⟨k + 1, σ, r, t, m, plit, by omega, by omega, ?_, a4, a5, a6, a7, a8, a9,
          fr0 :: rest, by rw [a10, hfr0]; simp, by simp [a11]⟩
        simp only [simpStateAt, hst, hb, if_true]
        exact a3
      · simp only [hb, if_false] at h
        obtain ⟨q1, ⟨qnew, q2⟩, q3⟩ := simpProps_shape solve (r0.2.1.eliminate choose)
          r0.2.2 r0.1.unroll_inps tip.safe_props (tip.traces, 0)
        generalize hq : simpProps solve (r0.2.1.eliminate choose) r0.2.2 r0.1.unroll_inps
          tip.safe_props (tip.traces, 0) = q at q1 q2 q3 h
        have hlt : j < tip.safe_props.length := by
          rcases Nat.lt_or_ge j tip.safe_props.length with h' | h'
          · exact h'
          · rw [List.getElem?_eq_none h'] at h1; cases h1
        obtain ⟨d1, hd1⟩ : ∃ d1, q.1[j]? = some d1 :=
          ⟨_, List.getElem?_eq_getElem (by rw [q1]; exact hlt)⟩
        have hstate0 : simpStateAt solve choose b 0 i (tip, su, s) = some (tip, su, s) := rfl
        by_cases hz : q.2.2 = 0
        · rw [if_pos hz] at h
          have eres := (Option.some.inj h).symm
          have e2 : res.safe_props[j]? = q.1[j]? := by rw [eres]
          rw [e2, hd1] at h2
          have ed : d1 = d' := Option.some.inj h2
          subst ed
          rcases q3 j d d1 h1 hd1 with e | ⟨_, t, m, plit, c1, c2, c3, c4⟩
          · rw [e, hu] at hf; cases hf
          · refine ⟨0, (tip, su, s), r0, t, m, plit, by omega, by omega, hstate0, h1, hst, c1,
              c2, c3, ?_, [fr0], hfr0, rfl⟩
            rw [eres]
            exact c4
        · rw [if_neg hz] at h
          rcases q3 j d d1 h1 hd1 with e | ⟨_, t, m, plit, c1, c2, c3, c4⟩
          · subst e
            obtain ⟨k, σ, r, t, m, plit, a1, a2, a3, a4, a5, a6, a7, a8, a9, rest, a10, a11⟩ :=
              ih (i + 1) { tip with safe_props := q.1, traces := q.2.1 } r0.1
                ((r0.2.1.eliminate choose).thaw) res hl2 h j d1 d' hd1 h2 hu hf
            refine ⟨k + 1, σ, r, t, m, plit, by omega, by omega, ?_, a4, a5, a6, a7, a8, a9,
              fr0 :: rest, by rw [a10, hfr0]; simp, by simp [a11]⟩
            simp only [simpStateAt, hst, hb, if_false, hq, hz]
            exact a3
          · have eU := simpLoop_some solve choose b n (i + 1) _ res h
            obtain ⟨_, _, ⟨rnew, r3⟩, r4⟩ := simpLoop_shape solve choose b n (i + 1)
              { tip with safe_props := q.1, traces := q.2.1 } r0.1
              ((r0.2.1.eliminate choose).thaw) hl2
            rw [← eU] at r3 r4
            have ed : d' = d1 := by
              rcases r4 j d1 d' hd1 h2 with e | ⟨f1, _⟩
              · exact e
              · rw [c3] at f1; cases f1
            refine ⟨0, (tip, su, s), r0, t, m, plit, by omega, by omega, hstate0, h1, hst, c1,
              c2, by rw [ed]; exact c3, ?_, [fr0], hfr0, rfl⟩
            exact getElem?_of_prefix r3 c4

theorem simpBmc_trace {solve : SolveFn} {choose : Solver → List Nat} {tip : TipCirc}
    {b e : Nat} {res : TipCirc} (hres : simpBmc solve choose tip b e = some res)
    {j : Nat} {d d' : PropData} (h1 : tip.safe_props[j]? = some d)
    (h2 : res.safe_props[j]? = some d') (hu : d.stat = pstat_Unknown)
    (hf : d'.stat = pstat_Falsified) :
    ∃ (k : Nat) (r0 : SimpUnroller × Solver) (σ : TipCirc × SimpUnroller × Solver)
      (r : SimpUnroller × (Solver × GMap Sig)) (t : Nat) (m : Nat → Bool) (plit : Sig),
      b ≤ k ∧ k < e ∧
      SimpUnroller.initialize tip Solver.new = some r0 ∧
      simpStateAt solve choose b k 0 (tip, r0.1, r0.2) = some σ ∧
      σ.1.safe_props[j]? = some d ∧
      SimpUnroller.step σ.1 σ.2.1 σ.2.2 = some r ∧
      lookup r.2.2 d.sig = some plit ∧
      solve (r.2.1.eliminate choose) [plit.neg] = some m ∧
      d' = { d with stat := pstat_Falsified, cex := some t } ∧
      res.traces[t]? =
        some ⟨modelFrames (r.2.1.eliminate choose) m r.1.unroll_inps, loop_none⟩ ∧
      (∃ rest, r.1.unroll_inps = r0.1.unroll_inps ++ rest ∧ rest.length = k + 1) ∧
      r0.1.unroll_inps.length = 1 := by
  obtain ⟨_, hi, hl⟩ := simpBmc_some hres
  have hlen : ( SimpUnroller.initializeU tip Solver.new).1.unroll_inps.length = 0 + 1 := by
    simp [ SimpUnroller.initializeU]
  obtain ⟨k, σ, r, t, m, plit, a1, a2, a3, a4, a5, a6, a7, a8, a9, a10⟩ :=
    simpLoop_trace solve choose b e 0 tip _ _ res hlen hl j d d' h1 h2 hu hf
  exact ⟨k, _, σ, r, t, m, plit, by omega, a1, hi, a3, a4, a5, a6, a7, a8, a9, a10, hlen⟩

/-! ## The claims about bounded model checking -/

/-- Claim C2. Bounded model checking is sound. With a correct SAT oracle, for every well-formed
circuit, `begin_cycle` and `stop_cycle`, the safety property at index `j` keeps its signal in
the result of `basicBmc` and in every result of `simpBmc` (which returns none when an assertion
of its unroller aborts the run); if the property is Falsified in the result and was not
before, then some input sequence drives the circuit from its initial state to a cycle
`t < stop_cycle` in which the property's signal is false (the property is violated); and it
is Proved in the result only if it was Proved before. The liveness properties are not
touched. -/
theorem bmc_sound (solve : SolveFn) (hs : SolverCorrect solve) (choose : Solver → List Nat)
    (tip : TipCirc) (hwf : tip.wf = true) (begin_cycle stop_cycle j : Nat) (d : PropData)
    (hj : tip.safe_props[j]? = some d) :
    (∃ d', (basicBmc solve tip begin_cycle stop_cycle).safe_props[j]? = some d' ∧
      d'.sig = d.sig ∧
      (d'.stat = pstat_Falsified → d.stat ≠ pstat_Falsified →
        ∃ (t : Nat) (iv0 : Nat → Bool) (ivs : Nat → Nat → Bool),
          t < stop_cycle ∧ tip.sigAt iv0 ivs t d.sig = false) ∧
      (d'.stat = pstat_Proved → d.stat = pstat_Proved)) ∧
    (∀ res, simpBmc solve choose tip begin_cycle stop_cycle = some res →
      ∃ d', res.safe_props[j]? = some d' ∧
        d'.sig = d.sig ∧
        (d'.stat = pstat_Falsified → d.stat ≠ pstat_Falsified →
          ∃ (t : Nat) (iv0 : Nat → Bool) (ivs : Nat → Nat → Bool),
            t < stop_cycle ∧ tip.sigAt iv0 ivs t d.sig = false) ∧
        (d'.stat = pstat_Proved → d.stat = pstat_Proved)) ∧
    (basicBmc solve tip begin_cycle stop_cycle).live_props = tip.live_props ∧
    (∀ res, simpBmc solve choose tip begin_cycle stop_cycle = some res →
      res.live_props = tip.live_props) := by
  obtain ⟨a1, a2, a3, a4⟩ := bmcU_sound solve hs choose tip hwf begin_cycle stop_cycle j d hj
  refine ⟨a1, fun res h => ?_, a3, fun res h => ?_⟩
  · rw [(simpBmc_some h).1]
    exact a2
  · rw [(simpBmc_some h).1]
    exact a4

set_option maxRecDepth 100000 in
theorem bmc_sound_witness :
    SolverCorrect bruteSolve ∧ xorTip.wf = true ∧
    xorTip.safe_props[0]? = some ⟨⟨2, true⟩, pstat_Unknown, none⟩ ∧
    (simpBmc bruteSolve (fun _ => []) xorTip 0 2).map (fun r => r.safe_props) =
      some [⟨⟨2, true⟩, pstat_Falsified, some 0⟩] ∧
    ((∃ d', (basicBmc bruteSolve xorTip 0 2).safe_props[0]? = some d' ∧
      d'.sig = (⟨⟨2, true⟩, pstat_Unknown, none⟩ : PropData).sig ∧
      (d'.stat = pstat_Falsified →
        (⟨⟨2, true⟩, pstat_Unknown, none⟩ : PropData).stat ≠ pstat_Falsified →
        ∃ (t : Nat) (iv0 : Nat → Bool) (ivs : Nat → Nat → Bool),
          t < 2 ∧ xorTip.sigAt iv0 ivs t
            (⟨⟨2, true⟩, pstat_Unknown, none⟩ : PropData).sig = false) ∧
      (d'.stat = pstat_Proved →
        (⟨⟨2, true⟩, pstat_Unknown, none⟩ : PropData).stat = pstat_Proved)) ∧
    (∀ res, simpBmc bruteSolve (fun _ => []) xorTip 0 2 = some res →
      ∃ d', res.safe_props[0]? = some d' ∧
        d'.sig = (⟨⟨2, true⟩, pstat_Unknown, none⟩ : PropData).sig ∧
        (d'.stat = pstat_Falsified →
          (⟨⟨2, true⟩, pstat_Unknown, none⟩ : PropData).stat ≠ pstat_Falsified →
          ∃ (t : Nat) (iv0 : Nat → Bool) (ivs : Nat → Nat → Bool),
            t < 2 ∧ xorTip.sigAt iv0 ivs t
              (⟨⟨2, true⟩, pstat_Unknown, none⟩ : PropData).sig = false) ∧
        (d'.stat = pstat_Proved →
          (⟨⟨2, true⟩, pstat_Unknown, none⟩ : PropData).stat = pstat_Proved)) ∧
    (basicBmc bruteSolve xorTip 0 2).live_props = xorTip.live_props ∧
    (∀ res, simpBmc bruteSolve (fun _ => []) xorTip 0 2 = some res →
      res.live_props = xorTip.live_props)) :=
  ⟨bruteSolve_correct, by decide, rfl, by decide,
    bmc_sound bruteSolve bruteSolve_correct (fun _ => []) xorTip (by decide) 0 2 0 _ rfl⟩

/-- Claim C3. Bounded model checking is complete up to the depth bound. With a correct SAT
oracle and `begin_cycle = 0`, if a safety property is Unknown and some input sequence makes
its signal false (violates it) in a cycle `i < stop_cycle`, then the property has status
Falsified after `basicBmc`, and after `simpBmc` whenever `simpBmc` returns. It does return
when every input of `init` and every input of the circuit carries a number and `eliminate`
picks variables of the solver. -/
theorem bmc_complete (solve : SolveFn) (hs : SolverCorrect solve) (choose : Solver → List Nat)
    (tip : TipCirc) (hwf : tip.wf = true) (stop_cycle j : Nat) (d : PropData)
    (hj : tip.safe_props[j]? = some d) (hu : d.stat = pstat_Unknown) (i : Nat)
    (hi : i < stop_cycle) (iv0 : Nat → Bool) (ivs : Nat → Nat → Bool)
    (hviol : tip.sigAt iv0 ivs i d.sig = false) :
    (basicBmc solve tip 0 stop_cycle).safe_props[j]?.map (fun d => d.stat)
      = some pstat_Falsified ∧
    (∀ res, simpBmc solve choose tip 0 stop_cycle = some res →
      res.safe_props[j]?.map (fun d => d.stat) = some pstat_Falsified) ∧
    ((∀ s : Solver, ∀ v ∈ choose s, v ≤ s.arena.gates.length) →
      inputsNumbered tip.init tip.init.inputs = true →
      inputsNumbered tip.main tip.inputs = true →
      ∃ res, simpBmc solve choose tip 0 stop_cycle = some res) := by
  obtain ⟨a1, a2⟩ := bmcU_complete solve hs choose tip hwf stop_cycle j d hj hu i hi iv0 ivs
    hviol
  refine ⟨a1, fun res h => ?_,
    fun hch h1 h2 => ⟨simpBmcU solve choose tip 0 stop_cycle, ?_⟩⟩
  · rw [(simpBmc_some h).1]
    exact a2
  · rw [simpBmc_eq solve choose hch tip 0 stop_cycle, h1, h2]
    simp

set_option maxRecDepth 100000 in
theorem bmc_complete_witness :
    SolverCorrect bruteSolve ∧ xorTip.wf = true ∧
    xorTip.safe_props[0]? = some ⟨⟨2, true⟩, pstat_Unknown, none⟩ ∧
    xorTip.sigAt (fun _ => false) (fun t g => decide (t = 0 ∧ g = 1)) 1 ⟨2, true⟩ = false ∧
    (basicBmc bruteSolve xorTip 0 2).safe_props[0]?.map (fun d => d.stat)
      = some pstat_Falsified ∧
    (∀ res, simpBmc bruteSolve (fun _ => []) xorTip 0 2 = some res →
      res.safe_props[0]?.map (fun d => d.stat) = some pstat_Falsified) ∧
    (simpBmc bruteSolve (fun _ => []) xorTip 0 2).map (fun r => r.safe_props) =
      some [⟨⟨2, true⟩, pstat_Falsified, some 0⟩] :=
  ⟨bruteSolve_correct, by decide, rfl, by decide,
    (bmc_complete bruteSolve bruteSolve_correct (fun _ => []) xorTip (by decide) 2 0 _ rfl rfl 1
      (by decide) (fun _ => false) (fun t g => decide (t = 0 ∧ g = 1)) (by decide)).1,
    (bmc_complete bruteSolve bruteSolve_correct (fun _ => []) xorTip (by decide) 2 0 _ rfl rfl 1
      (by decide) (fun _ => false) (fun t g => decide (t = 0 ∧ g = 1)) (by decide)).2.1,
    by decide⟩

/-- Claim C5, as the code has it. The two engines agree on verdicts on the circuits that
`simpBmc` accepts: for every well-formed circuit in which every input of `init` and every
input of the circuit carries an input number (what the unroller of `simpBmc` asserts), with
correct SAT oracles and an `eliminate` that picks variables of the solver, for every
`begin_cycle` and `stop_cycle`, `simpBmc` returns and leaves the safety properties with the
same statuses as `basicBmc`, and both leave the liveness properties as they were. -/
theorem bmc_agree (solve1 solve2 : SolveFn) (h1 : SolverCorrect solve1)
    (h2 : SolverCorrect solve2) (choose : Solver → List Nat)
    (hch : ∀ s : Solver, ∀ v ∈ choose s, v ≤ s.arena.gates.length) (tip : TipCirc)
    (hwf : tip.wf = true) (hinit : inputsNumbered tip.init tip.init.inputs = true)
    (hmain : inputsNumbered tip.main tip.inputs = true) (begin_cycle stop_cycle : Nat) :
    ∃ res, simpBmc solve2 choose tip begin_cycle stop_cycle = some res ∧
      (basicBmc solve1 tip begin_cycle stop_cycle).safe_props.map (fun d => d.stat) =
        res.safe_props.map (fun d => d.stat) ∧
      (basicBmc solve1 tip begin_cycle stop_cycle).live_props = res.live_props ∧
      res.live_props = tip.live_props := by
  obtain ⟨a1, a2⟩ := bmcU_agree solve1 solve2 h1 h2 choose tip hwf begin_cycle stop_cycle
  refine ⟨simpBmcU solve2 choose tip begin_cycle stop_cycle, ?_, a1, a2, ?_⟩
  · rw [simpBmc_eq solve2 choose hch tip begin_cycle stop_cycle, hinit, hmain]
    simp
  · exact (bmcU_only_falsifies solve2 choose tip begin_cycle stop_cycle).2.1

set_option maxRecDepth 100000 in
theorem bmc_agree_witness :
    SolverCorrect bruteSolve ∧
    (∀ s : Solver, ∀ v ∈ (List.range (s.arena.gates.length + 1)).take 2,
      v ≤ s.arena.gates.length) ∧
    xorTip.wf = true ∧ inputsNumbered xorTip.init xorTip.init.inputs = true ∧
    inputsNumbered xorTip.main xorTip.inputs = true ∧
    (∃ res, simpBmc bruteSolve (fun s => (List.range (s.arena.gates.length + 1)).take 2)
          xorTip 0 2 = some res ∧
      (basicBmc bruteSolve xorTip 0 2).safe_props.map (fun d => d.stat) =
        res.safe_props.map (fun d => d.stat) ∧
      (basicBmc bruteSolve xorTip 0 2).live_props = res.live_props ∧
      res.live_props = xorTip.live_props) ∧
    (basicBmc bruteSolve xorTip 0 2).safe_props.map (fun d => d.stat) = [pstat_Falsified] :=
  ⟨bruteSolve_correct,
    fun s v hv => by
      have := List.mem_of_mem_take hv
      rw [List.mem_range] at this
      omega,
    by decide, by decide, by decide,
    bmc_agree bruteSolve bruteSolve bruteSolve_correct bruteSolve_correct
      (fun s => (List.range (s.arena.gates.length + 1)).take 2)
      (fun s v hv => by
        have := List.mem_of_mem_take hv
        rw [List.mem_range] at this
        omega)
      xorTip (by decide) (by decide) (by decide) 0 2,
    by decide⟩

set_option maxRecDepth 1000000 in
/-- Claim C5, counterexample: `xorFair` is the well-formed circuit that `embedFairness` makes of
`xorTip` with one liveness property without signals; its reset input (gate 6) carries no
number. With `stop_cycle = 2`, `basicBmc` marks the safety property Falsified, while the
unroller of `simpBmc` fails its assertion in the first cycle and `simpBmc` returns nothing. On
the circuit before the embedding both return, with the property Falsified. -/
theorem bmc_agree_unnumbered_counterexample :
    xorFair.wf = true ∧ xorFair.inputs = [1, 6] ∧ xorFair.main.number 6 = UINT32_MAX ∧
    (basicBmc bruteSolve xorFair 0 2).safe_props.map (fun d => d.stat) = [pstat_Falsified] ∧
    (simpBmc bruteSolve (fun _ => []) xorFair 0 2).map (fun r => r.safe_props) = none ∧
    (simpBmc bruteSolve (fun _ => []) xorLive 0 2).map
      (fun r => r.safe_props.map (fun d => d.stat)) = some [pstat_Falsified] := by
  decide

/-- Claim C24. For every circuit, `begin_cycle` and `stop_cycle`, `basicBmc` and `simpBmc`
(in every result that it returns) leave the liveness properties and the number of safety
properties as they are, and every safety property is either unchanged or goes from status
Unknown to Falsified with its signal kept: no status becomes Proved, a property that was
Proved or Falsified stays as it was, and a property that is not falsified keeps its
status. -/
theorem bmc_only_falsifies (solve : SolveFn) (choose : Solver → List Nat) (tip : TipCirc)
    (begin_cycle stop_cycle : Nat) :
    ((basicBmc solve tip begin_cycle stop_cycle).live_props = tip.live_props ∧
      (basicBmc solve tip begin_cycle stop_cycle).safe_props.length = tip.safe_props.length ∧
      ∀ (j : Nat) (d d' : PropData), tip.safe_props[j]? = some d →
        (basicBmc solve tip begin_cycle stop_cycle).safe_props[j]? = some d' →
        d' = d ∨ (d.stat = pstat_Unknown ∧ d'.stat = pstat_Falsified ∧ d'.sig = d.sig)) ∧
    (∀ res, simpBmc solve choose tip begin_cycle stop_cycle = some res →
      res.live_props = tip.live_props ∧
      res.safe_props.length = tip.safe_props.length ∧
      ∀ (j : Nat) (d d' : PropData), tip.safe_props[j]? = some d →
        res.safe_props[j]? = some d' →
        d' = d ∨ (d.stat = pstat_Unknown ∧ d'.stat = pstat_Falsified ∧ d'.sig = d.sig)) := by
  obtain ⟨a1, a2⟩ := bmcU_only_falsifies solve choose tip begin_cycle stop_cycle
  refine ⟨a1, fun res h => ?_⟩
  rw [(simpBmc_some h).1]
  exact a2

/-! ## The stored trace: the claims -/

theorem simpLoop_chain (solve : SolveFn) (choose : Solver → List Nat) (b : Nat)
    (A : List (List FlopInit)) :
    ∀ (n i : Nat) (tip : TipCirc) (su : SimpUnroller) (s : Solver),
      simpLoop solve choose b n i ({ tip with tradaptor := A }, su, s) =
        (simpLoop solve choose b n i (tip, su, s)).map (fun r => { r with tradaptor := A }) := by
  intro n
  induction n with
  | zero => intro i tip su s; rfl
  | succ n ih =>
    intro i tip su s
    have hs : SimpUnroller.step { tip with tradaptor := A } su s = SimpUnroller.step tip su s :=
      rfl
    simp only [simpLoop, hs]
    cases hst : SimpUnroller.step tip su s with
    | none => rfl
    | some r0 =>
      simp only []
      by_cases hb : i < b
      · simp only [hb, if_true]
        exact ih (i + 1) tip r0.1 r0.2.1
      · simp only [hb, if_false]
        split
        · rfl
        · exact ih (i + 1)
            { tip with
              safe_props := (simpProps solve (r0.2.1.eliminate choose) r0.2.2 r0.1.unroll_inps
                tip.safe_props (tip.traces, 0)).1
              traces := (simpProps solve (r0.2.1.eliminate choose) r0.2.2 r0.1.unroll_inps
                tip.safe_props (tip.traces, 0)).2.1 }
            r0.1 ((r0.2.1.eliminate choose).thaw)

theorem simpBmc_chain (solve : SolveFn) (choose : Solver → List Nat) (tip : TipCirc)
    (b e : Nat) (A : List (List FlopInit)) :
    simpBmc solve choose { tip with tradaptor := A } b e =
      (simpBmc solve choose tip b e).map (fun r => { r with tradaptor := A }) := by
  have hi : SimpUnroller.initialize { tip with tradaptor := A } Solver.new =
      SimpUnroller.initialize tip Solver.new := rfl
  simp only [simpBmc, hi]
  cases SimpUnroller.initialize tip Solver.new with
  | none => rfl
  | some r => exact simpLoop_chain solve choose b A e 0 tip r.1 r.2

/-- Claim C22, as the code has it. For every safety property that a run of `simpBmc` marks
Falsified, the trace stored as its counter-example holds the frames read from the SAT model
as they are: the property is falsified in a cycle `k` that the loop reaches, in state `σ`;
with `r` the result of the unroll step of that cycle, the SAT call on the negation of the
literal that the clausifier holds for the property, in the solver after `eliminate`, returns a
model `m`, and the stored trace is `modelFrames` of this solver, this model and the input log
of the unroller after the step. The chain `tradaptor` is not applied and not changed, and the
run does not depend on it: with any chain `A` installed the result is the same, apart from the
field `tradaptor` itself. -/
theorem simpBmc_stores_model_frames (solve : SolveFn) (choose : Solver → List Nat)
    (tip : TipCirc) (begin_cycle stop_cycle j : Nat) (res : TipCirc) (d d' : PropData)
    (hres : simpBmc solve choose tip begin_cycle stop_cycle = some res)
    (hj : tip.safe_props[j]? = some d) (h2 : res.safe_props[j]? = some d')
    (hu : d.stat = pstat_Unknown) (hf : d'.stat = pstat_Falsified) :
    (∃ (k : Nat) (r0 : SimpUnroller × Solver) (σ : TipCirc × SimpUnroller × Solver)
      (r : SimpUnroller × (Solver × GMap Sig)) (t : Nat) (m : Nat → Bool) (plit : Sig),
      begin_cycle ≤ k ∧ k < stop_cycle ∧
      SimpUnroller.initialize tip Solver.new = some r0 ∧
      simpStateAt solve choose begin_cycle k 0 (tip, r0.1, r0.2) = some σ ∧
      σ.1.safe_props[j]? = some d ∧
      SimpUnroller.step σ.1 σ.2.1 σ.2.2 = some r ∧
      lookup r.2.2 d.sig = some plit ∧
      solve (r.2.1.eliminate choose) [plit.neg] = some m ∧
      d'.cex = some t ∧
      res.traces[t]? =
        some ⟨modelFrames (r.2.1.eliminate choose) m r.1.unroll_inps, loop_none⟩) ∧
    res.tradaptor = tip.tradaptor ∧
    ∀ A : List (List FlopInit),
      simpBmc solve choose { tip with tradaptor := A } begin_cycle stop_cycle =
        some { res with tradaptor := A } := by
  obtain ⟨k, r0, σ, r, t, m, plit, a1, a2, a3, a4, a5, a6, a7, a8, a9, a10, _⟩ :=
    simpBmc_trace hres hj h2 hu hf
  refine ⟨⟨k, r0, σ, r, t, m, plit, a1, a2, a3, a4, a5, a6, a7, a8, by rw [a9], a10⟩, ?_,
    fun A => ?_⟩
  · obtain ⟨r1, _⟩ := simpBmc_shape solve choose tip begin_cycle stop_cycle
    rw [(simpBmc_some hres).1, r1]
  · rw [simpBmc_chain, hres]
    rfl

/-- Claim C23, as the code has it. When a run of `simpBmc` finds a safety property SAT at
cycle `k` (a cycle that the loop reaches, in state `σ`, with the property still Unknown), the
trace it creates has one frame for each frame of the input log of the unroller after the
unroll step of that cycle: the log at construction, which is the one frame of the inputs of
`init`, followed by one frame for each of the cycles `0..k`, which makes `k + 2` frames. Entry
`l` of frame `f` is the value, in the model that the SAT call returned, of the input variable
recorded at position `l` of frame `f` of the log, and x where no variable is recorded. -/
theorem simpBmc_trace_frames (solve : SolveFn) (choose : Solver → List Nat) (tip : TipCirc)
    (begin_cycle stop_cycle j : Nat) (res : TipCirc) (d d' : PropData)
    (hres : simpBmc solve choose tip begin_cycle stop_cycle = some res)
    (hj : tip.safe_props[j]? = some d) (h2 : res.safe_props[j]? = some d')
    (hu : d.stat = pstat_Unknown) (hf : d'.stat = pstat_Falsified) :
    ∃ (k : Nat) (r0 : SimpUnroller × Solver) (σ : TipCirc × SimpUnroller × Solver)
      (r : SimpUnroller × (Solver × GMap Sig)) (t : Nat) (m : Nat → Bool) (plit : Sig)
      (td : TraceData),
      begin_cycle ≤ k ∧ k < stop_cycle ∧
      SimpUnroller.initialize tip Solver.new = some r0 ∧
      simpStateAt solve choose begin_cycle k 0 (tip, r0.1, r0.2) = some σ ∧
      σ.1.safe_props[j]? = some d ∧
      SimpUnroller.step σ.1 σ.2.1 σ.2.2 = some r ∧
      lookup r.2.2 d.sig = some plit ∧
      solve (r.2.1.eliminate choose) [plit.neg] = some m ∧
      d'.cex = some t ∧ res.traces[t]? = some td ∧
      r0.1.unroll_inps.length = 1 ∧
      (∃ rest, r.1.unroll_inps = r0.1.unroll_inps ++ rest ∧ rest.length = k + 1) ∧
      td.frames.length = k + 2 ∧
      ∀ (f : Nat) (fr : LIFrame), r.1.unroll_inps[f]? = some fr →
        ∃ row, td.frames[f]? = some row ∧ row.length = fr.length ∧
          ∀ l : Nat,
            (∀ v, fr[l]? = some (some v) →
              row[l]? = some ((r.2.1.eliminate choose).modelValue m ⟨v, false⟩)) ∧
            (fr[l]? = some none → row[l]? = some l_Undef) := by
  obtain ⟨k, r0, σ, r, t, m, plit, a1, a2, a3, a4, a5, a6, a7, a8, a9, a10, ⟨rest, b1, b2⟩,
    a12⟩ := simpBmc_trace hres hj h2 hu hf
  obtain ⟨m1, m2⟩ := modelFrames_entries (r.2.1.eliminate choose) m r.1.unroll_inps
  refine ⟨k, r0, σ, r, t, m, plit, _, a1, a2, a3, a4, a5, a6, a7, a8, by rw [a9], a10, a12,
    ⟨rest, b1, b2⟩, ?_, m2⟩
  rw [m1, b1, List.length_append, a12, b2]
  omega

set_option maxRecDepth 100000 in
theorem simpBmc_stores_model_frames_witness :
    simpBmc bruteSolve (fun _ => []) xorTipAdapted 0 2 =
      some (simpBmcU bruteSolve (fun _ => []) xorTipAdapted 0 2) ∧
    (simpBmcU bruteSolve (fun _ => []) xorTipAdapted 0 2).safe_props[0]? =
      some ⟨⟨2, true⟩, pstat_Falsified, some 0⟩ ∧
    (∃ (k : Nat) (r0 : SimpUnroller × Solver) (σ : TipCirc × SimpUnroller × Solver)
      (r : SimpUnroller × (Solver × GMap Sig)) (t : Nat) (m : Nat → Bool) (plit : Sig),
      0 ≤ k ∧ k < 2 ∧
      SimpUnroller.initialize xorTipAdapted Solver.new = some r0 ∧
      simpStateAt bruteSolve (fun _ => []) 0 k 0 (xorTipAdapted, r0.1, r0.2) = some σ ∧
      σ.1.safe_props[0]? = some ⟨⟨2, true⟩, pstat_Unknown, none⟩ ∧
      SimpUnroller.step σ.1 σ.2.1 σ.2.2 = some r ∧
      lookup r.2.2 (⟨⟨2, true⟩, pstat_Unknown, none⟩ : PropData).sig = some plit ∧
      bruteSolve (r.2.1.eliminate (fun _ => [])) [plit.neg] = some m ∧
      (⟨⟨2, true⟩, pstat_Falsified, some 0⟩ : PropData).cex = some t ∧
      (simpBmcU bruteSolve (fun _ => []) xorTipAdapted 0 2).traces[t]? =
        some ⟨modelFrames (r.2.1.eliminate (fun _ => [])) m r.1.unroll_inps, loop_none⟩) ∧
    (simpBmcU bruteSolve (fun _ => []) xorTipAdapted 0 2).tradaptor = xorTipAdapted.tradaptor ∧
    ∀ A : List (List FlopInit),
      simpBmc bruteSolve (fun _ => []) { xorTipAdapted with tradaptor := A } 0 2 =
        some { simpBmcU bruteSolve (fun _ => []) xorTipAdapted 0 2 with tradaptor := A } :=
  ⟨(simpBmc_eq bruteSolve (fun _ => []) (fun s v hv => by simp at hv) xorTipAdapted 0 2).trans
      (if_pos (by decide)),
    by decide,
    simpBmc_stores_model_frames bruteSolve (fun _ => []) xorTipAdapted 0 2 0
      (simpBmcU bruteSolve (fun _ => []) xorTipAdapted 0 2)
      ⟨⟨2, true⟩, pstat_Unknown, none⟩ ⟨⟨2, true⟩, pstat_Falsified, some 0⟩
      ((simpBmc_eq bruteSolve (fun _ => []) (fun s v hv => by simp at hv) xorTipAdapted 0
        2).trans (if_pos (by decide)))
      (by decide) (by decide) rfl rfl⟩

set_option maxRecDepth 100000 in
/-- Claim C22, counterexample: on `xorTipAdapted`, whose adaptor chain is the AIGER-init
adaptor of a flop initialised to 0, `simpBmc` marks the property Falsified and stores the
trace with the frames `[], [1], [0]`. The chain maps these frames to `[0], [1], [0]`, and no
list of frames is mapped to the stored one, so the stored trace is not a result of `adapt`.
`basicBmc` marks the property Falsified too and stores no trace at all. -/
theorem simpBmc_adapt_counterexample :
    (simpBmc bruteSolve (fun _ => []) xorTipAdapted 0 2).map (fun r => r.safe_props) =
      some [⟨⟨2, true⟩, pstat_Falsified, some 0⟩] ∧
    (simpBmc bruteSolve (fun _ => []) xorTipAdapted 0 2).map (fun r => r.traces) =
      some [⟨[[], [l_True], [l_False]], loop_none⟩] ∧
    TraceAdaptor.adapt AigerInitTraceAdaptor.patch xorTipAdapted.tradaptor
      [[], [l_True], [l_False]] = some [[l_False], [l_True], [l_False]] ∧
    (∀ frames, TraceAdaptor.adapt AigerInitTraceAdaptor.patch xorTipAdapted.tradaptor frames ≠
      some [[], [l_True], [l_False]]) ∧
    (basicBmc bruteSolve xorTipAdapted 0 2).safe_props =
      [⟨⟨2, true⟩, pstat_Falsified, none⟩] ∧
    (basicBmc bruteSolve xorTipAdapted 0 2).traces = [] := by
  refine ⟨by decide, by decide, by decide, fun frames => ?_, by decide, by decide⟩
  cases frames with
  | nil => simp [TraceAdaptor.adapt, AigerInitTraceAdaptor.patch, xorTipAdapted]
  | cons f0 rest =>
    simp [TraceAdaptor.adapt, AigerInitTraceAdaptor.patch, xorTipAdapted, newZero, patchEntry]

set_option maxRecDepth 100000 in
theorem simpBmc_trace_frames_witness :
    simpBmc bruteSolve (fun _ => []) xorTip 0 2 =
      some (simpBmcU bruteSolve (fun _ => []) xorTip 0 2) ∧
    (simpBmcU bruteSolve (fun _ => []) xorTip 0 2).safe_props[0]? =
      some ⟨⟨2, true⟩, pstat_Falsified, some 0⟩ ∧
    ∃ (k : Nat) (r0 : SimpUnroller × Solver) (σ : TipCirc × SimpUnroller × Solver)
      (r : SimpUnroller × (Solver × GMap Sig)) (t : Nat) (m : Nat → Bool) (plit : Sig)
      (td : TraceData),
      0 ≤ k ∧ k < 2 ∧
      SimpUnroller.initialize xorTip Solver.new = some r0 ∧
      simpStateAt bruteSolve (fun _ => []) 0 k 0 (xorTip, r0.1, r0.2) = some σ ∧
      σ.1.safe_props[0]? = some ⟨⟨2, true⟩, pstat_Unknown, none⟩ ∧
      SimpUnroller.step σ.1 σ.2.1 σ.2.2 = some r ∧
      lookup r.2.2 (⟨⟨2, true⟩, pstat_Unknown, none⟩ : PropData).sig = some plit ∧
      bruteSolve (r.2.1.eliminate (fun _ => [])) [plit.neg] = some m ∧
      (⟨⟨2, true⟩, pstat_Falsified, some 0⟩ : PropData).cex = some t ∧
      (simpBmcU bruteSolve (fun _ => []) xorTip 0 2).traces[t]? = some td ∧
      r0.1.unroll_inps.length = 1 ∧
      (∃ rest, r.1.unroll_inps = r0.1.unroll_inps ++ rest ∧ rest.length = k + 1) ∧
      td.frames.length = k + 2 ∧
      ∀ (f : Nat) (fr : LIFrame), r.1.unroll_inps[f]? = some fr →
        ∃ row, td.frames[f]? = some row ∧ row.length = fr.length ∧
          ∀ l : Nat,
            (∀ v, fr[l]? = some (some v) →
              row[l]? = some ((r.2.1.eliminate (fun _ => [])).modelValue m ⟨v, false⟩)) ∧
            (fr[l]? = some none → row[l]? = some l_Undef) :=
  ⟨(simpBmc_eq bruteSolve (fun _ => []) (fun s v hv => by simp at hv) xorTip 0 2).trans
      (if_pos (by decide)),
    by decide,
    simpBmc_trace_frames bruteSolve (fun _ => []) xorTip 0 2 0
      (simpBmcU bruteSolve (fun _ => []) xorTip 0 2)
      ⟨⟨2, true⟩, pstat_Unknown, none⟩ ⟨⟨2, true⟩, pstat_Falsified, some 0⟩
      ((simpBmc_eq bruteSolve (fun _ => []) (fun s v hv => by simp at hv) xorTip 0 2).trans
        (if_pos (by decide)))
      (by decide) (by decide) rfl rfl⟩

set_option maxRecDepth 100000 in
/-- Claim C23, counterexample: on the circuit of the first scenario `simpBmc` with
`stop_cycle = 2` finds the property SAT at cycle 1 (it is still Unknown with
`stop_cycle = 1`), and the trace it creates has three frames (the empty frame of the inputs
of `init`, then the frames of the cycles 0 and 1), not the two frames `0..1`. -/
theorem simpBmc_frames_counterexample :
    (simpBmc bruteSolve (fun _ => []) xorTip 0 1).map (fun r => r.safe_props) =
      some [⟨⟨2, true⟩, pstat_Unknown, none⟩] ∧
    (simpBmc bruteSolve (fun _ => []) xorTip 0 2).map (fun r => r.safe_props) =
      some [⟨⟨2, true⟩, pstat_Falsified, some 0⟩] ∧
    (simpBmc bruteSolve (fun _ => []) xorTip 0 2).map (fun r => r.traces) =
      some [⟨[[], [l_True], [l_False]], loop_none⟩] ∧
    (simpBmc bruteSolve (fun _ => []) xorTip 0 2).map
      (fun r => r.traces.map (fun t => t.frames.length)) = some [1 + 2] := by
  decide

/-! ## The candidates of the base refinement have literals -/

end Tip
